import Mathlib

/-!
# bbdsq: a shallow embedding of the engine core

The C++ sources (`bitboard`, `piece`, `zobrist`, `movegen`, `evaluation`, `ttable`, `ai`) are
translated function by function.  Conventions of the embedding:

* `U64` values are natural numbers; operations that can leave the 64-bit range in C++
  (left shift, bitwise complement) are truncated explicitly with `% 2 ^ 64`.
* C++ `int` squares are `Int` (the null move uses `-1`); `int` scores are `Int`, with the
  arithmetic of the evaluator wrapped to 32 bits by `wrap_int`.
* Global tables that the program fills once at start-up (`init_masks`,
  `Zobrist::initialize_keys`, the piece-square tables of `pst.cpp`) are either computed by the
  embedded initialiser (`init_masks`) or passed explicitly (`ZobristKeys`, `PST`).
* The global transposition table is threaded through the search as a `TTState` value.
* Search depths are natural numbers: `alpha_beta_search` is defined for `depth ≥ 0` and
  `find_best_ai_move` for `search_depth ≥ 1`, the calls for which the recursion of the C++
  code is bounded by the depth.
* Loops over the set bits of a word (`while (bb > 0) { sq = pop_lsb(bb); ... }`) run with fuel
  64, the number of bits of the word.
-/

namespace BBDSQ

/-! ## bitboard.h / bitboard.cpp -/

abbrev U64 := Nat

def BOARD_WIDTH : Int := 7
def BOARD_HEIGHT : Int := 9
def NUM_SQUARES : Int := BOARD_WIDTH * BOARD_HEIGHT

/-- Bitwise complement of a 64-bit word (`~x`). -/
def not64 (x : U64) : U64 := (2 ^ 64 - 1) ^^^ (x % 2 ^ 64)

/-- Left shift of a 64-bit word (`x << n`), bits shifted out are lost. -/
def shl64 (x : U64) (n : Nat) : U64 := (x <<< n) % 2 ^ 64

def get_square_index (col row : Int) : Int := row * BOARD_WIDTH + col

/-- The pair (column, row) of a square.  Every caller has checked `sq_idx ≥ 0` before, where
the C++ operators `%` and `/` agree with the ones used here. -/
def get_col_row (sq_idx : Int) : Int × Int := (sq_idx % BOARD_WIDTH, sq_idx / BOARD_WIDTH)

def set_bit (bb : U64) (sq : Int) : U64 :=
  if sq ≥ 0 ∧ sq < NUM_SQUARES then bb ||| shl64 1 sq.toNat else bb

def clear_bit (bb : U64) (sq : Int) : U64 :=
  if sq ≥ 0 ∧ sq < NUM_SQUARES then bb &&& not64 (shl64 1 sq.toNat) else bb

def get_bit (bb : U64) (sq : Int) : U64 :=
  if sq ≥ 0 ∧ sq < NUM_SQUARES then bb &&& shl64 1 sq.toNat else 0

/-- Number of set bits among the 64 bits of the word (`__builtin_popcountll`). -/
def pop_count (bb : U64) : Int :=
  (((List.range 64).filter (fun i => bb.testBit i)).length : Int)

/-- Index of the lowest set bit among the 64 bits of a non-zero word (`__builtin_ctzll`). -/
def ctzll (bb : U64) : Nat :=
  ((List.range 64).find? (fun i => bb.testBit i)).getD 64

def lsb_index (bb : U64) : Int :=
  if bb = 0 then -1 else (ctzll bb : Int)

/-- The function `pop_lsb(U64&)`: the returned index and the new value of the argument. -/
def pop_lsb (bb : U64) : Int × U64 :=
  if bb = 0 then (-1, bb)
  else
    let lsb_idx := lsb_index bb
    if lsb_idx ≠ -1 then (lsb_idx, bb &&& (bb - 1)) else (lsb_idx, bb)

/-- The loop `while (temp_bb > 0) { int sq = pop_lsb(temp_bb); if (sq == -1) break; ... }`:
the squares visited by the body, in order.  A 64-bit word is exhausted after at most 64 rounds,
which is the fuel `scan_squares` starts the loop with. -/
def scan_loop : Nat → U64 → List Int
  | 0, _ => []
  | fuel + 1, temp_bb =>
    if temp_bb > 0 then
      let r := pop_lsb temp_bb
      if r.1 = -1 then [] else r.1 :: scan_loop fuel r.2
    else []

def scan_squares (bb : U64) : List Int := scan_loop 64 bb

structure Masks where
  FILE_A_MASK : U64
  FILE_H_MASK : U64
  RANK_1_MASK : U64
  RANK_9_MASK : U64
  LAKE_SQUARES_MASK : U64
  P1_DEN_SQUARE_MASK : U64
  P2_DEN_SQUARE_MASK : U64
  TRAPS_NEAR_P1_DEN_MASK : U64
  TRAPS_NEAR_P2_DEN_MASK : U64
  LAND_SQUARES_MASK : U64

/-- The masks as `init_masks()` leaves them. -/
def init_masks : Masks :=
  let rows : List Int := (List.range 9).map Int.ofNat
  let cols : List Int := (List.range 7).map Int.ofNat
  let file_a := rows.foldl (fun m r => set_bit m (get_square_index 0 r)) 0
  let file_h := rows.foldl (fun m r => set_bit m (get_square_index (BOARD_WIDTH - 1) r)) 0
  let rank_1 := cols.foldl (fun m c => set_bit m (get_square_index c 0)) 0
  let rank_9 := cols.foldl (fun m c => set_bit m (get_square_index c (BOARD_HEIGHT - 1))) 0
  let lake_rows : List Int := [3, 4, 5]
  let lake_cols : List Int := [1, 2, 4, 5]
  let lake := lake_rows.foldl
    (fun m r_idx => lake_cols.foldl (fun m2 c_idx => set_bit m2 (get_square_index c_idx r_idx)) m) 0
  let p1_den := set_bit 0 (get_square_index 3 8)
  let p2_den := set_bit 0 (get_square_index 3 0)
  let traps_p1 :=
    set_bit (set_bit (set_bit 0 (get_square_index 2 8)) (get_square_index 4 8)) (get_square_index 3 7)
  let traps_p2 :=
    set_bit (set_bit (set_bit 0 (get_square_index 2 0)) (get_square_index 4 0)) (get_square_index 3 1)
  let all_board_squares_temp :=
    ((List.range 63).map Int.ofNat).foldl (fun m i => set_bit m i) 0
  { FILE_A_MASK := file_a
    FILE_H_MASK := file_h
    RANK_1_MASK := rank_1
    RANK_9_MASK := rank_9
    LAKE_SQUARES_MASK := lake
    P1_DEN_SQUARE_MASK := p1_den
    P2_DEN_SQUARE_MASK := p2_den
    TRAPS_NEAR_P1_DEN_MASK := traps_p1
    TRAPS_NEAR_P2_DEN_MASK := traps_p2
    LAND_SQUARES_MASK := all_board_squares_temp &&& not64 lake }

def FILE_A_MASK : U64 := init_masks.FILE_A_MASK
def FILE_H_MASK : U64 := init_masks.FILE_H_MASK
def RANK_1_MASK : U64 := init_masks.RANK_1_MASK
def RANK_9_MASK : U64 := init_masks.RANK_9_MASK
def LAKE_SQUARES_MASK : U64 := init_masks.LAKE_SQUARES_MASK
def P1_DEN_SQUARE_MASK : U64 := init_masks.P1_DEN_SQUARE_MASK
def P2_DEN_SQUARE_MASK : U64 := init_masks.P2_DEN_SQUARE_MASK
def TRAPS_NEAR_P1_DEN_MASK : U64 := init_masks.TRAPS_NEAR_P1_DEN_MASK
def TRAPS_NEAR_P2_DEN_MASK : U64 := init_masks.TRAPS_NEAR_P2_DEN_MASK
def LAND_SQUARES_MASK : U64 := init_masks.LAND_SQUARES_MASK

/-! ## piece.h / movegen.h: the data model -/

inductive Player where
  | NO_PLAYER
  | PLAYER_1
  | PLAYER_2
  deriving DecidableEq, Repr

inductive PieceType where
  | NO_PIECE_TYPE
  | RAT
  | CAT
  | DOG
  | WOLF
  | PANTHER
  | TIGER
  | LION
  | ELEPHANT
  deriving DecidableEq, Repr

open Player PieceType

def PIECE_RANKS : PieceType → Int
  | NO_PIECE_TYPE => 0
  | RAT => 1
  | CAT => 2
  | DOG => 3
  | WOLF => 4
  | PANTHER => 5
  | TIGER => 6
  | LION => 7
  | ELEPHANT => 8

def PIECE_VALUES : PieceType → Int
  | NO_PIECE_TYPE => 0
  | RAT => 6500
  | CAT => 2000
  | DOG => 3000
  | WOLF => 4000
  | PANTHER => 5000
  | TIGER => 7500
  | LION => 8500
  | ELEPHANT => 9000

/-- The range of the loops `for (pt = RAT; pt < NUM_PIECE_TYPES; ++pt)`. -/
def PIECE_TYPE_LOOP : List PieceType := [RAT, CAT, DOG, WOLF, PANTHER, TIGER, LION, ELEPHANT]

/-- The range of the loops `for (p = PLAYER_1; p <= PLAYER_2; ++p)`. -/
def PLAYER_LOOP : List Player := [PLAYER_1, PLAYER_2]

structure Piece where
  type : PieceType
  player : Player
  deriving DecidableEq, Repr

structure Move where
  from_sq : Int
  to_sq : Int
  piece_moved : PieceType
  piece_captured : PieceType
  deriving DecidableEq, Repr

/-- The default-constructed `Move()`. -/
def Move.null : Move := ⟨-1, -1, NO_PIECE_TYPE, NO_PIECE_TYPE⟩

structure BoardState where
  piece_bbs : PieceType → Player → U64
  occupancy_bbs : Player → U64
  side_to_move : Player
  zobrist_hash : U64

/-- Assignment to one cell `piece_bbs[pt][p]`. -/
def set_piece_bb (bbs : PieceType → Player → U64) (pt : PieceType) (p : Player) (v : U64) :
    PieceType → Player → U64 :=
  fun pt2 p2 => if pt2 = pt ∧ p2 = p then v else bbs pt2 p2

/-! ## zobrist.h / zobrist.cpp -/

/-- The two key tables of namespace `Zobrist`, as filled by `initialize_keys()`. -/
structure ZobristKeys where
  piece_keys : PieceType → Player → Nat → U64
  side_to_move_key : Player → U64

namespace Zobrist

def xor_piece_at_sq (keys : ZobristKeys) (current_hash : U64) (pt : PieceType) (p : Player)
    (sq : Int) : U64 :=
  if pt ≠ NO_PIECE_TYPE ∧ p ≠ NO_PLAYER ∧ sq ≥ 0 ∧ sq < NUM_SQUARES then
    current_hash ^^^ keys.piece_keys pt p sq.toNat
  else current_hash

def xor_side_to_move (keys : ZobristKeys) (current_hash : U64) (side : Player) : U64 :=
  if side ≠ NO_PLAYER then current_hash ^^^ keys.side_to_move_key side else current_hash

/-- A loop `x = 0; while (reject(x)) x = distrib(rng);` of `initialize_keys`, entered when
`pos` values have been drawn: the first value from position `pos` on that is not rejected and
the number of values drawn after it, or nothing when the `fuel` draws allowed are all
rejected.  `rng i` is the value of the `i`-th call `distrib(rng)` after the generator
`std::mt19937_64` was seeded with the fixed seed. -/
def draw_until (rng : Nat → U64) (reject : U64 → Bool) : Nat → Nat → Option (U64 × Nat)
  | 0, _ => none
  | fuel + 1, pos =>
    if reject (rng pos) then draw_until rng reject fuel (pos + 1) else some (rng pos, pos + 1)

/-- Assignment to one cell `piece_keys[pt][p][sq]`. -/
def set_piece_key (piece_keys : PieceType → Player → Nat → U64) (pt : PieceType) (p : Player)
    (sq : Nat) (v : U64) : PieceType → Player → Nat → U64 :=
  fun pt2 p2 sq2 => if pt2 = pt ∧ p2 = p ∧ sq2 = sq then v else piece_keys pt2 p2 sq2

/-- The cells `(pt_val, p_val, sq)` in the order the three nested loops of `initialize_keys`
visit them. -/
def KEY_CELLS : List (PieceType × Player × Nat) :=
  [NO_PIECE_TYPE, RAT, CAT, DOG, WOLF, PANTHER, TIGER, LION, ELEPHANT].flatMap fun pt =>
    [NO_PLAYER, PLAYER_1, PLAYER_2].flatMap fun p =>
      (List.range 63).map fun sq => (pt, p, sq)

/-- The body of the innermost loop of `initialize_keys` for one cell: the table and the number
of values drawn so far, before and after. -/
def fill_cell (rng : Nat → U64) (fuel : Nat) (st : (PieceType → Player → Nat → U64) × Nat)
    (cell : PieceType × Player × Nat) : Option ((PieceType → Player → Nat → U64) × Nat) :=
  if cell.1 = NO_PIECE_TYPE ∨ cell.2.1 = NO_PLAYER then
    some (set_piece_key st.1 cell.1 cell.2.1 cell.2.2 0, st.2)
  else
    match draw_until rng (fun random_val => random_val = 0) fuel st.2 with
    | some (random_val, pos) =>
      some (set_piece_key st.1 cell.1 cell.2.1 cell.2.2 random_val, pos)
    | none => none

/-- The function `initialize_keys()`: the two tables it leaves, or nothing when one of its
`while` loops does not end within `fuel` draws.  The arrays are zero before the call (static
storage). -/
def initialize_keys (rng : Nat → U64) (fuel : Nat) : Option ZobristKeys :=
  let filled : Option ((PieceType → Player → Nat → U64) × Nat) :=
    KEY_CELLS.foldlM (fill_cell rng fuel) (fun _ _ _ => 0, 0)
  match filled with
  | none => none
  | some (piece_keys, pos) =>
    match draw_until rng (fun p1_key => p1_key = 0) fuel pos with
    | none => none
    | some (p1_key, pos) =>
      match draw_until rng (fun p2_key => p2_key = 0 ∨ p2_key = p1_key) fuel pos with
      | none => none
      | some (p2_key, _) =>
        some
          { piece_keys := piece_keys
            side_to_move_key := fun p =>
              match p with
              | NO_PLAYER => 0
              | PLAYER_1 => p1_key
              | PLAYER_2 => p2_key }

def calculate_initial_hash (keys : ZobristKeys) (board_state : BoardState) : U64 :=
  let pieces_hash :=
    PIECE_TYPE_LOOP.foldl (fun h pt =>
      PLAYER_LOOP.foldl (fun h2 player =>
        (scan_squares (board_state.piece_bbs pt player)).foldl
          (fun h3 sq => if sq ≠ -1 then h3 ^^^ keys.piece_keys pt player sq.toNat else h3) h2) h) 0
  if board_state.side_to_move ≠ NO_PLAYER then
    pieces_hash ^^^ keys.side_to_move_key board_state.side_to_move
  else pieces_hash

end Zobrist

/-! ## piece.cpp -/

namespace BoardState

/-- The constructor `BoardState::BoardState()`. -/
def ctor : BBDSQ.BoardState :=
  { piece_bbs := fun _ _ => 0
    occupancy_bbs := fun _ => 0
    side_to_move := PLAYER_1
    zobrist_hash := 0 }

def force_recalculate_hash (keys : ZobristKeys) (b : BBDSQ.BoardState) : BBDSQ.BoardState :=
  { b with zobrist_hash := Zobrist.calculate_initial_hash keys b }

def add_piece (keys : ZobristKeys) (b : BBDSQ.BoardState) (sq : Int) (pt : PieceType)
    (p : Player) : BBDSQ.BoardState :=
  if pt = NO_PIECE_TYPE ∨ p = NO_PLAYER ∨ sq < 0 ∨ sq ≥ NUM_SQUARES then b
  else if get_bit (b.piece_bbs pt p) sq = 0 then
    { b with
      piece_bbs := set_piece_bb b.piece_bbs pt p (set_bit (b.piece_bbs pt p) sq)
      zobrist_hash := Zobrist.xor_piece_at_sq keys b.zobrist_hash pt p sq }
  else b

def remove_piece (keys : ZobristKeys) (b : BBDSQ.BoardState) (sq : Int) (pt : PieceType)
    (p : Player) : BBDSQ.BoardState :=
  if pt = NO_PIECE_TYPE ∨ p = NO_PLAYER ∨ sq < 0 ∨ sq ≥ NUM_SQUARES then b
  else if get_bit (b.piece_bbs pt p) sq ≠ 0 then
    { b with
      piece_bbs := set_piece_bb b.piece_bbs pt p (clear_bit (b.piece_bbs pt p) sq)
      zobrist_hash := Zobrist.xor_piece_at_sq keys b.zobrist_hash pt p sq }
  else b

def update_occupancy_boards (b : BBDSQ.BoardState) : BBDSQ.BoardState :=
  let occ := PIECE_TYPE_LOOP.foldl
    (fun (o : U64 × U64) pt => (o.1 ||| b.piece_bbs pt PLAYER_1, o.2 ||| b.piece_bbs pt PLAYER_2))
    (0, 0)
  { b with
    occupancy_bbs := fun p =>
      match p with
      | PLAYER_1 => occ.1
      | PLAYER_2 => occ.2
      | NO_PLAYER => occ.1 ||| occ.2 }

def apply_move (keys : ZobristKeys) (b : BBDSQ.BoardState) (move : Move) : BBDSQ.BoardState :=
  if move.from_sq = -1 ∨ move.to_sq = -1 ∨ move.piece_moved = NO_PIECE_TYPE then b
  else
    let player_making_move := b.side_to_move
    if get_bit (b.piece_bbs move.piece_moved player_making_move) move.from_sq = 0 then
      force_recalculate_hash keys b
    else
      -- 1. the moving piece leaves its origin
      let hash1 :=
        Zobrist.xor_piece_at_sq keys b.zobrist_hash move.piece_moved player_making_move move.from_sq
      let bbs1 := set_piece_bb b.piece_bbs move.piece_moved player_making_move
        (clear_bit (b.piece_bbs move.piece_moved player_making_move) move.from_sq)
      -- 2. the captured piece, if any, leaves the target
      let opponent := if player_making_move = PLAYER_1 then PLAYER_2 else PLAYER_1
      let captured_found :=
        move.piece_captured ≠ NO_PIECE_TYPE ∧ get_bit (bbs1 move.piece_captured opponent) move.to_sq ≠ 0
      let hash2 :=
        if captured_found then
          Zobrist.xor_piece_at_sq keys hash1 move.piece_captured opponent move.to_sq
        else hash1
      let bbs2 :=
        if captured_found then
          set_piece_bb bbs1 move.piece_captured opponent
            (clear_bit (bbs1 move.piece_captured opponent) move.to_sq)
        else bbs1
      -- 3. the moving piece arrives
      let hash3 :=
        Zobrist.xor_piece_at_sq keys hash2 move.piece_moved player_making_move move.to_sq
      let bbs3 := set_piece_bb bbs2 move.piece_moved player_making_move
        (set_bit (bbs2 move.piece_moved player_making_move) move.to_sq)
      -- 4. the side to move changes
      let hash4 :=
        if b.side_to_move ≠ NO_PLAYER then Zobrist.xor_side_to_move keys hash3 b.side_to_move
        else hash3
      let new_side := if player_making_move = PLAYER_1 then PLAYER_2 else PLAYER_1
      let hash5 :=
        if new_side ≠ NO_PLAYER then Zobrist.xor_side_to_move keys hash4 new_side else hash4
      update_occupancy_boards
        { piece_bbs := bbs3
          occupancy_bbs := b.occupancy_bbs
          side_to_move := new_side
          zobrist_hash := hash5 }

def get_piece_at (b : BBDSQ.BoardState) (sq : Int) : Piece :=
  if sq < 0 ∨ sq ≥ NUM_SQUARES then ⟨NO_PIECE_TYPE, NO_PLAYER⟩
  else
    let candidates : List Piece :=
      PLAYER_LOOP.flatMap (fun player => PIECE_TYPE_LOOP.map (fun pt => (⟨pt, player⟩ : Piece)))
    match candidates.find? (fun c => get_bit (b.piece_bbs c.type c.player) sq ≠ 0) with
    | some c => c
    | none => ⟨NO_PIECE_TYPE, NO_PLAYER⟩

def setup_initial_board (keys : ZobristKeys) : BBDSQ.BoardState :=
  let b0 : BBDSQ.BoardState :=
    { ctor with piece_bbs := fun _ _ => 0, zobrist_hash := 0 }
  let placements : List (Int × PieceType × Player) :=
    [ (get_square_index 0 8, LION, PLAYER_1),
      (get_square_index 6 8, TIGER, PLAYER_1),
      (get_square_index 1 7, DOG, PLAYER_1),
      (get_square_index 5 7, CAT, PLAYER_1),
      (get_square_index 4 6, WOLF, PLAYER_1),
      (get_square_index 2 6, PANTHER, PLAYER_1),
      (get_square_index 0 6, RAT, PLAYER_1),
      (get_square_index 6 6, ELEPHANT, PLAYER_1),
      (get_square_index 6 0, LION, PLAYER_2),
      (get_square_index 0 0, TIGER, PLAYER_2),
      (get_square_index 5 1, DOG, PLAYER_2),
      (get_square_index 1 1, CAT, PLAYER_2),
      (get_square_index 2 2, WOLF, PLAYER_2),
      (get_square_index 4 2, PANTHER, PLAYER_2),
      (get_square_index 6 2, RAT, PLAYER_2),
      (get_square_index 0 2, ELEPHANT, PLAYER_2) ]
  let b1 := placements.foldl (fun b x => add_piece keys b x.1 x.2.1 x.2.2) b0
  let b2 : BBDSQ.BoardState := { b1 with side_to_move := PLAYER_1 }
  let b3 : BBDSQ.BoardState :=
    if b2.side_to_move ≠ NO_PLAYER then
      { b2 with zobrist_hash := b2.zobrist_hash ^^^ keys.side_to_move_key b2.side_to_move }
    else b2
  update_occupancy_boards b3

end BoardState

/-! ## movegen.cpp -/

def generate_orthogonal_step_moves (piece_square_idx : Int)
    (friendly_occupancy land_squares_mask own_den_mask : U64) : U64 :=
  if piece_square_idx < 0 ∨ piece_square_idx ≥ NUM_SQUARES then 0
  else
    let piece_bb := shl64 1 piece_square_idx.toNat
    let north_target_sq_bb := if piece_bb &&& RANK_9_MASK = 0 then shl64 piece_bb 7 else 0
    let south_target_sq_bb := if piece_bb &&& RANK_1_MASK = 0 then piece_bb >>> 7 else 0
    let east_target_sq_bb := if piece_bb &&& FILE_H_MASK = 0 then shl64 piece_bb 1 else 0
    let west_target_sq_bb := if piece_bb &&& FILE_A_MASK = 0 then piece_bb >>> 1 else 0
    let potential_moves :=
      north_target_sq_bb ||| south_target_sq_bb ||| east_target_sq_bb ||| west_target_sq_bb
    potential_moves &&& land_squares_mask &&& not64 friendly_occupancy &&& not64 own_den_mask

def generate_rat_moves (piece_square_idx : Int)
    (friendly_occupancy own_den_mask _lake_squares_mask : U64) : U64 :=
  if piece_square_idx < 0 ∨ piece_square_idx ≥ NUM_SQUARES then 0
  else
    let piece_bb := shl64 1 piece_square_idx.toNat
    let north_target_sq_bb := if piece_bb &&& RANK_9_MASK = 0 then shl64 piece_bb 7 else 0
    let south_target_sq_bb := if piece_bb &&& RANK_1_MASK = 0 then piece_bb >>> 7 else 0
    let east_target_sq_bb := if piece_bb &&& FILE_H_MASK = 0 then shl64 piece_bb 1 else 0
    let west_target_sq_bb := if piece_bb &&& FILE_A_MASK = 0 then piece_bb >>> 1 else 0
    let potential_moves :=
      north_target_sq_bb ||| south_target_sq_bb ||| east_target_sq_bb ||| west_target_sq_bb
    potential_moves &&& not64 friendly_occupancy &&& not64 own_den_mask

/-- The block repeated for each jump direction in `generate_lion_tiger_jump_moves`: the path
must be all lake and free of rats, the target a land square that is neither friendly nor the
own den. -/
def jump_block (jump_moves_bb path_mask : U64) (target_sq : Int)
    (friendly_occupancy all_rat_occupancy own_den_mask lake_squares_mask : U64) : U64 :=
  if path_mask &&& lake_squares_mask = path_mask ∧ path_mask &&& all_rat_occupancy = 0 then
    let target_bb := shl64 1 target_sq.toNat
    if get_bit LAND_SQUARES_MASK target_sq ≠ 0 ∧ target_bb &&& friendly_occupancy = 0 ∧
        target_bb &&& own_den_mask = 0 then
      set_bit jump_moves_bb target_sq
    else jump_moves_bb
  else jump_moves_bb

def generate_lion_tiger_jump_moves (piece_square_idx : Int) (_moving_player : Player)
    (friendly_occupancy all_rat_occupancy own_den_mask lake_squares_mask : U64) : U64 :=
  if piece_square_idx < 0 ∨ piece_square_idx ≥ NUM_SQUARES then 0
  else
    let cr := get_col_row piece_square_idx
    let col := cr.1
    let row := cr.2
    if get_bit lake_squares_mask piece_square_idx ≠ 0 then 0
    else
      let path3 (a b c : Int) : U64 :=
        set_bit (set_bit (set_bit 0 (get_square_index col a)) (get_square_index col b))
          (get_square_index col c)
      let path2 (a b : Int) : U64 :=
        set_bit (set_bit 0 (get_square_index a row)) (get_square_index b row)
      let blk (acc path_mask : U64) (target_sq : Int) : U64 :=
        jump_block acc path_mask target_sq friendly_occupancy all_rat_occupancy own_den_mask
          lake_squares_mask
      -- vertical jumps
      let v : U64 :=
        if row = 2 then
          if col = 1 ∨ col = 2 ∨ col = 4 ∨ col = 5 then
            blk 0 (path3 3 4 5) (get_square_index col 6)
          else 0
        else if row = 6 then
          if col = 1 ∨ col = 2 ∨ col = 4 ∨ col = 5 then
            blk 0 (path3 5 4 3) (get_square_index col 2)
          else 0
        else 0
      -- horizontal jumps
      if col = 0 then
        if row = 3 ∨ row = 4 ∨ row = 5 then blk v (path2 1 2) (get_square_index 3 row) else v
      else if col = 6 then
        if row = 3 ∨ row = 4 ∨ row = 5 then blk v (path2 5 4) (get_square_index 3 row) else v
      else if col = 3 then
        if row = 3 ∨ row = 4 ∨ row = 5 then
          let w := blk v (path2 2 1) (get_square_index 0 row)
          blk w (path2 4 5) (get_square_index 6 row)
        else v
      else v

/-- The value of `possible_landing_squares_bb` for one piece in `generate_all_legal_moves`. -/
def possible_landing_squares (board_state : BoardState) (player_to_move : Player)
    (piece_type_moving : PieceType) (from_sq : Int) : U64 :=
  let friendly_occupancy := board_state.occupancy_bbs player_to_move
  let own_den_mask := if player_to_move = PLAYER_1 then P1_DEN_SQUARE_MASK else P2_DEN_SQUARE_MASK
  if piece_type_moving = CAT ∨ piece_type_moving = DOG ∨ piece_type_moving = WOLF ∨
      piece_type_moving = PANTHER ∨ piece_type_moving = ELEPHANT then
    generate_orthogonal_step_moves from_sq friendly_occupancy LAND_SQUARES_MASK own_den_mask
  else if piece_type_moving = RAT then
    generate_rat_moves from_sq friendly_occupancy own_den_mask LAKE_SQUARES_MASK
  else if piece_type_moving = LION ∨ piece_type_moving = TIGER then
    let steps :=
      generate_orthogonal_step_moves from_sq friendly_occupancy LAND_SQUARES_MASK own_den_mask
    let all_rats_bb := board_state.piece_bbs RAT PLAYER_1 ||| board_state.piece_bbs RAT PLAYER_2
    steps ||| generate_lion_tiger_jump_moves from_sq player_to_move friendly_occupancy all_rats_bb
      own_den_mask LAKE_SQUARES_MASK
  else 0

/-- The value of `can_capture_this_enemy` when the capture test of `generate_all_legal_moves`
has run for an attacker of type `piece_type_moving` on `from_sq` against `defender_on_target`
on `to_sq`. -/
def can_capture_this_enemy (piece_type_moving : PieceType) (defender_on_target : Piece)
    (from_sq to_sq : Int) : Bool :=
  let attacker_rank := PIECE_RANKS piece_type_moving
  let defender_rank := PIECE_RANKS defender_on_target.type
  let traps_that_weaken_defender :=
    if defender_on_target.player = PLAYER_1 then TRAPS_NEAR_P2_DEN_MASK else TRAPS_NEAR_P1_DEN_MASK
  let defender_is_weakened_by_trap : Bool := get_bit traps_that_weaken_defender to_sq ≠ 0
  let c0 : Bool :=
    if defender_is_weakened_by_trap then true
    else
      let c1 : Bool := if attacker_rank ≥ defender_rank then true else false
      let c2 : Bool := if piece_type_moving = RAT ∧ defender_on_target.type = ELEPHANT then true else c1
      if piece_type_moving = ELEPHANT ∧ defender_on_target.type = RAT then false else c2
  if piece_type_moving = RAT ∧ c0 = true then
    let attacker_on_water : Bool := get_bit LAKE_SQUARES_MASK from_sq ≠ 0
    let defender_on_water : Bool := get_bit LAKE_SQUARES_MASK to_sq ≠ 0
    if attacker_on_water ≠ defender_on_water then false else c0
  else c0

/-- The body of the loop over target squares in `generate_all_legal_moves`: the move pushed to
`pseudo_legal_moves` for this target, if any. -/
def move_to_target (board_state : BoardState) (player_to_move : Player)
    (piece_type_moving : PieceType) (from_sq to_sq : Int) : Option Move :=
  let defender_on_target := board_state.get_piece_at to_sq
  let is_capture_attempt : Bool :=
    defender_on_target.player ≠ NO_PLAYER ∧ defender_on_target.player ≠ player_to_move
  if ¬ is_capture_attempt then some ⟨from_sq, to_sq, piece_type_moving, NO_PIECE_TYPE⟩
  else if can_capture_this_enemy piece_type_moving defender_on_target from_sq to_sq then
    some ⟨from_sq, to_sq, piece_type_moving, defender_on_target.type⟩
  else none

/-- The vector `pseudo_legal_moves` that `generate_all_legal_moves` builds before it filters
repetitions. -/
def pseudo_legal_moves (board_state : BoardState) (player_to_move : Player) : List Move :=
  if player_to_move = NO_PLAYER then []
  else
    PIECE_TYPE_LOOP.flatMap fun piece_type_moving =>
      (scan_squares (board_state.piece_bbs piece_type_moving player_to_move)).flatMap fun from_sq =>
        (scan_squares
          (possible_landing_squares board_state player_to_move piece_type_moving from_sq)).filterMap
          fun to_sq => move_to_target board_state player_to_move piece_type_moving from_sq to_sq

/-- The counter `repetition_count` of `generate_all_legal_moves` for one candidate move. -/
def repetition_count (game_history : List BoardState) (next_state_after_move : BoardState) : Nat :=
  (game_history.filter fun historical_state =>
    historical_state.zobrist_hash = next_state_after_move.zobrist_hash ∧
    historical_state.side_to_move = next_state_after_move.side_to_move).length

def generate_all_legal_moves (keys : ZobristKeys) (board_state : BoardState)
    (player_to_move : Player) (game_history_for_rep_check : List BoardState) : List Move :=
  (pseudo_legal_moves board_state player_to_move).filter fun move =>
    repetition_count game_history_for_rep_check (board_state.apply_move keys move) < 2

/-! ## evaluation.h / evaluation.cpp -/

def WIN_SCORE : Int := 1000000000
def LOSS_SCORE : Int := -1000000000
def DRAW_SCORE : Int := 0

def INT_MIN : Int := -2147483648
def INT_MAX : Int := 2147483647

/-- The value a 32-bit `int` holds after an arithmetic result `x` (two's complement wrap). -/
def wrap_int (x : Int) : Int := (x + 2 ^ 31) % 2 ^ 32 - 2 ^ 31

/-- The sixteen piece-square tables declared in `pst.h` (`PST_RAT_P1`, ..., `PST_ELEPHANT_P2`),
indexed by owner, piece type and square.  Their contents are defined outside the translated
sources, so they are a parameter of the evaluator. -/
abbrev PST := Player → PieceType → Nat → Int

def calculate_material (board_state : BoardState) (player : Player) : Int :=
  if player = NO_PLAYER then 0
  else
    PIECE_TYPE_LOOP.foldl (fun material pt =>
      wrap_int (material + wrap_int (pop_count (board_state.piece_bbs pt player) * PIECE_VALUES pt))) 0

def calculate_pst_score (pst : PST) (board_state : BoardState) (player : Player) : Int :=
  if player = NO_PLAYER then 0
  else
    PIECE_TYPE_LOOP.foldl (fun total_pst_score pt =>
      let piece_bb := board_state.piece_bbs pt player
      let current_pst_array := if player = PLAYER_1 then pst PLAYER_1 pt else pst PLAYER_2 pt
      (scan_squares piece_bb).foldl (fun total sq =>
        if sq ≠ -1 then wrap_int (total + current_pst_array sq.toNat) else total) total_pst_score) 0

def evaluate_board (pst : PST) (board_state : BoardState) (perspective_player : Player) : Int :=
  if perspective_player = NO_PLAYER then 0
  else
    let opponent_player := if perspective_player = PLAYER_1 then PLAYER_2 else PLAYER_1
    let perspective_player_target_den :=
      if perspective_player = PLAYER_1 then P2_DEN_SQUARE_MASK else P1_DEN_SQUARE_MASK
    let opponent_player_target_den :=
      if perspective_player = PLAYER_1 then P1_DEN_SQUARE_MASK else P2_DEN_SQUARE_MASK
    if board_state.occupancy_bbs perspective_player &&& perspective_player_target_den ≠ 0 then
      WIN_SCORE
    else if board_state.occupancy_bbs opponent_player &&& opponent_player_target_den ≠ 0 then
      LOSS_SCORE
    else
      let perspective_material := calculate_material board_state perspective_player
      let opponent_material := calculate_material board_state opponent_player
      let perspective_player_has_pieces : Bool := board_state.occupancy_bbs perspective_player ≠ 0
      let opponent_player_has_pieces : Bool := board_state.occupancy_bbs opponent_player ≠ 0
      if ¬ opponent_player_has_pieces ∧ perspective_player_has_pieces then WIN_SCORE
      else if ¬ perspective_player_has_pieces ∧ opponent_player_has_pieces then LOSS_SCORE
      else if ¬ perspective_player_has_pieces ∧ ¬ opponent_player_has_pieces then DRAW_SCORE
      else
        let perspective_pst_score := calculate_pst_score pst board_state perspective_player
        let opponent_pst_score := calculate_pst_score pst board_state opponent_player
        wrap_int (wrap_int (perspective_material - opponent_material) +
          wrap_int (perspective_pst_score - opponent_pst_score))

/-! ## ttable.h / ttable.cpp -/

namespace TranspositionTable

inductive EntryFlag where
  | NO_ENTRY
  | EXACT_SCORE
  | LOWER_BOUND
  | UPPER_BOUND
  deriving DecidableEq, Repr

structure TTEntry where
  zobrist_key_check : U64
  best_move : Move
  score : Int
  depth : Int
  flag : EntryFlag
  deriving DecidableEq, Repr

/-- The default-constructed `TTEntry()`. -/
def TTEntry.ctor : TTEntry :=
  { zobrist_key_check := 0, best_move := Move.null, score := 0, depth := -1,
    flag := EntryFlag.NO_ENTRY }

/-- The three file-level variables of `ttable.cpp`. -/
structure TTState where
  tt_table : List TTEntry
  tt_num_entries : Nat
  tt_initialized : Bool
  deriving DecidableEq, Repr

/-- The table before any `initialize_tt` call (the static initial values). -/
def TTState.static_init : TTState :=
  { tt_table := [], tt_num_entries := 0, tt_initialized := false }

/-- The value a `short` holds after `static_cast<short>(x)`. -/
def wrap_short (x : Int) : Int := (x + 2 ^ 15) % 2 ^ 16 - 2 ^ 15

/-- The slot `tt_table[index]`. -/
def slot (tt : TTState) (index : Nat) : TTEntry := tt.tt_table.getD index TTEntry.ctor

def clear_tt (tt : TTState) : TTState :=
  if tt.tt_initialized = false ∨ tt.tt_num_entries = 0 ∨ tt.tt_table.isEmpty then tt
  else
    { tt with
      tt_table := (List.range tt.tt_num_entries).foldl (fun t i => t.set i TTEntry.ctor) tt.tt_table }

def probe_tt (tt : TTState) (zobrist_hash : U64) : Option TTEntry :=
  if tt.tt_initialized = false ∨ tt.tt_num_entries = 0 then none
  else
    let index := zobrist_hash % tt.tt_num_entries
    let entry := slot tt index
    if entry.flag ≠ EntryFlag.NO_ENTRY ∧ entry.zobrist_key_check = zobrist_hash then some entry
    else none

def store_tt_entry (tt : TTState) (zobrist_hash : U64) (score : Int) (depth : Int)
    (flag : EntryFlag) (best_move : Move) : TTState :=
  if tt.tt_initialized = false ∨ tt.tt_num_entries = 0 then tt
  else
    let index := zobrist_hash % tt.tt_num_entries
    let entry_to_replace := slot tt index
    if entry_to_replace.flag = EntryFlag.NO_ENTRY ∨
        entry_to_replace.zobrist_key_check ≠ zobrist_hash ∨
        depth ≥ entry_to_replace.depth then
      { tt with
        tt_table := tt.tt_table.set index
          { zobrist_key_check := zobrist_hash
            score := score
            depth := wrap_short depth
            flag := flag
            best_move := best_move } }
    else tt

/-- The call `tt_table.resize(n)` on a vector of entries: the first `n` elements are kept and
the missing ones are default-constructed. -/
def resize (tt_table : List TTEntry) (n : Nat) : List TTEntry :=
  tt_table.take n ++ List.replicate (n - tt_table.length) TTEntry.ctor

/-- The function `initialize_tt(size_mb)`.  `sizeof_TTEntry` is the value of `sizeof(TTEntry)`,
fixed by the compiler, and `alloc_ok` tells whether the allocation inside
`tt_table.resize(tt_num_entries)` succeeds; when it does not, the exception is caught and the
table is left disabled.  The byte budget is computed in `size_t`, modulo `2 ^ 64`. -/
def initialize_tt (sizeof_TTEntry : Nat) (alloc_ok : Bool) (tt : TTState) (size_mb : Nat) :
    TTState :=
  if size_mb = 0 then { tt_table := [], tt_num_entries := 0, tt_initialized := false }
  else
    let table_size_bytes := (size_mb * 1024 * 1024) % 2 ^ 64
    let calculated_num_entries := table_size_bytes / sizeof_TTEntry
    let calculated_num_entries :=
      if calculated_num_entries = 0 ∧ size_mb > 0 then 1 else calculated_num_entries
    let tt_num_entries := calculated_num_entries
    -- try
    let tt_table := if tt.tt_initialized then [] else tt.tt_table
    if alloc_ok then
      let tt_table := resize tt_table tt_num_entries
      let cleared := clear_tt
        { tt_table := tt_table, tt_num_entries := tt_num_entries,
          tt_initialized := tt.tt_initialized }
      { cleared with tt_initialized := true }
    else
      -- catch
      { tt_table := [], tt_num_entries := 0, tt_initialized := false }

def cleanup_tt (_tt : TTState) : TTState :=
  { tt_table := [], tt_num_entries := 0, tt_initialized := false }

def get_tt_num_entries (tt : TTState) : Nat := tt.tt_num_entries

end TranspositionTable

open TranspositionTable

/-! ## ai.h / ai.cpp -/

def make_move_on_copy (keys : ZobristKeys) (current_board_state : BoardState) (move : Move) :
    BoardState :=
  if move.from_sq = -1 ∨ move.to_sq = -1 then current_board_state
  else current_board_state.apply_move keys move

/-- What one call of `alpha_beta_search` leaves behind: the returned score, the transposition
table and the node counter `nodes_searched_ref`. -/
structure SearchOutcome where
  score : Int
  tt : TTState
  nodes : Int

/-- The signature of `alpha_beta_search` at a fixed depth: table, node counter, board, alpha,
beta, maximizing player, side to move, history. -/
abbrev SearchFn :=
  TTState → Int → BoardState → Int → Int → Player → Player → List BoardState → SearchOutcome

/-- The std::rotate of `alpha_beta_search`: the table move, when it is among the legal moves,
is moved to the front and the other moves keep their order. -/
def order_moves (tt_entry : Option TTEntry) (legal_moves : List Move) : List Move :=
  match tt_entry with
  | some e =>
    if e.best_move.from_sq ≠ -1 then
      if e.best_move ∈ legal_moves then e.best_move :: legal_moves.erase e.best_move
      else legal_moves
    else legal_moves
  | none => legal_moves

/-- The variables the move loops of `alpha_beta_search` update. -/
structure LoopState where
  best_eval : Int
  best_move_found_at_this_node : Move
  alpha : Int
  beta : Int
  flag_for_tt_store : EntryFlag
  tt : TTState
  nodes : Int

/-- The loop over `legal_moves` at a node of the maximizing player; `search` is
`alpha_beta_search` at `depth - 1`. -/
def max_loop (keys : ZobristKeys) (search : SearchFn) (board_state : BoardState)
    (player_for_whom_to_maximize : Player) (game_history_for_this_node : List BoardState) :
    List Move → LoopState → LoopState
  | [], st => st
  | move :: rest, st =>
    let next_history := game_history_for_this_node ++ [board_state]
    let next_state := make_move_on_copy keys board_state move
    let r := search st.tt st.nodes next_state st.alpha st.beta player_for_whom_to_maximize
      next_state.side_to_move next_history
    let eval := r.score
    let max_eval := if eval > st.best_eval then eval else st.best_eval
    let best_move := if eval > st.best_eval then move else st.best_move_found_at_this_node
    let alpha := max st.alpha eval
    if st.beta ≤ alpha then
      { best_eval := max_eval, best_move_found_at_this_node := best_move, alpha := alpha,
        beta := st.beta, flag_for_tt_store := EntryFlag.LOWER_BOUND, tt := r.tt, nodes := r.nodes }
    else
      max_loop keys search board_state player_for_whom_to_maximize game_history_for_this_node rest
        { best_eval := max_eval, best_move_found_at_this_node := best_move, alpha := alpha,
          beta := st.beta, flag_for_tt_store := st.flag_for_tt_store, tt := r.tt, nodes := r.nodes }

/-- The loop over `legal_moves` at a node of the minimizing player. -/
def min_loop (keys : ZobristKeys) (search : SearchFn) (board_state : BoardState)
    (player_for_whom_to_maximize : Player) (game_history_for_this_node : List BoardState) :
    List Move → LoopState → LoopState
  | [], st => st
  | move :: rest, st =>
    let next_history := game_history_for_this_node ++ [board_state]
    let next_state := make_move_on_copy keys board_state move
    let r := search st.tt st.nodes next_state st.alpha st.beta player_for_whom_to_maximize
      next_state.side_to_move next_history
    let eval := r.score
    let min_eval := if eval < st.best_eval then eval else st.best_eval
    let best_move := if eval < st.best_eval then move else st.best_move_found_at_this_node
    let beta := min st.beta eval
    if beta ≤ st.alpha then
      { best_eval := min_eval, best_move_found_at_this_node := best_move, alpha := st.alpha,
        beta := beta, flag_for_tt_store := EntryFlag.UPPER_BOUND, tt := r.tt, nodes := r.nodes }
    else
      min_loop keys search board_state player_for_whom_to_maximize game_history_for_this_node rest
        { best_eval := min_eval, best_move_found_at_this_node := best_move, alpha := st.alpha,
          beta := beta, flag_for_tt_store := st.flag_for_tt_store, tt := r.tt, nodes := r.nodes }

/-- The part of `alpha_beta_search` after the table probe, entered with the window `alpha`,
`beta` the probe left. -/
def search_after_probe (keys : ZobristKeys) (pst : PST) (search : SearchFn) (tt : TTState)
    (nodes : Int) (board_state : BoardState) (depth : Nat) (alpha beta : Int)
    (original_alpha_for_node_entry : Int) (tt_entry : Option TTEntry)
    (player_for_whom_to_maximize current_turn_in_state : Player)
    (game_history_for_this_node : List BoardState) : SearchOutcome :=
  let current_hash := board_state.zobrist_hash
  let current_eval_score := evaluate_board pst board_state player_for_whom_to_maximize
  if depth = 0 ∨ current_eval_score = WIN_SCORE ∨ current_eval_score = LOSS_SCORE then
    { score := current_eval_score
      tt := store_tt_entry tt current_hash current_eval_score depth EntryFlag.EXACT_SCORE Move.null
      nodes := nodes }
  else
    let legal_moves :=
      generate_all_legal_moves keys board_state current_turn_in_state game_history_for_this_node
    if legal_moves.isEmpty then
      let score := if current_turn_in_state = player_for_whom_to_maximize then LOSS_SCORE else WIN_SCORE
      { score := score
        tt := store_tt_entry tt current_hash score depth EntryFlag.EXACT_SCORE Move.null
        nodes := nodes }
    else
      let legal_moves := order_moves tt_entry legal_moves
      if current_turn_in_state = player_for_whom_to_maximize then
        let st := max_loop keys search board_state player_for_whom_to_maximize
          game_history_for_this_node legal_moves
          { best_eval := INT_MIN, best_move_found_at_this_node := Move.null, alpha := alpha,
            beta := beta, flag_for_tt_store := EntryFlag.UPPER_BOUND, tt := tt, nodes := nodes }
        let max_eval := st.best_eval
        let flag_for_tt_store :=
          if max_eval > original_alpha_for_node_entry ∧ max_eval < st.beta then EntryFlag.EXACT_SCORE
          else st.flag_for_tt_store
        { score := max_eval
          tt := store_tt_entry st.tt current_hash max_eval depth flag_for_tt_store
            st.best_move_found_at_this_node
          nodes := st.nodes }
      else
        let st := min_loop keys search board_state player_for_whom_to_maximize
          game_history_for_this_node legal_moves
          { best_eval := INT_MAX, best_move_found_at_this_node := Move.null, alpha := alpha,
            beta := beta, flag_for_tt_store := EntryFlag.LOWER_BOUND, tt := tt, nodes := nodes }
        let min_eval := st.best_eval
        let flag_for_tt_store :=
          if min_eval < st.beta ∧ min_eval > st.alpha then EntryFlag.EXACT_SCORE
          else st.flag_for_tt_store
        { score := min_eval
          tt := store_tt_entry st.tt current_hash min_eval depth flag_for_tt_store
            st.best_move_found_at_this_node
          nodes := st.nodes }

/-- The body of `alpha_beta_search` at depth `depth`, with its recursive calls (all of them at
`depth - 1`) made through `search`. -/
def search_node (keys : ZobristKeys) (pst : PST) (search : SearchFn) (depth : Nat) : SearchFn :=
  fun tt nodes_searched_ref board_state alpha beta player_for_whom_to_maximize
      current_turn_in_state game_history_for_this_node =>
    let nodes := nodes_searched_ref + 1
    let current_hash := board_state.zobrist_hash
    let original_alpha_for_node_entry := alpha
    let tt_entry := probe_tt tt current_hash
    let continue_search (alpha beta : Int) : SearchOutcome :=
      search_after_probe keys pst search tt nodes board_state depth alpha beta
        original_alpha_for_node_entry tt_entry player_for_whom_to_maximize current_turn_in_state
        game_history_for_this_node
    match tt_entry with
    | some e =>
      if e.depth ≥ depth then
        if e.flag = EntryFlag.EXACT_SCORE then { score := e.score, tt := tt, nodes := nodes }
        else
          let alpha2 := if e.flag = EntryFlag.LOWER_BOUND then max alpha e.score else alpha
          let beta2 :=
            if e.flag = EntryFlag.LOWER_BOUND then beta
            else if e.flag = EntryFlag.UPPER_BOUND then min beta e.score
            else beta
          if alpha2 ≥ beta2 then { score := e.score, tt := tt, nodes := nodes }
          else continue_search alpha2 beta2
      else continue_search alpha beta
    | none => continue_search alpha beta

/-- The function `alpha_beta_search` for a depth `depth ≥ 0`.  At depth 0 the node returns
before any recursive call, so the function passed for the deeper calls there is never used. -/
def alpha_beta_search (keys : ZobristKeys) (pst : PST) : Nat → SearchFn
  | 0 => search_node keys pst (fun tt nodes _ _ _ _ _ _ => { score := 0, tt := tt, nodes := nodes }) 0
  | depth + 1 => search_node keys pst (alpha_beta_search keys pst depth) (depth + 1)

structure AiMoveResult where
  best_move : Move
  final_score : Int
  nodes_searched : Int
  root_moves_count : Int

/-- The default-constructed `AiMoveResult()`. -/
def AiMoveResult.ctor : AiMoveResult :=
  { best_move := Move.null, final_score := INT_MIN, nodes_searched := 0, root_moves_count := 0 }

/-- An implementation of the std::sort call of `find_best_ai_move`, whose comparator is
`a.first > b.first`: any function that returns a permutation of its input in non-increasing
order of the first component.  The order of moves with equal keys is left to the library. -/
structure RootSort where
  sort : List (Int × Move) → List (Int × Move)
  perm : ∀ l, (sort l).Perm l
  sorted : ∀ l, (sort l).Pairwise (fun a b => a.1 ≥ b.1)

/-- The variables the root loop of `find_best_ai_move` updates. -/
structure RootState where
  best_move : Move
  final_score : Int
  first_move_evaluated : Bool
  alpha : Int
  total_nodes_for_search_at_root : Int
  tt : TTState

/-- The loop over `scored_root_moves` in `find_best_ai_move`. -/
def root_loop (keys : ZobristKeys) (pst : PST) (current_board_state : BoardState)
    (search_depth : Nat) (game_history_ref : List BoardState) (beta : Int) :
    List (Int × Move) → RootState → RootState
  | [], st => st
  | scored_move_pair :: rest, st =>
    let move := scored_move_pair.2
    let next_state_after_ai_move := make_move_on_copy keys current_board_state move
    let history_for_branch := game_history_ref ++ [current_board_state]
    let r := alpha_beta_search keys pst (search_depth - 1) st.tt 0 next_state_after_ai_move
      st.alpha beta PLAYER_1 next_state_after_ai_move.side_to_move history_for_branch
    let score_for_this_move := r.score
    let take : Bool := ¬ st.first_move_evaluated ∨ score_for_this_move > st.final_score
    let final_score := if take then score_for_this_move else st.final_score
    let best_move := if take then move else st.best_move
    root_loop keys pst current_board_state search_depth game_history_ref beta rest
      { best_move := best_move
        final_score := final_score
        first_move_evaluated := if take then true else st.first_move_evaluated
        alpha := max st.alpha final_score
        total_nodes_for_search_at_root := st.total_nodes_for_search_at_root + r.nodes
        tt := r.tt }

/-- The function `find_best_ai_move` for a search depth `search_depth ≥ 1`; the result and the
transposition table it leaves.  The field `time_taken_ms` (wall-clock time) is not modelled. -/
def find_best_ai_move (keys : ZobristKeys) (pst : PST) (sorter : RootSort) (tt : TTState)
    (current_board_state : BoardState) (search_depth : Nat) (game_history_ref : List BoardState) :
    AiMoveResult × TTState :=
  let ai_player := PLAYER_1
  let legal_moves_generated :=
    generate_all_legal_moves keys current_board_state ai_player game_history_ref
  let result : AiMoveResult :=
    { AiMoveResult.ctor with root_moves_count := (legal_moves_generated.length : Int) }
  if legal_moves_generated.isEmpty then (result, tt)
  else
    let root_tt_entry := probe_tt tt current_board_state.zobrist_hash
    let tt_best_move_at_root : Move :=
      match root_tt_entry with
      | some e =>
        if e.best_move.from_sq ≠ -1 ∧ e.best_move ∈ legal_moves_generated then e.best_move
        else Move.null
      | none => Move.null
    let scored_root_moves : List (Int × Move) :=
      legal_moves_generated.map fun move =>
        let temp_next_state := make_move_on_copy keys current_board_state move
        let static_eval := evaluate_board pst temp_next_state ai_player
        (if move = tt_best_move_at_root then wrap_int (static_eval + 1000000) else static_eval, move)
    let scored_root_moves := sorter.sort scored_root_moves
    let alpha := INT_MIN
    let beta := INT_MAX
    let st := root_loop keys pst current_board_state search_depth game_history_ref beta
      scored_root_moves
      { best_move := result.best_move, final_score := result.final_score,
        first_move_evaluated := false, alpha := alpha, total_nodes_for_search_at_root := 0,
        tt := tt }
    let result : AiMoveResult :=
      { result with best_move := st.best_move, final_score := st.final_score,
                    nodes_searched := st.total_nodes_for_search_at_root }
    let tt2 :=
      if result.best_move.from_sq ≠ -1 then
        let root_flag :=
          if result.final_score ≤ st.alpha then EntryFlag.UPPER_BOUND
          else if result.final_score ≥ beta then EntryFlag.LOWER_BOUND
          else EntryFlag.EXACT_SCORE
        store_tt_entry st.tt current_board_state.zobrist_hash result.final_score search_depth
          root_flag result.best_move
      else st.tt
    if result.best_move.from_sq = -1 ∧ ¬ legal_moves_generated.isEmpty then
      let fallback_move := legal_moves_generated.headD Move.null
      let fallback_score :=
        if result.final_score = INT_MIN then
          evaluate_board pst (make_move_on_copy keys current_board_state fallback_move) ai_player
        else result.final_score
      ({ result with best_move := fallback_move, final_score := fallback_score }, tt2)
    else (result, tt2)

/-! ## board_state_io.cpp -/

/-- A line of the save text.  The stream library formats and parses the numbers, and that is
not modelled: a line is what it carries.  `hex v` is the line `0x` followed by the sixteen hex
digits of the 64-bit word `v`, as `write_u64_hex_to_stream` writes it; `dec n` is the decimal
integer `n`; `other` is any other text. -/
inductive SaveLine where
  | hex (val : U64)
  | dec (n : Int)
  | other
  deriving DecidableEq, Repr

def write_u64_hex_to_stream (os : List SaveLine) (val : U64) : List SaveLine :=
  os ++ [SaveLine.hex val]

/-- The helper `read_u64_hex_from_stream`: the value and the rest of the stream, or `none` for
the return value `false` (no line, or a line that is not `0x` and hex digits). -/
def read_u64_hex_from_stream (is : List SaveLine) : Option (U64 × List SaveLine) :=
  match is with
  | SaveLine.hex val :: rest => some (val, rest)
  | _ => none

/-- The range of the loops `for (int pt = 0; pt < NUM_PIECE_TYPES; ++pt)`. -/
def ALL_PIECE_TYPES : List PieceType :=
  [NO_PIECE_TYPE, RAT, CAT, DOG, WOLF, PANTHER, TIGER, LION, ELEPHANT]

/-- The conversion `static_cast<int>(player)`. -/
def player_to_int : Player → Int
  | NO_PLAYER => 0
  | PLAYER_1 => 1
  | PLAYER_2 => 2

/-- The conversion `static_cast<Player>(n)` for the three values of the enumeration; an
integer outside 0..2 has no counterpart in `Player`. -/
def int_to_player (n : Int) : Option Player :=
  if n = 0 then some NO_PLAYER
  else if n = 1 then some PLAYER_1
  else if n = 2 then some PLAYER_2
  else none

def save_single_board_state (os : List SaveLine) (bs : BoardState) : List SaveLine :=
  let os := ALL_PIECE_TYPES.foldl (fun os pt =>
    let os := write_u64_hex_to_stream os (bs.piece_bbs pt PLAYER_1)
    write_u64_hex_to_stream os (bs.piece_bbs pt PLAYER_2)) os
  os ++ [SaveLine.dec (player_to_int bs.side_to_move)]

/-- The function `load_single_board_state(is, bs)`: `bs` is the object passed by reference, the
result is that object after a return of `true` together with the rest of the stream, and
`none` stands for a return of `false` (the partly overwritten object is then not modelled, nor
is a side-to-move line holding an integer outside 0..2).  The field `zobrist_hash` of `bs` is
not assigned. -/
def load_single_board_state (is : List SaveLine) (bs : BoardState) :
    Option (BoardState × List SaveLine) :=
  let step (acc : Option (BoardState × List SaveLine)) (pt : PieceType) :
      Option (BoardState × List SaveLine) :=
    match acc with
    | none => none
    | some (bs, is) =>
      match read_u64_hex_from_stream is with
      | none => none
      | some (v1, is) =>
        match read_u64_hex_from_stream is with
        | none => none
        | some (v2, is) =>
          let bbs := set_piece_bb bs.piece_bbs pt PLAYER_1 v1
          let bbs := set_piece_bb bbs pt PLAYER_2 v2
          let bbs := set_piece_bb bbs pt NO_PLAYER 0
          some ({ bs with piece_bbs := bbs }, is)
  match ALL_PIECE_TYPES.foldl step (some (bs, is)) with
  | none => none
  | some (bs, is) =>
    match is with
    | SaveLine.dec side_to_move_int :: rest =>
      match int_to_player side_to_move_int with
      | some side => some (({ bs with side_to_move := side }).update_occupancy_boards, rest)
      | none => none
    | _ => none

/-! ## Specification-side notions -/

/-- The other player, for the two real players. -/
def opponent_of : Player → Player
  | PLAYER_1 => PLAYER_2
  | PLAYER_2 => PLAYER_1
  | NO_PLAYER => NO_PLAYER

/-- The den square of a player: D9 for `PLAYER_1`, D1 for `PLAYER_2`. -/
def den_mask_of : Player → U64
  | PLAYER_1 => P1_DEN_SQUARE_MASK
  | PLAYER_2 => P2_DEN_SQUARE_MASK
  | NO_PLAYER => 0

/-- A fixed choice of key tables, used to instantiate the general statements. -/
def demo_keys : ZobristKeys :=
  { piece_keys := fun pt p sq =>
      if pt = NO_PIECE_TYPE ∨ p = NO_PLAYER then 0
      else 1000003 * (PIECE_RANKS pt).toNat + 7919 * sq + (if p = PLAYER_1 then 1 else 2)
    side_to_move_key := fun p =>
      match p with
      | NO_PLAYER => 0
      | PLAYER_1 => 123456789
      | PLAYER_2 => 987654321 }

/-- A board holding exactly the listed pieces, built with `add_piece` on an empty board and
`update_occupancy_boards`, as `setup_initial_board` builds the start position. -/
def board_of (keys : ZobristKeys) (pieces : List (Int × PieceType × Player)) : BoardState :=
  BoardState.update_occupancy_boards
    (pieces.foldl (fun b x => BoardState.add_piece keys b x.1 x.2.1 x.2.2) BoardState.ctor)

/-- The positions reachable from the start position: `setup_initial_board()` itself, and every
position obtained from a reachable one by `apply_move` of a move that
`generate_all_legal_moves` returns for the side to move, against any history. -/
inductive Reachable (keys : ZobristKeys) : BoardState → Prop
  | start : Reachable keys (BoardState.setup_initial_board keys)
  | step {b : BoardState} (history : List BoardState) (m : Move) :
      Reachable keys b → m ∈ generate_all_legal_moves keys b b.side_to_move history →
      Reachable keys (b.apply_move keys m)

/-- The union of one player's piece sets over the eight piece types. -/
def union_of_piece_sets (b : BoardState) (p : Player) : U64 :=
  b.piece_bbs RAT p ||| b.piece_bbs CAT p ||| b.piece_bbs DOG p ||| b.piece_bbs WOLF p |||
    b.piece_bbs PANTHER p ||| b.piece_bbs TIGER p ||| b.piece_bbs LION p |||
    b.piece_bbs ELEPHANT p

/-- The occupancy invariant: each player's combined set is the union of that player's piece
sets, and the `NO_PLAYER` slot holds the union of the two. -/
def OccupancyConsistent (b : BoardState) : Prop :=
  b.occupancy_bbs PLAYER_1 = union_of_piece_sets b PLAYER_1 ∧
    b.occupancy_bbs PLAYER_2 = union_of_piece_sets b PLAYER_2 ∧
    b.occupancy_bbs NO_PLAYER = b.occupancy_bbs PLAYER_1 ||| b.occupancy_bbs PLAYER_2

/-- The indices of the set bits among the 64 bits of a word, in increasing order. -/
def bit_list (bb : U64) : List Nat := (List.range 64).filter (fun i => bb.testBit i)

/-- The exclusive-or of `f a` over the elements `a` of a list. -/
def xor_over {α : Type} (f : α → U64) (l : List α) : U64 := l.foldl (fun h a => h ^^^ f a) 0

/-- The contribution of one piece set to the fingerprint: the exclusive-or of the keys of its
squares. -/
def bb_hash (keys : ZobristKeys) (pt : PieceType) (p : Player) (bb : U64) : U64 :=
  xor_over (fun i => keys.piece_keys pt p i) (bit_list bb)

/-- The sixteen (piece type, owner) cells in the order `calculate_initial_hash` visits them. -/
def ALL_CELLS : List (PieceType × Player) :=
  PIECE_TYPE_LOOP.flatMap (fun pt => PLAYER_LOOP.map (fun p => (pt, p)))

/-- The exclusive-or of the keys of all pieces on the board. -/
def pieces_hash (keys : ZobristKeys) (bbs : PieceType → Player → U64) : U64 :=
  xor_over (fun x => bb_hash keys x.1 x.2 (bbs x.1 x.2)) ALL_CELLS

/-- The side-to-move part of the fingerprint. -/
def side_hash (keys : ZobristKeys) (side : Player) : U64 :=
  if side ≠ NO_PLAYER then keys.side_to_move_key side else 0

/-- The value of `potential_moves` in `generate_orthogonal_step_moves` and in
`generate_rat_moves` for a piece on square `sq`. -/
def potential_moves_of (sq : Int) : U64 :=
  let piece_bb := shl64 1 sq.toNat
  let north_target_sq_bb := if piece_bb &&& RANK_9_MASK = 0 then shl64 piece_bb 7 else 0
  let south_target_sq_bb := if piece_bb &&& RANK_1_MASK = 0 then piece_bb >>> 7 else 0
  let east_target_sq_bb := if piece_bb &&& FILE_H_MASK = 0 then shl64 piece_bb 1 else 0
  let west_target_sq_bb := if piece_bb &&& FILE_A_MASK = 0 then piece_bb >>> 1 else 0
  north_target_sq_bb ||| south_target_sq_bb ||| east_target_sq_bb ||| west_target_sq_bb

/-- A set of landing squares is admissible for a friendly occupancy when it lies on the 63
board squares and avoids the friendly pieces. -/
def Admissible (fr : U64) (targets : U64) : Prop :=
  ∀ i, targets.testBit i = true → i < 63 ∧ fr.testBit i = false

/-- The fingerprint invariant: the stored hash is the from-scratch hash. -/
def HashConsistent (keys : ZobristKeys) (b : BoardState) : Prop :=
  b.zobrist_hash = Zobrist.calculate_initial_hash keys b

/-- The invariant of reachable positions used for the fingerprint: all piece sets lie on the 63
board squares, the occupancy sets are consistent, the fingerprint is the from-scratch one and
one of the two players is to move. -/
def BoardInv (keys : ZobristKeys) (b : BoardState) : Prop :=
  (∀ pt p, b.piece_bbs pt p < 2 ^ 63) ∧ OccupancyConsistent b ∧ HashConsistent keys b ∧
    (b.side_to_move = PLAYER_1 ∨ b.side_to_move = PLAYER_2)

/-- Orthogonal adjacency of two board squares: same row and neighbouring columns, or same
column and neighbouring rows (square = row * 7 + column). -/
def OrthAdjacent (s t : Int) : Prop :=
  (0 ≤ s ∧ s < 63) ∧ (0 ≤ t ∧ t < 63) ∧
    ((s / 7 = t / 7 ∧ (s % 7 - t % 7 = 1 ∨ t % 7 - s % 7 = 1)) ∨
     (s % 7 = t % 7 ∧ (s / 7 - t / 7 = 1 ∨ t / 7 - s / 7 = 1)))

instance (s t : Int) : Decidable (OrthAdjacent s t) := by
  unfold OrthAdjacent; infer_instance

/-- The three trap squares next to a player's den. -/
def trap_mask_near : Player → U64
  | PLAYER_1 => TRAPS_NEAR_P1_DEN_MASK
  | PLAYER_2 => TRAPS_NEAR_P2_DEN_MASK
  | NO_PLAYER => 0

/-- At most one piece stands on each square: a square belongs to at most one of the sixteen
(piece type, owner) sets. -/
def OnePiecePerSquare (b : BoardState) : Prop :=
  ∀ (i : Nat) (pt1 pt2 : PieceType) (p1 p2 : Player),
    pt1 ≠ NO_PIECE_TYPE → pt2 ≠ NO_PIECE_TYPE → p1 ≠ NO_PLAYER → p2 ≠ NO_PLAYER →
    (b.piece_bbs pt1 p1).testBit i = true → (b.piece_bbs pt2 p2).testBit i = true →
    pt1 = pt2 ∧ p1 = p2

/-- The largest element of a non-empty list of scores. -/
def list_max (l : List Int) : Int := l.foldl max (l.headD 0)

/-- The smallest element of a non-empty list of scores. -/
def list_min (l : List Int) : Int := l.foldl min (l.headD 0)

/-- Exhaustive minimax of a given depth, without pruning and without a table: the static
evaluation at depth 0 or when it is `WIN_SCORE` or `LOSS_SCORE`; a loss for the side to move
when it has no legal move; otherwise the maximum (maximizing player to move) or minimum (other
player to move) of the values of all positions reached by a legal move, each searched one ply
less deep with the current position appended to the history. -/
def minimax (keys : ZobristKeys) (pst : PST) :
    Nat → BoardState → Player → Player → List BoardState → Int
  | 0, b, maximizer, _, _ => evaluate_board pst b maximizer
  | depth + 1, b, maximizer, turn, history =>
    let static_eval := evaluate_board pst b maximizer
    if static_eval = WIN_SCORE ∨ static_eval = LOSS_SCORE then static_eval
    else
      let moves := generate_all_legal_moves keys b turn history
      if moves = [] then (if turn = maximizer then LOSS_SCORE else WIN_SCORE)
      else
        let values := moves.map fun m =>
          minimax keys pst depth (make_move_on_copy keys b m) maximizer
            (make_move_on_copy keys b m).side_to_move (history ++ [b])
        if turn = maximizer then list_max values else list_min values

/-- The transposition table is disabled: `probe_tt` and `store_tt_entry` return at their
first test. -/
def tt_disabled (tt : TTState) : Prop := tt.tt_initialized = false ∨ tt.tt_num_entries = 0

/-- What a fail-soft search result `v` for the window `(alpha, beta)` says about the exact
value `m`: an upper bound at or below `alpha`, exact inside the window, a lower bound at or
above `beta`. -/
def Bounds (alpha beta v m : Int) : Prop :=
  (v ≤ alpha → m ≤ v) ∧ (alpha < v ∧ v < beta → m = v) ∧ (beta ≤ v → v ≤ m)

/-- A search function is sound at depth `d` on a disabled table: it leaves the table alone and
its score bounds the minimax value of depth `d` for every window inside the `int` range. -/
def GoodSearch (keys : ZobristKeys) (pst : PST) (search : SearchFn) (d : Nat) : Prop :=
  ∀ (tt : TTState) (nodes : Int) (b : BoardState) (alpha beta : Int) (mx turn : Player)
    (hist : List BoardState), tt_disabled tt → alpha < beta → INT_MIN ≤ alpha → beta ≤ INT_MAX →
    (search tt nodes b alpha beta mx turn hist).tt = tt ∧
      Bounds alpha beta (search tt nodes b alpha beta mx turn hist).score
        (minimax keys pst d b mx turn hist)

/-- A search function keeps a disabled table unchanged and returns scores in the `int` range,
for every window. -/
def RangeSearch (search : SearchFn) : Prop :=
  ∀ (tt : TTState) (nodes : Int) (b : BoardState) (alpha beta : Int) (mx turn : Player)
    (hist : List BoardState), tt_disabled tt →
    (search tt nodes b alpha beta mx turn hist).tt = tt ∧
      INT_MIN ≤ (search tt nodes b alpha beta mx turn hist).score ∧
      (search tt nodes b alpha beta mx turn hist).score ≤ INT_MAX

/-- A fixed choice of positional tables, used to instantiate the general statements. -/
def demo_pst : PST := fun p pt sq =>
  (sq : Int) % 9 * PIECE_RANKS pt - (if p = PLAYER_1 then 3 else 5)

/-- One implementation of the sort of the root moves: insertion sort by non-increasing
score. -/
def demo_sorter : RootSort :=
  { sort := List.insertionSort (fun a b => a.1 ≥ b.1)
    perm := fun l => List.perm_insertionSort _ l
    sorted := fun l =>
      haveI : IsTotal (Int × Move) (fun a b => a.1 ≥ b.1) := ⟨fun a b => le_total b.1 a.1⟩
      haveI : IsTrans (Int × Move) (fun a b => a.1 ≥ b.1) :=
        ⟨fun _ _ _ h1 h2 => le_trans h2 h1⟩
      List.sorted_insertionSort _ l }

/-- The representation invariant of the table: the vector `tt_table` has `tt_num_entries`
elements, as after `tt_table.resize(tt_num_entries)` in `initialize_tt`. -/
def TTSized (tt : TTState) : Prop := tt.tt_table.length = tt.tt_num_entries

/-- A two-slot enabled table whose slot 1 holds an exact entry for key 5 at depth 3. -/
def demo_tt : TTState :=
  { tt_table := [TTEntry.ctor,
      { zobrist_key_check := 5, best_move := Move.null, score := 42, depth := 3,
        flag := EntryFlag.EXACT_SCORE }],
    tt_num_entries := 2,
    tt_initialized := true }

/-- A set of landing squares lies on land and off the given den mask. -/
def LandOffDen (den targets : U64) : Prop :=
  ∀ i, targets.testBit i = true → LAND_SQUARES_MASK.testBit i = true ∧ den.testBit i = false

/-- A set of landing squares avoids the given den mask. -/
def OffDen (den targets : U64) : Prop :=
  ∀ i, targets.testBit i = true → den.testBit i = false

/-- The den mask that `generate_all_legal_moves` excludes for the moving player. -/
def own_den_of (p : Player) : U64 :=
  if p = PLAYER_1 then P1_DEN_SQUARE_MASK else P2_DEN_SQUARE_MASK

/-- The material sum of the evaluation formula, over the unbounded integers: the sum over the
eight piece types of `pop_count(piece_bbs[t][p]) * PIECE_VALUES[t]`. -/
def material_sum (b : BoardState) (p : Player) : Int :=
  (PIECE_TYPE_LOOP.map (fun pt => pop_count (b.piece_bbs pt p) * PIECE_VALUES pt)).sum

/-- The positional sum of the evaluation formula, over the unbounded integers: the sum over the
pieces of `p` of the table entry for (type, `p`, square). -/
def pst_sum (pst : PST) (b : BoardState) (p : Player) : Int :=
  (PIECE_TYPE_LOOP.map (fun pt => ((bit_list (b.piece_bbs pt p)).map (fun sq => pst p pt sq)).sum)).sum

/-- The evaluation formula of the specification, over the unbounded integers. -/
def evaluation_formula (pst : PST) (b : BoardState) (P : Player) : Int :=
  (material_sum b P - material_sum b (opponent_of P)) +
    (pst_sum pst b P - pst_sum pst b (opponent_of P))

/-- Positional tables with large (but representable) entries for `PLAYER_1`. -/
def large_pst : PST := fun p _ _ => if p = PLAYER_1 then 1500000000 else 0

/-- A position with a `PLAYER_1` RAT on D5 and CAT on D6 and a `PLAYER_2` RAT on D4; no den is
occupied. -/
def three_piece_board : BoardState :=
  board_of demo_keys [(31, RAT, PLAYER_1), (38, CAT, PLAYER_1), (24, RAT, PLAYER_2)]

/-- The jump pairs of the river: `(c,2) <-> (c,6)` for the columns `c` in {1,2,4,5}, and
`(0,r) <-> (3,r)`, `(3,r) <-> (6,r)` for the rows `r` in {3,4,5}; a square is
`row * 7 + col`. -/
def JumpPair (s t : Int) : Prop :=
  (0 ≤ s ∧ s < 63) ∧ (0 ≤ t ∧ t < 63) ∧
    ((s % 7 = t % 7 ∧ (s % 7 = 1 ∨ s % 7 = 2 ∨ s % 7 = 4 ∨ s % 7 = 5) ∧
        ((s / 7 = 2 ∧ t / 7 = 6) ∨ (s / 7 = 6 ∧ t / 7 = 2))) ∨
     (s / 7 = t / 7 ∧ (s / 7 = 3 ∨ s / 7 = 4 ∨ s / 7 = 5) ∧
        ((s % 7 = 0 ∧ t % 7 = 3) ∨ (s % 7 = 3 ∧ t % 7 = 0) ∨
         (s % 7 = 3 ∧ t % 7 = 6) ∨ (s % 7 = 6 ∧ t % 7 = 3))))

instance (s t : Int) : Decidable (JumpPair s t) := by
  unfold JumpPair; infer_instance

/-- Square `u` lies strictly between `s` and `t` on their common row or column. -/
def StrictlyBetween (s t u : Int) : Prop :=
  (0 ≤ u ∧ u < 63) ∧
    ((s % 7 = t % 7 ∧ u % 7 = s % 7 ∧
        ((s / 7 < u / 7 ∧ u / 7 < t / 7) ∨ (t / 7 < u / 7 ∧ u / 7 < s / 7))) ∨
     (s / 7 = t / 7 ∧ u / 7 = s / 7 ∧
        ((s % 7 < u % 7 ∧ u % 7 < t % 7) ∨ (t % 7 < u % 7 ∧ u % 7 < s % 7))))

instance (s t u : Int) : Decidable (StrictlyBetween s t u) := by
  unfold StrictlyBetween; infer_instance

/-- The (path mask, target square) pairs that `generate_lion_tiger_jump_moves` submits to its
jump block from a square, in the order of the code: the vertical jump, then the horizontal
ones. -/
def jump_candidates (piece_square_idx : Int) : List (U64 × Int) :=
  let cr := get_col_row piece_square_idx
  let col := cr.1
  let row := cr.2
  let path3 (a b c : Int) : U64 :=
    set_bit (set_bit (set_bit 0 (get_square_index col a)) (get_square_index col b))
      (get_square_index col c)
  let path2 (a b : Int) : U64 :=
    set_bit (set_bit 0 (get_square_index a row)) (get_square_index b row)
  let v : List (U64 × Int) :=
    if row = 2 then
      if col = 1 ∨ col = 2 ∨ col = 4 ∨ col = 5 then [(path3 3 4 5, get_square_index col 6)]
      else []
    else if row = 6 then
      if col = 1 ∨ col = 2 ∨ col = 4 ∨ col = 5 then [(path3 5 4 3, get_square_index col 2)]
      else []
    else []
  let h : List (U64 × Int) :=
    if col = 0 then
      if row = 3 ∨ row = 4 ∨ row = 5 then [(path2 1 2, get_square_index 3 row)] else []
    else if col = 6 then
      if row = 3 ∨ row = 4 ∨ row = 5 then [(path2 5 4, get_square_index 3 row)] else []
    else if col = 3 then
      if row = 3 ∨ row = 4 ∨ row = 5 then
        [(path2 2 1, get_square_index 0 row), (path2 4 5, get_square_index 6 row)]
      else []
    else []
  v ++ h

/-- The search function `alpha_beta_search` at depth `depth` passes to its node body for the
recursive calls: `alpha_beta_search` at `depth - 1`; at depth 0 the body makes no call. -/
def recursive_call (keys : ZobristKeys) (pst : PST) : Nat → SearchFn
  | 0 => fun tt nodes _ _ _ _ _ _ => { score := 0, tt := tt, nodes := nodes }
  | depth + 1 => alpha_beta_search keys pst depth

/-- A table entry is a usable hit for a node searched at `depth` with window `(alpha, beta)`:
it is at least as deep, and it is exact, or a lower bound that closes the window, or an upper
bound that closes the window. -/
def usable_hit (e : TTEntry) (depth : Nat) (alpha beta : Int) : Prop :=
  e.depth ≥ depth ∧
    (e.flag = EntryFlag.EXACT_SCORE ∨
     (e.flag = EntryFlag.LOWER_BOUND ∧ max alpha e.score ≥ beta) ∨
     (e.flag = EntryFlag.UPPER_BOUND ∧ alpha ≥ min beta e.score))

/-- One ELEPHANT per side: `PLAYER_1` on A1 to move, `PLAYER_2` on G9. -/
def elephant_board : BoardState :=
  board_of demo_keys [(0, ELEPHANT, PLAYER_1), (62, ELEPHANT, PLAYER_2)]

/-- A history in which every position `PLAYER_1` can move to from `elephant_board` already
occurs twice. -/
def elephant_history : List BoardState :=
  (pseudo_legal_moves elephant_board PLAYER_1).flatMap
    (fun m => [elephant_board.apply_move demo_keys m, elephant_board.apply_move demo_keys m])

/-- A position whose fingerprint field is 5, the key stored in slot 1 of `demo_tt`. -/
def hit_board : BoardState := { three_piece_board with zobrist_hash := 5 }

/-- The invariant of the states of the table that `initialize_tt`, `clear_tt`, `store_tt_entry`
and `cleanup_tt` produce from the statically initialised one: the vector has `tt_num_entries`
elements, and it is empty while the table is not initialized. -/
def TTInv (tt : TTState) : Prop :=
  TTSized tt ∧ (tt.tt_initialized = false → tt.tt_table = [])


/-- Every run of `fuel` consecutive values of the stream holds one that is neither 0 nor a
given value: enough for each `while` loop of `initialize_keys` to end within `fuel` draws. -/
def StreamGood (rng : Nat → U64) (fuel : Nat) : Prop :=
  ∀ (pos : Nat) (v : U64), ∃ j, j < fuel ∧ rng (pos + j) ≠ 0 ∧ rng (pos + j) ≠ v

/-- A stream without repetition and without 0. -/
def demo_rng : Nat → U64 := fun i => i + 1

/-- The slot a root position with fingerprint `k` is stored in can be overwritten by a search of
depth `sd`: it is empty, or holds another key, or holds a depth of at most `sd`. -/
def RootSlotFree (tt : TTState) (k : U64) (sd : Nat) : Prop :=
  (slot tt (k % tt.tt_num_entries)).flag = EntryFlag.NO_ENTRY ∨
    (slot tt (k % tt.tt_num_entries)).zobrist_key_check ≠ k ∨
    (slot tt (k % tt.tt_num_entries)).depth ≤ sd

/-- An enabled, empty table of three entries. -/
def empty_tt : TTState :=
  { tt_table := List.replicate 3 TTEntry.ctor, tt_num_entries := 3, tt_initialized := true }

/-- The table `empty_tt` after an exact score 77 of depth 9 was stored for `elephant_board`. -/
def deep_entry_tt : TTState :=
  store_tt_entry empty_tt elephant_board.zobrist_hash 77 9 EntryFlag.EXACT_SCORE
    ⟨0, 7, ELEPHANT, NO_PIECE_TYPE⟩

/-- Two boards hold the same position: the same piece sets, occupancy sets and side to move
(the fingerprints may differ, as they do under different key tables). -/
def SameContent (b b2 : BoardState) : Prop :=
  b.piece_bbs = b2.piece_bbs ∧ b.occupancy_bbs = b2.occupancy_bbs ∧
    b.side_to_move = b2.side_to_move

/-- A position without a decision and with at most one piece of each kind per player: no den is
occupied, both players have pieces, and every piece set lies on the 63 squares and has at most
one bit. -/
def QuietPosition (c : BoardState) : Prop :=
  c.occupancy_bbs PLAYER_1 &&& P2_DEN_SQUARE_MASK = 0 ∧
    c.occupancy_bbs PLAYER_2 &&& P1_DEN_SQUARE_MASK = 0 ∧
    c.occupancy_bbs PLAYER_1 ≠ 0 ∧ c.occupancy_bbs PLAYER_2 ≠ 0 ∧
    ∀ pt ∈ [NO_PIECE_TYPE, RAT, CAT, DOG, WOLF, PANTHER, TIGER, LION, ELEPHANT],
      ∀ p ∈ [NO_PLAYER, PLAYER_1, PLAYER_2],
        c.piece_bbs pt p < 2 ^ 63 ∧ pop_count (c.piece_bbs pt p) ≤ 1

instance (c : BoardState) : Decidable (QuietPosition c) := by
  unfold QuietPosition; infer_instance

/-- The property of the scores a search of depth 1 from the start position meets: strictly
between `LOSS_SCORE` and `WIN_SCORE`. -/
def OpenScore (x : Int) : Prop := LOSS_SCORE < x ∧ x < WIN_SCORE

/-- Every entry the table can return has a score strictly between `LOSS_SCORE` and `WIN_SCORE`,
or the table is disabled. -/
def OpenTable (tt : TTState) : Prop :=
  tt_disabled tt ∨ ∀ i, (slot tt i).flag ≠ EntryFlag.NO_ENTRY → OpenScore (slot tt i).score

/-- The array `piece_bbs` after the three steps of `apply_move` on its normal path: the moving
piece leaves its origin, the captured piece (if found) leaves the target, the moving piece
arrives. -/
def moved_bbs (b : BoardState) (m : Move) : PieceType → Player → U64 :=
  let player_making_move := b.side_to_move
  let bbs1 := set_piece_bb b.piece_bbs m.piece_moved player_making_move
    (clear_bit (b.piece_bbs m.piece_moved player_making_move) m.from_sq)
  let opponent := if player_making_move = PLAYER_1 then PLAYER_2 else PLAYER_1
  let bbs2 :=
    if m.piece_captured ≠ NO_PIECE_TYPE ∧ get_bit (bbs1 m.piece_captured opponent) m.to_sq ≠ 0 then
      set_piece_bb bbs1 m.piece_captured opponent
        (clear_bit (bbs1 m.piece_captured opponent) m.to_sq)
    else bbs1
  set_piece_bb bbs2 m.piece_moved player_making_move
    (set_bit (bbs2 m.piece_moved player_making_move) m.to_sq)

/-- The number of pieces of a player: the sum over the piece types of the population counts of
the player's piece sets. -/
def piece_count (b : BoardState) (p : Player) : Int :=
  (PIECE_TYPE_LOOP.map (fun pt => pop_count (b.piece_bbs pt p))).sum

/-- A `PLAYER_1` RAT on D5 (square 31) facing a `PLAYER_2` RAT on D4 (square 24), `PLAYER_1`
to move. -/
def rat_duel_board : BoardState :=
  board_of demo_keys [(24, RAT, PLAYER_2), (31, RAT, PLAYER_1)]


/-- Positional tables whose `PLAYER_1` entries are all `INT_MIN` and whose `PLAYER_2` entries
are all 0. -/
def int_min_pst : PST := fun p _ _ => if p = PLAYER_1 then INT_MIN else 0


/-- What a node of the maximizing player stores and returns once its move loop has ended in the
state `st`: the lines of `alpha_beta_search` after the loop. -/
def max_node_finish (st : LoopState) (current_hash : U64) (depth : Nat)
    (original_alpha_for_node_entry : Int) : SearchOutcome :=
  { score := st.best_eval
    tt := store_tt_entry st.tt current_hash st.best_eval depth
      (if st.best_eval > original_alpha_for_node_entry ∧ st.best_eval < st.beta then
        EntryFlag.EXACT_SCORE
      else st.flag_for_tt_store)
      st.best_move_found_at_this_node
    nodes := st.nodes }

/-- What a node of the minimizing player stores and returns once its move loop has ended in the
state `st`. -/
def min_node_finish (st : LoopState) (current_hash : U64) (depth : Nat) : SearchOutcome :=
  { score := st.best_eval
    tt := store_tt_entry st.tt current_hash st.best_eval depth
      (if st.best_eval < st.beta ∧ st.best_eval > st.alpha then EntryFlag.EXACT_SCORE
      else st.flag_for_tt_store)
      st.best_move_found_at_this_node
    nodes := st.nodes }

/-- The node of `alpha_beta_search` from the point where its moves are searched, in the order
of the list `moves`. -/
def search_moves (keys : ZobristKeys) (search : SearchFn) (tt : TTState) (nodes : Int)
    (board_state : BoardState) (depth : Nat) (alpha beta : Int)
    (original_alpha_for_node_entry : Int)
    (player_for_whom_to_maximize current_turn_in_state : Player)
    (game_history_for_this_node : List BoardState) (moves : List Move) : SearchOutcome :=
  if current_turn_in_state = player_for_whom_to_maximize then
    max_node_finish
      (max_loop keys search board_state player_for_whom_to_maximize game_history_for_this_node
        moves
        { best_eval := INT_MIN, best_move_found_at_this_node := Move.null, alpha := alpha,
          beta := beta, flag_for_tt_store := EntryFlag.UPPER_BOUND, tt := tt, nodes := nodes })
      board_state.zobrist_hash depth original_alpha_for_node_entry
  else
    min_node_finish
      (min_loop keys search board_state player_for_whom_to_maximize game_history_for_this_node
        moves
        { best_eval := INT_MAX, best_move_found_at_this_node := Move.null, alpha := alpha,
          beta := beta, flag_for_tt_store := EntryFlag.LOWER_BOUND, tt := tt, nodes := nodes })
      board_state.zobrist_hash depth

/-- The position after the `PLAYER_1` ELEPHANT of `elephant_board` stepped from A1 to A2:
`PLAYER_2` is to move. -/
def elephant_reply_board : BoardState :=
  elephant_board.apply_move demo_keys ⟨0, 7, ELEPHANT, NO_PIECE_TYPE⟩

/-- The table `empty_tt` after an upper bound 0 of depth 0 with the move A1-A2 was stored for
`elephant_board`. -/
def shallow_entry_tt : TTState :=
  store_tt_entry empty_tt elephant_board.zobrist_hash 0 0 EntryFlag.UPPER_BOUND
    ⟨0, 7, ELEPHANT, NO_PIECE_TYPE⟩


/-- The vector `scored_root_moves` of `find_best_ai_move` before it is sorted: every legal root
move with the static evaluation of the position it leads to, plus 1000000 for the move of the
table entry of the root when that move is legal. -/
def root_scored_moves (keys : ZobristKeys) (pst : PST) (tt : TTState)
    (current_board_state : BoardState) (game_history_ref : List BoardState) :
    List (Int × Move) :=
  let legal_moves_generated :=
    generate_all_legal_moves keys current_board_state PLAYER_1 game_history_ref
  let root_tt_entry := probe_tt tt current_board_state.zobrist_hash
  let tt_best_move_at_root : Move :=
    match root_tt_entry with
    | some e =>
      if e.best_move.from_sq ≠ -1 ∧ e.best_move ∈ legal_moves_generated then e.best_move
      else Move.null
    | none => Move.null
  legal_moves_generated.map fun move =>
    let temp_next_state := make_move_on_copy keys current_board_state move
    let static_eval := evaluate_board pst temp_next_state PLAYER_1
    (if move = tt_best_move_at_root then wrap_int (static_eval + 1000000) else static_eval, move)

/-- A `PLAYER_1` RAT on D2 (square 10), next to the den D1 of `PLAYER_2`, and a `PLAYER_2`
ELEPHANT on G9; `PLAYER_1` to move. -/
def den_approach_board : BoardState :=
  board_of demo_keys [(62, ELEPHANT, PLAYER_2), (10, RAT, PLAYER_1)]

/-- The table `empty_tt` after a lower bound of depth 1 with the move D2-D3 was stored for
`den_approach_board`. -/
def den_approach_tt : TTState :=
  store_tt_entry empty_tt den_approach_board.zobrist_hash 0 1 EntryFlag.LOWER_BOUND
    ⟨10, 17, RAT, NO_PIECE_TYPE⟩

/-! ## Lemmas on the move generator -/

theorem mem_pseudo_legal_moves {b : BoardState} {p : Player} {m : Move} :
    m ∈ pseudo_legal_moves b p ↔
      p ≠ NO_PLAYER ∧ ∃ pt ∈ PIECE_TYPE_LOOP, ∃ from_sq ∈ scan_squares (b.piece_bbs pt p),
        ∃ to_sq ∈ scan_squares (possible_landing_squares b p pt from_sq),
          move_to_target b p pt from_sq to_sq = some m := by
  unfold pseudo_legal_moves
  by_cases hp : p = NO_PLAYER
  · simp [hp]
  · simp only [hp, if_false, List.mem_flatMap, List.mem_filterMap, ne_eq, not_false_eq_true,
      true_and]

theorem mem_generate_all_legal_moves {keys : ZobristKeys} {b : BoardState} {p : Player}
    {h : List BoardState} {m : Move} :
    m ∈ generate_all_legal_moves keys b p h ↔
      m ∈ pseudo_legal_moves b p ∧ repetition_count h (b.apply_move keys m) < 2 := by
  unfold generate_all_legal_moves
  simp [List.mem_filter]

theorem move_to_target_some {b : BoardState} {p : Player} {pt : PieceType} {f t : Int} {m : Move}
    (h : move_to_target b p pt f t = some m) :
    m.from_sq = f ∧ m.to_sq = t ∧ m.piece_moved = pt ∧
      ((m.piece_captured = NO_PIECE_TYPE ∧
          ¬ ((b.get_piece_at t).player ≠ NO_PLAYER ∧ (b.get_piece_at t).player ≠ p)) ∨
       (((b.get_piece_at t).player ≠ NO_PLAYER ∧ (b.get_piece_at t).player ≠ p) ∧
          can_capture_this_enemy pt (b.get_piece_at t) f t = true ∧
          m.piece_captured = (b.get_piece_at t).type)) := by
  unfold move_to_target at h
  by_cases hc : (b.get_piece_at t).player ≠ NO_PLAYER ∧ (b.get_piece_at t).player ≠ p
  · by_cases hk : can_capture_this_enemy pt (b.get_piece_at t) f t = true
    · simp [hc, hk] at h
      subst h
      exact ⟨rfl, rfl, rfl, Or.inr ⟨hc, hk, rfl⟩⟩
    · simp [hc, hk] at h
  · simp [hc] at h
    subst h
    exact ⟨rfl, rfl, rfl, Or.inl ⟨rfl, hc⟩⟩

theorem can_capture_rank {pt : PieceType} {d : Piece} {f t : Int}
    (h : can_capture_this_enemy pt d f t = true)
    (h1 : get_bit TRAPS_NEAR_P1_DEN_MASK t = 0) (h2 : get_bit TRAPS_NEAR_P2_DEN_MASK t = 0) :
    (pt = RAT ∧ d.type = ELEPHANT) ∨
      (PIECE_RANKS pt ≥ PIECE_RANKS d.type ∧ ¬ (pt = ELEPHANT ∧ d.type = RAT)) := by
  unfold can_capture_this_enemy at h
  have hw : get_bit (if d.player = PLAYER_1 then TRAPS_NEAR_P2_DEN_MASK
      else TRAPS_NEAR_P1_DEN_MASK) t = 0 := by
    split <;> assumption
  simp only [hw, ne_eq, not_true_eq_false, decide_False, Bool.false_eq_true, if_false] at h
  by_cases hre : pt = RAT ∧ d.type = ELEPHANT
  · exact Or.inl hre
  · right
    by_cases her : pt = ELEPHANT ∧ d.type = RAT
    · simp [her] at h
    · refine ⟨?_, her⟩
      by_contra hr
      simp [hre, her, hr] at h

theorem rat_terrain_aux (P : Prop) [Decidable P] (c0 aw dw : Bool) (hP : P)
    (h : (if P ∧ c0 = true then (if aw ≠ dw then false else c0) else c0) = true) : aw = dw := by
  cases c0 <;> cases aw <;> cases dw <;> simp_all

theorem can_capture_rat_terrain {d : Piece} {f t : Int}
    (h : can_capture_this_enemy RAT d f t = true) :
    (get_bit LAKE_SQUARES_MASK f ≠ 0 ↔ get_bit LAKE_SQUARES_MASK t ≠ 0) := by
  unfold can_capture_this_enemy at h
  have hb := rat_terrain_aux _ _ _ _ rfl h
  have hb2 := congrArg (fun x : Bool => x = true) hb
  simpa using hb2

/-! ## C3: repetition law -/

/-- C3 (repetition law).  For every board, side and history: each move returned by
`generate_all_legal_moves` leads (by `apply_move` on a copy) to a (fingerprint, side to move)
pair that occurs at most once in the history, and a pseudo-legal move whose resulting pair
occurs two or more times in the history is not returned. -/
theorem repetition_law (keys : ZobristKeys) (b : BoardState) (side : Player)
    (history : List BoardState) :
    (∀ m ∈ generate_all_legal_moves keys b side history,
      history.countP (fun h => h.zobrist_hash = (b.apply_move keys m).zobrist_hash ∧
        h.side_to_move = (b.apply_move keys m).side_to_move) ≤ 1) ∧
    (∀ m ∈ pseudo_legal_moves b side,
      2 ≤ history.countP (fun h => h.zobrist_hash = (b.apply_move keys m).zobrist_hash ∧
        h.side_to_move = (b.apply_move keys m).side_to_move) →
      m ∉ generate_all_legal_moves keys b side history) := by
  have hcount : ∀ nb : BoardState, repetition_count history nb =
      history.countP (fun h => h.zobrist_hash = nb.zobrist_hash ∧
        h.side_to_move = nb.side_to_move) := by
    intro nb
    simp [repetition_count, List.countP_eq_length_filter]
  constructor
  · intro m hm
    have h2 := (mem_generate_all_legal_moves.mp hm).2
    rw [hcount] at h2
    omega
  · intro m _ h2 hm
    have h3 := (mem_generate_all_legal_moves.mp hm).2
    rw [hcount] at h3
    omega

/-! ## C4: capture rank law -/

/-- C4 (capture rank law).  Every capture move returned by `generate_all_legal_moves` whose
destination is on none of the six trap squares is either RAT takes ELEPHANT, or has
attacker rank at least the captured rank and is not ELEPHANT takes RAT.  It holds for every
board, so in particular for the boards with one piece per square. -/
theorem capture_rank_law (keys : ZobristKeys) (b : BoardState) (side : Player)
    (history : List BoardState) (m : Move)
    (hm : m ∈ generate_all_legal_moves keys b side history)
    (hcap : m.piece_captured ≠ NO_PIECE_TYPE)
    (h1 : get_bit TRAPS_NEAR_P1_DEN_MASK m.to_sq = 0)
    (h2 : get_bit TRAPS_NEAR_P2_DEN_MASK m.to_sq = 0) :
    (m.piece_moved = RAT ∧ m.piece_captured = ELEPHANT) ∨
      (PIECE_RANKS m.piece_moved ≥ PIECE_RANKS m.piece_captured ∧
        ¬ (m.piece_moved = ELEPHANT ∧ m.piece_captured = RAT)) := by
  obtain ⟨_, pt, _, f, _, t, _, hmt⟩ :=
    mem_pseudo_legal_moves.mp (mem_generate_all_legal_moves.mp hm).1
  obtain ⟨_, ht, hpt, hcase⟩ := move_to_target_some hmt
  rcases hcase with ⟨hno, _⟩ | ⟨_, hcan, hty⟩
  · exact absurd hno hcap
  · rw [hpt, hty]
    rw [ht] at h1 h2
    exact can_capture_rank hcan h1 h2

/-- Witness for C4: a CAT on D7 takes a RAT on D6. -/
theorem capture_rank_law_witness :
    (⟨45, 38, CAT, RAT⟩ : Move) ∈ generate_all_legal_moves demo_keys
        (board_of demo_keys [(45, CAT, PLAYER_1), (38, RAT, PLAYER_2)]) PLAYER_1 [] ∧
      ((CAT = RAT ∧ RAT = ELEPHANT) ∨
        (PIECE_RANKS CAT ≥ PIECE_RANKS RAT ∧ ¬ (CAT = ELEPHANT ∧ RAT = RAT))) :=
  ⟨by decide,
   capture_rank_law demo_keys (board_of demo_keys [(45, CAT, PLAYER_1), (38, RAT, PLAYER_2)])
     PLAYER_1 [] ⟨45, 38, CAT, RAT⟩ (by decide) (by decide) (by decide) (by decide)⟩

/-! ## C7: amphibious terrain law -/

/-- C7 (amphibious terrain law).  Every capture by a RAT returned by
`generate_all_legal_moves` has its origin and its destination in the same terrain class: both
in `LAKE_SQUARES_MASK` or both outside it, whatever is captured and wherever. -/
theorem rat_capture_same_terrain (keys : ZobristKeys) (b : BoardState) (side : Player)
    (history : List BoardState) (m : Move)
    (hm : m ∈ generate_all_legal_moves keys b side history)
    (hrat : m.piece_moved = RAT) (hcap : m.piece_captured ≠ NO_PIECE_TYPE) :
    (get_bit LAKE_SQUARES_MASK m.from_sq ≠ 0 ↔ get_bit LAKE_SQUARES_MASK m.to_sq ≠ 0) := by
  obtain ⟨_, pt, _, f, _, t, _, hmt⟩ :=
    mem_pseudo_legal_moves.mp (mem_generate_all_legal_moves.mp hm).1
  obtain ⟨hf, ht, hpt, hcase⟩ := move_to_target_some hmt
  rcases hcase with ⟨hno, _⟩ | ⟨_, hcan, _⟩
  · exact absurd hno hcap
  · rw [hf, ht]
    rw [hrat] at hpt
    subst hpt
    exact can_capture_rat_terrain hcan

/-- Witness for C7: a RAT swimming on B4 takes a RAT swimming on C4. -/
theorem rat_capture_same_terrain_witness :
    (⟨22, 23, RAT, RAT⟩ : Move) ∈ generate_all_legal_moves demo_keys
        (board_of demo_keys [(22, RAT, PLAYER_1), (23, RAT, PLAYER_2)]) PLAYER_1 [] ∧
      (get_bit LAKE_SQUARES_MASK 22 ≠ 0 ↔ get_bit LAKE_SQUARES_MASK 23 ≠ 0) :=
  ⟨by decide,
   rat_capture_same_terrain demo_keys
     (board_of demo_keys [(22, RAT, PLAYER_1), (23, RAT, PLAYER_2)]) PLAYER_1 []
     ⟨22, 23, RAT, RAT⟩ (by decide) rfl (by decide)⟩

/-! ## C10: terminal detection -/

/-- C10 (terminal detection).  For each of the two players `A`: if `A`'s combined occupancy
meets the den square of `A`'s opponent, `evaluate_board` from `A`'s perspective is `WIN_SCORE`,
for any piece sets and any positional tables. -/
theorem evaluate_board_den_win (pst : PST) (b : BoardState) (A : Player)
    (hA : A = PLAYER_1 ∨ A = PLAYER_2)
    (hden : b.occupancy_bbs A &&& den_mask_of (opponent_of A) ≠ 0) :
    evaluate_board pst b A = WIN_SCORE := by
  rcases hA with rfl | rfl
  · simp only [opponent_of, den_mask_of] at hden
    simp [evaluate_board, hden]
  · simp only [opponent_of, den_mask_of] at hden
    simp [evaluate_board, hden]

/-- Witness for C10: a lone `PLAYER_1` RAT on D1 facing a full `PLAYER_2` ELEPHANT. -/
theorem evaluate_board_den_win_witness :
    (PLAYER_1 = PLAYER_1 ∨ PLAYER_1 = PLAYER_2) ∧
      (board_of demo_keys [(3, RAT, PLAYER_1), (30, ELEPHANT, PLAYER_2)]).occupancy_bbs PLAYER_1
        &&& den_mask_of (opponent_of PLAYER_1) ≠ 0 ∧
      evaluate_board (fun _ _ _ => 0)
        (board_of demo_keys [(3, RAT, PLAYER_1), (30, ELEPHANT, PLAYER_2)]) PLAYER_1 = WIN_SCORE :=
  ⟨Or.inl rfl, by decide,
   evaluate_board_den_win (fun _ _ _ => 0)
     (board_of demo_keys [(3, RAT, PLAYER_1), (30, ELEPHANT, PLAYER_2)]) PLAYER_1 (Or.inl rfl)
     (by decide)⟩

/-! ## C2: occupancy invariant -/

theorem update_occupancy_boards_piece_bbs (b : BoardState) :
    (BoardState.update_occupancy_boards b).piece_bbs = b.piece_bbs := rfl

theorem update_occupancy_boards_consistent (b : BoardState) :
    OccupancyConsistent (BoardState.update_occupancy_boards b) := by
  simp [OccupancyConsistent, BoardState.update_occupancy_boards, union_of_piece_sets,
    PIECE_TYPE_LOOP]

theorem apply_move_cases (keys : ZobristKeys) (b : BoardState) (m : Move) :
    b.apply_move keys m = b ∨ b.apply_move keys m = BoardState.force_recalculate_hash keys b ∨
      ∃ b0, b.apply_move keys m = BoardState.update_occupancy_boards b0 := by
  unfold BoardState.apply_move
  by_cases h1 : m.from_sq = -1 ∨ m.to_sq = -1 ∨ m.piece_moved = NO_PIECE_TYPE
  · rw [if_pos h1]; exact Or.inl rfl
  · rw [if_neg h1]
    dsimp only
    by_cases h2 : get_bit (b.piece_bbs m.piece_moved b.side_to_move) m.from_sq = 0
    · rw [if_pos h2]; exact Or.inr (Or.inl rfl)
    · rw [if_neg h2]; exact Or.inr (Or.inr ⟨_, rfl⟩)

theorem apply_move_occupancy_consistent (keys : ZobristKeys) (b : BoardState) (m : Move)
    (h : OccupancyConsistent b) : OccupancyConsistent (b.apply_move keys m) := by
  rcases apply_move_cases keys b m with h1 | h1 | ⟨b0, h1⟩
  · rw [h1]; exact h
  · rw [h1]; exact h
  · rw [h1]; exact update_occupancy_boards_consistent b0

theorem setup_initial_board_occupancy_consistent (keys : ZobristKeys) :
    OccupancyConsistent (BoardState.setup_initial_board keys) := by
  unfold BoardState.setup_initial_board
  exact update_occupancy_boards_consistent _

/-- C2 (occupancy invariant).  In every position reachable from the start position by legal
moves applied with `apply_move`, `occupancy_bbs[PLAYER_1]` is the union of
`piece_bbs[t][PLAYER_1]` over the eight piece types, likewise for `PLAYER_2`, and
`occupancy_bbs[NO_PLAYER]` is the union of the two. -/
theorem occupancy_invariant (keys : ZobristKeys) (b : BoardState) (h : Reachable keys b) :
    b.occupancy_bbs PLAYER_1 =
        (b.piece_bbs RAT PLAYER_1 ||| b.piece_bbs CAT PLAYER_1 ||| b.piece_bbs DOG PLAYER_1 |||
          b.piece_bbs WOLF PLAYER_1 ||| b.piece_bbs PANTHER PLAYER_1 |||
          b.piece_bbs TIGER PLAYER_1 ||| b.piece_bbs LION PLAYER_1 |||
          b.piece_bbs ELEPHANT PLAYER_1) ∧
      b.occupancy_bbs PLAYER_2 =
        (b.piece_bbs RAT PLAYER_2 ||| b.piece_bbs CAT PLAYER_2 ||| b.piece_bbs DOG PLAYER_2 |||
          b.piece_bbs WOLF PLAYER_2 ||| b.piece_bbs PANTHER PLAYER_2 |||
          b.piece_bbs TIGER PLAYER_2 ||| b.piece_bbs LION PLAYER_2 |||
          b.piece_bbs ELEPHANT PLAYER_2) ∧
      b.occupancy_bbs NO_PLAYER = b.occupancy_bbs PLAYER_1 ||| b.occupancy_bbs PLAYER_2 := by
  have hc : OccupancyConsistent b := by
    induction h with
    | start => exact setup_initial_board_occupancy_consistent keys
    | step history m _ _ ih => exact apply_move_occupancy_consistent keys _ m ih
  exact hc

/-- Witness for C2: the position after the `PLAYER_1` RAT steps from A7 to A6. -/
theorem occupancy_invariant_witness :
    Reachable demo_keys
        ((BoardState.setup_initial_board demo_keys).apply_move demo_keys
          ⟨42, 35, RAT, NO_PIECE_TYPE⟩) ∧
      ((BoardState.setup_initial_board demo_keys).apply_move demo_keys
          ⟨42, 35, RAT, NO_PIECE_TYPE⟩).occupancy_bbs NO_PLAYER =
        ((BoardState.setup_initial_board demo_keys).apply_move demo_keys
          ⟨42, 35, RAT, NO_PIECE_TYPE⟩).occupancy_bbs PLAYER_1 |||
        ((BoardState.setup_initial_board demo_keys).apply_move demo_keys
          ⟨42, 35, RAT, NO_PIECE_TYPE⟩).occupancy_bbs PLAYER_2 :=
  ⟨Reachable.step [] _ Reachable.start (by decide),
   (occupancy_invariant demo_keys _
      (Reachable.step [] ⟨42, 35, RAT, NO_PIECE_TYPE⟩ Reachable.start (by decide))).2.2⟩

/-! ## Lemmas on the bit operations -/

theorem NUM_SQUARES_eq : NUM_SQUARES = 63 := by decide

theorem shl64_one {n : Nat} (h : n < 64) : shl64 1 n = 2 ^ n := by
  unfold shl64
  rw [Nat.one_shiftLeft]
  exact Nat.mod_eq_of_lt (Nat.pow_lt_pow_right (by norm_num) h)

theorem testBit_not64 (x i : Nat) :
    (not64 x).testBit i = (decide (i < 64) && !x.testBit i) := by
  unfold not64
  rw [Nat.testBit_xor, Nat.testBit_two_pow_sub_one, Nat.testBit_mod_two_pow]
  by_cases h : i < 64 <;> simp [h]

theorem not64_lt (x : Nat) : not64 x < 2 ^ 64 := by
  apply Nat.lt_pow_two_of_testBit
  intro i hi
  rw [testBit_not64]
  simp
  omega

theorem and_two_pow_eq_zero_iff (bb n : Nat) : bb &&& 2 ^ n = 0 ↔ bb.testBit n = false := by
  constructor
  · intro h
    have := congrArg (fun x => x.testBit n) h
    simpa [Nat.testBit_and, Nat.testBit_two_pow_self] using this
  · intro h
    apply Nat.eq_of_testBit_eq
    intro i
    rw [Nat.testBit_and, Nat.testBit_two_pow, Nat.zero_testBit]
    by_cases hi : n = i
    · subst hi; simp [h]
    · simp [hi]

theorem get_bit_eq_zero_iff {bb : U64} {sq : Int} (h0 : 0 ≤ sq) (h1 : sq < 63) :
    get_bit bb sq = 0 ↔ bb.testBit sq.toNat = false := by
  unfold get_bit
  rw [NUM_SQUARES_eq, if_pos ⟨h0, h1⟩, shl64_one (by omega)]
  exact and_two_pow_eq_zero_iff bb _

theorem get_bit_ne_zero_iff {bb : U64} {sq : Int} (h0 : 0 ≤ sq) (h1 : sq < 63) :
    get_bit bb sq ≠ 0 ↔ bb.testBit sq.toNat = true := by
  rw [Ne, get_bit_eq_zero_iff h0 h1]
  simp

theorem get_bit_out_of_range {bb : U64} {sq : Int} (h : ¬ (0 ≤ sq ∧ sq < 63)) :
    get_bit bb sq = 0 := by
  unfold get_bit
  rw [NUM_SQUARES_eq, if_neg h]

theorem testBit_set_bit {bb : U64} {sq : Int} (h0 : 0 ≤ sq) (h1 : sq < 63) (i : Nat) :
    (set_bit bb sq).testBit i = (bb.testBit i || decide (sq.toNat = i)) := by
  unfold set_bit
  rw [NUM_SQUARES_eq, if_pos ⟨h0, h1⟩, shl64_one (by omega), Nat.testBit_or, Nat.testBit_two_pow]

theorem testBit_clear_bit {bb : U64} {sq : Int} (h0 : 0 ≤ sq) (h1 : sq < 63) (i : Nat) :
    (clear_bit bb sq).testBit i = (bb.testBit i && (decide (i < 64) && !decide (sq.toNat = i))) := by
  unfold clear_bit
  rw [NUM_SQUARES_eq, if_pos ⟨h0, h1⟩, shl64_one (by omega), Nat.testBit_and, testBit_not64,
    Nat.testBit_two_pow]

theorem testBit_eq_false_of_lt {x n i : Nat} (h : x < 2 ^ n) (hi : n ≤ i) :
    x.testBit i = false :=
  Nat.testBit_lt_two_pow (lt_of_lt_of_le h (Nat.pow_le_pow_right (by norm_num) hi))

theorem set_bit_lt {bb : U64} {sq : Int} (h : bb < 2 ^ 63) : set_bit bb sq < 2 ^ 63 := by
  by_cases hs : 0 ≤ sq ∧ sq < 63
  · apply Nat.lt_pow_two_of_testBit
    intro i hi
    rw [testBit_set_bit hs.1 hs.2, testBit_eq_false_of_lt h hi]
    simp
    omega
  · unfold set_bit
    rw [NUM_SQUARES_eq, if_neg hs]
    exact h

theorem clear_bit_le (bb : U64) (sq : Int) : clear_bit bb sq ≤ bb := by
  unfold clear_bit
  split
  · exact Nat.and_le_left
  · exact le_refl _

/-! ## Lemmas on the bit scan loop -/

theorem find_range'_some (p : Nat → Bool) (n : Nat) : ∀ (s k : Nat),
    (List.range' s n).find? p = some k →
      s ≤ k ∧ k < s + n ∧ p k = true ∧ ∀ j, s ≤ j → j < k → p j = false := by
  induction n with
  | zero => intro s k h; simp at h
  | succ n ih =>
    intro s k h
    rw [List.range'_succ, List.find?_cons] at h
    cases hp : p s with
    | true =>
      rw [hp] at h
      simp only [Option.some.injEq] at h
      subst h
      exact ⟨le_refl _, by omega, hp, fun j h1 h2 => by omega⟩
    | false =>
      rw [hp] at h
      obtain ⟨h1, h2, h3, h4⟩ := ih (s + 1) k h
      refine ⟨by omega, by omega, h3, ?_⟩
      intro j hj1 hj2
      by_cases hjs : j = s
      · subst hjs; exact hp
      · exact h4 j (by omega) hj2

theorem find_range'_none (p : Nat → Bool) (n : Nat) : ∀ (s : Nat),
    (List.range' s n).find? p = none → ∀ j, s ≤ j → j < s + n → p j = false := by
  intro s h j h1 h2
  rw [List.find?_eq_none] at h
  have hmem : j ∈ List.range' s n := by
    rw [List.mem_range'_1]
    exact ⟨h1, h2⟩
  have := h j hmem
  simpa using this

theorem ctzll_spec {bb : U64} (hne : bb ≠ 0) (hlt : bb < 2 ^ 64) :
    ctzll bb < 64 ∧ bb.testBit (ctzll bb) = true ∧ ∀ j, j < ctzll bb → bb.testBit j = false := by
  unfold ctzll
  rw [List.range_eq_range']
  cases hf : (List.range' 0 64).find? (fun i => bb.testBit i) with
  | none =>
    exfalso
    obtain ⟨i, hi⟩ := Nat.ne_zero_implies_bit_true hne
    by_cases h64 : i < 64
    · have := find_range'_none _ 64 0 hf i (by omega) (by omega)
      simp [hi] at this
    · rw [testBit_eq_false_of_lt hlt (by omega)] at hi
      simp at hi
  | some k =>
    obtain ⟨_, h2, h3, h4⟩ := find_range'_some _ 64 0 k hf
    simp only [Option.getD_some]
    exact ⟨by omega, h3, fun j hj => h4 j (by omega) hj⟩

theorem testBit_pred_of_lowest (k : Nat) : ∀ bb : Nat, bb.testBit k = true →
    (∀ j, j < k → bb.testBit j = false) →
    ∀ i, (bb - 1).testBit i = if i < k then true else if i = k then false else bb.testBit i := by
  induction k with
  | zero =>
    intro bb hk _ i
    rw [Nat.testBit_zero] at hk
    have hodd : bb % 2 = 1 := by simpa using hk
    cases i with
    | zero => simp [Nat.testBit_zero]; omega
    | succ j =>
      rw [Nat.testBit_succ, Nat.testBit_succ]
      have : (bb - 1) / 2 = bb / 2 := by omega
      rw [this]
      simp
  | succ k ih =>
    intro bb hk hlow i
    have h0 := hlow 0 (by omega)
    rw [Nat.testBit_zero] at h0
    have heven : bb % 2 = 0 := by
      have : ¬ (bb % 2 = 1) := by simpa using h0
      omega
    have hpos : bb ≥ 2 := by
      have := Nat.testBit_implies_ge hk
      have h2 : 2 ^ (k + 1) ≥ 2 := by
        calc 2 ^ (k + 1) = 2 ^ k * 2 := by ring
          _ ≥ 1 * 2 := Nat.mul_le_mul_right 2 (Nat.one_le_two_pow)
      omega
    rw [Nat.testBit_succ] at hk
    have hlow2 : ∀ j, j < k → (bb / 2).testBit j = false := by
      intro j hj
      rw [← Nat.testBit_succ]
      exact hlow (j + 1) (by omega)
    cases i with
    | zero => simp [Nat.testBit_zero]; omega
    | succ j =>
      rw [Nat.testBit_succ, Nat.testBit_succ]
      have : (bb - 1) / 2 = bb / 2 - 1 := by omega
      rw [this, ih (bb / 2) hk hlow2 j]
      simp

theorem testBit_land_pred {bb : U64} (hne : bb ≠ 0) (hlt : bb < 2 ^ 64) (i : Nat) :
    (bb &&& (bb - 1)).testBit i = (bb.testBit i && !decide (i = ctzll bb)) := by
  obtain ⟨_, h2, h3⟩ := ctzll_spec hne hlt
  rw [Nat.testBit_and, testBit_pred_of_lowest (ctzll bb) bb h2 h3 i]
  by_cases h1 : i < ctzll bb
  · simp [h1, h3 i h1]
  · by_cases h4 : i = ctzll bb
    · simp [h4]
    · simp [h1, h4]

theorem bit_list_zero : bit_list 0 = [] := by decide

theorem bit_list_length_le (bb : U64) : (bit_list bb).length ≤ 64 := by
  unfold bit_list
  calc ((List.range 64).filter _).length ≤ (List.range 64).length := List.length_filter_le _ _
    _ = 64 := List.length_range 64

theorem mem_bit_list {bb : U64} {i : Nat} : i ∈ bit_list bb ↔ i < 64 ∧ bb.testBit i = true := by
  simp [bit_list, List.mem_filter]

theorem bit_list_pop {bb : U64} (hne : bb ≠ 0) (hlt : bb < 2 ^ 64) :
    bit_list bb = ctzll bb :: bit_list (bb &&& (bb - 1)) := by
  obtain ⟨h1, h2, h3⟩ := ctzll_spec hne hlt
  have hsplit : List.range 64 =
      List.range' 0 (ctzll bb) ++ ctzll bb :: List.range' (ctzll bb + 1) (63 - ctzll bb) := by
    rw [List.range_eq_range']
    have e1 : (64 : Nat) = ctzll bb + (1 + (63 - ctzll bb)) := by omega
    have e2 : (ctzll bb :: List.range' (ctzll bb + 1) (63 - ctzll bb)) =
        List.range' (0 + ctzll bb) (1 + (63 - ctzll bb)) := by
      rw [Nat.add_comm 1 (63 - ctzll bb), List.range'_succ, Nat.zero_add]
    rw [e2, List.range'_append_1]
    congr 1
    omega
  unfold bit_list
  rw [hsplit, List.filter_append, List.filter_append, List.filter_cons, List.filter_cons]
  have hA : (List.range' 0 (ctzll bb)).filter (fun i => bb.testBit i) = [] := by
    rw [List.filter_eq_nil_iff]
    intro a ha
    rw [List.mem_range'_1] at ha
    simp [h3 a (by omega)]
  have hB : (List.range' 0 (ctzll bb)).filter (fun i => (bb &&& (bb - 1)).testBit i) = [] := by
    rw [List.filter_eq_nil_iff]
    intro a ha
    rw [List.mem_range'_1] at ha
    rw [testBit_land_pred hne hlt]
    simp [h3 a (by omega)]
  have hC : (List.range' (ctzll bb + 1) (63 - ctzll bb)).filter
        (fun i => (bb &&& (bb - 1)).testBit i) =
      (List.range' (ctzll bb + 1) (63 - ctzll bb)).filter (fun i => bb.testBit i) := by
    apply List.filter_congr
    intro a ha
    rw [List.mem_range'_1] at ha
    rw [testBit_land_pred hne hlt]
    have : a ≠ ctzll bb := by omega
    simp [this]
  have hD : (bb &&& (bb - 1)).testBit (ctzll bb) = false := by
    rw [testBit_land_pred hne hlt]
    simp
  rw [hA, hB, hC, h2, hD]
  simp

theorem pop_lsb_of_ne_zero {bb : U64} (hne : bb ≠ 0) :
    pop_lsb bb = ((ctzll bb : Int), bb &&& (bb - 1)) := by
  unfold pop_lsb lsb_index
  rw [if_neg hne]
  simp only [if_neg hne]
  have : ((ctzll bb : Int)) ≠ -1 := by omega
  rw [if_pos this]

theorem scan_loop_eq (fuel : Nat) : ∀ bb : U64, bb < 2 ^ 64 →
    scan_loop fuel bb = ((bit_list bb).take fuel).map Int.ofNat := by
  induction fuel with
  | zero => intro bb _; simp [scan_loop]
  | succ f ih =>
    intro bb hlt
    unfold scan_loop
    by_cases hne : bb = 0
    · subst hne
      simp [bit_list_zero]
    · have hpos : bb > 0 := Nat.pos_of_ne_zero hne
      rw [if_pos hpos]
      simp only [pop_lsb_of_ne_zero hne]
      have hk : ¬ ((ctzll bb : Int) = -1) := by omega
      rw [if_neg hk, ih _ (lt_of_le_of_lt Nat.and_le_left hlt), bit_list_pop hne hlt]
      simp

theorem scan_squares_eq {bb : U64} (hlt : bb < 2 ^ 64) :
    scan_squares bb = (bit_list bb).map Int.ofNat := by
  unfold scan_squares
  rw [scan_loop_eq 64 bb hlt, List.take_of_length_le (bit_list_length_le bb)]

theorem mem_scan_squares {bb : U64} (hlt : bb < 2 ^ 64) {sq : Int} :
    sq ∈ scan_squares bb ↔ 0 ≤ sq ∧ sq < 64 ∧ bb.testBit sq.toNat = true := by
  rw [scan_squares_eq hlt, List.mem_map]
  constructor
  · rintro ⟨i, hi, rfl⟩
    rw [mem_bit_list] at hi
    refine ⟨Int.ofNat_nonneg i, ?_, ?_⟩
    · have : (Int.ofNat i) = (i : Int) := rfl
      omega
    · simpa using hi.2
  · rintro ⟨h0, h1, h2⟩
    refine ⟨sq.toNat, ?_, ?_⟩
    · rw [mem_bit_list]
      exact ⟨by omega, h2⟩
    · show ((sq.toNat : Nat) : Int) = sq
      omega

/-! ## Lemmas on the fingerprint -/

theorem foldl_xor_acc {α : Type} (f : α → U64) (l : List α) : ∀ h0 : U64,
    l.foldl (fun h a => h ^^^ f a) h0 = h0 ^^^ xor_over f l := by
  induction l with
  | nil => intro h0; simp [xor_over]
  | cons a l ih =>
    intro h0
    unfold xor_over
    rw [List.foldl_cons, List.foldl_cons, ih, ih (0 ^^^ f a)]
    simp [Nat.xor_assoc]

theorem xor_over_nil {α : Type} (f : α → U64) : xor_over f [] = 0 := rfl

theorem xor_over_cons {α : Type} (f : α → U64) (a : α) (l : List α) :
    xor_over f (a :: l) = f a ^^^ xor_over f l := by
  unfold xor_over
  rw [List.foldl_cons, foldl_xor_acc]
  simp [xor_over]

theorem xor_over_append {α : Type} (f : α → U64) (l1 l2 : List α) :
    xor_over f (l1 ++ l2) = xor_over f l1 ^^^ xor_over f l2 := by
  unfold xor_over
  rw [List.foldl_append, foldl_xor_acc]
  rfl

theorem xor_over_congr {α : Type} (f g : α → U64) (l : List α) (h : ∀ a ∈ l, f a = g a) :
    xor_over f l = xor_over g l := by
  induction l with
  | nil => rfl
  | cons a l ih =>
    rw [xor_over_cons, xor_over_cons, h a (List.mem_cons_self a l),
      ih (fun x hx => h x (List.mem_cons_of_mem a hx))]

theorem xor_over_filter (f : Nat → U64) (p : Nat → Bool) (l : List Nat) :
    xor_over f (l.filter p) = xor_over (fun i => if p i then f i else 0) l := by
  induction l with
  | nil => rfl
  | cons a l ih =>
    rw [List.filter_cons, xor_over_cons]
    cases hp : p a with
    | true => simp [xor_over_cons, ih]
    | false => simp [ih]

/-- Changing the summand at one index of a list without repetition. -/
theorem xor_over_update {α : Type} [DecidableEq α] (f g : α → U64) (a : α) (l : List α)
    (hnd : l.Nodup) (ha : a ∈ l) (hfg : ∀ x ∈ l, x ≠ a → g x = f x) :
    xor_over g l = xor_over f l ^^^ f a ^^^ g a := by
  induction l with
  | nil => simp at ha
  | cons x l ih =>
    rw [xor_over_cons, xor_over_cons]
    rw [List.nodup_cons] at hnd
    by_cases hx : x = a
    · subst hx
      have hrest : xor_over g l = xor_over f l := by
        apply xor_over_congr
        intro y hy
        apply hfg y (List.mem_cons_of_mem _ hy)
        intro hyx
        exact hnd.1 (hyx ▸ hy)
      rw [hrest]
      rw [Nat.xor_comm (f x) (xor_over f l), Nat.xor_assoc (xor_over f l) (f x) (f x),
        Nat.xor_self, Nat.xor_zero, Nat.xor_comm]
    · have ha2 : a ∈ l := by
        rcases List.mem_cons.mp ha with h | h
        · exact absurd h.symm hx
        · exact h
      rw [ih hnd.2 ha2 (fun y hy hya => hfg y (List.mem_cons_of_mem _ hy) hya),
        hfg x (List.mem_cons_self _ _) hx]
      simp only [Nat.xor_assoc]

theorem bb_hash_toggle (keys : ZobristKeys) (pt : PieceType) (p : Player) (bb bb2 : U64) (s : Nat)
    (hs : s < 64) (h : ∀ i, i < 64 → bb2.testBit i = (bb.testBit i ^^ decide (s = i))) :
    bb_hash keys pt p bb2 = bb_hash keys pt p bb ^^^ keys.piece_keys pt p s := by
  unfold bb_hash bit_list
  rw [xor_over_filter, xor_over_filter]
  rw [xor_over_update (fun i => if bb.testBit i then keys.piece_keys pt p i else 0)
    (fun i => if bb2.testBit i then keys.piece_keys pt p i else 0) s (List.range 64)
    (List.nodup_range 64) (List.mem_range.mpr hs)]
  · rw [Nat.xor_assoc]
    congr 1
    have hss := h s hs
    simp only [decide_True, Bool.xor_true] at hss
    cases hb : bb.testBit s with
    | true => simp [hss, hb]
    | false => simp [hss, hb]
  · intro x hx hxs
    have hx64 := List.mem_range.mp hx
    have := h x hx64
    have hne : ¬ (s = x) := fun e => hxs e.symm
    simp only [hne, decide_False, Bool.xor_false] at this
    simp only [this]

theorem scan_fold_eq (k : Nat → U64) {bb : U64} (hlt : bb < 2 ^ 64) (h0 : U64) :
    (scan_squares bb).foldl (fun h3 sq => if sq ≠ -1 then h3 ^^^ k sq.toNat else h3) h0 =
      h0 ^^^ xor_over k (bit_list bb) := by
  rw [scan_squares_eq hlt, List.foldl_map, ← foldl_xor_acc]
  apply List.foldl_ext
  intro a i _
  have : (Int.ofNat i) ≠ -1 := by
    have : (Int.ofNat i) = (i : Int) := rfl
    omega
  rw [if_pos this]
  rfl

theorem calculate_initial_hash_eq (keys : ZobristKeys) (b : BoardState)
    (hlt : ∀ pt p, b.piece_bbs pt p < 2 ^ 64) :
    Zobrist.calculate_initial_hash keys b =
      pieces_hash keys b.piece_bbs ^^^ side_hash keys b.side_to_move := by
  have hp : PIECE_TYPE_LOOP.foldl (fun h pt =>
      PLAYER_LOOP.foldl (fun h2 player =>
        (scan_squares (b.piece_bbs pt player)).foldl
          (fun h3 sq => if sq ≠ -1 then h3 ^^^ keys.piece_keys pt player sq.toNat else h3) h2) h) 0
      = pieces_hash keys b.piece_bbs := by
    simp only [scan_fold_eq _ (hlt _ _)]
    simp [PIECE_TYPE_LOOP, PLAYER_LOOP, pieces_hash, ALL_CELLS, xor_over, bb_hash]
  unfold Zobrist.calculate_initial_hash side_hash
  simp only [hp]
  split
  · rfl
  · simp

theorem ALL_CELLS_nodup : ALL_CELLS.Nodup := by decide

theorem mem_ALL_CELLS {pt : PieceType} {p : Player} (hpt : pt ≠ NO_PIECE_TYPE)
    (hp : p ≠ NO_PLAYER) : (pt, p) ∈ ALL_CELLS := by
  cases pt <;> cases p <;> first | contradiction | decide

theorem pieces_hash_set (keys : ZobristKeys) (bbs : PieceType → Player → U64) (pt : PieceType)
    (p : Player) (v : U64) (hpt : pt ≠ NO_PIECE_TYPE) (hp : p ≠ NO_PLAYER) :
    pieces_hash keys (set_piece_bb bbs pt p v) =
      pieces_hash keys bbs ^^^ bb_hash keys pt p (bbs pt p) ^^^ bb_hash keys pt p v := by
  unfold pieces_hash
  rw [xor_over_update (fun x => bb_hash keys x.1 x.2 (bbs x.1 x.2))
    (fun x => bb_hash keys x.1 x.2 (set_piece_bb bbs pt p v x.1 x.2)) (pt, p) ALL_CELLS
    ALL_CELLS_nodup (mem_ALL_CELLS hpt hp)]
  · simp [set_piece_bb]
  · intro x _ hx
    have : ¬ (x.1 = pt ∧ x.2 = p) := by
      intro h
      apply hx
      exact Prod.ext h.1 h.2
    simp [set_piece_bb, this]

theorem pieces_hash_toggle (keys : ZobristKeys) (bbs : PieceType → Player → U64) (pt : PieceType)
    (p : Player) (v : U64) (s : Nat) (hpt : pt ≠ NO_PIECE_TYPE) (hp : p ≠ NO_PLAYER)
    (hs : s < 64) (h : ∀ i, i < 64 → v.testBit i = ((bbs pt p).testBit i ^^ decide (s = i))) :
    pieces_hash keys (set_piece_bb bbs pt p v) =
      pieces_hash keys bbs ^^^ keys.piece_keys pt p s := by
  rw [pieces_hash_set keys bbs pt p v hpt hp, bb_hash_toggle keys pt p (bbs pt p) v s hs h]
  rw [Nat.xor_assoc, ← Nat.xor_assoc (bb_hash keys pt p (bbs pt p)), Nat.xor_self, Nat.zero_xor]

/-! ## Lemmas on the landing squares -/

theorem generate_orthogonal_step_moves_eq (sq : Int) (fr land den : U64) :
    generate_orthogonal_step_moves sq fr land den =
      if sq < 0 ∨ sq ≥ NUM_SQUARES then 0
      else potential_moves_of sq &&& land &&& not64 fr &&& not64 den := rfl

theorem generate_rat_moves_eq (sq : Int) (fr den lake : U64) :
    generate_rat_moves sq fr den lake =
      if sq < 0 ∨ sq ≥ NUM_SQUARES then 0
      else potential_moves_of sq &&& not64 fr &&& not64 den := rfl

theorem potential_moves_of_lt : ∀ n : Nat, n < 63 → potential_moves_of (n : Int) < 2 ^ 63 := by
  decide

theorem LAND_SQUARES_MASK_lt : LAND_SQUARES_MASK < 2 ^ 63 := by decide

theorem landing_and_not64 {x fr den : U64} {i : Nat}
    (h : (x &&& not64 fr &&& not64 den).testBit i = true) :
    x.testBit i = true ∧ fr.testBit i = false := by
  rw [Nat.testBit_and, Nat.testBit_and, testBit_not64, testBit_not64] at h
  simp only [Bool.and_eq_true, Bool.not_eq_true', decide_eq_true_eq] at h
  exact ⟨h.1.1, h.1.2.2⟩

theorem admissible_zero (fr : U64) : Admissible fr 0 := by
  intro i hi; simp at hi

theorem admissible_or {fr x y : U64} (hx : Admissible fr x) (hy : Admissible fr y) :
    Admissible fr (x ||| y) := by
  intro i hi
  rw [Nat.testBit_or] at hi
  simp only [Bool.or_eq_true] at hi
  rcases hi with h | h
  · exact hx i h
  · exact hy i h

theorem admissible_lt {fr x : U64} (hx : Admissible fr x) : x < 2 ^ 63 := by
  apply Nat.lt_pow_two_of_testBit
  intro i hi
  by_contra h
  have := (hx i (by simpa using h)).1
  omega

theorem step_moves_admissible (sq : Int) (fr den : U64) :
    Admissible fr (generate_orthogonal_step_moves sq fr LAND_SQUARES_MASK den) := by
  intro i h
  rw [generate_orthogonal_step_moves_eq] at h
  split at h
  · simp at h
  · have h2 := landing_and_not64 h
    rw [Nat.testBit_and] at h2
    simp only [Bool.and_eq_true] at h2
    refine ⟨?_, h2.2⟩
    by_contra hi
    rw [testBit_eq_false_of_lt LAND_SQUARES_MASK_lt (by omega)] at h2
    simp at h2

theorem rat_moves_admissible (sq : Int) (fr den lake : U64) :
    Admissible fr (generate_rat_moves sq fr den lake) := by
  intro i h
  rw [generate_rat_moves_eq] at h
  split at h
  · simp at h
  · rename_i hsq
    have h2 := landing_and_not64 h
    refine ⟨?_, h2.2⟩
    by_contra hi
    rw [NUM_SQUARES_eq] at hsq
    have hn : sq = ((sq.toNat : Nat) : Int) := by omega
    have := potential_moves_of_lt sq.toNat (by omega)
    rw [← hn] at this
    rw [testBit_eq_false_of_lt this (by omega)] at h2
    simp at h2

theorem jump_block_admissible (acc path : U64) (t : Int) (fr rats den lake : U64)
    (hacc : Admissible fr acc) : Admissible fr (jump_block acc path t fr rats den lake) := by
  intro i h
  unfold jump_block at h
  split at h
  · dsimp only at h
    split at h
    · rename_i hc
      have hrange : 0 ≤ t ∧ t < 63 := by
        by_contra hr
        exact hc.1 (get_bit_out_of_range hr)
      rw [testBit_set_bit hrange.1 hrange.2] at h
      simp only [Bool.or_eq_true, decide_eq_true_eq] at h
      rcases h with h | h
      · exact hacc i h
      · subst h
        refine ⟨by omega, ?_⟩
        have h2 := hc.2.1
        rw [shl64_one (by omega), Nat.and_comm] at h2
        exact (and_two_pow_eq_zero_iff fr _).mp h2
    · exact hacc i h
  · exact hacc i h

theorem admissible_ite {fr x y : U64} (c : Prop) [Decidable c] (hx : Admissible fr x)
    (hy : Admissible fr y) : Admissible fr (if c then x else y) := by
  split
  · exact hx
  · exact hy

theorem jump_moves_admissible (sq : Int) (pl : Player) (fr rats den lake : U64) :
    Admissible fr (generate_lion_tiger_jump_moves sq pl fr rats den lake) := by
  unfold generate_lion_tiger_jump_moves
  dsimp only
  repeat' first
    | with_reducible exact admissible_zero fr
    | with_reducible apply admissible_ite
    | with_reducible apply jump_block_admissible

theorem possible_landing_squares_admissible (b : BoardState) (p : Player) (pt : PieceType)
    (f : Int) : Admissible (b.occupancy_bbs p) (possible_landing_squares b p pt f) := by
  unfold possible_landing_squares
  dsimp only
  split
  · exact step_moves_admissible _ _ _
  · split
    · exact rat_moves_admissible _ _ _ _
    · split
      · exact admissible_or (step_moves_admissible _ _ _) (jump_moves_admissible _ _ _ _ _ _)
      · exact admissible_zero _

/-! ## Lemmas on generated moves and `apply_move` -/

theorem lt_64_of_lt_63 {x : Nat} (h : x < 2 ^ 63) : x < 2 ^ 64 :=
  lt_trans h (by norm_num)

theorem mem_PIECE_TYPE_LOOP {pt : PieceType} : pt ∈ PIECE_TYPE_LOOP ↔ pt ≠ NO_PIECE_TYPE := by
  cases pt <;> simp [PIECE_TYPE_LOOP]

theorem pseudo_legal_move_facts {b : BoardState} {p : Player} {m : Move}
    (hbb : ∀ pt p, b.piece_bbs pt p < 2 ^ 63) (hm : m ∈ pseudo_legal_moves b p) :
    p ≠ NO_PLAYER ∧ m.piece_moved ≠ NO_PIECE_TYPE ∧
      (0 ≤ m.from_sq ∧ m.from_sq < 63) ∧
      (b.piece_bbs m.piece_moved p).testBit m.from_sq.toNat = true ∧
      (0 ≤ m.to_sq ∧ m.to_sq < 63) ∧
      (b.occupancy_bbs p).testBit m.to_sq.toNat = false := by
  obtain ⟨hp, pt, hpt, f, hf, t, ht, hmt⟩ := mem_pseudo_legal_moves.mp hm
  obtain ⟨e1, e2, e3, _⟩ := move_to_target_some hmt
  rw [mem_scan_squares (lt_64_of_lt_63 (hbb pt p))] at hf
  have hadm := possible_landing_squares_admissible b p pt f
  rw [mem_scan_squares (lt_64_of_lt_63 (admissible_lt hadm))] at ht
  have hf63 : f < 63 := by
    by_contra hge
    have h63 : f.toNat ≥ 63 := by omega
    have := testBit_eq_false_of_lt (hbb pt p) h63
    rw [this] at hf
    simp at hf
  have ht2 := hadm t.toNat ht.2.2
  rw [e1, e2, e3]
  exact ⟨hp, mem_PIECE_TYPE_LOOP.mp hpt, ⟨hf.1, hf63⟩, hf.2.2, ⟨ht.1, by omega⟩, ht2.2⟩

theorem xor_piece_at_sq_valid (keys : ZobristKeys) (h : U64) {pt : PieceType} {p : Player}
    {sq : Int} (hpt : pt ≠ NO_PIECE_TYPE) (hp : p ≠ NO_PLAYER) (h0 : 0 ≤ sq) (h1 : sq < 63) :
    Zobrist.xor_piece_at_sq keys h pt p sq = h ^^^ keys.piece_keys pt p sq.toNat := by
  unfold Zobrist.xor_piece_at_sq
  rw [NUM_SQUARES_eq, if_pos ⟨hpt, hp, h0, h1⟩]

theorem pieces_hash_clear (keys : ZobristKeys) (bbs : PieceType → Player → U64) {pt : PieceType}
    {p : Player} {sq : Int} (hpt : pt ≠ NO_PIECE_TYPE) (hp : p ≠ NO_PLAYER) (h0 : 0 ≤ sq)
    (h1 : sq < 63) (hbit : (bbs pt p).testBit sq.toNat = true) :
    pieces_hash keys (set_piece_bb bbs pt p (clear_bit (bbs pt p) sq)) =
      pieces_hash keys bbs ^^^ keys.piece_keys pt p sq.toNat := by
  apply pieces_hash_toggle keys bbs pt p _ sq.toNat hpt hp (by omega)
  intro i hi
  rw [testBit_clear_bit h0 h1]
  by_cases he : sq.toNat = i
  · subst he; simp [hbit]
  · simp [he, hi]

theorem pieces_hash_set_bit (keys : ZobristKeys) (bbs : PieceType → Player → U64)
    {pt : PieceType} {p : Player} {sq : Int} (hpt : pt ≠ NO_PIECE_TYPE) (hp : p ≠ NO_PLAYER)
    (h0 : 0 ≤ sq) (h1 : sq < 63) (hbit : (bbs pt p).testBit sq.toNat = false) :
    pieces_hash keys (set_piece_bb bbs pt p (set_bit (bbs pt p) sq)) =
      pieces_hash keys bbs ^^^ keys.piece_keys pt p sq.toNat := by
  apply pieces_hash_toggle keys bbs pt p _ sq.toNat hpt hp (by omega)
  intro i _
  rw [testBit_set_bit h0 h1]
  by_cases he : sq.toNat = i
  · subst he; simp [hbit]
  · simp [he]

theorem set_piece_bb_lt {bbs : PieceType → Player → U64} {N : Nat} (pt0 : PieceType)
    (p0 : Player) {v : U64} (hbb : ∀ pt p, bbs pt p < N) (hv : v < N) :
    ∀ pt p, set_piece_bb bbs pt0 p0 v pt p < N := by
  intro pt p
  unfold set_piece_bb
  split
  · exact hv
  · exact hbb pt p

theorem set_piece_bb_same (bbs : PieceType → Player → U64) (pt : PieceType) (p : Player)
    (v : U64) : set_piece_bb bbs pt p v pt p = v := by
  simp [set_piece_bb]

theorem set_piece_bb_other_player (bbs : PieceType → Player → U64) (pt pt2 : PieceType)
    {p p2 : Player} (v : U64) (h : p2 ≠ p) : set_piece_bb bbs pt p v pt2 p2 = bbs pt2 p2 := by
  simp [set_piece_bb, h]

theorem testBit_of_occupancy_false {b : BoardState} (hocc : OccupancyConsistent b) {p : Player}
    (hp : p ≠ NO_PLAYER) {i : Nat} (h : (b.occupancy_bbs p).testBit i = false) (pt : PieceType)
    (hpt : pt ≠ NO_PIECE_TYPE) : (b.piece_bbs pt p).testBit i = false := by
  obtain ⟨h1, h2, _⟩ := hocc
  have hu : (union_of_piece_sets b p).testBit i = false := by
    cases p with
    | NO_PLAYER => exact absurd rfl hp
    | PLAYER_1 => rw [← h1]; exact h
    | PLAYER_2 => rw [← h2]; exact h
  unfold union_of_piece_sets at hu
  simp only [Nat.testBit_or, Bool.or_eq_false_iff] at hu
  cases pt <;> first | exact absurd rfl hpt | tauto

theorem xor_right_swap (a b c : Nat) : a ^^^ b ^^^ c = a ^^^ c ^^^ b := by
  rw [Nat.xor_assoc, Nat.xor_comm b c, ← Nat.xor_assoc]

theorem hash_stage_clear (keys : ZobristKeys) {bbs : PieceType → Player → U64} {hash X : U64}
    {pt : PieceType} {p : Player} {sq : Int} (hJ : hash = pieces_hash keys bbs ^^^ X)
    (hpt : pt ≠ NO_PIECE_TYPE) (hp : p ≠ NO_PLAYER) (h0 : 0 ≤ sq) (h1 : sq < 63)
    (hbit : (bbs pt p).testBit sq.toNat = true) :
    Zobrist.xor_piece_at_sq keys hash pt p sq =
      pieces_hash keys (set_piece_bb bbs pt p (clear_bit (bbs pt p) sq)) ^^^ X := by
  rw [xor_piece_at_sq_valid keys hash hpt hp h0 h1, pieces_hash_clear keys bbs hpt hp h0 h1 hbit,
    hJ]
  exact xor_right_swap _ _ _

theorem hash_stage_set (keys : ZobristKeys) {bbs : PieceType → Player → U64} {hash X : U64}
    {pt : PieceType} {p : Player} {sq : Int} (hJ : hash = pieces_hash keys bbs ^^^ X)
    (hpt : pt ≠ NO_PIECE_TYPE) (hp : p ≠ NO_PLAYER) (h0 : 0 ≤ sq) (h1 : sq < 63)
    (hbit : (bbs pt p).testBit sq.toNat = false) :
    Zobrist.xor_piece_at_sq keys hash pt p sq =
      pieces_hash keys (set_piece_bb bbs pt p (set_bit (bbs pt p) sq)) ^^^ X := by
  rw [xor_piece_at_sq_valid keys hash hpt hp h0 h1,
    pieces_hash_set_bit keys bbs hpt hp h0 h1 hbit, hJ]
  exact xor_right_swap _ _ _

theorem apply_move_preserves_inv (keys : ZobristKeys) (b : BoardState) (m : Move)
    (hinv : BoardInv keys b) (hm : m ∈ pseudo_legal_moves b b.side_to_move) :
    BoardInv keys (b.apply_move keys m) := by
  obtain ⟨hbb, hocc, hhash, hside⟩ := hinv
  obtain ⟨hp, hmv, ⟨hf0, hf1⟩, hfbit, ⟨ht0, ht1⟩, htocc⟩ := pseudo_legal_move_facts hbb hm
  have h1 : ¬ (m.from_sq = -1 ∨ m.to_sq = -1 ∨ m.piece_moved = NO_PIECE_TYPE) := by
    rintro (h | h | h)
    · omega
    · omega
    · exact hmv h
  have h2 : ¬ (get_bit (b.piece_bbs m.piece_moved b.side_to_move) m.from_sq = 0) :=
    (get_bit_ne_zero_iff hf0 hf1).mpr hfbit
  -- the fingerprint before the move
  have hJ0 : b.zobrist_hash = pieces_hash keys b.piece_bbs ^^^ side_hash keys b.side_to_move := by
    rw [← calculate_initial_hash_eq keys b (fun pt p => lt_64_of_lt_63 (hbb pt p))]
    exact hhash
  -- stage 1
  have hbb1 := set_piece_bb_lt m.piece_moved b.side_to_move hbb
    (lt_of_le_of_lt (clear_bit_le (b.piece_bbs m.piece_moved b.side_to_move) m.from_sq)
      (hbb m.piece_moved b.side_to_move))
  have hJ1 := hash_stage_clear keys hJ0 hmv hp hf0 hf1 hfbit
  have hopp : (if b.side_to_move = PLAYER_1 then PLAYER_2 else PLAYER_1) ≠ NO_PLAYER := by
    split <;> simp
  have hopp2 : b.side_to_move ≠ (if b.side_to_move = PLAYER_1 then PLAYER_2 else PLAYER_1) := by
    rcases hside with h | h <;> simp [h]
  unfold BoardState.apply_move
  rw [if_neg h1]
  dsimp only
  rw [if_neg h2]
  generalize hb1 : set_piece_bb b.piece_bbs m.piece_moved b.side_to_move
    (clear_bit (b.piece_bbs m.piece_moved b.side_to_move) m.from_sq) = bbs1 at *
  generalize hh1 : Zobrist.xor_piece_at_sq keys b.zobrist_hash m.piece_moved b.side_to_move
    m.from_sq = hash1 at *
  generalize ho : (if b.side_to_move = PLAYER_1 then PLAYER_2 else PLAYER_1) = opp at *
  -- the target square is free of the moving piece type after stage 1
  have hfree1 : (bbs1 m.piece_moved b.side_to_move).testBit m.to_sq.toNat = false := by
    rw [← hb1, set_piece_bb_same, testBit_clear_bit hf0 hf1,
      testBit_of_occupancy_false hocc hp htocc m.piece_moved hmv]
    rfl
  -- stage 2
  have hstage2 : ∃ bbs2 hash2,
      (if m.piece_captured ≠ NO_PIECE_TYPE ∧ get_bit (bbs1 m.piece_captured opp) m.to_sq ≠ 0 then
          set_piece_bb bbs1 m.piece_captured opp
            (clear_bit (bbs1 m.piece_captured opp) m.to_sq)
        else bbs1) = bbs2 ∧
      (if m.piece_captured ≠ NO_PIECE_TYPE ∧ get_bit (bbs1 m.piece_captured opp) m.to_sq ≠ 0 then
          Zobrist.xor_piece_at_sq keys hash1 m.piece_captured opp m.to_sq
        else hash1) = hash2 ∧
      (∀ pt p, bbs2 pt p < 2 ^ 63) ∧
      hash2 = pieces_hash keys bbs2 ^^^ side_hash keys b.side_to_move ∧
      (bbs2 m.piece_moved b.side_to_move).testBit m.to_sq.toNat = false := by
    by_cases hcf : m.piece_captured ≠ NO_PIECE_TYPE ∧
        get_bit (bbs1 m.piece_captured opp) m.to_sq ≠ 0
    · refine ⟨_, _, rfl, rfl, ?_, ?_, ?_⟩
      · rw [if_pos hcf]
        exact set_piece_bb_lt _ _ hbb1
          (lt_of_le_of_lt (clear_bit_le _ _) (hbb1 _ _))
      · rw [if_pos hcf, if_pos hcf]
        exact hash_stage_clear keys hJ1 hcf.1 hopp ht0 ht1
          ((get_bit_ne_zero_iff ht0 ht1).mp hcf.2)
      · rw [if_pos hcf, set_piece_bb_other_player _ _ _ _ hopp2]
        exact hfree1
    · refine ⟨_, _, rfl, rfl, ?_, ?_, ?_⟩
      · rw [if_neg hcf]; exact hbb1
      · rw [if_neg hcf, if_neg hcf]; exact hJ1
      · rw [if_neg hcf]; exact hfree1
  obtain ⟨bbs2, hash2, e2, e3, hbb2, hJ2, hfree2⟩ := hstage2
  rw [e2, e3]
  -- stage 3
  have hbb3 := set_piece_bb_lt m.piece_moved b.side_to_move hbb2
    (@set_bit_lt _ m.to_sq (hbb2 m.piece_moved b.side_to_move))
  have hJ3 := hash_stage_set keys hJ2 hmv hp ht0 ht1 hfree2
  refine ⟨hbb3, update_occupancy_boards_consistent _, ?_, ?_⟩
  · unfold HashConsistent
    rw [calculate_initial_hash_eq keys _ (fun pt p => lt_64_of_lt_63 (by exact hbb3 pt p))]
    show _ = pieces_hash keys (set_piece_bb bbs2 m.piece_moved b.side_to_move
      (set_bit (bbs2 m.piece_moved b.side_to_move) m.to_sq)) ^^^ side_hash keys opp
    rw [hJ3]
    simp only [if_pos hp, if_pos hopp, Zobrist.xor_side_to_move, side_hash]
    rw [Nat.xor_assoc (pieces_hash keys _), Nat.xor_self, Nat.xor_zero]
    rfl
  · show opp = PLAYER_1 ∨ opp = PLAYER_2
    rw [← ho]
    split <;> simp

/-! ## C1: hash consistency -/

theorem pieces_hash_empty (keys : ZobristKeys) : pieces_hash keys (fun _ _ => 0) = 0 := by
  simp [pieces_hash, ALL_CELLS, PIECE_TYPE_LOOP, PLAYER_LOOP, bb_hash, bit_list_zero, xor_over]

theorem add_piece_stage (keys : ZobristKeys) (b : BoardState) (sq : Int) (pt : PieceType)
    (p : Player)
    (h : (∀ pt p, b.piece_bbs pt p < 2 ^ 63) ∧ b.zobrist_hash = pieces_hash keys b.piece_bbs) :
    (∀ pt2 p2, (BoardState.add_piece keys b sq pt p).piece_bbs pt2 p2 < 2 ^ 63) ∧
      (BoardState.add_piece keys b sq pt p).zobrist_hash =
        pieces_hash keys (BoardState.add_piece keys b sq pt p).piece_bbs := by
  unfold BoardState.add_piece
  by_cases hbad : pt = NO_PIECE_TYPE ∨ p = NO_PLAYER ∨ sq < 0 ∨ sq ≥ NUM_SQUARES
  · rw [if_pos hbad]; exact h
  · rw [if_neg hbad]
    rw [NUM_SQUARES_eq] at hbad
    have hpt : pt ≠ NO_PIECE_TYPE := fun e => hbad (Or.inl e)
    have hp : p ≠ NO_PLAYER := fun e => hbad (Or.inr (Or.inl e))
    have h0 : 0 ≤ sq := by
      by_contra hc
      exact hbad (Or.inr (Or.inr (Or.inl (by omega))))
    have h1 : sq < 63 := by
      by_contra hc
      exact hbad (Or.inr (Or.inr (Or.inr (by omega))))
    by_cases hg : get_bit (b.piece_bbs pt p) sq = 0
    · rw [if_pos hg]
      refine ⟨set_piece_bb_lt pt p h.1 (set_bit_lt (h.1 pt p)), ?_⟩
      have hJ : b.zobrist_hash = pieces_hash keys b.piece_bbs ^^^ 0 := by
        rw [Nat.xor_zero]; exact h.2
      have := hash_stage_set keys hJ hpt hp h0 h1 ((get_bit_eq_zero_iff h0 h1).mp hg)
      rw [Nat.xor_zero] at this
      exact this
    · rw [if_neg hg]; exact h

theorem foldl_add_piece_stage (keys : ZobristKeys) (l : List (Int × PieceType × Player)) :
    ∀ b : BoardState,
      ((∀ pt p, b.piece_bbs pt p < 2 ^ 63) ∧ b.zobrist_hash = pieces_hash keys b.piece_bbs) →
      (∀ pt p, (l.foldl (fun b x => BoardState.add_piece keys b x.1 x.2.1 x.2.2) b).piece_bbs pt p
          < 2 ^ 63) ∧
        (l.foldl (fun b x => BoardState.add_piece keys b x.1 x.2.1 x.2.2) b).zobrist_hash =
          pieces_hash keys
            (l.foldl (fun b x => BoardState.add_piece keys b x.1 x.2.1 x.2.2) b).piece_bbs := by
  induction l with
  | nil => intro b h; exact h
  | cons x l ih =>
    intro b h
    rw [List.foldl_cons]
    exact ih _ (add_piece_stage keys b x.1 x.2.1 x.2.2 h)

theorem setup_initial_board_inv (keys : ZobristKeys) :
    BoardInv keys (BoardState.setup_initial_board keys) := by
  unfold BoardState.setup_initial_board
  dsimp only
  rw [if_pos (by simp)]
  generalize hl : ([(get_square_index 0 8, LION, PLAYER_1), (get_square_index 6 8, TIGER, PLAYER_1),
    (get_square_index 1 7, DOG, PLAYER_1), (get_square_index 5 7, CAT, PLAYER_1),
    (get_square_index 4 6, WOLF, PLAYER_1), (get_square_index 2 6, PANTHER, PLAYER_1),
    (get_square_index 0 6, RAT, PLAYER_1), (get_square_index 6 6, ELEPHANT, PLAYER_1),
    (get_square_index 6 0, LION, PLAYER_2), (get_square_index 0 0, TIGER, PLAYER_2),
    (get_square_index 5 1, DOG, PLAYER_2), (get_square_index 1 1, CAT, PLAYER_2),
    (get_square_index 2 2, WOLF, PLAYER_2), (get_square_index 4 2, PANTHER, PLAYER_2),
    (get_square_index 6 2, RAT, PLAYER_2), (get_square_index 0 2, ELEPHANT, PLAYER_2)] :
    List (Int × PieceType × Player)) = l
  have h0 : (∀ pt p, ({ BoardState.ctor with piece_bbs := fun _ _ => 0, zobrist_hash := 0 } :
        BoardState).piece_bbs pt p < 2 ^ 63) ∧
      ({ BoardState.ctor with piece_bbs := fun _ _ => 0, zobrist_hash := 0 } :
        BoardState).zobrist_hash =
        pieces_hash keys ({ BoardState.ctor with piece_bbs := fun _ _ => 0, zobrist_hash := 0 } :
        BoardState).piece_bbs := by
    refine ⟨fun _ _ => by norm_num, ?_⟩
    rw [pieces_hash_empty]
  obtain ⟨hbb, hh⟩ := foldl_add_piece_stage keys l _ h0
  refine ⟨hbb, update_occupancy_boards_consistent _, ?_, Or.inl rfl⟩
  unfold HashConsistent
  rw [calculate_initial_hash_eq keys _ (fun pt p => lt_64_of_lt_63 (by exact hbb pt p))]
  show _ ^^^ _ = pieces_hash keys _ ^^^ side_hash keys PLAYER_1
  rw [hh]
  rfl

theorem reachable_inv (keys : ZobristKeys) (b : BoardState) (h : Reachable keys b) :
    BoardInv keys b := by
  induction h with
  | start => exact setup_initial_board_inv keys
  | step history m _ hm ih =>
    exact apply_move_preserves_inv keys _ m ih (mem_generate_all_legal_moves.mp hm).1

/-- C1 (hash consistency).  For every choice of key tables and every position reachable from
`setup_initial_board()` by applying, with `apply_move`, moves that `generate_all_legal_moves`
returns for the side to move (against any history), the stored `zobrist_hash` equals
`Zobrist::calculate_initial_hash` of that position. -/
theorem hash_consistency (keys : ZobristKeys) (b : BoardState) (h : Reachable keys b) :
    b.zobrist_hash = Zobrist.calculate_initial_hash keys b :=
  (reachable_inv keys b h).2.2.1

/-- Witness for C1: the position after the `PLAYER_1` DOG steps from B8 to B7. -/
theorem hash_consistency_witness :
    Reachable demo_keys
        ((BoardState.setup_initial_board demo_keys).apply_move demo_keys
          ⟨50, 43, DOG, NO_PIECE_TYPE⟩) ∧
      ((BoardState.setup_initial_board demo_keys).apply_move demo_keys
          ⟨50, 43, DOG, NO_PIECE_TYPE⟩).zobrist_hash =
        Zobrist.calculate_initial_hash demo_keys
          ((BoardState.setup_initial_board demo_keys).apply_move demo_keys
            ⟨50, 43, DOG, NO_PIECE_TYPE⟩) :=
  ⟨Reachable.step [] _ Reachable.start (by decide),
   hash_consistency demo_keys _
     (Reachable.step [] ⟨50, 43, DOG, NO_PIECE_TYPE⟩ Reachable.start (by decide))⟩

/-! ## Lemmas on board geometry -/

set_option maxRecDepth 1000000 in
theorem potential_moves_adjacent : ∀ s : Nat, s < 63 → ∀ t : Nat, t < 63 →
    (potential_moves_of (s : Int)).testBit t = decide (OrthAdjacent (s : Int) (t : Int)) := by
  decide

set_option maxRecDepth 1000000 in
theorem trap_neighbourhood : ∀ t : Nat, t < 63 →
    (get_bit TRAPS_NEAR_P1_DEN_MASK (t : Int) ≠ 0 ∨ get_bit TRAPS_NEAR_P2_DEN_MASK (t : Int) ≠ 0) →
    LAND_SQUARES_MASK.testBit t = true ∧ P1_DEN_SQUARE_MASK.testBit t = false ∧
      P2_DEN_SQUARE_MASK.testBit t = false ∧ get_bit LAKE_SQUARES_MASK (t : Int) = 0 ∧
      ∀ s : Nat, s < 63 → OrthAdjacent (s : Int) (t : Int) →
        get_bit LAKE_SQUARES_MASK (s : Int) = 0 := by
  decide

/-! ## Lemmas on `get_piece_at` and captures on traps -/

theorem mem_candidates {c : Piece} :
    c ∈ PLAYER_LOOP.flatMap (fun player => PIECE_TYPE_LOOP.map (fun pt => (⟨pt, player⟩ : Piece)))
      ↔ c.type ≠ NO_PIECE_TYPE ∧ c.player ≠ NO_PLAYER := by
  obtain ⟨ty, pl⟩ := c
  cases ty <;> cases pl <;> simp [PLAYER_LOOP, PIECE_TYPE_LOOP]

theorem get_piece_at_found {b : BoardState} {t : Int} {c : Piece}
    (hp : (b.get_piece_at t).player ≠ NO_PLAYER) (hc : b.get_piece_at t = c) :
    (0 ≤ t ∧ t < 63) ∧ c.type ≠ NO_PIECE_TYPE ∧ c.player ≠ NO_PLAYER ∧
      (b.piece_bbs c.type c.player).testBit t.toNat = true := by
  unfold BoardState.get_piece_at at hc hp
  by_cases hr : t < 0 ∨ t ≥ NUM_SQUARES
  · rw [if_pos hr] at hp
    exact absurd rfl hp
  · rw [if_neg hr] at hc hp
    rw [NUM_SQUARES_eq] at hr
    have hr2 : 0 ≤ t ∧ t < 63 := by omega
    dsimp only at hc hp
    cases hfind : (PLAYER_LOOP.flatMap (fun player =>
        PIECE_TYPE_LOOP.map (fun pt => (⟨pt, player⟩ : Piece)))).find?
        (fun c => get_bit (b.piece_bbs c.type c.player) t ≠ 0) with
    | none =>
      rw [hfind] at hp
      exact absurd rfl hp
    | some d =>
      rw [hfind] at hc
      simp only at hc
      subst hc
      have hmem := mem_candidates.mp (List.mem_of_find?_eq_some hfind)
      have hprop := List.find?_some hfind
      simp only [ne_eq, decide_not, Bool.not_eq_true', decide_eq_false_iff_not] at hprop
      exact ⟨hr2, hmem.1, hmem.2, (get_bit_ne_zero_iff hr2.1 hr2.2).mp hprop⟩

theorem get_piece_at_unique {b : BoardState} (hone : OnePiecePerSquare b) {t : Int}
    (h0 : 0 ≤ t) (h1 : t < 63) {D : PieceType} {q : Player} (hD : D ≠ NO_PIECE_TYPE)
    (hq : q ≠ NO_PLAYER) (hbit : (b.piece_bbs D q).testBit t.toNat = true) :
    b.get_piece_at t = ⟨D, q⟩ := by
  have hne : (b.get_piece_at t).player ≠ NO_PLAYER := by
    unfold BoardState.get_piece_at
    rw [NUM_SQUARES_eq, if_neg (by omega)]
    dsimp only
    cases hfind : (PLAYER_LOOP.flatMap (fun player =>
        PIECE_TYPE_LOOP.map (fun pt => (⟨pt, player⟩ : Piece)))).find?
        (fun c => get_bit (b.piece_bbs c.type c.player) t ≠ 0) with
    | none =>
      exfalso
      have := List.find?_eq_none.mp hfind ⟨D, q⟩ (mem_candidates.mpr ⟨hD, hq⟩)
      simp only [ne_eq, decide_not, Bool.not_eq_true', decide_eq_false_iff_not, not_not] at this
      exact (get_bit_ne_zero_iff h0 h1).mpr hbit this
    | some d =>
      simp only
      exact (mem_candidates.mp (List.mem_of_find?_eq_some hfind)).2
  obtain ⟨_, h2, h3, h4⟩ := get_piece_at_found hne rfl
  obtain ⟨e1, e2⟩ := hone t.toNat _ _ _ _ h2 hD h3 hq h4 hbit
  cases hg : b.get_piece_at t with
  | mk ty pl =>
    rw [hg] at e1 e2
    simp only at e1 e2
    rw [e1, e2]

theorem occupancy_testBit_false {b : BoardState} (hocc : OccupancyConsistent b) {p : Player}
    (hp : p ≠ NO_PLAYER) {i : Nat}
    (h : ∀ pt, pt ≠ NO_PIECE_TYPE → (b.piece_bbs pt p).testBit i = false) :
    (b.occupancy_bbs p).testBit i = false := by
  obtain ⟨h1, h2, _⟩ := hocc
  have hu : (union_of_piece_sets b p).testBit i = false := by
    unfold union_of_piece_sets
    simp only [Nat.testBit_or, Bool.or_eq_false_iff]
    refine ⟨⟨⟨⟨⟨⟨⟨?_, ?_⟩, ?_⟩, ?_⟩, ?_⟩, ?_⟩, ?_⟩, ?_⟩ <;> exact h _ (by simp)
  cases p with
  | NO_PLAYER => exact absurd rfl hp
  | PLAYER_1 => rw [h1]; exact hu
  | PLAYER_2 => rw [h2]; exact hu

theorem generate_empty_history (keys : ZobristKeys) (b : BoardState) (p : Player) :
    generate_all_legal_moves keys b p [] = pseudo_legal_moves b p := by
  unfold generate_all_legal_moves repetition_count
  simp

theorem can_capture_on_trap {A : PieceType} {d : Piece} {s t : Int}
    (htrap : get_bit (if d.player = PLAYER_1 then TRAPS_NEAR_P2_DEN_MASK
      else TRAPS_NEAR_P1_DEN_MASK) t ≠ 0)
    (hs : get_bit LAKE_SQUARES_MASK s = 0) (ht : get_bit LAKE_SQUARES_MASK t = 0) :
    can_capture_this_enemy A d s t = true := by
  unfold can_capture_this_enemy
  simp [htrap, hs, ht]

theorem landing_contains_step {b : BoardState} {P : Player} {A : PieceType} {s t : Int}
    (hA : A ≠ NO_PIECE_TYPE) (hadj : OrthAdjacent s t)
    (hland : LAND_SQUARES_MASK.testBit t.toNat = true)
    (hocc : (b.occupancy_bbs P).testBit t.toNat = false)
    (hden : (if P = PLAYER_1 then P1_DEN_SQUARE_MASK else P2_DEN_SQUARE_MASK).testBit t.toNat
      = false) :
    (possible_landing_squares b P A s).testBit t.toNat = true := by
  obtain ⟨⟨hs0, hs1⟩, ⟨ht0, ht1⟩, _⟩ := id hadj
  have hpot : (potential_moves_of s).testBit t.toNat = true := by
    have h := potential_moves_adjacent s.toNat (by omega) t.toNat (by omega)
    have e1 : ((s.toNat : Nat) : Int) = s := by omega
    have e2 : ((t.toNat : Nat) : Int) = t := by omega
    rw [e1, e2] at h
    rw [h]
    exact decide_eq_true hadj
  have hrange : ¬ (s < 0 ∨ s ≥ NUM_SQUARES) := by rw [NUM_SQUARES_eq]; omega
  have h64 : t.toNat < 64 := by omega
  have hstep : (generate_orthogonal_step_moves s (b.occupancy_bbs P) LAND_SQUARES_MASK
      (if P = PLAYER_1 then P1_DEN_SQUARE_MASK else P2_DEN_SQUARE_MASK)).testBit t.toNat
      = true := by
    rw [generate_orthogonal_step_moves_eq, if_neg hrange]
    simp [Nat.testBit_and, testBit_not64, hpot, hland, hocc, hden, h64]
  have hrat : (generate_rat_moves s (b.occupancy_bbs P)
      (if P = PLAYER_1 then P1_DEN_SQUARE_MASK else P2_DEN_SQUARE_MASK)
      LAKE_SQUARES_MASK).testBit t.toNat = true := by
    rw [generate_rat_moves_eq, if_neg hrange]
    simp [Nat.testBit_and, testBit_not64, hpot, hocc, hden, h64]
  unfold possible_landing_squares
  dsimp only
  cases A with
  | NO_PIECE_TYPE => exact absurd rfl hA
  | RAT => simpa using hrat
  | CAT => simpa using hstep
  | DOG => simpa using hstep
  | WOLF => simpa using hstep
  | PANTHER => simpa using hstep
  | ELEPHANT => simpa using hstep
  | TIGER => simp [Nat.testBit_or, hstep]
  | LION => simp [Nat.testBit_or, hstep]

/-- A piece standing on a trap next to the capturing side's den is captured by any adjacent
enemy piece. -/
theorem trap_capture_mem (keys : ZobristKeys) (b : BoardState) (A D : PieceType) (P : Player)
    (s t : Int) (hP : P = PLAYER_1 ∨ P = PLAYER_2) (hA : A ≠ NO_PIECE_TYPE)
    (hD : D ≠ NO_PIECE_TYPE) (hwf : ∀ pt p, b.piece_bbs pt p < 2 ^ 63)
    (hone : OnePiecePerSquare b) (hocc : OccupancyConsistent b)
    (hadj : OrthAdjacent s t)
    (hatt : (b.piece_bbs A P).testBit s.toNat = true)
    (hdef : (b.piece_bbs D (opponent_of P)).testBit t.toNat = true)
    (htrap : get_bit (trap_mask_near P) t ≠ 0) :
    (⟨s, t, A, D⟩ : Move) ∈ generate_all_legal_moves keys b P [] := by
  obtain ⟨⟨hs0, hs1⟩, ⟨ht0, ht1⟩, _⟩ := id hadj
  have hPne : P ≠ NO_PLAYER := by rcases hP with h | h <;> simp [h]
  have hopp : opponent_of P ≠ NO_PLAYER := by rcases hP with h | h <;> simp [h, opponent_of]
  have hoppP : opponent_of P ≠ P := by rcases hP with h | h <;> simp [h, opponent_of]
  have et : ((t.toNat : Nat) : Int) = t := by omega
  have htrap2 : get_bit TRAPS_NEAR_P1_DEN_MASK (t.toNat : Int) ≠ 0 ∨
      get_bit TRAPS_NEAR_P2_DEN_MASK (t.toNat : Int) ≠ 0 := by
    rw [et]
    rcases hP with h | h
    · left; simpa [h, trap_mask_near] using htrap
    · right; simpa [h, trap_mask_near] using htrap
  obtain ⟨hland, hd1, hd2, hlake_t, hlake_s⟩ := trap_neighbourhood t.toNat (by omega) htrap2
  rw [et] at hlake_t
  have hlake_s2 : get_bit LAKE_SQUARES_MASK s = 0 := by
    have := hlake_s s.toNat (by omega)
    have es : ((s.toNat : Nat) : Int) = s := by omega
    rw [es, et] at this
    exact this hadj
  -- no friendly piece stands on the target
  have hfree : (b.occupancy_bbs P).testBit t.toNat = false := by
    apply occupancy_testBit_false hocc hPne
    intro pt hpt
    by_contra hb
    have hb2 : (b.piece_bbs pt P).testBit t.toNat = true := by simpa using hb
    exact hoppP (hone t.toNat _ _ _ _ hD hpt hopp hPne hdef hb2).2
  have hden : (if P = PLAYER_1 then P1_DEN_SQUARE_MASK else P2_DEN_SQUARE_MASK).testBit t.toNat
      = false := by
    split
    · exact hd1
    · exact hd2
  rw [generate_empty_history, mem_pseudo_legal_moves]
  refine ⟨hPne, A, mem_PIECE_TYPE_LOOP.mpr hA, s, ?_, t, ?_, ?_⟩
  · exact (mem_scan_squares (lt_64_of_lt_63 (hwf A P))).mpr ⟨hs0, by omega, hatt⟩
  · have hadm := possible_landing_squares_admissible b P A s
    exact (mem_scan_squares (lt_64_of_lt_63 (admissible_lt hadm))).mpr
      ⟨ht0, by omega, landing_contains_step hA hadj hland hfree hden⟩
  · have hg := get_piece_at_unique hone ht0 ht1 hD hopp hdef
    have htr : get_bit (if (⟨D, opponent_of P⟩ : Piece).player = PLAYER_1
        then TRAPS_NEAR_P2_DEN_MASK else TRAPS_NEAR_P1_DEN_MASK) t ≠ 0 := by
      rcases hP with h | h
      · simpa [h, opponent_of, trap_mask_near] using htrap
      · simpa [h, opponent_of, trap_mask_near] using htrap
    have hcan := @can_capture_on_trap A _ s t htr hlake_s2 hlake_t
    unfold move_to_target
    rw [hg]
    simp [hopp, hoppP, hcan]

/-! ## Boards with two pieces -/

theorem set_bit_zero {sq : Int} (h0 : 0 ≤ sq) (h1 : sq < 63) : set_bit 0 sq = 2 ^ sq.toNat := by
  unfold set_bit
  rw [NUM_SQUARES_eq, if_pos ⟨h0, h1⟩, shl64_one (by omega), Nat.zero_or]

theorem get_bit_zero_bb (sq : Int) : get_bit 0 sq = 0 := by
  unfold get_bit
  split <;> simp

theorem two_piece_bbs (keys : ZobristKeys) {A D : PieceType} {P : Player} {s t : Int}
    (hP : P = PLAYER_1 ∨ P = PLAYER_2) (hA : A ≠ NO_PIECE_TYPE) (hD : D ≠ NO_PIECE_TYPE)
    (hs : 0 ≤ s ∧ s < 63) (ht : 0 ≤ t ∧ t < 63) :
    (board_of keys [(t, D, opponent_of P), (s, A, P)]).piece_bbs =
      set_piece_bb (set_piece_bb (fun _ _ => 0) D (opponent_of P) (2 ^ t.toNat)) A P
        (2 ^ s.toNat) := by
  have hPne : P ≠ NO_PLAYER := by rcases hP with h | h <;> simp [h]
  have hopp : opponent_of P ≠ NO_PLAYER := by rcases hP with h | h <;> simp [h, opponent_of]
  have hoppP : ¬ (P = opponent_of P) := by rcases hP with h | h <;> simp [h, opponent_of]
  have g1 : ¬ (D = NO_PIECE_TYPE ∨ opponent_of P = NO_PLAYER ∨ t < 0 ∨ t ≥ NUM_SQUARES) := by
    rw [NUM_SQUARES_eq]
    rintro (h | h | h | h)
    · exact hD h
    · exact hopp h
    · omega
    · omega
  have g2 : ¬ (A = NO_PIECE_TYPE ∨ P = NO_PLAYER ∨ s < 0 ∨ s ≥ NUM_SQUARES) := by
    rw [NUM_SQUARES_eq]
    rintro (h | h | h | h)
    · exact hA h
    · exact hPne h
    · omega
    · omega
  have e1 : BoardState.add_piece keys BoardState.ctor t D (opponent_of P) =
      { BoardState.ctor with
        piece_bbs := set_piece_bb (fun _ _ => 0) D (opponent_of P) (2 ^ t.toNat)
        zobrist_hash := Zobrist.xor_piece_at_sq keys 0 D (opponent_of P) t } := by
    unfold BoardState.add_piece
    rw [if_neg g1]
    have : get_bit (BoardState.ctor.piece_bbs D (opponent_of P)) t = 0 := get_bit_zero_bb t
    rw [if_pos this]
    show _ = _
    simp only [BoardState.ctor, set_bit_zero ht.1 ht.2]
  unfold board_of
  rw [update_occupancy_boards_piece_bbs]
  simp only [List.foldl_cons, List.foldl_nil]
  rw [e1]
  unfold BoardState.add_piece
  rw [if_neg g2]
  have hz : set_piece_bb (fun _ _ => 0) D (opponent_of P) (2 ^ t.toNat) A P = 0 := by
    simp [set_piece_bb, hoppP]
  dsimp only
  rw [hz, if_pos (get_bit_zero_bb s), set_bit_zero hs.1 hs.2]

theorem two_piece_testBit (keys : ZobristKeys) {A D : PieceType} {P : Player} {s t : Int}
    (hP : P = PLAYER_1 ∨ P = PLAYER_2) (hA : A ≠ NO_PIECE_TYPE) (hD : D ≠ NO_PIECE_TYPE)
    (hs : 0 ≤ s ∧ s < 63) (ht : 0 ≤ t ∧ t < 63) (pt : PieceType) (p : Player) (i : Nat) :
    ((board_of keys [(t, D, opponent_of P), (s, A, P)]).piece_bbs pt p).testBit i = true ↔
      (pt = A ∧ p = P ∧ i = s.toNat) ∨ (pt = D ∧ p = opponent_of P ∧ i = t.toNat) := by
  have hoppP : ¬ (P = opponent_of P) := by rcases hP with h | h <;> simp [h, opponent_of]
  rw [two_piece_bbs keys hP hA hD hs ht]
  unfold set_piece_bb
  by_cases h1 : pt = A ∧ p = P
  · rw [if_pos h1, Nat.testBit_two_pow]
    obtain ⟨rfl, rfl⟩ := h1
    simp only [decide_eq_true_eq, true_and]
    constructor
    · intro h; exact Or.inl h.symm
    · rintro (h | ⟨_, h, _⟩)
      · exact h.symm
      · exact absurd h hoppP
  · rw [if_neg h1]
    by_cases h2 : pt = D ∧ p = opponent_of P
    · rw [if_pos h2, Nat.testBit_two_pow]
      obtain ⟨rfl, rfl⟩ := h2
      simp only [decide_eq_true_eq, true_and]
      constructor
      · intro h; exact Or.inr h.symm
      · rintro (⟨h, h', _⟩ | h)
        · exact absurd ⟨h, h'⟩ h1
        · exact h.symm
    · rw [if_neg h2]
      simp only [Nat.zero_testBit, Bool.false_eq_true, false_iff]
      rintro (⟨h, h', _⟩ | ⟨h, h', _⟩)
      · exact h1 ⟨h, h'⟩
      · exact h2 ⟨h, h'⟩

theorem two_piece_wf (keys : ZobristKeys) {A D : PieceType} {P : Player} {s t : Int}
    (hP : P = PLAYER_1 ∨ P = PLAYER_2) (hA : A ≠ NO_PIECE_TYPE) (hD : D ≠ NO_PIECE_TYPE)
    (hs : 0 ≤ s ∧ s < 63) (ht : 0 ≤ t ∧ t < 63) :
    ∀ pt p, (board_of keys [(t, D, opponent_of P), (s, A, P)]).piece_bbs pt p < 2 ^ 63 := by
  intro pt p
  apply Nat.lt_pow_two_of_testBit
  intro i hi
  by_contra hb
  have hb2 := (two_piece_testBit keys hP hA hD hs ht pt p i).mp (by simpa using hb)
  rcases hb2 with ⟨_, _, h⟩ | ⟨_, _, h⟩ <;> omega

theorem two_piece_one_per_square (keys : ZobristKeys) {A D : PieceType} {P : Player}
    {s t : Int} (hP : P = PLAYER_1 ∨ P = PLAYER_2) (hA : A ≠ NO_PIECE_TYPE)
    (hD : D ≠ NO_PIECE_TYPE) (hs : 0 ≤ s ∧ s < 63) (ht : 0 ≤ t ∧ t < 63) (hst : s ≠ t) :
    OnePiecePerSquare (board_of keys [(t, D, opponent_of P), (s, A, P)]) := by
  intro i pt1 pt2 p1 p2 _ _ _ _ h1 h2
  rw [two_piece_testBit keys hP hA hD hs ht] at h1 h2
  rcases h1 with ⟨a1, a2, a3⟩ | ⟨a1, a2, a3⟩ <;> rcases h2 with ⟨b1, b2, b3⟩ | ⟨b1, b2, b3⟩
  · exact ⟨a1.trans b1.symm, a2.trans b2.symm⟩
  · exfalso; omega
  · exfalso; omega
  · exact ⟨a1.trans b1.symm, a2.trans b2.symm⟩

theorem board_of_occupancy_consistent (keys : ZobristKeys)
    (pieces : List (Int × PieceType × Player)) : OccupancyConsistent (board_of keys pieces) :=
  update_occupancy_boards_consistent _

theorem orth_adjacent_ne {s t : Int} (h : OrthAdjacent s t) : s ≠ t := by
  obtain ⟨_, _, h3⟩ := h
  rintro rfl
  omega

/-! ## C5: the trap rule -/

/-- C5, counterexample.  A `PLAYER_1` ELEPHANT stands on D8, a trap next to its own den, and a
`PLAYER_2` CAT stands on D7 just below it.  The move list for `PLAYER_2` with an empty history
does not contain the capture, and contains no capture at all: a trap next to the defender's own
den does not weaken the defender. -/
theorem trap_rule_own_den_counterexample :
    get_bit (trap_mask_near PLAYER_1) 52 ≠ 0 ∧ OrthAdjacent 45 52 ∧
      get_bit ((board_of demo_keys [(52, ELEPHANT, PLAYER_1), (45, CAT, PLAYER_2)]).piece_bbs
        ELEPHANT PLAYER_1) 52 ≠ 0 ∧
      get_bit ((board_of demo_keys [(52, ELEPHANT, PLAYER_1), (45, CAT, PLAYER_2)]).piece_bbs
        CAT PLAYER_2) 45 ≠ 0 ∧
      (⟨45, 52, CAT, ELEPHANT⟩ : Move) ∉ generate_all_legal_moves demo_keys
        (board_of demo_keys [(52, ELEPHANT, PLAYER_1), (45, CAT, PLAYER_2)]) PLAYER_2 [] ∧
      ∀ m ∈ generate_all_legal_moves demo_keys
        (board_of demo_keys [(52, ELEPHANT, PLAYER_1), (45, CAT, PLAYER_2)]) PLAYER_2 [],
        m.piece_captured = NO_PIECE_TYPE := by
  decide

/-- C5, amended (trap rule).  On a board whose piece sets lie on the 63 squares, with at most
one piece per square and consistent occupancy: for every enemy piece standing on a trap square
adjacent to the attacker's den and every attacker of any type standing orthogonally adjacent to
it, `generate_all_legal_moves` for the attacker's side with an empty history contains the
capture of that piece, whatever the two ranks are. -/
theorem trap_rule_attackers_den (keys : ZobristKeys) (b : BoardState) (A D : PieceType)
    (P : Player) (s t : Int) (hP : P = PLAYER_1 ∨ P = PLAYER_2) (hA : A ≠ NO_PIECE_TYPE)
    (hD : D ≠ NO_PIECE_TYPE) (hwf : ∀ pt p, b.piece_bbs pt p < 2 ^ 63)
    (hone : OnePiecePerSquare b) (hocc : OccupancyConsistent b) (hadj : OrthAdjacent s t)
    (hatt : get_bit (b.piece_bbs A P) s ≠ 0)
    (hdef : get_bit (b.piece_bbs D (opponent_of P)) t ≠ 0)
    (htrap : get_bit (trap_mask_near P) t ≠ 0) :
    (⟨s, t, A, D⟩ : Move) ∈ generate_all_legal_moves keys b P [] := by
  obtain ⟨hs, ht, _⟩ := id hadj
  exact trap_capture_mem keys b A D P s t hP hA hD hwf hone hocc hadj
    ((get_bit_ne_zero_iff hs.1 hs.2).mp hatt) ((get_bit_ne_zero_iff ht.1 ht.2).mp hdef) htrap

/-- Witness for C5 (amended): a `PLAYER_1` CAT on D7 takes a `PLAYER_2` ELEPHANT standing on
D8, a trap next to `PLAYER_1`'s den. -/
theorem trap_rule_attackers_den_witness :
    (⟨45, 52, CAT, ELEPHANT⟩ : Move) ∈ generate_all_legal_moves demo_keys
      (board_of demo_keys [(52, ELEPHANT, opponent_of PLAYER_1), (45, CAT, PLAYER_1)])
      PLAYER_1 [] :=
  trap_rule_attackers_den demo_keys
    (board_of demo_keys [(52, ELEPHANT, opponent_of PLAYER_1), (45, CAT, PLAYER_1)])
    CAT ELEPHANT PLAYER_1 45 52 (Or.inl rfl) (by decide) (by decide)
    (two_piece_wf demo_keys (Or.inl rfl) (by decide) (by decide) (by decide) (by decide))
    (two_piece_one_per_square demo_keys (Or.inl rfl) (by decide) (by decide) (by decide)
      (by decide) (by decide))
    (board_of_occupancy_consistent demo_keys _) (by decide) (by decide) (by decide) (by decide)

/-! ## C6: the trap scenario -/

/-- C6 (trap scenario).  Let the attacker type `A` have a lower rank than the defender type
`D`, other than RAT against ELEPHANT, and let the board hold exactly the defender on `t` and the
attacker, of side `P`, on an orthogonally adjacent square `s`.  If `t` is a trap next to the
attacker's den, `generate_all_legal_moves` for `P` with an empty history contains the capture
`A x D`; if `s` and `t` are land squares off all six traps, it contains no capture. -/
theorem trap_scenario (keys : ZobristKeys) (A D : PieceType) (P : Player) (s t : Int)
    (hP : P = PLAYER_1 ∨ P = PLAYER_2) (hA : A ≠ NO_PIECE_TYPE)
    (hrank : PIECE_RANKS A < PIECE_RANKS D) (hnot : ¬ (A = RAT ∧ D = ELEPHANT))
    (hadj : OrthAdjacent s t) :
    (get_bit (trap_mask_near P) t ≠ 0 →
      (⟨s, t, A, D⟩ : Move) ∈ generate_all_legal_moves keys
        (board_of keys [(t, D, opponent_of P), (s, A, P)]) P []) ∧
    (get_bit LAND_SQUARES_MASK s ≠ 0 ∧ get_bit LAND_SQUARES_MASK t ≠ 0 ∧
      get_bit TRAPS_NEAR_P1_DEN_MASK s = 0 ∧ get_bit TRAPS_NEAR_P2_DEN_MASK s = 0 ∧
      get_bit TRAPS_NEAR_P1_DEN_MASK t = 0 ∧ get_bit TRAPS_NEAR_P2_DEN_MASK t = 0 →
      ∀ m ∈ generate_all_legal_moves keys
        (board_of keys [(t, D, opponent_of P), (s, A, P)]) P [],
        m.piece_captured = NO_PIECE_TYPE) := by
  obtain ⟨hs, ht, _⟩ := id hadj
  have hD : D ≠ NO_PIECE_TYPE := by
    rintro rfl
    cases A <;> simp [PIECE_RANKS] at hrank
  have hPne : P ≠ NO_PLAYER := by rcases hP with h | h <;> simp [h]
  have hoppP : ¬ (P = opponent_of P) := by rcases hP with h | h <;> simp [h, opponent_of]
  have hbits := two_piece_testBit keys hP hA hD hs ht
  have hwf := two_piece_wf keys hP hA hD hs ht
  constructor
  · intro htrap
    exact trap_capture_mem keys _ A D P s t hP hA hD hwf
      (two_piece_one_per_square keys hP hA hD hs ht (orth_adjacent_ne hadj))
      (board_of_occupancy_consistent keys _) hadj
      ((hbits A P s.toNat).mpr (Or.inl ⟨rfl, rfl, rfl⟩))
      ((hbits D (opponent_of P) t.toNat).mpr (Or.inr ⟨rfl, rfl, rfl⟩)) htrap
  · rintro ⟨_, _, _, _, hn1, hn2⟩ m hm
    by_contra hcap
    obtain ⟨_, pt, _, f, hf, t2, _, hmt⟩ :=
      mem_pseudo_legal_moves.mp (mem_generate_all_legal_moves.mp hm).1
    obtain ⟨_, _, _, hcase⟩ := move_to_target_some hmt
    rcases hcase with ⟨hno, _⟩ | ⟨⟨hd1, hd2⟩, hcan, _⟩
    · exact hcap hno
    · -- the attacker is the piece of type `A`
      rw [mem_scan_squares (lt_64_of_lt_63 (hwf pt P))] at hf
      have hpt : pt = A := by
        rcases (hbits pt P f.toNat).mp hf.2.2 with ⟨h, _, _⟩ | ⟨_, h, _⟩
        · exact h
        · exact absurd h hoppP
      -- the defender is the piece of type `D` on `t`
      obtain ⟨hr, _, _, hbit⟩ := get_piece_at_found hd1 rfl
      have hdef : (BoardState.get_piece_at
          (board_of keys [(t, D, opponent_of P), (s, A, P)]) t2).type = D ∧ t2 = t := by
        rcases (hbits _ _ t2.toNat).mp hbit with ⟨_, h, _⟩ | ⟨h, _, h3⟩
        · exact absurd h hd2
        · exact ⟨h, by omega⟩
      obtain ⟨hty, ht2⟩ := hdef
      subst ht2
      rw [hpt] at hcan
      rcases can_capture_rank hcan hn1 hn2 with ⟨h1, h2⟩ | ⟨h1, _⟩
      · exact hnot ⟨h1, hty ▸ h2⟩
      · rw [hty] at h1
        omega

/-- Witness for C6: a `PLAYER_1` CAT next to a `PLAYER_2` ELEPHANT, on D7 and D8 (a trap next
to `PLAYER_1`'s den). -/
theorem trap_scenario_witness :
    (get_bit (trap_mask_near PLAYER_1) 52 ≠ 0 →
      (⟨45, 52, CAT, ELEPHANT⟩ : Move) ∈ generate_all_legal_moves demo_keys
        (board_of demo_keys [(52, ELEPHANT, opponent_of PLAYER_1), (45, CAT, PLAYER_1)])
        PLAYER_1 []) ∧
    (get_bit LAND_SQUARES_MASK 45 ≠ 0 ∧ get_bit LAND_SQUARES_MASK 52 ≠ 0 ∧
      get_bit TRAPS_NEAR_P1_DEN_MASK 45 = 0 ∧ get_bit TRAPS_NEAR_P2_DEN_MASK 45 = 0 ∧
      get_bit TRAPS_NEAR_P1_DEN_MASK 52 = 0 ∧ get_bit TRAPS_NEAR_P2_DEN_MASK 52 = 0 →
      ∀ m ∈ generate_all_legal_moves demo_keys
        (board_of demo_keys [(52, ELEPHANT, opponent_of PLAYER_1), (45, CAT, PLAYER_1)])
        PLAYER_1 [],
        m.piece_captured = NO_PIECE_TYPE) :=
  trap_scenario demo_keys CAT ELEPHANT PLAYER_1 45 52 (Or.inl rfl) (by decide) (by decide)
    (by decide) (by decide)

/-! ## Lemmas on the search -/

theorem probe_tt_disabled {tt : TTState} (h : tt_disabled tt) (k : U64) : probe_tt tt k = none := by
  unfold probe_tt
  unfold tt_disabled at h
  rw [if_pos h]

theorem store_tt_entry_disabled {tt : TTState} (h : tt_disabled tt) (k : U64) (score depth : Int)
    (flag : EntryFlag) (mv : Move) : store_tt_entry tt k score depth flag mv = tt := by
  unfold store_tt_entry
  unfold tt_disabled at h
  rw [if_pos h]

theorem wrap_int_range (x : Int) : INT_MIN ≤ wrap_int x ∧ wrap_int x ≤ INT_MAX := by
  unfold wrap_int INT_MIN INT_MAX
  omega

theorem evaluate_board_range (pst : PST) (b : BoardState) (p : Player) :
    INT_MIN ≤ evaluate_board pst b p ∧ evaluate_board pst b p ≤ INT_MAX := by
  unfold evaluate_board
  dsimp only
  repeat' split
  all_goals first
    | exact wrap_int_range _
    | (simp only [WIN_SCORE, LOSS_SCORE, DRAW_SCORE, INT_MIN, INT_MAX]; omega)

theorem foldl_max_ge (l : List Int) : ∀ init : Int, init ≤ l.foldl max init := by
  induction l with
  | nil => intro init; exact le_refl _
  | cons x l ih => intro init; rw [List.foldl_cons]; exact le_trans (le_max_left _ _) (ih _)

theorem foldl_min_le (l : List Int) : ∀ init : Int, l.foldl min init ≤ init := by
  induction l with
  | nil => intro init; exact le_refl _
  | cons x l ih => intro init; rw [List.foldl_cons]; exact le_trans (ih _) (min_le_left _ _)

theorem foldl_max_range (l : List Int) (lo hi : Int) (h : ∀ x ∈ l, lo ≤ x ∧ x ≤ hi) :
    ∀ init : Int, lo ≤ init → init ≤ hi → lo ≤ l.foldl max init ∧ l.foldl max init ≤ hi := by
  induction l with
  | nil => intro init h1 h2; exact ⟨h1, h2⟩
  | cons x l ih =>
    intro init h1 h2
    rw [List.foldl_cons]
    have hx := h x (List.mem_cons_self _ _)
    exact ih (fun y hy => h y (List.mem_cons_of_mem _ hy)) _ (by omega) (by omega)

theorem foldl_min_range (l : List Int) (lo hi : Int) (h : ∀ x ∈ l, lo ≤ x ∧ x ≤ hi) :
    ∀ init : Int, lo ≤ init → init ≤ hi → lo ≤ l.foldl min init ∧ l.foldl min init ≤ hi := by
  induction l with
  | nil => intro init h1 h2; exact ⟨h1, h2⟩
  | cons x l ih =>
    intro init h1 h2
    rw [List.foldl_cons]
    have hx := h x (List.mem_cons_self _ _)
    exact ih (fun y hy => h y (List.mem_cons_of_mem _ hy)) _ (by omega) (by omega)

theorem foldl_max_eq_list_max (l : List Int) (hne : l ≠ []) (lo : Int) (h : ∀ x ∈ l, lo ≤ x) :
    l.foldl max lo = list_max l := by
  cases l with
  | nil => exact absurd rfl hne
  | cons x xs =>
    unfold list_max
    have hx := h x (List.mem_cons_self _ _)
    simp only [List.foldl_cons, List.headD_cons]
    rw [max_eq_right hx, max_self]

theorem foldl_min_eq_list_min (l : List Int) (hne : l ≠ []) (hi : Int) (h : ∀ x ∈ l, x ≤ hi) :
    l.foldl min hi = list_min l := by
  cases l with
  | nil => exact absurd rfl hne
  | cons x xs =>
    unfold list_min
    have hx := h x (List.mem_cons_self _ _)
    simp only [List.foldl_cons, List.headD_cons]
    rw [min_eq_right hx, min_self]

theorem minimax_range (keys : ZobristKeys) (pst : PST) (d : Nat) :
    ∀ (b : BoardState) (mx turn : Player) (hist : List BoardState),
      INT_MIN ≤ minimax keys pst d b mx turn hist ∧ minimax keys pst d b mx turn hist ≤ INT_MAX := by
  induction d with
  | zero => intro b mx turn hist; exact evaluate_board_range pst b mx
  | succ d ih =>
    intro b mx turn hist
    unfold minimax
    dsimp only
    split
    · exact evaluate_board_range pst b mx
    · split
      · split <;> (simp only [WIN_SCORE, LOSS_SCORE, INT_MIN, INT_MAX]; omega)
      · rename_i hne
        have hvals : ∀ x ∈ (generate_all_legal_moves keys b turn hist).map (fun m =>
            minimax keys pst d (make_move_on_copy keys b m) mx
              (make_move_on_copy keys b m).side_to_move (hist ++ [b])),
            INT_MIN ≤ x ∧ x ≤ INT_MAX := by
          intro x hx
          obtain ⟨m, _, rfl⟩ := List.mem_map.mp hx
          exact ih _ _ _ _
        have hne2 : (generate_all_legal_moves keys b turn hist).map (fun m =>
            minimax keys pst d (make_move_on_copy keys b m) mx
              (make_move_on_copy keys b m).side_to_move (hist ++ [b])) ≠ [] := by
          simpa using hne
        split
        · rw [← foldl_max_eq_list_max _ hne2 INT_MIN (fun x hx => (hvals x hx).1)]
          exact foldl_max_range _ _ _ hvals _ (le_refl _) (by decide)
        · rw [← foldl_min_eq_list_min _ hne2 INT_MAX (fun x hx => (hvals x hx).2)]
          exact foldl_min_range _ _ _ hvals _ (by decide) (le_refl _)

theorem bounds_step_max (a0 beta M e a mp mc : Int) (ha : a = max a0 M) (hab : a < beta)
    (hF : Bounds a0 beta M mp) (hc : Bounds a beta e mc) :
    Bounds a0 beta (if e > M then e else M) (max mp mc) ∧
      max a e = max a0 (if e > M then e else M) := by
  unfold Bounds at *
  split <;> omega

theorem bounds_step_min (alpha b0 M e bb mp mc : Int) (hb : bb = min b0 M) (hab : alpha < bb)
    (hF : Bounds alpha b0 M mp) (hc : Bounds alpha bb e mc) :
    Bounds alpha b0 (if e < M then e else M) (min mp mc) ∧
      min bb e = min b0 (if e < M then e else M) := by
  unfold Bounds at *
  split <;> omega

theorem max_loop_bounds (keys : ZobristKeys) (pst : PST) (search : SearchFn) (d : Nat)
    (hs : GoodSearch keys pst search d) (b : BoardState) (mx : Player) (hist : List BoardState)
    (a0 : Int) (ha0 : INT_MIN ≤ a0) :
    ∀ (moves : List Move) (st : LoopState) (mp : Int),
      tt_disabled st.tt → st.beta ≤ INT_MAX → st.alpha = max a0 st.best_eval →
      st.alpha < st.beta → Bounds a0 st.beta st.best_eval mp →
      (max_loop keys search b mx hist moves st).tt = st.tt ∧
        Bounds a0 st.beta (max_loop keys search b mx hist moves st).best_eval
          ((moves.map (fun m => minimax keys pst d (make_move_on_copy keys b m) mx
            (make_move_on_copy keys b m).side_to_move (hist ++ [b]))).foldl max mp) := by
  intro moves
  induction moves with
  | nil =>
    intro st mp _ _ _ _ hF
    exact ⟨rfl, hF⟩
  | cons move rest ih =>
    intro st mp htt hbeta ha hab hF
    obtain ⟨hrt, hrb⟩ := hs st.tt st.nodes (make_move_on_copy keys b move) st.alpha st.beta mx
      (make_move_on_copy keys b move).side_to_move (hist ++ [b]) htt hab
      (by rw [ha]; omega) hbeta
    obtain ⟨hstep, hal⟩ := bounds_step_max a0 st.beta st.best_eval _ st.alpha mp _ ha hab hF hrb
    unfold max_loop
    dsimp only
    rw [List.map_cons, List.foldl_cons]
    generalize hr : search st.tt st.nodes (make_move_on_copy keys b move) st.alpha st.beta mx
      (make_move_on_copy keys b move).side_to_move (hist ++ [b]) = r at *
    generalize hmc : minimax keys pst d (make_move_on_copy keys b move) mx
      (make_move_on_copy keys b move).side_to_move (hist ++ [b]) = mc at *
    split
    · rename_i hcut
      refine ⟨hrt, ?_⟩
      dsimp only
      have hge := foldl_max_ge (rest.map (fun m => minimax keys pst d (make_move_on_copy keys b m)
        mx (make_move_on_copy keys b m).side_to_move (hist ++ [b]))) (max mp mc)
      unfold Bounds at hstep ⊢
      omega
    · rename_i hcut
      have := ih
        { best_eval := if r.score > st.best_eval then r.score else st.best_eval
          best_move_found_at_this_node :=
            if r.score > st.best_eval then move else st.best_move_found_at_this_node
          alpha := max st.alpha r.score
          beta := st.beta
          flag_for_tt_store := st.flag_for_tt_store
          tt := r.tt
          nodes := r.nodes }
        (max mp mc) (by rw [hrt]; exact htt) hbeta hal (by dsimp only; omega) hstep
      obtain ⟨h1, h2⟩ := this
      exact ⟨h1.trans hrt, h2⟩

theorem min_loop_bounds (keys : ZobristKeys) (pst : PST) (search : SearchFn) (d : Nat)
    (hs : GoodSearch keys pst search d) (b : BoardState) (mx : Player) (hist : List BoardState)
    (b0 : Int) (hb0 : b0 ≤ INT_MAX) :
    ∀ (moves : List Move) (st : LoopState) (mp : Int),
      tt_disabled st.tt → INT_MIN ≤ st.alpha → st.beta = min b0 st.best_eval →
      st.alpha < st.beta → Bounds st.alpha b0 st.best_eval mp →
      (min_loop keys search b mx hist moves st).tt = st.tt ∧
        Bounds st.alpha b0 (min_loop keys search b mx hist moves st).best_eval
          ((moves.map (fun m => minimax keys pst d (make_move_on_copy keys b m) mx
            (make_move_on_copy keys b m).side_to_move (hist ++ [b]))).foldl min mp) := by
  intro moves
  induction moves with
  | nil =>
    intro st mp _ _ _ _ hF
    exact ⟨rfl, hF⟩
  | cons move rest ih =>
    intro st mp htt halpha hb hab hF
    obtain ⟨hrt, hrb⟩ := hs st.tt st.nodes (make_move_on_copy keys b move) st.alpha st.beta mx
      (make_move_on_copy keys b move).side_to_move (hist ++ [b]) htt hab halpha
      (by rw [hb]; omega)
    obtain ⟨hstep, hbe⟩ := bounds_step_min st.alpha b0 st.best_eval _ st.beta mp _ hb hab hF hrb
    unfold min_loop
    dsimp only
    rw [List.map_cons, List.foldl_cons]
    generalize hr : search st.tt st.nodes (make_move_on_copy keys b move) st.alpha st.beta mx
      (make_move_on_copy keys b move).side_to_move (hist ++ [b]) = r at *
    generalize hmc : minimax keys pst d (make_move_on_copy keys b move) mx
      (make_move_on_copy keys b move).side_to_move (hist ++ [b]) = mc at *
    split
    · rename_i hcut
      refine ⟨hrt, ?_⟩
      dsimp only
      have hle := foldl_min_le (rest.map (fun m => minimax keys pst d (make_move_on_copy keys b m)
        mx (make_move_on_copy keys b m).side_to_move (hist ++ [b]))) (min mp mc)
      unfold Bounds at hstep ⊢
      omega
    · rename_i hcut
      have := ih
        { best_eval := if r.score < st.best_eval then r.score else st.best_eval
          best_move_found_at_this_node :=
            if r.score < st.best_eval then move else st.best_move_found_at_this_node
          alpha := st.alpha
          beta := min st.beta r.score
          flag_for_tt_store := st.flag_for_tt_store
          tt := r.tt
          nodes := r.nodes }
        (min mp mc) (by rw [hrt]; exact htt) halpha hbe (by dsimp only; omega) hstep
      obtain ⟨h1, h2⟩ := this
      exact ⟨h1.trans hrt, h2⟩

theorem bounds_refl (alpha beta v : Int) : Bounds alpha beta v v := by
  unfold Bounds; omega

theorem search_node_zero_good (keys : ZobristKeys) (pst : PST) (search : SearchFn) :
    GoodSearch keys pst (search_node keys pst search 0) 0 := by
  intro tt nodes b alpha beta mx turn hist htt _ _ _
  unfold search_node
  dsimp only
  rw [probe_tt_disabled htt]
  dsimp only
  unfold search_after_probe
  dsimp only
  rw [if_pos (Or.inl rfl)]
  exact ⟨store_tt_entry_disabled htt _ _ _ _ _, bounds_refl _ _ _⟩

theorem search_node_succ_good (keys : ZobristKeys) (pst : PST) (search : SearchFn) (d : Nat)
    (hs : GoodSearch keys pst search d) :
    GoodSearch keys pst (search_node keys pst search (d + 1)) (d + 1) := by
  intro tt nodes b alpha beta mx turn hist htt hab ha hb
  unfold search_node
  dsimp only
  rw [probe_tt_disabled htt]
  dsimp only
  unfold search_after_probe minimax
  dsimp only
  by_cases hleaf : evaluate_board pst b mx = WIN_SCORE ∨ evaluate_board pst b mx = LOSS_SCORE
  · rw [if_pos (Or.inr hleaf), if_pos hleaf]
    exact ⟨store_tt_entry_disabled htt _ _ _ _ _, bounds_refl _ _ _⟩
  · have hleaf2 : ¬ (d + 1 = 0 ∨ evaluate_board pst b mx = WIN_SCORE ∨
        evaluate_board pst b mx = LOSS_SCORE) := by
      rintro (h | h)
      · omega
      · exact hleaf h
    rw [if_neg hleaf2, if_neg hleaf]
    by_cases hmoves : generate_all_legal_moves keys b turn hist = []
    · rw [hmoves]
      simp only [List.isEmpty_nil, if_true]
      exact ⟨store_tt_entry_disabled htt _ _ _ _ _, bounds_refl _ _ _⟩
    · have hne : (generate_all_legal_moves keys b turn hist).isEmpty = false := by
        cases hg : generate_all_legal_moves keys b turn hist with
        | nil => exact absurd hg hmoves
        | cons _ _ => rfl
      rw [hne, if_neg hmoves]
      simp only [Bool.false_eq_true, if_false, order_moves]
      have hvals : ∀ x ∈ (generate_all_legal_moves keys b turn hist).map (fun m =>
          minimax keys pst d (make_move_on_copy keys b m) mx
            (make_move_on_copy keys b m).side_to_move (hist ++ [b])),
          INT_MIN ≤ x ∧ x ≤ INT_MAX := by
        intro x hx
        obtain ⟨m, _, rfl⟩ := List.mem_map.mp hx
        exact minimax_range keys pst d _ _ _ _
      have hne2 : (generate_all_legal_moves keys b turn hist).map (fun m =>
          minimax keys pst d (make_move_on_copy keys b m) mx
            (make_move_on_copy keys b m).side_to_move (hist ++ [b])) ≠ [] := by
        simpa using hmoves
      by_cases hturn : turn = mx
      · rw [if_pos hturn, if_pos hturn]
        have hinit : Bounds alpha beta INT_MIN INT_MIN := by unfold Bounds; omega
        obtain ⟨h1, h2⟩ := max_loop_bounds keys pst search d hs b mx hist alpha ha
          (generate_all_legal_moves keys b turn hist)
          { best_eval := INT_MIN, best_move_found_at_this_node := Move.null, alpha := alpha,
            beta := beta, flag_for_tt_store := EntryFlag.UPPER_BOUND, tt := tt,
            nodes := nodes + 1 }
          INT_MIN htt hb (by dsimp only; omega) hab hinit
        rw [foldl_max_eq_list_max _ hne2 INT_MIN (fun x hx => (hvals x hx).1)] at h2
        refine ⟨?_, h2⟩
        dsimp only
        rw [store_tt_entry_disabled (by rw [h1]; exact htt)]
        exact h1
      · rw [if_neg hturn, if_neg hturn]
        have hinit : Bounds alpha beta INT_MAX INT_MAX := by unfold Bounds; omega
        obtain ⟨h1, h2⟩ := min_loop_bounds keys pst search d hs b mx hist beta hb
          (generate_all_legal_moves keys b turn hist)
          { best_eval := INT_MAX, best_move_found_at_this_node := Move.null, alpha := alpha,
            beta := beta, flag_for_tt_store := EntryFlag.LOWER_BOUND, tt := tt,
            nodes := nodes + 1 }
          INT_MAX htt ha (by dsimp only; omega) hab hinit
        rw [foldl_min_eq_list_min _ hne2 INT_MAX (fun x hx => (hvals x hx).2)] at h2
        refine ⟨?_, h2⟩
        dsimp only
        rw [store_tt_entry_disabled (by rw [h1]; exact htt)]
        exact h1

theorem alpha_beta_search_good (keys : ZobristKeys) (pst : PST) (d : Nat) :
    GoodSearch keys pst (alpha_beta_search keys pst d) d := by
  induction d with
  | zero =>
    unfold alpha_beta_search
    exact search_node_zero_good keys pst _
  | succ d ih =>
    unfold alpha_beta_search
    exact search_node_succ_good keys pst _ d ih

/-! ## C8: alpha-beta correctness -/

/-- C8 (alpha-beta correctness).  With the transposition table disabled, for every board,
history, maximizing player and depth, `alpha_beta_search` called with the full window
`(INT_MIN, INT_MAX)` and the board's side to move returns the score of the exhaustive minimax
of the same depth. -/
theorem alpha_beta_eq_minimax (keys : ZobristKeys) (pst : PST) (tt : TTState)
    (htt : tt.tt_initialized = false ∨ tt.tt_num_entries = 0) (depth : Nat) (nodes : Int)
    (b : BoardState) (maximizer : Player) (history : List BoardState) :
    (alpha_beta_search keys pst depth tt nodes b INT_MIN INT_MAX maximizer b.side_to_move
        history).score =
      minimax keys pst depth b maximizer b.side_to_move history := by
  obtain ⟨_, hb⟩ := alpha_beta_search_good keys pst depth tt nodes b INT_MIN INT_MAX maximizer
    b.side_to_move history htt (by decide) (le_refl _) (le_refl _)
  obtain ⟨h1, h2⟩ := minimax_range keys pst depth b maximizer b.side_to_move history
  unfold Bounds at hb
  omega

/-- Witness for C8: the start position searched two plies deep on the never-initialised
table. -/
theorem alpha_beta_eq_minimax_witness :
    (alpha_beta_search demo_keys (fun _ _ _ => 0) 2 TTState.static_init 0
        (BoardState.setup_initial_board demo_keys) INT_MIN INT_MAX PLAYER_1
        (BoardState.setup_initial_board demo_keys).side_to_move []).score =
      minimax demo_keys (fun _ _ _ => 0) 2 (BoardState.setup_initial_board demo_keys) PLAYER_1
        (BoardState.setup_initial_board demo_keys).side_to_move [] :=
  alpha_beta_eq_minimax demo_keys (fun _ _ _ => 0) TTState.static_init (Or.inl rfl) 2 0
    (BoardState.setup_initial_board demo_keys) PLAYER_1 []

theorem max_loop_range (keys : ZobristKeys) (search : SearchFn) (hs : RangeSearch search)
    (b : BoardState) (mx : Player) (hist : List BoardState) :
    ∀ (moves : List Move) (st : LoopState), tt_disabled st.tt →
      INT_MIN ≤ st.best_eval → st.best_eval ≤ INT_MAX →
      (max_loop keys search b mx hist moves st).tt = st.tt ∧
        INT_MIN ≤ (max_loop keys search b mx hist moves st).best_eval ∧
        (max_loop keys search b mx hist moves st).best_eval ≤ INT_MAX := by
  intro moves
  induction moves with
  | nil => intro st _ h1 h2; exact ⟨rfl, h1, h2⟩
  | cons move rest ih =>
    intro st htt h1 h2
    obtain ⟨hrt, hr1, hr2⟩ := hs st.tt st.nodes (make_move_on_copy keys b move) st.alpha st.beta
      mx (make_move_on_copy keys b move).side_to_move (hist ++ [b]) htt
    unfold max_loop
    dsimp only
    generalize search st.tt st.nodes (make_move_on_copy keys b move) st.alpha st.beta mx
      (make_move_on_copy keys b move).side_to_move (hist ++ [b]) = r at *
    split
    · refine ⟨hrt, ?_, ?_⟩ <;> dsimp only <;> split <;> omega
    · obtain ⟨g1, g2, g3⟩ := ih
        { best_eval := if r.score > st.best_eval then r.score else st.best_eval
          best_move_found_at_this_node :=
            if r.score > st.best_eval then move else st.best_move_found_at_this_node
          alpha := max st.alpha r.score
          beta := st.beta
          flag_for_tt_store := st.flag_for_tt_store
          tt := r.tt
          nodes := r.nodes }
        (by rw [hrt]; exact htt) (by dsimp only; split <;> omega) (by dsimp only; split <;> omega)
      exact ⟨g1.trans hrt, g2, g3⟩

theorem min_loop_range (keys : ZobristKeys) (search : SearchFn) (hs : RangeSearch search)
    (b : BoardState) (mx : Player) (hist : List BoardState) :
    ∀ (moves : List Move) (st : LoopState), tt_disabled st.tt →
      INT_MIN ≤ st.best_eval → st.best_eval ≤ INT_MAX →
      (min_loop keys search b mx hist moves st).tt = st.tt ∧
        INT_MIN ≤ (min_loop keys search b mx hist moves st).best_eval ∧
        (min_loop keys search b mx hist moves st).best_eval ≤ INT_MAX := by
  intro moves
  induction moves with
  | nil => intro st _ h1 h2; exact ⟨rfl, h1, h2⟩
  | cons move rest ih =>
    intro st htt h1 h2
    obtain ⟨hrt, hr1, hr2⟩ := hs st.tt st.nodes (make_move_on_copy keys b move) st.alpha st.beta
      mx (make_move_on_copy keys b move).side_to_move (hist ++ [b]) htt
    unfold min_loop
    dsimp only
    generalize search st.tt st.nodes (make_move_on_copy keys b move) st.alpha st.beta mx
      (make_move_on_copy keys b move).side_to_move (hist ++ [b]) = r at *
    split
    · refine ⟨hrt, ?_, ?_⟩ <;> dsimp only <;> split <;> omega
    · obtain ⟨g1, g2, g3⟩ := ih
        { best_eval := if r.score < st.best_eval then r.score else st.best_eval
          best_move_found_at_this_node :=
            if r.score < st.best_eval then move else st.best_move_found_at_this_node
          alpha := st.alpha
          beta := min st.beta r.score
          flag_for_tt_store := st.flag_for_tt_store
          tt := r.tt
          nodes := r.nodes }
        (by rw [hrt]; exact htt) (by dsimp only; split <;> omega) (by dsimp only; split <;> omega)
      exact ⟨g1.trans hrt, g2, g3⟩

theorem search_node_range (keys : ZobristKeys) (pst : PST) (search : SearchFn) (depth : Nat)
    (hs : RangeSearch search) : RangeSearch (search_node keys pst search depth) := by
  intro tt nodes b alpha beta mx turn hist htt
  have hW : INT_MIN ≤ WIN_SCORE ∧ WIN_SCORE ≤ INT_MAX := by decide
  have hL : INT_MIN ≤ LOSS_SCORE ∧ LOSS_SCORE ≤ INT_MAX := by decide
  unfold search_node
  dsimp only
  rw [probe_tt_disabled htt]
  dsimp only
  unfold search_after_probe
  dsimp only
  split
  · exact ⟨store_tt_entry_disabled htt _ _ _ _ _, evaluate_board_range pst b mx⟩
  · split
    · refine ⟨store_tt_entry_disabled htt _ _ _ _ _, ?_⟩
      dsimp only
      split
      · exact hL
      · exact hW
    · split
      · obtain ⟨h1, h2⟩ := max_loop_range keys search hs b mx hist
          (order_moves none (generate_all_legal_moves keys b turn hist))
          { best_eval := INT_MIN, best_move_found_at_this_node := Move.null, alpha := alpha,
            beta := beta, flag_for_tt_store := EntryFlag.UPPER_BOUND, tt := tt,
            nodes := nodes + 1 }
          htt (le_refl _) (by show INT_MIN ≤ INT_MAX; decide)
        refine ⟨?_, h2⟩
        dsimp only
        rw [store_tt_entry_disabled (by rw [h1]; exact htt)]
        exact h1
      · obtain ⟨h1, h2⟩ := min_loop_range keys search hs b mx hist
          (order_moves none (generate_all_legal_moves keys b turn hist))
          { best_eval := INT_MAX, best_move_found_at_this_node := Move.null, alpha := alpha,
            beta := beta, flag_for_tt_store := EntryFlag.LOWER_BOUND, tt := tt,
            nodes := nodes + 1 }
          htt (by show INT_MIN ≤ INT_MAX; decide) (le_refl _)
        refine ⟨?_, h2⟩
        dsimp only
        rw [store_tt_entry_disabled (by rw [h1]; exact htt)]
        exact h1

theorem alpha_beta_search_range (keys : ZobristKeys) (pst : PST) (d : Nat) :
    RangeSearch (alpha_beta_search keys pst d) := by
  induction d with
  | zero =>
    unfold alpha_beta_search
    apply search_node_range
    intro tt nodes b alpha beta mx turn hist _
    exact ⟨rfl, by show INT_MIN ≤ (0 : Int); decide, by show (0 : Int) ≤ INT_MAX; decide⟩
  | succ d ih =>
    unfold alpha_beta_search
    exact search_node_range keys pst _ _ ih

theorem root_loop_cons (keys : ZobristKeys) (pst : PST) (b : BoardState) (sd : Nat)
    (hist : List BoardState) (beta : Int) (p : Int × Move) (rest : List (Int × Move))
    (st : RootState) :
    root_loop keys pst b sd hist beta (p :: rest) st =
      root_loop keys pst b sd hist beta rest
        { best_move :=
            if (decide (¬ st.first_move_evaluated = true ∨
              (alpha_beta_search keys pst (sd - 1) st.tt 0 (make_move_on_copy keys b p.2) st.alpha
                beta PLAYER_1 (make_move_on_copy keys b p.2).side_to_move (hist ++ [b])).score
                > st.final_score)) = true
            then p.2 else st.best_move
          final_score :=
            if (decide (¬ st.first_move_evaluated = true ∨
              (alpha_beta_search keys pst (sd - 1) st.tt 0 (make_move_on_copy keys b p.2) st.alpha
                beta PLAYER_1 (make_move_on_copy keys b p.2).side_to_move (hist ++ [b])).score
                > st.final_score)) = true
            then (alpha_beta_search keys pst (sd - 1) st.tt 0 (make_move_on_copy keys b p.2)
              st.alpha beta PLAYER_1 (make_move_on_copy keys b p.2).side_to_move
              (hist ++ [b])).score
            else st.final_score
          first_move_evaluated :=
            if (decide (¬ st.first_move_evaluated = true ∨
              (alpha_beta_search keys pst (sd - 1) st.tt 0 (make_move_on_copy keys b p.2) st.alpha
                beta PLAYER_1 (make_move_on_copy keys b p.2).side_to_move (hist ++ [b])).score
                > st.final_score)) = true
            then true else st.first_move_evaluated
          alpha := max st.alpha
            (if (decide (¬ st.first_move_evaluated = true ∨
              (alpha_beta_search keys pst (sd - 1) st.tt 0 (make_move_on_copy keys b p.2) st.alpha
                beta PLAYER_1 (make_move_on_copy keys b p.2).side_to_move (hist ++ [b])).score
                > st.final_score)) = true
            then (alpha_beta_search keys pst (sd - 1) st.tt 0 (make_move_on_copy keys b p.2)
              st.alpha beta PLAYER_1 (make_move_on_copy keys b p.2).side_to_move
              (hist ++ [b])).score
            else st.final_score)
          total_nodes_for_search_at_root := st.total_nodes_for_search_at_root +
            (alpha_beta_search keys pst (sd - 1) st.tt 0 (make_move_on_copy keys b p.2) st.alpha
              beta PLAYER_1 (make_move_on_copy keys b p.2).side_to_move (hist ++ [b])).nodes
          tt := (alpha_beta_search keys pst (sd - 1) st.tt 0 (make_move_on_copy keys b p.2)
            st.alpha beta PLAYER_1 (make_move_on_copy keys b p.2).side_to_move
            (hist ++ [b])).tt } := rfl

theorem root_loop_spec (keys : ZobristKeys) (pst : PST) (b : BoardState) (sd : Nat)
    (hist : List BoardState) :
    ∀ (rest : List (Int × Move)) (st : RootState), tt_disabled st.tt →
      (st.first_move_evaluated = true →
        st.alpha = st.final_score ∧ INT_MIN ≤ st.final_score ∧ st.final_score ≤ INT_MAX) →
      (st.first_move_evaluated = false → st.alpha = INT_MIN) →
      (root_loop keys pst b sd hist INT_MAX rest st).tt = st.tt ∧
      (∀ p ∈ rest, minimax keys pst (sd - 1) (make_move_on_copy keys b p.2) PLAYER_1
          (make_move_on_copy keys b p.2).side_to_move (hist ++ [b]) ≤
        (root_loop keys pst b sd hist INT_MAX rest st).final_score) ∧
      (st.first_move_evaluated = true →
        st.final_score ≤ (root_loop keys pst b sd hist INT_MAX rest st).final_score) ∧
      (((root_loop keys pst b sd hist INT_MAX rest st).best_move = st.best_move ∧
          (root_loop keys pst b sd hist INT_MAX rest st).final_score = st.final_score ∧
          (st.first_move_evaluated = true ∨ rest = [])) ∨
        ∃ p ∈ rest, p.2 = (root_loop keys pst b sd hist INT_MAX rest st).best_move ∧
          minimax keys pst (sd - 1) (make_move_on_copy keys b p.2) PLAYER_1
            (make_move_on_copy keys b p.2).side_to_move (hist ++ [b]) =
          (root_loop keys pst b sd hist INT_MAX rest st).final_score) := by
  intro rest
  induction rest with
  | nil =>
    intro st _ _ _
    exact ⟨rfl, fun p hp => absurd hp (List.not_mem_nil p), fun _ => le_refl _,
      Or.inl ⟨rfl, rfl, Or.inr rfl⟩⟩
  | cons p rest ih =>
    intro st htt h1 h2
    rw [root_loop_cons]
    obtain ⟨hrt, hr1, hr2⟩ := alpha_beta_search_range keys pst (sd - 1) st.tt 0
      (make_move_on_copy keys b p.2) st.alpha INT_MAX PLAYER_1
      (make_move_on_copy keys b p.2).side_to_move (hist ++ [b]) htt
    have hgood := alpha_beta_search_good keys pst (sd - 1) st.tt 0
      (make_move_on_copy keys b p.2) st.alpha INT_MAX PLAYER_1
      (make_move_on_copy keys b p.2).side_to_move (hist ++ [b]) htt
    obtain ⟨hm1, hm2⟩ := minimax_range keys pst (sd - 1) (make_move_on_copy keys b p.2) PLAYER_1
      (make_move_on_copy keys b p.2).side_to_move (hist ++ [b])
    generalize alpha_beta_search keys pst (sd - 1) st.tt 0 (make_move_on_copy keys b p.2)
      st.alpha INT_MAX PLAYER_1 (make_move_on_copy keys b p.2).side_to_move (hist ++ [b]) = r at *
    generalize hmc : minimax keys pst (sd - 1) (make_move_on_copy keys b p.2) PLAYER_1
      (make_move_on_copy keys b p.2).side_to_move (hist ++ [b]) = mc at *
    cases hf : st.first_move_evaluated with
    | false =>
      have ha := h2 hf
      have hb := (hgood (by rw [ha]; decide) (by rw [ha]) (le_refl _)).2
      have hsc : r.score = mc := by
        rw [ha] at hb
        unfold Bounds at hb
        omega
      simp only [Bool.false_eq_true, not_false_eq_true, true_or, decide_True, if_true]
      obtain ⟨g1, g2, g3, g4⟩ := ih
        { best_move := p.2, final_score := r.score, first_move_evaluated := true,
          alpha := max st.alpha r.score,
          total_nodes_for_search_at_root := st.total_nodes_for_search_at_root + r.nodes,
          tt := r.tt }
        (by rw [hrt]; exact htt)
        (fun _ => ⟨by dsimp only; rw [ha]; omega, hr1, hr2⟩)
        (fun h => by simp at h)
      have g3' := g3 rfl
      dsimp only at g3' g4
      refine ⟨g1.trans hrt, ?_, fun h => by simp at h, ?_⟩
      · intro q hq
        rcases List.mem_cons.mp hq with rfl | hq
        · rw [hmc]; omega
        · exact g2 q hq
      · right
        rcases g4 with ⟨e1, e2, _⟩ | ⟨q, hq, e1, e2⟩
        · exact ⟨p, List.mem_cons_self _ _, e1.symm, by rw [hmc, e2, hsc]⟩
        · exact ⟨q, List.mem_cons_of_mem _ hq, e1, e2⟩
    | true =>
      obtain ⟨ha, hF1, hF2⟩ := h1 hf
      have hb : st.alpha < INT_MAX → Bounds st.alpha INT_MAX r.score mc := fun h =>
        (hgood h (by rw [ha]; exact hF1) (le_refl _)).2
      by_cases htake : r.score > st.final_score
      · have hsc : r.score = mc := by
          have := hb (by rw [ha]; omega)
          rw [ha] at this
          unfold Bounds at this
          omega
        simp only [htake, or_true, decide_True, if_true]
        obtain ⟨g1, g2, g3, g4⟩ := ih
          { best_move := p.2, final_score := r.score, first_move_evaluated := true,
            alpha := max st.alpha r.score,
            total_nodes_for_search_at_root := st.total_nodes_for_search_at_root + r.nodes,
            tt := r.tt }
          (by rw [hrt]; exact htt)
          (fun _ => ⟨by dsimp only; rw [ha]; omega, hr1, hr2⟩)
          (fun h => by simp at h)
        have g3' := g3 rfl
        dsimp only at g3' g4
        refine ⟨g1.trans hrt, ?_, fun _ => by omega, ?_⟩
        · intro q hq
          rcases List.mem_cons.mp hq with rfl | hq
          · rw [hmc]; omega
          · exact g2 q hq
        · right
          rcases g4 with ⟨e1, e2, _⟩ | ⟨q, hq, e1, e2⟩
          · exact ⟨p, List.mem_cons_self _ _, e1.symm, by rw [hmc, e2, hsc]⟩
          · exact ⟨q, List.mem_cons_of_mem _ hq, e1, e2⟩
      · have hmcle : mc ≤ st.final_score := by
          by_cases hmax : st.alpha < INT_MAX
          · have := hb hmax
            rw [ha] at this
            unfold Bounds at this
            omega
          · omega
        simp only [htake, or_false, Bool.true_eq_false, not_true_eq_false, decide_False,
          Bool.false_eq_true, if_false]
        obtain ⟨g1, g2, g3, g4⟩ := ih
          { best_move := st.best_move, final_score := st.final_score,
            first_move_evaluated := true,
            alpha := max st.alpha st.final_score,
            total_nodes_for_search_at_root := st.total_nodes_for_search_at_root + r.nodes,
            tt := r.tt }
          (by rw [hrt]; exact htt)
          (fun _ => ⟨by dsimp only; rw [ha]; omega, hF1, hF2⟩)
          (fun h => by simp at h)
        have g3' := g3 rfl
        dsimp only at g3' g4
        refine ⟨g1.trans hrt, ?_, fun _ => g3', ?_⟩
        · intro q hq
          rcases List.mem_cons.mp hq with rfl | hq
          · rw [hmc]; omega
          · exact g2 q hq
        · rcases g4 with ⟨e1, e2, _⟩ | ⟨q, hq, e1, e2⟩
          · exact Or.inl ⟨e1, e2, Or.inl trivial⟩
          · exact Or.inr ⟨q, List.mem_cons_of_mem _ hq, e1, e2⟩

theorem scan_loop_nonneg (fuel : Nat) : ∀ (bb : U64) (sq : Int), sq ∈ scan_loop fuel bb → 0 ≤ sq := by
  induction fuel with
  | zero => intro bb sq h; simp [scan_loop] at h
  | succ f ih =>
    intro bb sq h
    unfold scan_loop at h
    by_cases hpos : bb > 0
    · rw [if_pos hpos, pop_lsb_of_ne_zero (Nat.ne_of_gt hpos)] at h
      dsimp only at h
      have hk : ¬ ((ctzll bb : Int) = -1) := by omega
      rw [if_neg hk] at h
      rcases List.mem_cons.mp h with rfl | h
      · exact Int.natCast_nonneg _
      · exact ih _ _ h
    · rw [if_neg hpos] at h
      simp at h

theorem generated_from_sq_nonneg {keys : ZobristKeys} {b : BoardState} {p : Player}
    {hist : List BoardState} {m : Move} (hm : m ∈ generate_all_legal_moves keys b p hist) :
    0 ≤ m.from_sq := by
  obtain ⟨_, pt, _, f, hf, t, _, hmt⟩ :=
    mem_pseudo_legal_moves.mp (mem_generate_all_legal_moves.mp hm).1
  obtain ⟨e1, _⟩ := move_to_target_some hmt
  rw [e1]
  exact scan_loop_nonneg 64 _ f hf

theorem foldl_max_eq_of (l : List Int) (v : Int) (hle : ∀ x ∈ l, x ≤ v) :
    ∀ init : Int, init ≤ v → (init = v ∨ v ∈ l) → l.foldl max init = v := by
  induction l with
  | nil =>
    intro init _ h
    rcases h with h | h
    · exact h
    · exact absurd h (List.not_mem_nil v)
  | cons x l ih =>
    intro init hi h
    rw [List.foldl_cons]
    have hx := hle x (List.mem_cons_self _ _)
    apply ih (fun y hy => hle y (List.mem_cons_of_mem _ hy)) _ (by omega)
    rcases h with h | h
    · left; omega
    · rcases List.mem_cons.mp h with h | h
      · left; omega
      · right; exact h

theorem list_max_eq_of (l : List Int) (v : Int) (hmem : v ∈ l) (hle : ∀ x ∈ l, x ≤ v) :
    list_max l = v := by
  unfold list_max
  cases l with
  | nil => exact absurd hmem (List.not_mem_nil v)
  | cons x xs =>
    exact foldl_max_eq_of _ v hle _ (hle x (List.mem_cons_self _ _)) (Or.inr hmem)

/-! ## C9: root choice -/

/-- C9 (root choice).  With the transposition table disabled, for every board on which
`PLAYER_1` has a legal move, every history, every search depth of at least 1 and every
ordering the sort of the root moves may produce, `find_best_ai_move` returns as `final_score`
the maximum over all legal root moves of the exhaustive minimax value, `search_depth - 1`
plies deep, of the position after the move, and as `best_move` a legal root move whose value
is that maximum. -/
theorem root_choice (keys : ZobristKeys) (pst : PST) (sorter : RootSort) (tt : TTState)
    (htt : tt.tt_initialized = false ∨ tt.tt_num_entries = 0) (b : BoardState)
    (history : List BoardState) (search_depth : Nat) (hd : 1 ≤ search_depth)
    (hlegal : generate_all_legal_moves keys b PLAYER_1 history ≠ []) :
    (find_best_ai_move keys pst sorter tt b search_depth history).1.final_score =
        list_max ((generate_all_legal_moves keys b PLAYER_1 history).map fun m =>
          minimax keys pst (search_depth - 1) (make_move_on_copy keys b m) PLAYER_1
            (make_move_on_copy keys b m).side_to_move (history ++ [b])) ∧
      (find_best_ai_move keys pst sorter tt b search_depth history).1.best_move ∈
        generate_all_legal_moves keys b PLAYER_1 history ∧
      minimax keys pst (search_depth - 1)
          (make_move_on_copy keys b
            (find_best_ai_move keys pst sorter tt b search_depth history).1.best_move) PLAYER_1
          (make_move_on_copy keys b
            (find_best_ai_move keys pst sorter tt b search_depth history).1.best_move).side_to_move
          (history ++ [b]) =
        (find_best_ai_move keys pst sorter tt b search_depth history).1.final_score := by
  -- the embedding passes `search_depth - 1` to the search, which is the C++ value for
  -- `search_depth ≥ 1`
  have _ := hd
  have hne : (generate_all_legal_moves keys b PLAYER_1 history).isEmpty = false := by
    cases hg : generate_all_legal_moves keys b PLAYER_1 history with
    | nil => exact absurd hg hlegal
    | cons _ _ => rfl
  unfold find_best_ai_move
  dsimp only
  simp only [hne, Bool.false_eq_true, if_false, not_false_eq_true, and_true]
  generalize hsc : @List.map Move (Int × Move) _
    (generate_all_legal_moves keys b PLAYER_1 history) = scored
  have hperm := sorter.perm scored
  generalize sorter.sort scored = sorted at *
  have hsnd : ∀ m, m ∈ generate_all_legal_moves keys b PLAYER_1 history ↔
      ∃ p ∈ sorted, p.2 = m := by
    intro m
    constructor
    · intro hm
      have hex : ∃ p ∈ scored, p.2 = m := by
        rw [← hsc]
        exact ⟨_, List.mem_map.mpr ⟨m, hm, rfl⟩, rfl⟩
      obtain ⟨p, hp, e⟩ := hex
      exact ⟨p, hperm.symm.subset hp, e⟩
    · rintro ⟨p, hp, rfl⟩
      have hp2 := hperm.subset hp
      rw [← hsc] at hp2
      obtain ⟨m, hm, rfl⟩ := List.mem_map.mp hp2
      exact hm
  have hsorted_ne : sorted ≠ [] := by
    intro h
    rw [h] at hperm
    have := hperm.length_eq
    rw [← hsc] at this
    simp only [List.length_nil, List.length_map] at this
    exact hlegal (List.length_eq_zero.mp this.symm)
  obtain ⟨_, g2, _, g4⟩ := root_loop_spec keys pst b search_depth history sorted
    { best_move := AiMoveResult.ctor.best_move, final_score := AiMoveResult.ctor.final_score,
      first_move_evaluated := false, alpha := INT_MIN, total_nodes_for_search_at_root := 0,
      tt := tt }
    htt (fun h => by simp at h) (fun _ => rfl)
  generalize root_loop keys pst b search_depth history INT_MAX sorted
    { best_move := AiMoveResult.ctor.best_move, final_score := AiMoveResult.ctor.final_score,
      first_move_evaluated := false, alpha := INT_MIN, total_nodes_for_search_at_root := 0,
      tt := tt } = st at *
  have hbest : ∃ p ∈ sorted, p.2 = st.best_move ∧
      minimax keys pst (search_depth - 1) (make_move_on_copy keys b p.2) PLAYER_1
        (make_move_on_copy keys b p.2).side_to_move (history ++ [b]) = st.final_score := by
    rcases g4 with ⟨_, _, h | h⟩ | h
    · simp at h
    · exact absurd h hsorted_ne
    · exact h
  obtain ⟨p, hp, hp1, hp2⟩ := hbest
  have hmem : st.best_move ∈ generate_all_legal_moves keys b PLAYER_1 history :=
    (hsnd _).mpr ⟨p, hp, hp1⟩
  have hfrom : ¬ (st.best_move.from_sq = -1) := by
    have := generated_from_sq_nonneg hmem
    omega
  simp only [hfrom, if_false]
  rw [hp1] at hp2
  refine ⟨?_, hmem, hp2⟩
  symm
  apply list_max_eq_of
  · exact List.mem_map.mpr ⟨st.best_move, hmem, hp2⟩
  · intro x hx
    obtain ⟨m, hm, rfl⟩ := List.mem_map.mp hx
    obtain ⟨q, hq, rfl⟩ := (hsnd m).mp hm
    exact g2 q hq

/-- Witness for C9: the start position searched two plies deep on the never-initialised table. -/
theorem root_choice_witness :
    (find_best_ai_move demo_keys demo_pst demo_sorter TTState.static_init
        (BoardState.setup_initial_board demo_keys) 2 []).1.final_score =
        list_max ((generate_all_legal_moves demo_keys (BoardState.setup_initial_board demo_keys)
          PLAYER_1 []).map fun m =>
          minimax demo_keys demo_pst (2 - 1)
            (make_move_on_copy demo_keys (BoardState.setup_initial_board demo_keys) m) PLAYER_1
            (make_move_on_copy demo_keys (BoardState.setup_initial_board demo_keys)
              m).side_to_move ([] ++ [BoardState.setup_initial_board demo_keys])) ∧
      (find_best_ai_move demo_keys demo_pst demo_sorter TTState.static_init
        (BoardState.setup_initial_board demo_keys) 2 []).1.best_move ∈
        generate_all_legal_moves demo_keys (BoardState.setup_initial_board demo_keys)
          PLAYER_1 [] :=
  ⟨(root_choice demo_keys demo_pst demo_sorter TTState.static_init (Or.inl rfl)
      (BoardState.setup_initial_board demo_keys) [] 2 (by decide) (by decide)).1,
   (root_choice demo_keys demo_pst demo_sorter TTState.static_init (Or.inl rfl)
      (BoardState.setup_initial_board demo_keys) [] 2 (by decide) (by decide)).2.1⟩

/-! ## C11: wipeout rule -/

/-- C11 (wipeout rule).  For each of the two players `P`: on a board on which neither
player's pieces occupy the other's den, `evaluate_board` is `WIN_SCORE` when the opponent's
occupancy is empty and `P`'s is not, `LOSS_SCORE` when `P`'s is empty and the opponent's is
not, and `DRAW_SCORE` (0) when both are empty; and when the opponent's pieces occupy `P`'s den
while `P`'s pieces do not occupy the opponent's den the result is `LOSS_SCORE`, whatever the
occupancies are otherwise. -/
theorem wipeout_rule (pst : PST) (b : BoardState) (P : Player)
    (hP : P = PLAYER_1 ∨ P = PLAYER_2) :
    (b.occupancy_bbs P &&& den_mask_of (opponent_of P) = 0 →
      b.occupancy_bbs (opponent_of P) &&& den_mask_of P = 0 →
      (b.occupancy_bbs (opponent_of P) = 0 → b.occupancy_bbs P ≠ 0 →
        evaluate_board pst b P = WIN_SCORE) ∧
      (b.occupancy_bbs P = 0 → b.occupancy_bbs (opponent_of P) ≠ 0 →
        evaluate_board pst b P = LOSS_SCORE) ∧
      (b.occupancy_bbs P = 0 → b.occupancy_bbs (opponent_of P) = 0 →
        evaluate_board pst b P = DRAW_SCORE ∧ DRAW_SCORE = 0)) ∧
    (b.occupancy_bbs P &&& den_mask_of (opponent_of P) = 0 →
      b.occupancy_bbs (opponent_of P) &&& den_mask_of P ≠ 0 →
      evaluate_board pst b P = LOSS_SCORE) := by
  rcases hP with rfl | rfl
  · simp only [opponent_of, den_mask_of]
    refine ⟨fun h1 h2 => ⟨fun h3 h4 => ?_, fun h3 h4 => ?_, fun h3 h4 => ?_⟩, fun h1 h2 => ?_⟩
    · simp [evaluate_board, h1, h2, h3, h4]
    · simp [evaluate_board, h1, h2, h3, h4]
    · simp [evaluate_board, h1, h2, h3, h4, DRAW_SCORE]
    · simp [evaluate_board, h1, h2]
  · simp only [opponent_of, den_mask_of]
    refine ⟨fun h1 h2 => ⟨fun h3 h4 => ?_, fun h3 h4 => ?_, fun h3 h4 => ?_⟩, fun h1 h2 => ?_⟩
    · simp [evaluate_board, h1, h2, h3, h4]
    · simp [evaluate_board, h1, h2, h3, h4]
    · simp [evaluate_board, h1, h2, h3, h4, DRAW_SCORE]
    · simp [evaluate_board, h1, h2]

/-- Witness for C11: a lone `PLAYER_1` CAT on D5 against an empty `PLAYER_2` side. -/
theorem wipeout_rule_witness :
    (PLAYER_1 = PLAYER_1 ∨ PLAYER_1 = PLAYER_2) ∧
      evaluate_board demo_pst (board_of demo_keys [(31, CAT, PLAYER_1)]) PLAYER_1 = WIN_SCORE ∧
      evaluate_board demo_pst (board_of demo_keys [(31, CAT, PLAYER_1)]) PLAYER_2 = LOSS_SCORE :=
  ⟨Or.inl rfl,
   ((wipeout_rule demo_pst (board_of demo_keys [(31, CAT, PLAYER_1)]) PLAYER_1 (Or.inl rfl)).1
      (by decide) (by decide)).1 (by decide) (by decide),
   ((wipeout_rule demo_pst (board_of demo_keys [(31, CAT, PLAYER_1)]) PLAYER_2 (Or.inr rfl)).1
      (by decide) (by decide)).2.1 (by decide) (by decide)⟩

/-! ## C18: probe contract -/

/-- C18 (probe contract).  On an enabled table `probe_tt k` returns the entry at index
`k mod capacity` when that entry's flag is not `NO_ENTRY` and its `zobrist_key_check` is `k`,
and is absent otherwise: in particular for a default (empty) slot, also when `k = 0` equals the
default key, and for a slot holding another key.  On a disabled table it is always absent. -/
theorem probe_contract (tt : TTState) (k : U64) :
    (tt.tt_initialized = true → tt.tt_num_entries ≠ 0 →
      ((slot tt (k % tt.tt_num_entries)).flag ≠ EntryFlag.NO_ENTRY ∧
          (slot tt (k % tt.tt_num_entries)).zobrist_key_check = k →
        probe_tt tt k = some (slot tt (k % tt.tt_num_entries))) ∧
      (¬ ((slot tt (k % tt.tt_num_entries)).flag ≠ EntryFlag.NO_ENTRY ∧
          (slot tt (k % tt.tt_num_entries)).zobrist_key_check = k) →
        probe_tt tt k = none) ∧
      (slot tt (k % tt.tt_num_entries) = TTEntry.ctor → probe_tt tt k = none) ∧
      ((slot tt (k % tt.tt_num_entries)).zobrist_key_check ≠ k → probe_tt tt k = none)) ∧
    (tt.tt_initialized = false ∨ tt.tt_num_entries = 0 → probe_tt tt k = none) := by
  constructor
  · intro hi hn
    have hen : ¬ (tt.tt_initialized = false ∨ tt.tt_num_entries = 0) := by
      rintro (h | h)
      · rw [hi] at h; exact Bool.noConfusion h
      · exact hn h
    unfold probe_tt
    rw [if_neg hen]
    dsimp only
    refine ⟨fun h => by rw [if_pos h], fun h => by rw [if_neg h], fun h => ?_, fun h => ?_⟩
    · rw [h]; simp [TTEntry.ctor]
    · rw [if_neg (fun hc => h hc.2)]
  · intro h
    unfold probe_tt
    rw [if_pos h]

/-! ## C19: depth-preferred replacement -/

theorem slot_set_same (tt : TTState) (i : Nat) (e : TTEntry) (hi : i < tt.tt_table.length) :
    slot { tt with tt_table := tt.tt_table.set i e } i = e := by
  simp [slot, List.getD_eq_getElem?_getD, hi]

theorem slot_set_other (tt : TTState) (i j : Nat) (e : TTEntry) (hij : j ≠ i) :
    slot { tt with tt_table := tt.tt_table.set i e } j = slot tt j := by
  simp [slot, List.getD_eq_getElem?_getD, List.getElem?_set_ne (Ne.symm hij)]

/-- C19 (depth-preferred replacement).  On an enabled table whose vector has `capacity`
elements, `store_tt_entry k score depth flag move` writes the five fields (key, move, score,
depth cast to `short`, flag) into slot `k mod capacity` when that slot is empty, or holds a
different key, or `depth` is at least the stored depth, and leaves the slot as it was
otherwise; every other slot and the capacity are unchanged in both cases.  In particular a
`LOWER_BOUND` or `UPPER_BOUND` entry for the same key and depth replaces an `EXACT_SCORE`
entry. -/
theorem store_replacement (tt : TTState) (k : U64) (score depth : Int) (flag : EntryFlag)
    (move : Move) (hinit : tt.tt_initialized = true) (hn : tt.tt_num_entries ≠ 0)
    (hsized : TTSized tt) :
    ((slot tt (k % tt.tt_num_entries)).flag = EntryFlag.NO_ENTRY ∨
        (slot tt (k % tt.tt_num_entries)).zobrist_key_check ≠ k ∨
        depth ≥ (slot tt (k % tt.tt_num_entries)).depth →
      slot (store_tt_entry tt k score depth flag move) (k % tt.tt_num_entries) =
        { zobrist_key_check := k, best_move := move, score := score, depth := wrap_short depth,
          flag := flag }) ∧
    (¬ ((slot tt (k % tt.tt_num_entries)).flag = EntryFlag.NO_ENTRY ∨
        (slot tt (k % tt.tt_num_entries)).zobrist_key_check ≠ k ∨
        depth ≥ (slot tt (k % tt.tt_num_entries)).depth) →
      slot (store_tt_entry tt k score depth flag move) (k % tt.tt_num_entries) =
        slot tt (k % tt.tt_num_entries)) ∧
    (∀ j, j ≠ k % tt.tt_num_entries →
      slot (store_tt_entry tt k score depth flag move) j = slot tt j) ∧
    (store_tt_entry tt k score depth flag move).tt_num_entries = tt.tt_num_entries ∧
    (store_tt_entry tt k score depth flag move).tt_table.length = tt.tt_table.length ∧
    (-32768 ≤ depth ∧ depth ≤ 32767 → wrap_short depth = depth) ∧
    ((slot tt (k % tt.tt_num_entries)).flag = EntryFlag.EXACT_SCORE ∧
        (slot tt (k % tt.tt_num_entries)).zobrist_key_check = k ∧
        (slot tt (k % tt.tt_num_entries)).depth = depth ∧
        (flag = EntryFlag.LOWER_BOUND ∨ flag = EntryFlag.UPPER_BOUND) →
      (slot (store_tt_entry tt k score depth flag move) (k % tt.tt_num_entries)).flag = flag) := by
  have hen : ¬ (tt.tt_initialized = false ∨ tt.tt_num_entries = 0) := by
    rintro (h | h)
    · rw [hinit] at h; exact Bool.noConfusion h
    · exact hn h
  have hidx : k % tt.tt_num_entries < tt.tt_table.length := by
    rw [hsized]
    exact Nat.mod_lt _ (Nat.pos_of_ne_zero hn)
  have hyes : (slot tt (k % tt.tt_num_entries)).flag = EntryFlag.NO_ENTRY ∨
      (slot tt (k % tt.tt_num_entries)).zobrist_key_check ≠ k ∨
      depth ≥ (slot tt (k % tt.tt_num_entries)).depth →
      store_tt_entry tt k score depth flag move =
        { tt with
          tt_table := tt.tt_table.set (k % tt.tt_num_entries)
            { zobrist_key_check := k, best_move := move, score := score,
              depth := wrap_short depth, flag := flag } } := by
    intro h
    unfold store_tt_entry
    rw [if_neg hen]
    dsimp only
    rw [if_pos h]
  have hno : ¬ ((slot tt (k % tt.tt_num_entries)).flag = EntryFlag.NO_ENTRY ∨
      (slot tt (k % tt.tt_num_entries)).zobrist_key_check ≠ k ∨
      depth ≥ (slot tt (k % tt.tt_num_entries)).depth) →
      store_tt_entry tt k score depth flag move = tt := by
    intro h
    unfold store_tt_entry
    rw [if_neg hen]
    dsimp only
    rw [if_neg h]
  refine ⟨fun h => ?_, fun h => ?_, fun j hj => ?_, ?_, ?_, ?_, ?_⟩
  · rw [hyes h]
    exact slot_set_same tt _ _ hidx
  · rw [hno h]
  · by_cases h : (slot tt (k % tt.tt_num_entries)).flag = EntryFlag.NO_ENTRY ∨
        (slot tt (k % tt.tt_num_entries)).zobrist_key_check ≠ k ∨
        depth ≥ (slot tt (k % tt.tt_num_entries)).depth
    · rw [hyes h]
      exact slot_set_other tt _ _ _ hj
    · rw [hno h]
  · by_cases h : (slot tt (k % tt.tt_num_entries)).flag = EntryFlag.NO_ENTRY ∨
        (slot tt (k % tt.tt_num_entries)).zobrist_key_check ≠ k ∨
        depth ≥ (slot tt (k % tt.tt_num_entries)).depth
    · rw [hyes h]
    · rw [hno h]
  · by_cases h : (slot tt (k % tt.tt_num_entries)).flag = EntryFlag.NO_ENTRY ∨
        (slot tt (k % tt.tt_num_entries)).zobrist_key_check ≠ k ∨
        depth ≥ (slot tt (k % tt.tt_num_entries)).depth
    · rw [hyes h]
      simp
    · rw [hno h]
  · intro h
    unfold wrap_short
    omega
  · rintro ⟨_, _, h3, _⟩
    rw [hyes (Or.inr (Or.inr (ge_of_eq h3.symm))), slot_set_same tt _ _ hidx]

/-- Witness for C19: on `demo_tt` a `LOWER_BOUND` stored for key 5 at the stored depth 3
replaces the `EXACT_SCORE` entry of slot 1. -/
theorem store_replacement_witness :
    demo_tt.tt_initialized = true ∧ demo_tt.tt_num_entries ≠ 0 ∧ TTSized demo_tt ∧
      (slot (store_tt_entry demo_tt 5 7 3 EntryFlag.LOWER_BOUND Move.null)
        (5 % demo_tt.tt_num_entries)).flag = EntryFlag.LOWER_BOUND :=
  ⟨rfl, by decide, rfl,
   (store_replacement demo_tt 5 7 3 EntryFlag.LOWER_BOUND Move.null rfl (by decide) rfl).2.2.2.2.2.2
     ⟨rfl, rfl, rfl, Or.inl rfl⟩⟩

/-! ## C20: clearing the table -/

theorem clear_fold_getD (d : TTEntry) (n : Nat) (l : List TTEntry) (i : Nat) :
    ((List.range n).foldl (fun t j => t.set j d) l).getD i d = if i < n then d else l.getD i d := by
  induction n with
  | zero => simp
  | succ n ih =>
    rw [List.range_succ, List.foldl_append]
    simp only [List.foldl_cons, List.foldl_nil]
    rw [List.getD_eq_getElem?_getD] at ih ⊢
    rw [List.getElem?_set]
    by_cases hin : n = i
    · subst hin
      rw [if_pos rfl, if_pos (Nat.lt_succ_self _)]
      split <;> rfl
    · rw [if_neg hin, ih]
      by_cases h1 : i < n
      · rw [if_pos h1, if_pos (Nat.lt_succ_of_lt h1)]
      · rw [if_neg h1, if_neg (by omega), List.getD_eq_getElem?_getD]

theorem clear_fold_length (d : TTEntry) (n : Nat) (l : List TTEntry) :
    ((List.range n).foldl (fun t j => t.set j d) l).length = l.length := by
  induction n with
  | zero => simp
  | succ n ih =>
    rw [List.range_succ, List.foldl_append]
    simp [ih]

theorem clear_tt_slot (tt : TTState) (hinit : tt.tt_initialized = true) (hsized : TTSized tt)
    (i : Nat) : slot (clear_tt tt) i = TTEntry.ctor := by
  unfold clear_tt
  by_cases h : tt.tt_initialized = false ∨ tt.tt_num_entries = 0 ∨ tt.tt_table.isEmpty
  · rw [if_pos h]
    have hnil : tt.tt_table = [] := by
      rcases h with h | h | h
      · rw [hinit] at h; exact Bool.noConfusion h
      · exact List.length_eq_zero.mp (hsized.trans h)
      · exact List.isEmpty_iff.mp h
    unfold slot
    rw [hnil]
    rfl
  · rw [if_neg h]
    unfold slot
    dsimp only
    rw [clear_fold_getD]
    split
    · rfl
    · rw [List.getD_eq_getElem?_getD, List.getElem?_eq_none (by rw [hsized]; omega)]
      rfl

theorem clear_tt_num_entries (tt : TTState) :
    (clear_tt tt).tt_num_entries = tt.tt_num_entries ∧
      (clear_tt tt).tt_initialized = tt.tt_initialized ∧
      (clear_tt tt).tt_table.length = tt.tt_table.length := by
  unfold clear_tt
  split
  · exact ⟨rfl, rfl, rfl⟩
  · exact ⟨rfl, rfl, clear_fold_length _ _ _⟩

/-- C20 (clear).  After `clear_tt` on an initialized table whose vector has `capacity`
elements, `probe_tt k` is absent for every key `k`, every slot equals the default entry
(key 0, null move, score 0, depth -1, flag `NO_ENTRY`), and the capacity, the vector length and
the initialized flag are unchanged. -/
theorem clear_contract (tt : TTState) (hinit : tt.tt_initialized = true) (hsized : TTSized tt) :
    (∀ k : U64, probe_tt (clear_tt tt) k = none) ∧
    (∀ i : Nat, slot (clear_tt tt) i =
      { zobrist_key_check := 0, best_move := Move.null, score := 0, depth := -1,
        flag := EntryFlag.NO_ENTRY }) ∧
    (clear_tt tt).tt_num_entries = tt.tt_num_entries ∧
    (clear_tt tt).tt_table.length = tt.tt_table.length ∧
    (clear_tt tt).tt_initialized = true := by
  have hs := clear_tt_slot tt hinit hsized
  have hc := clear_tt_num_entries tt
  refine ⟨fun k => ?_, hs, hc.1, hc.2.2, hc.2.1.trans hinit⟩
  unfold probe_tt
  split
  · rfl
  · dsimp only
    rw [hs]
    simp [TTEntry.ctor]

/-- Witness for C20: clearing `demo_tt` makes the probe for its stored key 5 absent. -/
theorem clear_contract_witness :
    demo_tt.tt_initialized = true ∧ TTSized demo_tt ∧
      probe_tt demo_tt 5 ≠ none ∧ probe_tt (clear_tt demo_tt) 5 = none :=
  ⟨rfl, rfl, by decide, (clear_contract demo_tt rfl rfl).1 5⟩

/-- Witness for C18: on `demo_tt` the probe for key 5 returns the entry of slot 1, the probe for
key 7 (same slot, different key) and the probe for key 0 (empty slot with default key 0) are
absent. -/
theorem probe_contract_witness :
    probe_tt demo_tt 5 = some (slot demo_tt 1) ∧ probe_tt demo_tt 7 = none ∧
      probe_tt demo_tt 0 = none :=
  ⟨((probe_contract demo_tt 5).1 rfl (by decide)).1 ⟨by decide, rfl⟩,
   ((probe_contract demo_tt 7).1 rfl (by decide)).2.2.2 (by decide),
   ((probe_contract demo_tt 0).1 rfl (by decide)).2.2.1 rfl⟩

/-! ## C13, C14: step generation is exact -/

theorem testBit_steps (s t : Nat) (hs : s < 63) :
    (potential_moves_of (s : Int)).testBit t = decide (t < 63 ∧ OrthAdjacent (s : Int) (t : Int)) := by
  by_cases ht : t < 63
  · rw [potential_moves_adjacent s hs t ht]
    simp [ht]
  · rw [testBit_eq_false_of_lt (potential_moves_of_lt s hs) (by omega)]
    simp [ht]

/-- C13 (orthogonal step generation is exact).  For every square `s` in 0..62 and all
friendly-occupancy and den masks, bit `t` of
`generate_orthogonal_step_moves s friendly LAND_SQUARES_MASK own_den` is set exactly when `t`
is a board square orthogonally adjacent to `s` (one column apart in the same row or one row
apart in the same column, no wrap-around), `t` is a land square, `t` is not in `friendly` and
`t` is not in `own_den`; for `s` outside 0..62 the result is empty. -/
theorem orthogonal_steps_exact (s : Int) (friendly own_den : U64) :
    (0 ≤ s ∧ s < 63 → ∀ t : Nat,
      ((generate_orthogonal_step_moves s friendly LAND_SQUARES_MASK own_den).testBit t = true ↔
        (t < 63 ∧ OrthAdjacent s (t : Int) ∧ LAND_SQUARES_MASK.testBit t = true ∧
          friendly.testBit t = false ∧ own_den.testBit t = false))) ∧
    (¬ (0 ≤ s ∧ s < 63) →
      generate_orthogonal_step_moves s friendly LAND_SQUARES_MASK own_den = 0) := by
  rw [generate_orthogonal_step_moves_eq, NUM_SQUARES_eq]
  constructor
  · rintro ⟨h0, h1⟩ t
    obtain ⟨n, rfl⟩ := Int.eq_ofNat_of_zero_le h0
    have hn : n < 63 := by omega
    rw [if_neg (by omega), Nat.testBit_and, Nat.testBit_and, Nat.testBit_and, testBit_not64,
      testBit_not64, testBit_steps n t hn]
    simp only [Bool.and_eq_true, Bool.not_eq_true', decide_eq_true_eq]
    constructor
    · rintro ⟨⟨⟨⟨ha, hb⟩, hc⟩, _, hd⟩, _, he⟩
      exact ⟨ha, hb, hc, hd, he⟩
    · rintro ⟨ha, hb, hc, hd, he⟩
      exact ⟨⟨⟨⟨ha, hb⟩, hc⟩, by omega, hd⟩, by omega, he⟩
  · intro h
    rw [if_pos (by omega)]

/-- Witness for C13: from D5 (square 31) on an otherwise empty board the step north to D6
(square 38) is generated, the step west to the lake is not. -/
theorem orthogonal_steps_exact_witness :
    (0 ≤ (31 : Int) ∧ (31 : Int) < 63) ∧
      (generate_orthogonal_step_moves 31 0 LAND_SQUARES_MASK 0).testBit 38 = true ∧
      ¬ ((generate_orthogonal_step_moves 31 0 LAND_SQUARES_MASK 0).testBit 30 = true) :=
  ⟨by decide,
   ((orthogonal_steps_exact 31 0 0).1 (by decide) 38).2 (by decide),
   fun h => absurd (((orthogonal_steps_exact 31 0 0).1 (by decide) 30).1 h).2.2.1 (by decide)⟩

/-- C14 (rat step generation is exact).  For every square `s` in 0..62 and all masks, bit `t` of
`generate_rat_moves s friendly own_den lake` is set exactly when `t` is a board square
orthogonally adjacent to `s` (no wrap-around), not in `friendly` and not in `own_den`; the lake
mask plays no role, and both lake and land destinations are produced (from B3, square 15, the
lake square B4 and the land square B2). -/
theorem rat_steps_exact (s : Int) (friendly own_den lake : U64) :
    (0 ≤ s ∧ s < 63 → ∀ t : Nat,
      ((generate_rat_moves s friendly own_den lake).testBit t = true ↔
        (t < 63 ∧ OrthAdjacent s (t : Int) ∧ friendly.testBit t = false ∧
          own_den.testBit t = false))) ∧
    ((generate_rat_moves 15 0 0 LAKE_SQUARES_MASK).testBit 22 = true ∧
      LAKE_SQUARES_MASK.testBit 22 = true ∧ LAND_SQUARES_MASK.testBit 22 = false ∧
      (generate_rat_moves 15 0 0 LAKE_SQUARES_MASK).testBit 8 = true ∧
      LAND_SQUARES_MASK.testBit 8 = true ∧ LAKE_SQUARES_MASK.testBit 8 = false) := by
  refine ⟨?_, by decide⟩
  rw [generate_rat_moves_eq, NUM_SQUARES_eq]
  rintro ⟨h0, h1⟩ t
  obtain ⟨n, rfl⟩ := Int.eq_ofNat_of_zero_le h0
  have hn : n < 63 := by omega
  rw [if_neg (by omega), Nat.testBit_and, Nat.testBit_and, testBit_not64,
    testBit_not64, testBit_steps n t hn]
  simp only [Bool.and_eq_true, Bool.not_eq_true', decide_eq_true_eq]
  constructor
  · rintro ⟨⟨⟨ha, hb⟩, _, hd⟩, _, he⟩
    exact ⟨ha, hb, hd, he⟩
  · rintro ⟨ha, hb, hd, he⟩
    exact ⟨⟨⟨ha, hb⟩, by omega, hd⟩, by omega, he⟩

/-- Witness for C14: from B4 (square 22, a lake square) the rat reaches the lake square C4
(square 23) when the masks are empty. -/
theorem rat_steps_exact_witness :
    (0 ≤ (22 : Int) ∧ (22 : Int) < 63) ∧
      (generate_rat_moves 22 0 0 LAKE_SQUARES_MASK).testBit 23 = true :=
  ⟨by decide, ((rat_steps_exact 22 0 0 LAKE_SQUARES_MASK).1 (by decide) 23).2 (by decide)⟩

/-! ## C16, C17: destinations of generated moves -/

theorem land_off_den_zero (den : U64) : LandOffDen den 0 := by
  intro i hi; simp at hi

theorem land_off_den_or {den x y : U64} (hx : LandOffDen den x) (hy : LandOffDen den y) :
    LandOffDen den (x ||| y) := by
  intro i hi
  rw [Nat.testBit_or] at hi
  simp only [Bool.or_eq_true] at hi
  rcases hi with h | h
  · exact hx i h
  · exact hy i h

theorem land_off_den_ite {den x y : U64} (c : Prop) [Decidable c] (hx : LandOffDen den x)
    (hy : LandOffDen den y) : LandOffDen den (if c then x else y) := by
  split
  · exact hx
  · exact hy

theorem step_moves_land_off_den (sq : Int) (fr den : U64) :
    LandOffDen den (generate_orthogonal_step_moves sq fr LAND_SQUARES_MASK den) := by
  intro i h
  rw [generate_orthogonal_step_moves_eq] at h
  split at h
  · simp at h
  · rw [Nat.testBit_and, Nat.testBit_and, Nat.testBit_and, testBit_not64, testBit_not64] at h
    simp only [Bool.and_eq_true, Bool.not_eq_true', decide_eq_true_eq] at h
    exact ⟨h.1.1.2, h.2.2⟩

theorem rat_moves_off_den (sq : Int) (fr den lake : U64) :
    OffDen den (generate_rat_moves sq fr den lake) := by
  intro i h
  rw [generate_rat_moves_eq] at h
  split at h
  · simp at h
  · rw [Nat.testBit_and, Nat.testBit_and, testBit_not64, testBit_not64] at h
    simp only [Bool.and_eq_true, Bool.not_eq_true', decide_eq_true_eq] at h
    exact h.2.2

theorem jump_block_land_off_den (acc path : U64) (t : Int) (fr rats den lake : U64)
    (hacc : LandOffDen den acc) : LandOffDen den (jump_block acc path t fr rats den lake) := by
  intro i h
  unfold jump_block at h
  split at h
  · dsimp only at h
    split at h
    · rename_i hc
      have hrange : 0 ≤ t ∧ t < 63 := by
        by_contra hr
        exact hc.1 (get_bit_out_of_range hr)
      rw [testBit_set_bit hrange.1 hrange.2] at h
      simp only [Bool.or_eq_true, decide_eq_true_eq] at h
      rcases h with h | h
      · exact hacc i h
      · subst h
        refine ⟨(get_bit_ne_zero_iff hrange.1 hrange.2).mp hc.1, ?_⟩
        have h2 := hc.2.2
        rw [shl64_one (by omega), Nat.and_comm] at h2
        exact (and_two_pow_eq_zero_iff den _).mp h2
    · exact hacc i h
  · exact hacc i h

theorem jump_moves_land_off_den (sq : Int) (pl : Player) (fr rats den lake : U64) :
    LandOffDen den (generate_lion_tiger_jump_moves sq pl fr rats den lake) := by
  unfold generate_lion_tiger_jump_moves
  dsimp only
  repeat' first
    | with_reducible exact land_off_den_zero den
    | with_reducible apply land_off_den_ite
    | with_reducible apply jump_block_land_off_den

theorem possible_landing_squares_eq (b : BoardState) (p : Player) (pt : PieceType) (f : Int) :
    possible_landing_squares b p pt f =
      if pt = CAT ∨ pt = DOG ∨ pt = WOLF ∨ pt = PANTHER ∨ pt = ELEPHANT then
        generate_orthogonal_step_moves f (b.occupancy_bbs p) LAND_SQUARES_MASK (own_den_of p)
      else if pt = RAT then
        generate_rat_moves f (b.occupancy_bbs p) (own_den_of p) LAKE_SQUARES_MASK
      else if pt = LION ∨ pt = TIGER then
        generate_orthogonal_step_moves f (b.occupancy_bbs p) LAND_SQUARES_MASK (own_den_of p) |||
          generate_lion_tiger_jump_moves f p (b.occupancy_bbs p)
            (b.piece_bbs RAT PLAYER_1 ||| b.piece_bbs RAT PLAYER_2) (own_den_of p)
            LAKE_SQUARES_MASK
      else 0 := rfl

theorem landing_squares_off_den (b : BoardState) (p : Player) (pt : PieceType) (f : Int) :
    OffDen (own_den_of p) (possible_landing_squares b p pt f) := by
  rw [possible_landing_squares_eq]
  by_cases h1 : pt = CAT ∨ pt = DOG ∨ pt = WOLF ∨ pt = PANTHER ∨ pt = ELEPHANT
  · rw [if_pos h1]
    exact fun i h => (step_moves_land_off_den _ _ _ i h).2
  · rw [if_neg h1]
    by_cases h2 : pt = RAT
    · rw [if_pos h2]
      exact rat_moves_off_den _ _ _ _
    · rw [if_neg h2]
      by_cases h3 : pt = LION ∨ pt = TIGER
      · rw [if_pos h3]
        exact fun i h => (land_off_den_or (step_moves_land_off_den _ _ _)
          (jump_moves_land_off_den _ _ _ _ _ _) i h).2
      · rw [if_neg h3]
        intro i h; simp at h

theorem landing_squares_land (b : BoardState) (p : Player) (pt : PieceType) (f : Int)
    (hpt : pt ≠ RAT) : LandOffDen (own_den_of p) (possible_landing_squares b p pt f) := by
  rw [possible_landing_squares_eq]
  by_cases h1 : pt = CAT ∨ pt = DOG ∨ pt = WOLF ∨ pt = PANTHER ∨ pt = ELEPHANT
  · rw [if_pos h1]
    exact step_moves_land_off_den _ _ _
  · rw [if_neg h1, if_neg hpt]
    by_cases h3 : pt = LION ∨ pt = TIGER
    · rw [if_pos h3]
      exact land_off_den_or (step_moves_land_off_den _ _ _)
        (jump_moves_land_off_den _ _ _ _ _ _)
    · rw [if_neg h3]
      exact land_off_den_zero _

theorem pseudo_legal_target_facts {b : BoardState} {p : Player} {m : Move}
    (hm : m ∈ pseudo_legal_moves b p) :
    (0 ≤ m.to_sq ∧ m.to_sq < 63) ∧ (own_den_of p).testBit m.to_sq.toNat = false ∧
      (m.piece_moved ≠ RAT → LAND_SQUARES_MASK.testBit m.to_sq.toNat = true) := by
  obtain ⟨_, pt, _, f, _, t, ht, hmt⟩ := mem_pseudo_legal_moves.mp hm
  obtain ⟨_, e2, e3, _⟩ := move_to_target_some hmt
  have hadm := possible_landing_squares_admissible b p pt f
  rw [mem_scan_squares (lt_64_of_lt_63 (admissible_lt hadm))] at ht
  have h63 := (hadm _ ht.2.2).1
  rw [e2, e3]
  refine ⟨⟨ht.1, by omega⟩, landing_squares_off_den b p pt f _ ht.2.2, fun hpt => ?_⟩
  exact (landing_squares_land b p pt f hpt _ ht.2.2).1

theorem testBit_clear_bit_imp {bb : U64} {sq : Int} {i : Nat}
    (h : (clear_bit bb sq).testBit i = true) : bb.testBit i = true := by
  by_cases hs : 0 ≤ sq ∧ sq < 63
  · rw [testBit_clear_bit hs.1 hs.2] at h
    simp only [Bool.and_eq_true] at h
    exact h.1
  · unfold clear_bit at h
    rw [NUM_SQUARES_eq, if_neg hs] at h
    exact h

theorem testBit_set_bit_imp {bb : U64} {sq : Int} {i : Nat}
    (h : (set_bit bb sq).testBit i = true) :
    bb.testBit i = true ∨ ((0 ≤ sq ∧ sq < 63) ∧ sq.toNat = i) := by
  by_cases hs : 0 ≤ sq ∧ sq < 63
  · rw [testBit_set_bit hs.1 hs.2] at h
    simp only [Bool.or_eq_true, decide_eq_true_eq] at h
    rcases h with h | h
    · exact Or.inl h
    · exact Or.inr ⟨hs, h⟩
  · unfold set_bit at h
    rw [NUM_SQUARES_eq, if_neg hs] at h
    exact Or.inl h

theorem set_piece_bb_testBit_imp {bbs : PieceType → Player → U64} {pt0 pt : PieceType}
    {p0 p : Player} {sq : Int} {i : Nat}
    (h : (set_piece_bb bbs pt0 p0 (clear_bit (bbs pt0 p0) sq) pt p).testBit i = true) :
    (bbs pt p).testBit i = true := by
  unfold set_piece_bb at h
  split at h
  · rename_i hc
    obtain ⟨rfl, rfl⟩ := hc
    exact testBit_clear_bit_imp h
  · exact h

theorem set_piece_bb_set_imp {bbs : PieceType → Player → U64} {pt0 pt : PieceType}
    {p0 p : Player} {sq : Int} {i : Nat}
    (h : (set_piece_bb bbs pt0 p0 (set_bit (bbs pt0 p0) sq) pt p).testBit i = true) :
    (bbs pt p).testBit i = true ∨
      (pt = pt0 ∧ p = p0 ∧ (0 ≤ sq ∧ sq < 63) ∧ sq.toNat = i) := by
  unfold set_piece_bb at h
  split at h
  · rename_i hc
    obtain ⟨rfl, rfl⟩ := hc
    rcases testBit_set_bit_imp h with h | h
    · exact Or.inl h
    · exact Or.inr ⟨rfl, rfl, h⟩
  · exact Or.inl h

theorem ite_bbs_imp (c : Prop) [Decidable c] (f g : PieceType → Player → U64) (pt : PieceType)
    (p : Player) (i : Nat) (Q : Prop) (hf : (f pt p).testBit i = true → Q)
    (hg : (g pt p).testBit i = true → Q)
    (h : ((if c then f else g) pt p).testBit i = true) : Q := by
  split at h
  · exact hf h
  · exact hg h

/-- A bit of a piece set after `apply_move` was there before, or is the destination of the
moved piece of the side to move. -/
theorem apply_move_testBit_imp (keys : ZobristKeys) (b : BoardState) (m : Move)
    (pt : PieceType) (p : Player) (i : Nat)
    (h : ((b.apply_move keys m).piece_bbs pt p).testBit i = true) :
    (b.piece_bbs pt p).testBit i = true ∨
      (pt = m.piece_moved ∧ p = b.side_to_move ∧ (0 ≤ m.to_sq ∧ m.to_sq < 63) ∧
        m.to_sq.toNat = i) := by
  unfold BoardState.apply_move at h
  split at h
  · exact Or.inl h
  · dsimp only at h
    split at h
    · exact Or.inl h
    · rw [update_occupancy_boards_piece_bbs] at h
      dsimp only at h
      rcases set_piece_bb_set_imp h with h | h
      · left
        exact ite_bbs_imp _ _ _ pt p i _
          (fun h2 => set_piece_bb_testBit_imp (set_piece_bb_testBit_imp h2))
          (fun h2 => set_piece_bb_testBit_imp h2) h
      · exact Or.inr h

theorem add_piece_piece_bbs (keys keys2 : ZobristKeys) (b b2 : BoardState) (sq : Int)
    (pt : PieceType) (p : Player) (h : b.piece_bbs = b2.piece_bbs) :
    (BoardState.add_piece keys b sq pt p).piece_bbs =
      (BoardState.add_piece keys2 b2 sq pt p).piece_bbs := by
  unfold BoardState.add_piece
  rw [h]
  split
  · exact h
  · split
    · rfl
    · exact h

theorem foldl_add_piece_piece_bbs (keys keys2 : ZobristKeys)
    (l : List (Int × PieceType × Player)) :
    ∀ b b2 : BoardState, b.piece_bbs = b2.piece_bbs →
      (l.foldl (fun b x => BoardState.add_piece keys b x.1 x.2.1 x.2.2) b).piece_bbs =
        (l.foldl (fun b x => BoardState.add_piece keys2 b x.1 x.2.1 x.2.2) b2).piece_bbs := by
  induction l with
  | nil => intro b b2 h; exact h
  | cons x l ih =>
    intro b b2 h
    rw [List.foldl_cons, List.foldl_cons]
    exact ih _ _ (add_piece_piece_bbs keys keys2 b b2 _ _ _ h)

theorem start_piece_bbs (keys : ZobristKeys) (pt : PieceType) (p : Player) :
    (BoardState.setup_initial_board keys).piece_bbs pt p =
      (BoardState.setup_initial_board demo_keys).piece_bbs pt p := by
  unfold BoardState.setup_initial_board
  dsimp only
  rw [update_occupancy_boards_piece_bbs, update_occupancy_boards_piece_bbs]
  rw [if_pos (by simp), if_pos (by simp)]
  exact congrFun (congrFun (foldl_add_piece_piece_bbs keys demo_keys _ _ _ rfl) pt) p

theorem start_lake_free (keys : ZobristKeys) (pt : PieceType) (p : Player) :
    (BoardState.setup_initial_board keys).piece_bbs pt p &&& LAKE_SQUARES_MASK = 0 := by
  rw [start_piece_bbs]
  cases pt <;> cases p <;> decide

theorem start_den_free (keys : ZobristKeys) (pt : PieceType) :
    ((BoardState.setup_initial_board keys).piece_bbs pt PLAYER_1).testBit 59 = false ∧
      ((BoardState.setup_initial_board keys).piece_bbs pt PLAYER_2).testBit 3 = false := by
  rw [start_piece_bbs keys pt PLAYER_1, start_piece_bbs keys pt PLAYER_2]
  cases pt <;> decide

theorem and_eq_zero_testBit {x y : Nat} {i : Nat} (h : x &&& y = 0) (hy : y.testBit i = true) :
    x.testBit i = false := by
  have := congrArg (fun z => z.testBit i) h
  simp only [Nat.testBit_and, Nat.zero_testBit, hy, Bool.and_true] at this
  exact this

theorem land_lake_disjoint : LAND_SQUARES_MASK &&& LAKE_SQUARES_MASK = 0 := by decide

theorem legal_move_target_facts {keys : ZobristKeys} {b : BoardState} {p : Player}
    {history : List BoardState} {m : Move}
    (hm : m ∈ generate_all_legal_moves keys b p history) :
    (0 ≤ m.to_sq ∧ m.to_sq < 63) ∧ (own_den_of p).testBit m.to_sq.toNat = false ∧
      (m.piece_moved ≠ RAT → LAND_SQUARES_MASK.testBit m.to_sq.toNat = true) :=
  pseudo_legal_target_facts (mem_generate_all_legal_moves.mp hm).1

theorem reachable_den_free (keys : ZobristKeys) (b : BoardState) (h : Reachable keys b) :
    ∀ pt : PieceType, (b.piece_bbs pt PLAYER_1).testBit 59 = false ∧
      (b.piece_bbs pt PLAYER_2).testBit 3 = false := by
  induction h with
  | start => exact start_den_free keys
  | @step b0 history m _ hm ih =>
    obtain ⟨hr, hden, _⟩ := legal_move_target_facts hm
    intro pt
    constructor
    · by_contra hb
      rcases apply_move_testBit_imp keys b0 m pt PLAYER_1 59 (by simpa using hb) with h1 | h1
      · rw [(ih pt).1] at h1; exact Bool.noConfusion h1
      · obtain ⟨_, hside, _, hto⟩ := h1
        rw [← hside, hto] at hden
        revert hden
        decide
    · by_contra hb
      rcases apply_move_testBit_imp keys b0 m pt PLAYER_2 3 (by simpa using hb) with h1 | h1
      · rw [(ih pt).2] at h1; exact Bool.noConfusion h1
      · obtain ⟨_, hside, _, hto⟩ := h1
        rw [← hside, hto] at hden
        revert hden
        decide

theorem reachable_lake_rat_only (keys : ZobristKeys) (b : BoardState) (h : Reachable keys b) :
    ∀ (pt : PieceType) (p : Player), pt ≠ RAT → ∀ i : Nat, LAKE_SQUARES_MASK.testBit i = true →
      (b.piece_bbs pt p).testBit i = false := by
  induction h with
  | start => exact fun pt p _ i hi => and_eq_zero_testBit (start_lake_free keys pt p) hi
  | @step b0 history m _ hm ih =>
    obtain ⟨_, _, hland⟩ := legal_move_target_facts hm
    intro pt p hpt i hi
    by_contra hb
    rcases apply_move_testBit_imp keys b0 m pt p i (by simpa using hb) with h1 | h1
    · rw [ih pt p hpt i hi] at h1; exact Bool.noConfusion h1
    · obtain ⟨hmv, _, _, hto⟩ := h1
      have h2 := hland (by rw [← hmv]; exact hpt)
      rw [hto, and_eq_zero_testBit land_lake_disjoint hi] at h2
      exact Bool.noConfusion h2

/-- C16 (only the rat enters the lake).  Every move returned by `generate_all_legal_moves`, for
any board, side and history, whose `piece_moved` is not `RAT` has a land destination (and so
not a lake one); hence in every position reachable from the start position by legal moves no
piece set other than the two `RAT` sets has a bit on a lake square, and `get_piece_at` of a
lake square is empty or a `RAT`. -/
theorem only_rat_enters_lake (keys : ZobristKeys) :
    (∀ (b : BoardState) (p : Player) (history : List BoardState) (m : Move),
      m ∈ generate_all_legal_moves keys b p history → m.piece_moved ≠ RAT →
        get_bit LAND_SQUARES_MASK m.to_sq ≠ 0 ∧ get_bit LAKE_SQUARES_MASK m.to_sq = 0) ∧
    (∀ b : BoardState, Reachable keys b → ∀ t : Int, get_bit LAKE_SQUARES_MASK t ≠ 0 →
      (∀ (pt : PieceType) (p : Player), pt ≠ RAT → get_bit (b.piece_bbs pt p) t = 0) ∧
      ((b.get_piece_at t).player = NO_PLAYER ∨ (b.get_piece_at t).type = RAT)) := by
  constructor
  · intro b p history m hm hpt
    obtain ⟨hr, _, hland⟩ := legal_move_target_facts hm
    have h1 := hland hpt
    refine ⟨(get_bit_ne_zero_iff hr.1 hr.2).mpr h1, (get_bit_eq_zero_iff hr.1 hr.2).mpr ?_⟩
    have h2 : LAKE_SQUARES_MASK &&& LAND_SQUARES_MASK = 0 := by decide
    exact and_eq_zero_testBit h2 h1
  · intro b hb t ht
    have hr : 0 ≤ t ∧ t < 63 := by
      by_contra hr
      exact ht (get_bit_out_of_range hr)
    have hlake := (get_bit_ne_zero_iff hr.1 hr.2).mp ht
    have hinv := reachable_lake_rat_only keys b hb
    refine ⟨fun pt p hpt => (get_bit_eq_zero_iff hr.1 hr.2).mpr (hinv pt p hpt _ hlake), ?_⟩
    by_cases hp : (b.get_piece_at t).player = NO_PLAYER
    · exact Or.inl hp
    · right
      obtain ⟨_, _, _, hbit⟩ := get_piece_at_found hp rfl
      by_contra hty
      rw [hinv _ _ hty _ hlake] at hbit
      exact Bool.noConfusion hbit

/-- C17 (no piece enters its own den).  For every board, side and history no move returned by
`generate_all_legal_moves` lands on the den of the moving side (D9, square 59, for `PLAYER_1`;
D1, square 3, for `PLAYER_2`); hence in every position reachable from the start position no
piece set of `PLAYER_1` has the bit of D9, none of `PLAYER_2` has the bit of D1, and
`get_piece_at` finds no piece of the den's owner on it. -/
theorem no_own_den_entry (keys : ZobristKeys) :
    (∀ (b : BoardState) (p : Player) (history : List BoardState) (m : Move),
      m ∈ generate_all_legal_moves keys b p history →
        (p = PLAYER_1 → m.to_sq ≠ get_square_index 3 8 ∧
          get_bit P1_DEN_SQUARE_MASK m.to_sq = 0) ∧
        (p = PLAYER_2 → m.to_sq ≠ get_square_index 3 0 ∧
          get_bit P2_DEN_SQUARE_MASK m.to_sq = 0)) ∧
    (∀ b : BoardState, Reachable keys b →
      (∀ pt : PieceType, get_bit (b.piece_bbs pt PLAYER_1) (get_square_index 3 8) = 0 ∧
        get_bit (b.piece_bbs pt PLAYER_2) (get_square_index 3 0) = 0) ∧
      (b.get_piece_at (get_square_index 3 8)).player ≠ PLAYER_1 ∧
      (b.get_piece_at (get_square_index 3 0)).player ≠ PLAYER_2) ∧
    (get_bit P1_DEN_SQUARE_MASK (get_square_index 3 8) ≠ 0 ∧
      get_bit P2_DEN_SQUARE_MASK (get_square_index 3 0) ≠ 0) := by
  have e1 : get_square_index 3 8 = 59 := by decide
  have e2 : get_square_index 3 0 = 3 := by decide
  rw [e1, e2]
  refine ⟨?_, ?_, by decide⟩
  · intro b p history m hm
    obtain ⟨hr, hden, _⟩ := legal_move_target_facts hm
    constructor
    · rintro rfl
      refine ⟨fun hto => ?_, (get_bit_eq_zero_iff hr.1 hr.2).mpr hden⟩
      rw [hto] at hden
      revert hden
      decide
    · rintro rfl
      refine ⟨fun hto => ?_, (get_bit_eq_zero_iff hr.1 hr.2).mpr hden⟩
      rw [hto] at hden
      revert hden
      decide
  · intro b hb
    have hinv := reachable_den_free keys b hb
    refine ⟨fun pt => ⟨(get_bit_eq_zero_iff (by decide) (by decide)).mpr (hinv pt).1,
      (get_bit_eq_zero_iff (by decide) (by decide)).mpr (hinv pt).2⟩, ?_, ?_⟩
    · intro hp
      have hne : (b.get_piece_at 59).player ≠ NO_PLAYER := by rw [hp]; decide
      obtain ⟨_, _, _, hbit⟩ := get_piece_at_found hne rfl
      rw [hp] at hbit
      have := (hinv (b.get_piece_at 59).type).1
      rw [show (59 : Int).toNat = 59 from rfl] at hbit
      rw [this] at hbit
      exact Bool.noConfusion hbit
    · intro hp
      have hne : (b.get_piece_at 3).player ≠ NO_PLAYER := by rw [hp]; decide
      obtain ⟨_, _, _, hbit⟩ := get_piece_at_found hne rfl
      rw [hp] at hbit
      have := (hinv (b.get_piece_at 3).type).2
      rw [show (3 : Int).toNat = 3 from rfl] at hbit
      rw [this] at hbit
      exact Bool.noConfusion hbit

/-! ## C12: the evaluation formula -/

theorem wrap_int_add_wrap_left (a b : Int) : wrap_int (wrap_int a + b) = wrap_int (a + b) := by
  unfold wrap_int
  omega

theorem wrap_int_add_wrap_right (a b : Int) : wrap_int (a + wrap_int b) = wrap_int (a + b) := by
  unfold wrap_int
  omega

theorem wrap_int_sub_wrap (a b : Int) : wrap_int (wrap_int a - wrap_int b) = wrap_int (a - b) := by
  unfold wrap_int
  omega

theorem wrap_int_of_range {x : Int} (h0 : INT_MIN ≤ x) (h1 : x ≤ INT_MAX) : wrap_int x = x := by
  unfold wrap_int
  unfold INT_MIN at h0
  unfold INT_MAX at h1
  omega

theorem foldl_wrap_sum {α : Type} (f : α → Int) (l : List α) :
    ∀ a : Int, l.foldl (fun acc x => wrap_int (acc + wrap_int (f x))) (wrap_int a) =
      wrap_int (a + (l.map f).sum) := by
  induction l with
  | nil => intro a; simp
  | cons x l ih =>
    intro a
    rw [List.foldl_cons, wrap_int_add_wrap_left, wrap_int_add_wrap_right, ih, List.map_cons,
      List.sum_cons, Int.add_assoc]

theorem foldl_wrap_sum_plain {α : Type} (f : α → Int) (l : List α) :
    ∀ a : Int, l.foldl (fun acc x => wrap_int (acc + f x)) (wrap_int a) =
      wrap_int (a + (l.map f).sum) := by
  induction l with
  | nil => intro a; simp
  | cons x l ih =>
    intro a
    rw [List.foldl_cons, wrap_int_add_wrap_left, ih, List.map_cons, List.sum_cons, Int.add_assoc]

theorem wrap_int_zero : wrap_int 0 = 0 := by decide

theorem calculate_material_eq (b : BoardState) (p : Player) (hp : p ≠ NO_PLAYER) :
    calculate_material b p = wrap_int (material_sum b p) := by
  unfold calculate_material material_sum
  rw [if_neg hp]
  have := foldl_wrap_sum (fun pt => pop_count (b.piece_bbs pt p) * PIECE_VALUES pt)
    PIECE_TYPE_LOOP 0
  rw [wrap_int_zero, Int.zero_add] at this
  exact this

theorem foldl_scan_pst (tbl : Nat → Int) (l : List Nat) :
    ∀ a : Int, (l.map Int.ofNat).foldl
        (fun total sq => if sq ≠ -1 then wrap_int (total + tbl sq.toNat) else total) (wrap_int a) =
      wrap_int (a + (l.map tbl).sum) := by
  induction l with
  | nil => intro a; simp
  | cons x l ih =>
    intro a
    rw [List.map_cons, List.foldl_cons, if_pos (by intro h; have h2 : (0 : Int) ≤ Int.ofNat x := Int.ofNat_nonneg x; omega),
      wrap_int_add_wrap_left, ih, List.map_cons, List.sum_cons, Int.add_assoc]
    rfl

theorem foldl_pst_outer (f : PieceType → List Nat) (tbl : PieceType → Nat → Int)
    (l : List PieceType) :
    ∀ a : Int, l.foldl (fun total pt => ((f pt).map Int.ofNat).foldl
        (fun total sq => if sq ≠ -1 then wrap_int (total + tbl pt sq.toNat) else total) total)
        (wrap_int a) =
      wrap_int (a + (l.map (fun pt => ((f pt).map (tbl pt)).sum)).sum) := by
  induction l with
  | nil => intro a; simp
  | cons x l ih =>
    intro a
    rw [List.foldl_cons, foldl_scan_pst, ih, List.map_cons, List.sum_cons, Int.add_assoc]

theorem calculate_pst_score_eq (pst : PST) (b : BoardState) (p : Player)
    (hp : p = PLAYER_1 ∨ p = PLAYER_2) (hbb : ∀ pt, b.piece_bbs pt p < 2 ^ 64) :
    calculate_pst_score pst b p = wrap_int (pst_sum pst b p) := by
  have hne : p ≠ NO_PLAYER := by rcases hp with rfl | rfl <;> decide
  have htbl : ∀ pt, (if p = PLAYER_1 then pst PLAYER_1 pt else pst PLAYER_2 pt) = pst p pt := by
    intro pt
    rcases hp with rfl | rfl
    · rfl
    · rfl
  unfold calculate_pst_score pst_sum
  rw [if_neg hne]
  dsimp only
  have := foldl_pst_outer (fun pt => bit_list (b.piece_bbs pt p)) (fun pt => pst p pt)
    PIECE_TYPE_LOOP 0
  rw [wrap_int_zero, Int.zero_add] at this
  rw [← this]
  congr 1
  funext total pt
  rw [scan_squares_eq (hbb pt), htbl]

theorem wrap_int_combine (m1 m2 s1 s2 : Int) :
    wrap_int (wrap_int (wrap_int m1 - wrap_int m2) + wrap_int (wrap_int s1 - wrap_int s2)) =
      wrap_int ((m1 - m2) + (s1 - s2)) := by
  unfold wrap_int
  omega

theorem evaluate_board_eq_wrap (pst : PST) (b : BoardState) (P : Player)
    (hP : P = PLAYER_1 ∨ P = PLAYER_2) (hbb : ∀ pt p, b.piece_bbs pt p < 2 ^ 64)
    (h1 : b.occupancy_bbs P &&& den_mask_of (opponent_of P) = 0)
    (h2 : b.occupancy_bbs (opponent_of P) &&& den_mask_of P = 0)
    (h3 : b.occupancy_bbs P ≠ 0) (h4 : b.occupancy_bbs (opponent_of P) ≠ 0) :
    evaluate_board pst b P = wrap_int (evaluation_formula pst b P) := by
  unfold evaluation_formula
  rw [← wrap_int_combine]
  rcases hP with rfl | rfl
  · simp only [opponent_of, den_mask_of] at h1 h2 h3 h4 ⊢
    rw [← calculate_material_eq b PLAYER_1 (by decide), ← calculate_material_eq b PLAYER_2 (by decide),
      ← calculate_pst_score_eq pst b PLAYER_1 (Or.inl rfl) (fun pt => hbb pt _),
      ← calculate_pst_score_eq pst b PLAYER_2 (Or.inr rfl) (fun pt => hbb pt _)]
    simp [evaluate_board, h1, h2, h3, h4]
  · simp only [opponent_of, den_mask_of] at h1 h2 h3 h4 ⊢
    rw [← calculate_material_eq b PLAYER_1 (by decide), ← calculate_material_eq b PLAYER_2 (by decide),
      ← calculate_pst_score_eq pst b PLAYER_1 (Or.inl rfl) (fun pt => hbb pt _),
      ← calculate_pst_score_eq pst b PLAYER_2 (Or.inr rfl) (fun pt => hbb pt _)]
    simp [evaluate_board, h1, h2, h3, h4]

theorem pop_count_range (bb : U64) : 0 ≤ pop_count bb ∧ pop_count bb ≤ 64 := by
  unfold pop_count
  have h := bit_list_length_le bb
  unfold bit_list at h
  omega

theorem material_sum_range (b : BoardState) (p : Player) :
    0 ≤ material_sum b p ∧ material_sum b p ≤ 2912000 := by
  unfold material_sum
  simp only [PIECE_TYPE_LOOP, List.map_cons, List.map_nil, List.sum_cons, List.sum_nil,
    PIECE_VALUES]
  have h1 := pop_count_range (b.piece_bbs RAT p)
  have h2 := pop_count_range (b.piece_bbs CAT p)
  have h3 := pop_count_range (b.piece_bbs DOG p)
  have h4 := pop_count_range (b.piece_bbs WOLF p)
  have h5 := pop_count_range (b.piece_bbs PANTHER p)
  have h6 := pop_count_range (b.piece_bbs TIGER p)
  have h7 := pop_count_range (b.piece_bbs LION p)
  have h8 := pop_count_range (b.piece_bbs ELEPHANT p)
  omega

theorem list_sum_bounded (f : Nat → Int) (l : List Nat)
    (hf : ∀ x ∈ l, -1000000 ≤ f x ∧ f x ≤ 1000000) :
    -1000000 * (l.length : Int) ≤ (l.map f).sum ∧ (l.map f).sum ≤ 1000000 * (l.length : Int) := by
  induction l with
  | nil => simp
  | cons x l ih =>
    have h1 := hf x (List.mem_cons_self _ _)
    have h2 := ih (fun y hy => hf y (List.mem_cons_of_mem _ hy))
    rw [List.map_cons, List.sum_cons, List.length_cons]
    push_cast
    omega

theorem bit_list_sum_bounded (f : Nat → Int) (bb : U64)
    (hf : ∀ sq, sq < 64 → -1000000 ≤ f sq ∧ f sq ≤ 1000000) :
    -64000000 ≤ ((bit_list bb).map f).sum ∧ ((bit_list bb).map f).sum ≤ 64000000 := by
  have h1 := list_sum_bounded f (bit_list bb) (fun x hx => hf x (mem_bit_list.mp hx).1)
  have h2 := bit_list_length_le bb
  omega

theorem pst_sum_range (pst : PST) (b : BoardState) (p : Player)
    (hf : ∀ pt sq, sq < 64 → -1000000 ≤ pst p pt sq ∧ pst p pt sq ≤ 1000000) :
    -512000000 ≤ pst_sum pst b p ∧ pst_sum pst b p ≤ 512000000 := by
  unfold pst_sum
  simp only [PIECE_TYPE_LOOP, List.map_cons, List.map_nil, List.sum_cons, List.sum_nil]
  have h1 := bit_list_sum_bounded (fun sq => pst p RAT sq) (b.piece_bbs RAT p) (hf RAT)
  have h2 := bit_list_sum_bounded (fun sq => pst p CAT sq) (b.piece_bbs CAT p) (hf CAT)
  have h3 := bit_list_sum_bounded (fun sq => pst p DOG sq) (b.piece_bbs DOG p) (hf DOG)
  have h4 := bit_list_sum_bounded (fun sq => pst p WOLF sq) (b.piece_bbs WOLF p) (hf WOLF)
  have h5 := bit_list_sum_bounded (fun sq => pst p PANTHER sq) (b.piece_bbs PANTHER p) (hf PANTHER)
  have h6 := bit_list_sum_bounded (fun sq => pst p TIGER sq) (b.piece_bbs TIGER p) (hf TIGER)
  have h7 := bit_list_sum_bounded (fun sq => pst p LION sq) (b.piece_bbs LION p) (hf LION)
  have h8 := bit_list_sum_bounded (fun sq => pst p ELEPHANT sq) (b.piece_bbs ELEPHANT p)
    (hf ELEPHANT)
  omega

theorem evaluation_formula_range (pst : PST) (b : BoardState) (P : Player)
    (hf : ∀ p pt sq, sq < 64 → -1000000 ≤ pst p pt sq ∧ pst p pt sq ≤ 1000000) :
    INT_MIN ≤ evaluation_formula pst b P ∧ evaluation_formula pst b P ≤ INT_MAX := by
  unfold evaluation_formula INT_MIN INT_MAX
  have h1 := material_sum_range b P
  have h2 := material_sum_range b (opponent_of P)
  have h3 := pst_sum_range pst b P (hf P)
  have h4 := pst_sum_range pst b (opponent_of P) (hf (opponent_of P))
  omega

/-- C12, counterexample to "for any positional tables": with the entries 1500000000 for
`PLAYER_1` (representable `int` values) and two `PLAYER_1` pieces against one `PLAYER_2` piece,
no den occupied, the formula is worth 3000002000, more than any `int`, so `evaluate_board`
returns another value (-1294965296 in 32-bit arithmetic). -/
theorem evaluation_formula_counterexample :
    three_piece_board.occupancy_bbs PLAYER_1 &&& P2_DEN_SQUARE_MASK = 0 ∧
      three_piece_board.occupancy_bbs PLAYER_2 &&& P1_DEN_SQUARE_MASK = 0 ∧
      three_piece_board.occupancy_bbs PLAYER_1 ≠ 0 ∧
      three_piece_board.occupancy_bbs PLAYER_2 ≠ 0 ∧
      evaluation_formula large_pst three_piece_board PLAYER_1 = 3000002000 ∧
      evaluate_board large_pst three_piece_board PLAYER_1 = -1294965296 ∧
      evaluate_board large_pst three_piece_board PLAYER_1 ≠
        evaluation_formula large_pst three_piece_board PLAYER_1 := by
  decide

/-- C12 (evaluation formula, amended).  For a player `P`, a board of 64-bit piece sets on which
neither player's pieces occupy the other's den and both occupancies are non-empty, and any
positional tables, `evaluate_board` is the formula (material difference plus positional
difference) reduced to a 32-bit `int`; it equals the formula itself exactly when the value of
the formula is representable as an `int`, which is the case whenever all table entries lie
between -1000000 and 1000000. -/
theorem evaluation_formula_wrapped (pst : PST) (b : BoardState) (P : Player)
    (hP : P = PLAYER_1 ∨ P = PLAYER_2) (hbb : ∀ pt p, b.piece_bbs pt p < 2 ^ 64)
    (h1 : b.occupancy_bbs P &&& den_mask_of (opponent_of P) = 0)
    (h2 : b.occupancy_bbs (opponent_of P) &&& den_mask_of P = 0)
    (h3 : b.occupancy_bbs P ≠ 0) (h4 : b.occupancy_bbs (opponent_of P) ≠ 0) :
    evaluate_board pst b P = wrap_int (evaluation_formula pst b P) ∧
    (evaluate_board pst b P = evaluation_formula pst b P ↔
      (INT_MIN ≤ evaluation_formula pst b P ∧ evaluation_formula pst b P ≤ INT_MAX)) ∧
    ((∀ p pt sq, sq < 64 → -1000000 ≤ pst p pt sq ∧ pst p pt sq ≤ 1000000) →
      evaluate_board pst b P = evaluation_formula pst b P) := by
  have h := evaluate_board_eq_wrap pst b P hP hbb h1 h2 h3 h4
  refine ⟨h, ⟨fun he => ?_, fun hr => ?_⟩, fun hf => ?_⟩
  · rw [← he]
    exact evaluate_board_range pst b P
  · rw [h, wrap_int_of_range hr.1 hr.2]
  · have hr := evaluation_formula_range pst b P hf
    rw [h, wrap_int_of_range hr.1 hr.2]

theorem three_piece_board_lt : ∀ pt p, three_piece_board.piece_bbs pt p < 2 ^ 64 := by
  intro pt p
  cases pt <;> cases p <;> decide

theorem demo_pst_small : ∀ (p : Player) (pt : PieceType) (sq : Nat), sq < 64 →
    -1000000 ≤ demo_pst p pt sq ∧ demo_pst p pt sq ≤ 1000000 := by
  intro p pt sq hsq
  unfold demo_pst
  cases pt <;> cases p <;> simp [PIECE_RANKS] <;> omega

/-- Witness for C12: on `three_piece_board` with the small tables `demo_pst` the evaluation for
`PLAYER_1` is the value 2001 of the formula. -/
theorem evaluation_formula_wrapped_witness :
    (PLAYER_1 = PLAYER_1 ∨ PLAYER_1 = PLAYER_2) ∧
      evaluation_formula demo_pst three_piece_board PLAYER_1 = 2001 ∧
      evaluate_board demo_pst three_piece_board PLAYER_1 =
        evaluation_formula demo_pst three_piece_board PLAYER_1 :=
  ⟨Or.inl rfl, by decide,
   (evaluation_formula_wrapped demo_pst three_piece_board PLAYER_1 (Or.inl rfl)
      three_piece_board_lt (by decide) (by decide) (by decide) (by decide)).2.2 demo_pst_small⟩

/-! ## C15: river jumps -/

theorem generate_lion_tiger_jump_moves_eq (s : Int) (pl : Player) (fr rats den lake : U64) :
    generate_lion_tiger_jump_moves s pl fr rats den lake =
      if s < 0 ∨ s ≥ NUM_SQUARES then 0
      else if get_bit lake s ≠ 0 then 0
      else (jump_candidates s).foldl
        (fun acc c => jump_block acc c.1 c.2 fr rats den lake) 0 := by
  by_cases h1 : s < 0 ∨ s ≥ NUM_SQUARES
  · unfold generate_lion_tiger_jump_moves
    rw [if_pos h1, if_pos h1]
  · by_cases h2 : get_bit lake s ≠ 0
    · unfold generate_lion_tiger_jump_moves
      rw [if_neg h1, if_neg h1, if_pos h2, if_pos h2]
    · rw [if_neg h1, if_neg h2]
      unfold generate_lion_tiger_jump_moves
      rw [if_neg h1]
      show (if get_bit lake s ≠ 0 then 0 else _) = _
      rw [if_neg h2]
      unfold jump_candidates
      generalize get_col_row s = cr
      obtain ⟨col, row⟩ := cr
      dsimp only
      split_ifs <;> rfl

theorem jump_block_testBit (acc path : U64) (tgt : Int) (fr rats den lake : U64) (i : Nat)
    (hpath : path &&& lake = path) (ht : 0 ≤ tgt ∧ tgt < 63)
    (hland : LAND_SQUARES_MASK.testBit tgt.toNat = true) :
    (jump_block acc path tgt fr rats den lake).testBit i = true ↔
      (acc.testBit i = true ∨
        (tgt.toNat = i ∧ path &&& rats = 0 ∧ fr.testBit i = false ∧ den.testBit i = false)) := by
  have hl : get_bit LAND_SQUARES_MASK tgt ≠ 0 := (get_bit_ne_zero_iff ht.1 ht.2).mpr hland
  have hfr : shl64 1 tgt.toNat &&& fr = 0 ↔ fr.testBit tgt.toNat = false := by
    rw [shl64_one (by omega), Nat.and_comm]
    exact and_two_pow_eq_zero_iff fr _
  have hden : shl64 1 tgt.toNat &&& den = 0 ↔ den.testBit tgt.toNat = false := by
    rw [shl64_one (by omega), Nat.and_comm]
    exact and_two_pow_eq_zero_iff den _
  unfold jump_block
  by_cases hr : path &&& rats = 0
  · rw [if_pos ⟨hpath, hr⟩]
    dsimp only
    by_cases hc : fr.testBit tgt.toNat = false ∧ den.testBit tgt.toNat = false
    · rw [if_pos ⟨hl, hfr.mpr hc.1, hden.mpr hc.2⟩, testBit_set_bit ht.1 ht.2]
      simp only [Bool.or_eq_true, decide_eq_true_eq]
      constructor
      · rintro (h | h)
        · exact Or.inl h
        · subst h
          exact Or.inr ⟨rfl, hr, hc.1, hc.2⟩
      · rintro (h | ⟨h, _⟩)
        · exact Or.inl h
        · exact Or.inr h
    · rw [if_neg (fun h => hc ⟨hfr.mp h.2.1, hden.mp h.2.2⟩)]
      constructor
      · exact Or.inl
      · rintro (h | ⟨h, _, h3, h4⟩)
        · exact h
        · subst h
          exact absurd ⟨h3, h4⟩ hc
  · rw [if_neg (fun h => hr h.2)]
    constructor
    · exact Or.inl
    · rintro (h | ⟨_, h2, _⟩)
      · exact h
      · exact absurd h2 hr

theorem jump_fold_testBit (fr rats den lake : U64) (i : Nat) (cs : List (U64 × Int)) :
    ∀ acc : U64,
      (∀ c ∈ cs, c.1 &&& lake = c.1 ∧ (0 ≤ c.2 ∧ c.2 < 63) ∧
        LAND_SQUARES_MASK.testBit c.2.toNat = true) →
      ((cs.foldl (fun acc c => jump_block acc c.1 c.2 fr rats den lake) acc).testBit i = true ↔
        (acc.testBit i = true ∨
          ∃ c ∈ cs, c.2.toNat = i ∧ c.1 &&& rats = 0 ∧ fr.testBit i = false ∧
            den.testBit i = false)) := by
  induction cs with
  | nil => intro acc _; simp
  | cons c cs ih =>
    intro acc hgood
    have hc := hgood c (List.mem_cons_self _ _)
    rw [List.foldl_cons, ih _ (fun d hd => hgood d (List.mem_cons_of_mem _ hd)),
      jump_block_testBit acc c.1 c.2 fr rats den lake i hc.1 hc.2.1 hc.2.2]
    constructor
    · rintro ((h | h) | ⟨d, hd, h⟩)
      · exact Or.inl h
      · exact Or.inr ⟨c, List.mem_cons_self _ _, h⟩
      · exact Or.inr ⟨d, List.mem_cons_of_mem _ hd, h⟩
    · rintro (h | ⟨d, hd, h⟩)
      · exact Or.inl (Or.inl h)
      · rcases List.mem_cons.mp hd with rfl | hd2
        · exact Or.inl (Or.inr h)
        · exact Or.inr ⟨d, hd2, h⟩

set_option maxRecDepth 1000000 in
theorem jump_candidates_good : ∀ n : Nat, n < 63 → ∀ c ∈ jump_candidates (n : Int),
    (c.1 &&& LAKE_SQUARES_MASK = c.1 ∧ (0 ≤ c.2 ∧ c.2 < 63) ∧
      LAND_SQUARES_MASK.testBit c.2.toNat = true) ∧ c.1 < 2 ^ 63 ∧
    ∀ u : Nat, u < 63 → c.1.testBit u = decide (StrictlyBetween (n : Int) c.2 (u : Int)) := by
  decide

set_option maxRecDepth 1000000 in
theorem jump_candidates_pairs : ∀ n : Nat, n < 63 → ∀ t : Nat, t < 63 →
    (JumpPair (n : Int) (t : Int) ↔ ∃ c ∈ jump_candidates (n : Int), c.2 = (t : Int)) := by
  decide

set_option maxRecDepth 1000000 in
theorem jump_candidates_lake : ∀ n : Nat, n < 63 → get_bit LAKE_SQUARES_MASK (n : Int) ≠ 0 →
    jump_candidates (n : Int) = [] := by
  decide

theorem path_rats_iff {path rats : U64} {s t : Int}
    (hlt : path < 2 ^ 63)
    (hbits : ∀ u : Nat, u < 63 → path.testBit u = decide (StrictlyBetween s t (u : Int))) :
    path &&& rats = 0 ↔ ∀ u : Nat, StrictlyBetween s t (u : Int) → rats.testBit u = false := by
  constructor
  · intro h u hu
    have hu63 : u < 63 := by
      have := hu.1.2
      omega
    have hp : path.testBit u = true := by
      rw [hbits u hu63]
      exact decide_eq_true hu
    have := congrArg (fun z => z.testBit u) h
    simp only [Nat.testBit_and, hp, Bool.true_and, Nat.zero_testBit] at this
    exact this
  · intro h
    apply Nat.eq_of_testBit_eq
    intro u
    rw [Nat.testBit_and, Nat.zero_testBit]
    by_cases hu : u < 63
    · by_cases hb : StrictlyBetween s t (u : Int)
      · rw [h u hb]
        simp
      · rw [hbits u hu, decide_eq_false hb]
        simp
    · rw [testBit_eq_false_of_lt hlt (by omega)]
      simp

theorem jump_moves_testBit (s : Int) (pl : Player) (friendly rats own_den : U64) (t : Nat) :
    (generate_lion_tiger_jump_moves s pl friendly rats own_den LAKE_SQUARES_MASK).testBit t = true ↔
      (JumpPair s (t : Int) ∧
        (∀ u : Nat, StrictlyBetween s (t : Int) (u : Int) → rats.testBit u = false) ∧
        friendly.testBit t = false ∧ own_den.testBit t = false) := by
  rw [generate_lion_tiger_jump_moves_eq, NUM_SQUARES_eq]
  by_cases hs : 0 ≤ s ∧ s < 63
  · obtain ⟨n, rfl⟩ := Int.eq_ofNat_of_zero_le hs.1
    have hn : n < 63 := by omega
    rw [if_neg (by omega)]
    by_cases hl : get_bit LAKE_SQUARES_MASK (n : Int) ≠ 0
    · rw [if_pos hl, Nat.zero_testBit]
      constructor
      · intro h; exact Bool.noConfusion h
      · rintro ⟨hj, _⟩
        have ht : t < 63 := by
          have := hj.2.1.2
          omega
        obtain ⟨c, hc, _⟩ := (jump_candidates_pairs n hn t ht).mp hj
        rw [jump_candidates_lake n hn hl] at hc
        exact absurd hc (List.not_mem_nil c)
    · rw [if_neg hl, jump_fold_testBit friendly rats own_den LAKE_SQUARES_MASK t _ 0
        (fun c hc => (jump_candidates_good n hn c hc).1)]
      simp only [Nat.zero_testBit, Bool.false_eq_true, false_or]
      constructor
      · rintro ⟨c, hc, hct, hrats, hfr, hden⟩
        obtain ⟨⟨_, hrange, _⟩, hlt, hbits⟩ := jump_candidates_good n hn c hc
        have ht : t < 63 := by omega
        have hc2 : c.2 = (t : Int) := by omega
        rw [hc2] at hbits
        exact ⟨(jump_candidates_pairs n hn t ht).mpr ⟨c, hc, hc2⟩,
          (path_rats_iff hlt hbits).mp hrats, hfr, hden⟩
      · rintro ⟨hj, hrats, hfr, hden⟩
        have ht : t < 63 := by
          have := hj.2.1.2
          omega
        obtain ⟨c, hc, hc2⟩ := (jump_candidates_pairs n hn t ht).mp hj
        obtain ⟨_, hlt, hbits⟩ := jump_candidates_good n hn c hc
        rw [hc2] at hbits
        exact ⟨c, hc, by omega, (path_rats_iff hlt hbits).mpr hrats, hfr, hden⟩
  · rw [if_pos (by omega), Nat.zero_testBit]
    constructor
    · intro h; exact Bool.noConfusion h
    · rintro ⟨hj, _⟩
      exact absurd hj.1 hs

/-- C15 (river jumps are exact).  Bit `t` of
`generate_lion_tiger_jump_moves s _ friendly rats own_den LAKE_SQUARES_MASK` is set exactly
when `(s, t)` is one of the jump pairs `(c,2) <-> (c,6)` for `c` in {1,2,4,5}, `(0,r) <-> (3,r)`
or `(3,r) <-> (6,r)` for `r` in {3,4,5}, no square strictly between `s` and `t` is in `rats`,
and `t` is neither in `friendly` nor in `own_den`; from a square that starts no jump pair, and
from any lake square, the result is empty. -/
theorem river_jumps_exact (s : Int) (pl : Player) (friendly rats own_den : U64) :
    (∀ t : Nat,
      ((generate_lion_tiger_jump_moves s pl friendly rats own_den LAKE_SQUARES_MASK).testBit t
          = true ↔
        (JumpPair s (t : Int) ∧
          (∀ u : Nat, StrictlyBetween s (t : Int) (u : Int) → rats.testBit u = false) ∧
          friendly.testBit t = false ∧ own_den.testBit t = false))) ∧
    ((∀ t : Nat, ¬ JumpPair s (t : Int)) →
      generate_lion_tiger_jump_moves s pl friendly rats own_den LAKE_SQUARES_MASK = 0) ∧
    (get_bit LAKE_SQUARES_MASK s ≠ 0 →
      generate_lion_tiger_jump_moves s pl friendly rats own_den LAKE_SQUARES_MASK = 0) := by
  refine ⟨jump_moves_testBit s pl friendly rats own_den, fun h => ?_, fun h => ?_⟩
  · apply Nat.eq_of_testBit_eq
    intro t
    rw [Nat.zero_testBit]
    by_contra hb
    exact h t ((jump_moves_testBit s pl friendly rats own_den t).mp (by simpa using hb)).1
  · rw [generate_lion_tiger_jump_moves_eq]
    by_cases h1 : s < 0 ∨ s ≥ NUM_SQUARES
    · rw [if_pos h1]
    · rw [if_neg h1, if_pos h]

/-- Witness for C15: from B3 (square 15) with no rat in the river and empty masks the jump to B7
(square 43) is generated; with a rat on B5 (square 29) it is not. -/
theorem river_jumps_exact_witness :
    (generate_lion_tiger_jump_moves 15 PLAYER_1 0 0 0 LAKE_SQUARES_MASK).testBit 43 = true ∧
      ¬ ((generate_lion_tiger_jump_moves 15 PLAYER_1 0 (2 ^ 29) 0 LAKE_SQUARES_MASK).testBit 43
        = true) :=
  ⟨((river_jumps_exact 15 PLAYER_1 0 0 0).1 43).2
     ⟨by decide, fun _ _ => Nat.zero_testBit _, Nat.zero_testBit _, Nat.zero_testBit _⟩,
   fun h => absurd ((((river_jumps_exact 15 PLAYER_1 0 (2 ^ 29) 0).1 43).1 h).2.1 29 (by decide))
     (by decide)⟩

/-! ## C25: malformed moves -/

/-- C25 (malformed move is a no-op).  For every board and every move with `from_sq = -1` or
`to_sq = -1`, `make_move_on_copy` returns the input board (hence equal in every field: piece
sets, occupancy, side to move, fingerprint); and `apply_move` returns the board unchanged when
`from_sq = -1`, `to_sq = -1` or `piece_moved = NO_PIECE_TYPE`. -/
theorem malformed_move_noop (keys : ZobristKeys) (b : BoardState) (m : Move) :
    ((m.from_sq = -1 ∨ m.to_sq = -1) →
      make_move_on_copy keys b m = b ∧
      (make_move_on_copy keys b m).piece_bbs = b.piece_bbs ∧
      (make_move_on_copy keys b m).occupancy_bbs = b.occupancy_bbs ∧
      (make_move_on_copy keys b m).side_to_move = b.side_to_move ∧
      (make_move_on_copy keys b m).zobrist_hash = b.zobrist_hash) ∧
    ((m.from_sq = -1 ∨ m.to_sq = -1 ∨ m.piece_moved = NO_PIECE_TYPE) →
      b.apply_move keys m = b) := by
  constructor
  · intro h
    have e : make_move_on_copy keys b m = b := by
      unfold make_move_on_copy
      rw [if_pos h]
    rw [e]
    exact ⟨rfl, rfl, rfl, rfl, rfl⟩
  · intro h
    unfold BoardState.apply_move
    rw [if_pos h]

/-- Witness for C25: the null move and a move without a piece leave `three_piece_board` as it
is. -/
theorem malformed_move_noop_witness :
    make_move_on_copy demo_keys three_piece_board Move.null = three_piece_board ∧
      three_piece_board.apply_move demo_keys ⟨31, 32, NO_PIECE_TYPE, NO_PIECE_TYPE⟩ =
        three_piece_board :=
  ⟨((malformed_move_noop demo_keys three_piece_board Move.null).1 (Or.inl rfl)).1,
   (malformed_move_noop demo_keys three_piece_board ⟨31, 32, NO_PIECE_TYPE, NO_PIECE_TYPE⟩).2
     (Or.inr (Or.inr rfl))⟩

/-! ## C29: terrain partition -/

/-- C29 (terrain partition).  After `init_masks`, `LAND_SQUARES_MASK` and `LAKE_SQUARES_MASK`
are disjoint, their union is exactly the bits 0..62 (bit 63 clear), the lake has 12 squares,
each den mask has exactly one square (D9 = 59 and D1 = 3), and every den and trap square is a
land square. -/
theorem terrain_partition :
    LAND_SQUARES_MASK &&& LAKE_SQUARES_MASK = 0 ∧
    LAND_SQUARES_MASK ||| LAKE_SQUARES_MASK = 2 ^ 63 - 1 ∧
    (LAND_SQUARES_MASK ||| LAKE_SQUARES_MASK).testBit 63 = false ∧
    pop_count LAKE_SQUARES_MASK = 12 ∧
    pop_count P1_DEN_SQUARE_MASK = 1 ∧ pop_count P2_DEN_SQUARE_MASK = 1 ∧
    P1_DEN_SQUARE_MASK = 2 ^ 59 ∧ P2_DEN_SQUARE_MASK = 2 ^ 3 ∧
    P1_DEN_SQUARE_MASK &&& LAND_SQUARES_MASK = P1_DEN_SQUARE_MASK ∧
    P2_DEN_SQUARE_MASK &&& LAND_SQUARES_MASK = P2_DEN_SQUARE_MASK ∧
    TRAPS_NEAR_P1_DEN_MASK &&& LAND_SQUARES_MASK = TRAPS_NEAR_P1_DEN_MASK ∧
    TRAPS_NEAR_P2_DEN_MASK &&& LAND_SQUARES_MASK = TRAPS_NEAR_P2_DEN_MASK ∧
    pop_count TRAPS_NEAR_P1_DEN_MASK = 3 ∧ pop_count TRAPS_NEAR_P2_DEN_MASK = 3 := by
  decide

/-! ## C30: table hit short-circuit -/

theorem alpha_beta_search_eq_node (keys : ZobristKeys) (pst : PST) (depth : Nat) :
    alpha_beta_search keys pst depth =
      search_node keys pst (recursive_call keys pst depth) depth := by
  cases depth <;> rfl

theorem probe_tt_some {tt : TTState} {k : U64} {e : TTEntry} (h : probe_tt tt k = some e) :
    e = slot tt (k % tt.tt_num_entries) ∧ e.flag ≠ EntryFlag.NO_ENTRY ∧
      e.zobrist_key_check = k ∧ tt.tt_initialized = true ∧ tt.tt_num_entries ≠ 0 := by
  unfold probe_tt at h
  split at h
  · exact Option.noConfusion h
  · rename_i hen
    dsimp only at h
    split at h
    · rename_i hc
      have he : slot tt (k % tt.tt_num_entries) = e := Option.some.inj h
      rw [← he]
      refine ⟨rfl, hc.1, hc.2, ?_, fun h0 => hen (Or.inr h0)⟩
      cases hi : tt.tt_initialized
      · exact absurd (Or.inl hi) hen
      · rfl
    · exact Option.noConfusion h

theorem search_node_hit_eq (keys : ZobristKeys) (pst : PST) (search : SearchFn) (depth : Nat)
    (tt : TTState) (nodes : Int) (b : BoardState) (alpha beta : Int) (mx turn : Player)
    (hist : List BoardState) (e : TTEntry) (hprobe : probe_tt tt b.zobrist_hash = some e) :
    search_node keys pst search depth tt nodes b alpha beta mx turn hist =
      if e.depth ≥ depth then
        if e.flag = EntryFlag.EXACT_SCORE then { score := e.score, tt := tt, nodes := nodes + 1 }
        else if e.flag = EntryFlag.LOWER_BOUND then
          if max alpha e.score ≥ beta then { score := e.score, tt := tt, nodes := nodes + 1 }
          else search_after_probe keys pst search tt (nodes + 1) b depth (max alpha e.score) beta
            alpha (some e) mx turn hist
        else
          if alpha ≥ min beta e.score then { score := e.score, tt := tt, nodes := nodes + 1 }
          else search_after_probe keys pst search tt (nodes + 1) b depth alpha (min beta e.score)
            alpha (some e) mx turn hist
      else search_after_probe keys pst search tt (nodes + 1) b depth alpha beta alpha (some e)
        mx turn hist := by
  have hne := (probe_tt_some hprobe).2.1
  unfold search_node
  simp only [hprobe]
  cases hf : e.flag with
  | NO_ENTRY => exact absurd hf hne
  | EXACT_SCORE => simp
  | LOWER_BOUND => simp
  | UPPER_BOUND => simp

theorem search_node_usable_hit (keys : ZobristKeys) (pst : PST) (search : SearchFn) (depth : Nat)
    (tt : TTState) (nodes : Int) (b : BoardState) (alpha beta : Int) (mx turn : Player)
    (hist : List BoardState) (e : TTEntry) (hprobe : probe_tt tt b.zobrist_hash = some e)
    (hhit : usable_hit e depth alpha beta) :
    search_node keys pst search depth tt nodes b alpha beta mx turn hist =
      { score := e.score, tt := tt, nodes := nodes + 1 } := by
  obtain ⟨hd, hc⟩ := hhit
  rw [search_node_hit_eq keys pst search depth tt nodes b alpha beta mx turn hist e hprobe,
    if_pos hd]
  rcases hc with hc | ⟨hl, hc⟩ | ⟨hu, hc⟩
  · rw [if_pos hc]
  · rw [if_neg (by rw [hl]; decide), if_pos hl, if_pos hc]
  · rw [if_neg (by rw [hu]; decide), if_neg (by rw [hu]; decide), if_pos hc]

theorem search_node_no_usable_hit (keys : ZobristKeys) (pst : PST) (search : SearchFn)
    (depth : Nat) (tt : TTState) (nodes : Int) (b : BoardState) (alpha beta : Int)
    (mx turn : Player) (hist : List BoardState)
    (hhit : ∀ e, probe_tt tt b.zobrist_hash = some e → ¬ usable_hit e depth alpha beta) :
    ∃ a2 b2 : Int,
      search_node keys pst search depth tt nodes b alpha beta mx turn hist =
        search_after_probe keys pst search tt (nodes + 1) b depth a2 b2 alpha
          (probe_tt tt b.zobrist_hash) mx turn hist := by
  cases hprobe : probe_tt tt b.zobrist_hash with
  | none =>
    refine ⟨alpha, beta, ?_⟩
    unfold search_node
    simp only [hprobe]
  | some e =>
    have hno := hhit e hprobe
    have hne := (probe_tt_some hprobe).2.1
    unfold usable_hit at hno
    rw [search_node_hit_eq keys pst search depth tt nodes b alpha beta mx turn hist e hprobe]
    by_cases hd : e.depth ≥ depth
    · rw [if_pos hd]
      have hx : ¬ e.flag = EntryFlag.EXACT_SCORE := fun hx => hno ⟨hd, Or.inl hx⟩
      rw [if_neg hx]
      by_cases hl : e.flag = EntryFlag.LOWER_BOUND
      · rw [if_pos hl, if_neg (fun hc => hno ⟨hd, Or.inr (Or.inl ⟨hl, hc⟩)⟩)]
        exact ⟨_, _, rfl⟩
      · have hu : e.flag = EntryFlag.UPPER_BOUND := by
          cases hf : e.flag with
          | NO_ENTRY => exact absurd hf hne
          | EXACT_SCORE => exact absurd hf hx
          | LOWER_BOUND => exact absurd hf hl
          | UPPER_BOUND => rfl
        rw [if_neg hl, if_neg (fun hc => hno ⟨hd, Or.inr (Or.inr ⟨hu, hc⟩)⟩)]
        exact ⟨_, _, rfl⟩
    · rw [if_neg hd]
      exact ⟨alpha, beta, rfl⟩

/-- C30 (table hit short-circuit).  When `probe_tt` hits for the node's fingerprint with an
entry `e`: if the stored depth is at least the requested depth and the entry is `EXACT_SCORE`,
or `LOWER_BOUND` with `max(alpha, score) >= beta`, or `UPPER_BOUND` with
`alpha >= min(beta, score)`, then `alpha_beta_search` returns the stored score, leaves the table
as it was and only counts the node, whatever the evaluator and the move generator would give;
if the stored depth is smaller than the requested depth the search goes on after the probe with
the window `(alpha, beta)` it was called with. -/
theorem table_hit_short_circuit (keys : ZobristKeys) (pst : PST) (depth : Nat) (tt : TTState)
    (nodes : Int) (b : BoardState) (alpha beta : Int) (mx turn : Player)
    (hist : List BoardState) (e : TTEntry) (hprobe : probe_tt tt b.zobrist_hash = some e) :
    (e.depth ≥ depth →
      (e.flag = EntryFlag.EXACT_SCORE ∨
        (e.flag = EntryFlag.LOWER_BOUND ∧ max alpha e.score ≥ beta) ∨
        (e.flag = EntryFlag.UPPER_BOUND ∧ alpha ≥ min beta e.score)) →
      alpha_beta_search keys pst depth tt nodes b alpha beta mx turn hist =
        { score := e.score, tt := tt, nodes := nodes + 1 }) ∧
    (e.depth < depth →
      alpha_beta_search keys pst depth tt nodes b alpha beta mx turn hist =
        search_after_probe keys pst (recursive_call keys pst depth) tt (nodes + 1) b depth
          alpha beta alpha (some e) mx turn hist) := by
  rw [alpha_beta_search_eq_node]
  constructor
  · intro hd hc
    exact search_node_usable_hit keys pst _ depth tt nodes b alpha beta mx turn hist e hprobe
      ⟨hd, hc⟩
  · intro hd
    rw [search_node_hit_eq keys pst _ depth tt nodes b alpha beta mx turn hist e hprobe,
      if_neg (not_le.mpr hd)]

/-- Witness for C30: on `demo_tt` the exact entry of depth 3 for key 5 answers a search of depth
2 of `hit_board` with its score 42 and the table unchanged. -/
theorem table_hit_short_circuit_witness :
    probe_tt demo_tt hit_board.zobrist_hash = some (slot demo_tt 1) ∧
      alpha_beta_search demo_keys demo_pst 2 demo_tt 0 hit_board (-10) 10 PLAYER_1 PLAYER_1 [] =
        { score := 42, tt := demo_tt, nodes := 0 + 1 } :=
  ⟨by decide,
   (table_hit_short_circuit demo_keys demo_pst 2 demo_tt 0 hit_board (-10) 10 PLAYER_1 PLAYER_1 []
      (slot demo_tt 1) (by decide)).1 (by decide) (Or.inl rfl)⟩

/-! ## C24: no legal moves is a loss -/

/-- C24 (no legal moves is a loss).  For every board whose static evaluation is neither
`WIN_SCORE` nor `LOSS_SCORE`, every depth at least 1 and every history for which
`generate_all_legal_moves` for the side to move is empty, `alpha_beta_search` without a usable
table hit returns `LOSS_SCORE` when the side to move is the maximizing player and `WIN_SCORE`
otherwise. -/
theorem no_legal_moves_is_loss (keys : ZobristKeys) (pst : PST) (depth : Nat) (tt : TTState)
    (nodes : Int) (b : BoardState) (alpha beta : Int) (mx turn : Player)
    (hist : List BoardState) (hdepth : depth ≥ 1)
    (heval : evaluate_board pst b mx ≠ WIN_SCORE ∧ evaluate_board pst b mx ≠ LOSS_SCORE)
    (hnone : generate_all_legal_moves keys b turn hist = [])
    (hhit : ∀ e, probe_tt tt b.zobrist_hash = some e → ¬ usable_hit e depth alpha beta) :
    (alpha_beta_search keys pst depth tt nodes b alpha beta mx turn hist).score =
      if turn = mx then LOSS_SCORE else WIN_SCORE := by
  rw [alpha_beta_search_eq_node]
  obtain ⟨a2, b2, h⟩ := search_node_no_usable_hit keys pst (recursive_call keys pst depth) depth
    tt nodes b alpha beta mx turn hist hhit
  rw [h]
  unfold search_after_probe
  dsimp only
  rw [if_neg (by
    rintro (h0 | h1 | h2)
    · omega
    · exact heval.1 h1
    · exact heval.2 h2), hnone]
  rfl

/-- Witness for C24: one ELEPHANT per side, every move of `PLAYER_1` removed by the repetition
filter; the search of depth 1 for the maximizing `PLAYER_1` returns `LOSS_SCORE`. -/
theorem no_legal_moves_is_loss_witness :
    pseudo_legal_moves elephant_board PLAYER_1 ≠ [] ∧
      generate_all_legal_moves demo_keys elephant_board PLAYER_1 elephant_history = [] ∧
      (alpha_beta_search demo_keys demo_pst 1 TTState.static_init 0 elephant_board INT_MIN INT_MAX
        PLAYER_1 PLAYER_1 elephant_history).score = LOSS_SCORE :=
  ⟨by decide, by decide,
   no_legal_moves_is_loss demo_keys demo_pst 1 TTState.static_init 0 elephant_board INT_MIN INT_MAX
     PLAYER_1 PLAYER_1 elephant_history (le_refl 1) (by decide) (by decide)
     (fun e h => by
       rw [probe_tt_disabled (Or.inl rfl)] at h
       exact Option.noConfusion h)⟩

/-! ## The root loop with an enabled table -/

/-- The root loop keeps every table property `P` that the searches of the root moves keep, its
score has every property `S` the scores of these searches have, and its move is the initial
one or one of the moves of the list. -/
theorem root_loop_general (keys : ZobristKeys) (pst : PST) (b : BoardState) (sd : Nat)
    (hist : List BoardState) (beta : Int) (P : TTState → Prop) (S : Int → Prop)
    (M : Move → Prop)
    (hsearch : ∀ (tt : TTState) (alpha : Int) (m : Move), M m → P tt →
      P (alpha_beta_search keys pst (sd - 1) tt 0 (make_move_on_copy keys b m) alpha beta PLAYER_1
          (make_move_on_copy keys b m).side_to_move (hist ++ [b])).tt ∧
      S (alpha_beta_search keys pst (sd - 1) tt 0 (make_move_on_copy keys b m) alpha beta PLAYER_1
          (make_move_on_copy keys b m).side_to_move (hist ++ [b])).score) :
    ∀ (rest : List (Int × Move)) (st : RootState), (∀ p ∈ rest, M p.2) → P st.tt →
      (st.first_move_evaluated = true → S st.final_score) →
      P (root_loop keys pst b sd hist beta rest st).tt ∧
      ((root_loop keys pst b sd hist beta rest st).first_move_evaluated = true →
        S (root_loop keys pst b sd hist beta rest st).final_score) ∧
      (st.first_move_evaluated = true ∨ rest ≠ [] →
        (root_loop keys pst b sd hist beta rest st).first_move_evaluated = true) ∧
      (((root_loop keys pst b sd hist beta rest st).best_move = st.best_move ∧
          (root_loop keys pst b sd hist beta rest st).final_score = st.final_score ∧
          (st.first_move_evaluated = true ∨ rest = [])) ∨
        ∃ p ∈ rest, (root_loop keys pst b sd hist beta rest st).best_move = p.2) := by
  intro rest
  induction rest with
  | nil =>
    intro st _ hP hS
    exact ⟨hP, hS, fun h => h.elim id (fun h2 => absurd rfl h2), Or.inl ⟨rfl, rfl, Or.inr rfl⟩⟩
  | cons p rest ih =>
    intro st hM hP hS
    rw [root_loop_cons]
    obtain ⟨hrP, hrS⟩ := hsearch st.tt st.alpha p.2 (hM p (List.mem_cons_self _ _)) hP
    generalize alpha_beta_search keys pst (sd - 1) st.tt 0 (make_move_on_copy keys b p.2)
      st.alpha beta PLAYER_1 (make_move_on_copy keys b p.2).side_to_move (hist ++ [b]) = r at *
    by_cases htake : ¬ st.first_move_evaluated = true ∨ r.score > st.final_score
    · simp only [htake, decide_True, if_true]
      obtain ⟨g1, g2, g3, g4⟩ := ih
        { best_move := p.2, final_score := r.score, first_move_evaluated := true,
          alpha := max st.alpha r.score,
          total_nodes_for_search_at_root := st.total_nodes_for_search_at_root + r.nodes,
          tt := r.tt }
        (fun q hq => hM q (List.mem_cons_of_mem _ hq)) hrP (fun _ => hrS)
      refine ⟨g1, g2, fun _ => g3 (Or.inl rfl), Or.inr ?_⟩
      · rcases g4 with ⟨e1, _, _⟩ | ⟨q, hq, e1⟩
        · exact ⟨p, List.mem_cons_self _ _, e1⟩
        · exact ⟨q, List.mem_cons_of_mem _ hq, e1⟩
    · simp only [htake, decide_False, Bool.false_eq_true, if_false]
      have hfirst : st.first_move_evaluated = true := by
        by_contra h
        exact htake (Or.inl h)
      obtain ⟨g1, g2, g3, g4⟩ := ih
        { best_move := st.best_move, final_score := st.final_score,
          first_move_evaluated := st.first_move_evaluated,
          alpha := max st.alpha st.final_score,
          total_nodes_for_search_at_root := st.total_nodes_for_search_at_root + r.nodes,
          tt := r.tt }
        (fun q hq => hM q (List.mem_cons_of_mem _ hq)) hrP hS
      refine ⟨g1, g2, fun _ => g3 (Or.inl hfirst), ?_⟩
      · rcases g4 with ⟨e1, e2, _⟩ | ⟨q, hq, e1⟩
        · exact Or.inl ⟨e1, e2, Or.inl hfirst⟩
        · exact Or.inr ⟨q, List.mem_cons_of_mem _ hq, e1⟩

/-- The shape of the result of `find_best_ai_move` when `PLAYER_1` has a legal move: the move is
one of the legal moves, the count is their number, and the table is the table the root loop
left with the root outcome stored under one of the three flags.  `P` is any table property and
`S` any score property kept by the searches of the root moves. -/
theorem find_best_ai_move_nonempty (keys : ZobristKeys) (pst : PST) (sorter : RootSort)
    (tt : TTState) (b : BoardState) (sd : Nat) (hist : List BoardState)
    (P : TTState → Prop) (S : Int → Prop)
    (hlegal : generate_all_legal_moves keys b PLAYER_1 hist ≠ [])
    (hsearch : ∀ (tt : TTState) (alpha : Int) (m : Move),
      m ∈ generate_all_legal_moves keys b PLAYER_1 hist → P tt →
      P (alpha_beta_search keys pst (sd - 1) tt 0 (make_move_on_copy keys b m) alpha INT_MAX
          PLAYER_1 (make_move_on_copy keys b m).side_to_move (hist ++ [b])).tt ∧
      S (alpha_beta_search keys pst (sd - 1) tt 0 (make_move_on_copy keys b m) alpha INT_MAX
          PLAYER_1 (make_move_on_copy keys b m).side_to_move (hist ++ [b])).score)
    (hP : P tt) :
    (find_best_ai_move keys pst sorter tt b sd hist).1.best_move ∈
        generate_all_legal_moves keys b PLAYER_1 hist ∧
      (find_best_ai_move keys pst sorter tt b sd hist).1.root_moves_count =
        ((generate_all_legal_moves keys b PLAYER_1 hist).length : Int) ∧
      S (find_best_ai_move keys pst sorter tt b sd hist).1.final_score ∧
      ∃ (t2 : TTState) (flag : EntryFlag), P t2 ∧ flag ≠ EntryFlag.NO_ENTRY ∧
        (find_best_ai_move keys pst sorter tt b sd hist).2 =
          store_tt_entry t2 b.zobrist_hash
            (find_best_ai_move keys pst sorter tt b sd hist).1.final_score sd flag
            (find_best_ai_move keys pst sorter tt b sd hist).1.best_move := by
  have hne : (generate_all_legal_moves keys b PLAYER_1 hist).isEmpty = false := by
    cases hg : generate_all_legal_moves keys b PLAYER_1 hist with
    | nil => exact absurd hg hlegal
    | cons _ _ => rfl
  unfold find_best_ai_move
  dsimp only
  simp only [hne, Bool.false_eq_true, if_false, not_false_eq_true, and_true]
  generalize hsc : @List.map Move (Int × Move) _
    (generate_all_legal_moves keys b PLAYER_1 hist) = scored
  have hperm := sorter.perm scored
  generalize sorter.sort scored = sorted at *
  have hsnd : ∀ p ∈ sorted, p.2 ∈ generate_all_legal_moves keys b PLAYER_1 hist := by
    intro p hp
    have hp2 := hperm.subset hp
    rw [← hsc] at hp2
    obtain ⟨m, hm, rfl⟩ := List.mem_map.mp hp2
    exact hm
  have hsorted_ne : sorted ≠ [] := by
    intro h
    rw [h] at hperm
    have := hperm.length_eq
    rw [← hsc] at this
    simp only [List.length_nil, List.length_map] at this
    exact hlegal (List.length_eq_zero.mp this.symm)
  obtain ⟨g1, g2, g3, g4⟩ := root_loop_general keys pst b sd hist INT_MAX P S
    (fun m => m ∈ generate_all_legal_moves keys b PLAYER_1 hist) hsearch sorted
    { best_move := AiMoveResult.ctor.best_move, final_score := AiMoveResult.ctor.final_score,
      first_move_evaluated := false, alpha := INT_MIN, total_nodes_for_search_at_root := 0,
      tt := tt }
    hsnd hP (fun h => by simp at h)
  generalize root_loop keys pst b sd hist INT_MAX sorted
    { best_move := AiMoveResult.ctor.best_move, final_score := AiMoveResult.ctor.final_score,
      first_move_evaluated := false, alpha := INT_MIN, total_nodes_for_search_at_root := 0,
      tt := tt } = st at *
  have hmem : st.best_move ∈ generate_all_legal_moves keys b PLAYER_1 hist := by
    rcases g4 with ⟨_, _, h | h⟩ | ⟨p, hp, e⟩
    · simp at h
    · exact absurd h hsorted_ne
    · rw [e]; exact hsnd p hp
  have hfrom : ¬ (st.best_move.from_sq = -1) := by
    have := generated_from_sq_nonneg hmem
    omega
  simp only [ne_eq, hfrom, if_false, not_false_eq_true, if_true]
  refine ⟨hmem, ?_, g2 (g3 (Or.inr hsorted_ne)), st.tt, _, g1, ?_, rfl⟩
  · first
      | rfl
      | trivial
  · split
    · decide
    · split <;> decide

/-! ## C22: null move at the root -/

/-- C22 (null move at the root).  For every board, history, table state and search depth of at
least 1: when `generate_all_legal_moves(board, PLAYER_1, history)` is empty,
`find_best_ai_move` returns the null move (`from_sq = to_sq = -1`) with `root_moves_count = 0`
and `nodes_searched = 0` and leaves the table alone; otherwise `best_move` is an element of that
list, hence not null, and `root_moves_count` is the length of the list.  So the null result is
returned exactly when the list is empty. -/
theorem null_move_at_root (keys : ZobristKeys) (pst : PST) (sorter : RootSort) (tt : TTState)
    (b : BoardState) (history : List BoardState) (search_depth : Nat)
    (hd : 1 ≤ search_depth) :
    (generate_all_legal_moves keys b PLAYER_1 history = [] →
      (find_best_ai_move keys pst sorter tt b search_depth history).1.best_move = Move.null ∧
      (find_best_ai_move keys pst sorter tt b search_depth history).1.best_move.from_sq = -1 ∧
      (find_best_ai_move keys pst sorter tt b search_depth history).1.best_move.to_sq = -1 ∧
      (find_best_ai_move keys pst sorter tt b search_depth history).1.root_moves_count = 0 ∧
      (find_best_ai_move keys pst sorter tt b search_depth history).1.nodes_searched = 0 ∧
      (find_best_ai_move keys pst sorter tt b search_depth history).2 = tt) ∧
    (generate_all_legal_moves keys b PLAYER_1 history ≠ [] →
      (find_best_ai_move keys pst sorter tt b search_depth history).1.best_move ∈
        generate_all_legal_moves keys b PLAYER_1 history ∧
      (find_best_ai_move keys pst sorter tt b search_depth history).1.best_move.from_sq ≠ -1 ∧
      (find_best_ai_move keys pst sorter tt b search_depth history).1.root_moves_count =
        ((generate_all_legal_moves keys b PLAYER_1 history).length : Int)) ∧
    (((find_best_ai_move keys pst sorter tt b search_depth history).1.best_move.from_sq = -1 ∧
        (find_best_ai_move keys pst sorter tt b search_depth history).1.best_move.to_sq = -1 ∧
        (find_best_ai_move keys pst sorter tt b search_depth history).1.root_moves_count = 0 ∧
        (find_best_ai_move keys pst sorter tt b search_depth history).1.nodes_searched = 0) ↔
      generate_all_legal_moves keys b PLAYER_1 history = []) := by
  -- the embedding passes `search_depth - 1` to the search, which is the C++ value for
  -- `search_depth ≥ 1`
  have _ := hd
  have hempty : generate_all_legal_moves keys b PLAYER_1 history = [] →
      find_best_ai_move keys pst sorter tt b search_depth history =
        ({ AiMoveResult.ctor with root_moves_count := 0 }, tt) := by
    intro h
    unfold find_best_ai_move
    dsimp only
    rw [h]
    rfl
  have hnonempty : generate_all_legal_moves keys b PLAYER_1 history ≠ [] →
      (find_best_ai_move keys pst sorter tt b search_depth history).1.best_move ∈
        generate_all_legal_moves keys b PLAYER_1 history ∧
      (find_best_ai_move keys pst sorter tt b search_depth history).1.best_move.from_sq ≠ -1 ∧
      (find_best_ai_move keys pst sorter tt b search_depth history).1.root_moves_count =
        ((generate_all_legal_moves keys b PLAYER_1 history).length : Int) := by
    intro h
    obtain ⟨h1, h2, _⟩ := find_best_ai_move_nonempty keys pst sorter tt b search_depth history
      (fun _ => True) (fun _ => True) h (fun _ _ _ _ _ => ⟨trivial, trivial⟩) trivial
    refine ⟨h1, ?_, h2⟩
    have := generated_from_sq_nonneg h1
    omega
  refine ⟨fun h => ?_, hnonempty, ?_, ?_⟩
  · rw [hempty h]
    exact ⟨rfl, rfl, rfl, rfl, rfl, rfl⟩
  · rintro ⟨h1, _⟩
    by_contra hne
    exact (hnonempty hne).2.1 h1
  · intro h
    rw [hempty h]
    exact ⟨rfl, rfl, rfl, rfl⟩

/-- Witness for C22: on `elephant_board` with `elephant_history` `PLAYER_1` has no legal move
and the result of a search of depth 1 is the null move. -/
theorem null_move_at_root_witness :
    (1 ≤ 1) ∧
      (find_best_ai_move demo_keys demo_pst demo_sorter demo_tt elephant_board 1
        elephant_history).1.best_move = Move.null :=
  ⟨le_refl 1,
   ((null_move_at_root demo_keys demo_pst demo_sorter demo_tt elephant_board elephant_history 1
      (le_refl 1)).1 (by decide)).1⟩

/-! ## C21: table sizing and disabling -/

theorem initialize_tt_zero (sz : Nat) (alloc_ok : Bool) (tt : TTState) :
    initialize_tt sz alloc_ok tt 0 = TTState.static_init := by
  unfold initialize_tt
  rw [if_pos rfl]
  rfl

theorem initialize_tt_alloc_failure (sz : Nat) (tt : TTState) (n : Nat) :
    initialize_tt sz false tt n = TTState.static_init := by
  unfold initialize_tt
  split
  · rfl
  · rfl

theorem resize_length (l : List TTEntry) (n : Nat) : (resize l n).length = n := by
  unfold resize
  rw [List.length_append, List.length_take, List.length_replicate]
  omega

theorem set_replicate_same (d : TTEntry) (c i : Nat) :
    (List.replicate c d).set i d = List.replicate c d := by
  apply List.ext_getElem?
  intro j
  rw [List.getElem?_set]
  split
  · rename_i hij
    subst hij
    split
    · rename_i hlt
      rw [List.length_replicate] at hlt
      rw [List.getElem?_replicate, if_pos hlt]
    · rename_i hlt
      rw [List.length_replicate] at hlt
      rw [List.getElem?_replicate, if_neg hlt]
  · rfl

theorem clear_fold_replicate (d : TTEntry) (c n : Nat) :
    (List.range n).foldl (fun t j => t.set j d) (List.replicate c d) = List.replicate c d := by
  induction n with
  | zero => rfl
  | succ n ih =>
    rw [List.range_succ, List.foldl_append, ih]
    exact set_replicate_same d c n

theorem clear_tt_replicate (c : Nat) (init : Bool) :
    clear_tt { tt_table := List.replicate c TTEntry.ctor, tt_num_entries := c,
               tt_initialized := init } =
      { tt_table := List.replicate c TTEntry.ctor, tt_num_entries := c,
        tt_initialized := init } := by
  unfold clear_tt
  split
  · rfl
  · dsimp only
    rw [clear_fold_replicate]

/-- The number of entries `initialize_tt` computes from a non-zero budget. -/
theorem initialize_tt_success (sz : Nat) (tt : TTState) (n : Nat) (hn : n ≠ 0)
    (hprior : tt.tt_initialized = false → tt.tt_table = []) :
    ∃ c : Nat, 1 ≤ c ∧ (0 < sz → sz ≤ n * 2 ^ 20 → c * sz ≤ n * 2 ^ 20) ∧
      initialize_tt sz true tt n =
        { tt_table := List.replicate c TTEntry.ctor, tt_num_entries := c,
          tt_initialized := true } := by
  have htable : (if tt.tt_initialized = true then [] else tt.tt_table) = [] := by
    cases hi : tt.tt_initialized
    · exact hprior hi
    · rfl
  have hres : ∀ c, resize ([] : List TTEntry) c = List.replicate c TTEntry.ctor := by
    intro c
    unfold resize
    simp
  unfold initialize_tt
  rw [if_neg hn]
  dsimp only
  rw [htable, if_pos rfl, hres, clear_tt_replicate]
  refine ⟨_, ?_, ?_, rfl⟩
  · generalize n * 1024 * 1024 % 2 ^ 64 / sz = q
    split <;> omega
  · intro hsz hbud
    have hle : n * 1024 * 1024 % 2 ^ 64 ≤ n * 2 ^ 20 := by
      have := Nat.mod_le (n * 1024 * 1024) (2 ^ 64)
      omega
    split
    · omega
    · exact le_trans (Nat.div_mul_le_self _ _) hle

theorem slot_replicate (c i : Nat) :
    slot { tt_table := List.replicate c TTEntry.ctor, tt_num_entries := c,
           tt_initialized := true } i = TTEntry.ctor := by
  unfold slot
  rw [List.getD_eq_getElem?_getD, List.getElem?_replicate]
  split <;> rfl

theorem probe_tt_of_empty {tt : TTState} (h : ∀ i, slot tt i = TTEntry.ctor) (k : U64) :
    probe_tt tt k = none := by
  unfold probe_tt
  split
  · rfl
  · dsimp only
    rw [h]
    simp [TTEntry.ctor]

/-- C21, counterexample to "initialize_tt(n) for n > 0 yields a capacity of at least one
entry": when the allocation of the vector fails the exception handler leaves the capacity 0 and
the table disabled. -/
theorem initialize_tt_alloc_failure_counterexample :
    (initialize_tt 40 false TTState.static_init 1).tt_num_entries = 0 ∧
      (initialize_tt 40 false TTState.static_init 1).tt_initialized = false ∧
      ¬ (1 ≤ (initialize_tt 40 false TTState.static_init 1).tt_num_entries) := by
  decide

/-- C21 (table sizing and disabling, amended).  `initialize_tt(0)`, and `initialize_tt(n)` whose
allocation fails, leave the table disabled: capacity 0, `probe_tt` absent for every key and
`store_tt_entry` changing nothing.  `initialize_tt(n)` for `n > 0` whose allocation succeeds,
called on a table whose vector is empty unless initialized, yields an initialized table of at
least one entry, all entries empty, the vector as long as the capacity, with
`capacity * sizeof(TTEntry)` not above the byte budget `n * 2^20` whenever that budget holds one
entry. -/
theorem table_sizing (sizeof_TTEntry : Nat) (alloc_ok : Bool) (tt : TTState) (n : Nat) :
    (n = 0 ∨ alloc_ok = false →
      (initialize_tt sizeof_TTEntry alloc_ok tt n).tt_num_entries = 0 ∧
      get_tt_num_entries (initialize_tt sizeof_TTEntry alloc_ok tt n) = 0 ∧
      (initialize_tt sizeof_TTEntry alloc_ok tt n).tt_initialized = false ∧
      (initialize_tt sizeof_TTEntry alloc_ok tt n).tt_table = [] ∧
      (∀ k, probe_tt (initialize_tt sizeof_TTEntry alloc_ok tt n) k = none) ∧
      (∀ k score depth flag move,
        store_tt_entry (initialize_tt sizeof_TTEntry alloc_ok tt n) k score depth flag move =
          initialize_tt sizeof_TTEntry alloc_ok tt n)) ∧
    (n ≠ 0 → alloc_ok = true → (tt.tt_initialized = false → tt.tt_table = []) →
      1 ≤ (initialize_tt sizeof_TTEntry alloc_ok tt n).tt_num_entries ∧
      (initialize_tt sizeof_TTEntry alloc_ok tt n).tt_initialized = true ∧
      TTSized (initialize_tt sizeof_TTEntry alloc_ok tt n) ∧
      (∀ i, slot (initialize_tt sizeof_TTEntry alloc_ok tt n) i = TTEntry.ctor) ∧
      (∀ k, probe_tt (initialize_tt sizeof_TTEntry alloc_ok tt n) k = none) ∧
      (0 < sizeof_TTEntry → sizeof_TTEntry ≤ n * 2 ^ 20 →
        (initialize_tt sizeof_TTEntry alloc_ok tt n).tt_num_entries * sizeof_TTEntry ≤
          n * 2 ^ 20)) := by
  constructor
  · intro h
    have e : initialize_tt sizeof_TTEntry alloc_ok tt n = TTState.static_init := by
      rcases h with rfl | rfl
      · exact initialize_tt_zero _ _ _
      · exact initialize_tt_alloc_failure _ _ _
    rw [e]
    exact ⟨rfl, rfl, rfl, rfl, fun k => probe_tt_disabled (Or.inl rfl) k,
      fun k score depth flag move => store_tt_entry_disabled (Or.inl rfl) k score depth flag move⟩
  · rintro hn rfl hprior
    obtain ⟨c, hc1, hc2, e⟩ := initialize_tt_success sizeof_TTEntry tt n hn hprior
    rw [e]
    refine ⟨hc1, rfl, ?_, slot_replicate c, ?_, hc2⟩
    · exact List.length_replicate _ _
    · exact probe_tt_of_empty (slot_replicate c)

/-- Witness for C21: a budget of 1 MB with 40-byte entries on the statically initialised table,
allocation succeeding. -/
theorem table_sizing_witness :
    1 ≤ (initialize_tt 40 true TTState.static_init 1).tt_num_entries ∧
      (initialize_tt 40 true TTState.static_init 1).tt_num_entries * 40 ≤ 1 * 2 ^ 20 :=
  ⟨((table_sizing 40 true TTState.static_init 1).2 (by decide) rfl (fun _ => rfl)).1,
   ((table_sizing 40 true TTState.static_init 1).2 (by decide) rfl (fun _ => rfl)).2.2.2.2.2
     (by decide) (by decide)⟩

theorem tt_inv_static_init : TTInv TTState.static_init := ⟨rfl, fun _ => rfl⟩

theorem tt_inv_initialize_tt (sz : Nat) (alloc_ok : Bool) (tt : TTState) (n : Nat)
    (h : TTInv tt) : TTInv (initialize_tt sz alloc_ok tt n) := by
  by_cases hn : n = 0
  · rw [hn, initialize_tt_zero]
    exact tt_inv_static_init
  · cases alloc_ok
    · rw [initialize_tt_alloc_failure]
      exact tt_inv_static_init
    · obtain ⟨c, _, _, e⟩ := initialize_tt_success sz tt n hn h.2
      rw [e]
      exact ⟨List.length_replicate _ _, fun hi => Bool.noConfusion hi⟩

theorem tt_inv_store (tt : TTState) (k : U64) (s d : Int) (f : EntryFlag) (m : Move)
    (h : TTInv tt) : TTInv (store_tt_entry tt k s d f m) := by
  unfold store_tt_entry
  split
  · exact h
  · rename_i hen
    dsimp only
    split
    · refine ⟨?_, fun hi => ?_⟩
      · unfold TTSized
        rw [List.length_set]
        exact h.1
      · exact absurd (Or.inl hi) hen
    · exact h

theorem tt_inv_clear (tt : TTState) (h : TTInv tt) : TTInv (clear_tt tt) := by
  obtain ⟨h1, h2, h3⟩ := clear_tt_num_entries tt
  refine ⟨?_, fun hi => ?_⟩
  · unfold TTSized
    rw [h3, h1]
    exact h.1
  · rw [h2] at hi
    unfold clear_tt
    rw [if_pos (Or.inl hi)]
    exact h.2 hi

theorem tt_inv_cleanup (tt : TTState) : TTInv (cleanup_tt tt) := ⟨rfl, fun _ => rfl⟩

/-! ## C28: the key tables -/

open Zobrist in
theorem draw_until_some {rng : Nat → U64} {reject : U64 → Bool} :
    ∀ (fuel pos : Nat) {v : U64} {pos2 : Nat},
      draw_until rng reject fuel pos = some (v, pos2) → reject v = false := by
  intro fuel
  induction fuel with
  | zero => intro pos v pos2 h; exact Option.noConfusion h
  | succ fuel ih =>
    intro pos v pos2 h
    unfold draw_until at h
    split at h
    · exact ih _ h
    · rename_i hr
      have := Option.some.inj h
      rw [← (Prod.mk.inj this).1]
      simpa using hr

open Zobrist in
theorem draw_until_mono {rng : Nat → U64} {reject : U64 → Bool} :
    ∀ (fuel pos : Nat) {x : U64 × Nat}, draw_until rng reject fuel pos = some x →
      ∀ extra : Nat, draw_until rng reject (fuel + extra) pos = some x := by
  intro fuel
  induction fuel with
  | zero => intro pos x h; exact Option.noConfusion h
  | succ fuel ih =>
    intro pos x h extra
    rw [Nat.add_right_comm]
    unfold draw_until at h ⊢
    split
    · rename_i hr
      rw [if_pos hr] at h
      exact ih _ h extra
    · rename_i hr
      rw [if_neg hr] at h
      exact h

open Zobrist in
theorem draw_until_exists {rng : Nat → U64} {reject : U64 → Bool} :
    ∀ (fuel pos : Nat), (∃ j, j < fuel ∧ reject (rng (pos + j)) = false) →
      ∃ x, draw_until rng reject fuel pos = some x := by
  intro fuel
  induction fuel with
  | zero => rintro pos ⟨j, hj, _⟩; omega
  | succ fuel ih =>
    rintro pos ⟨j, hj, hr⟩
    unfold draw_until
    split
    · rename_i hrej
      apply ih
      cases j with
      | zero => rw [Nat.add_zero, hrej] at hr; exact Bool.noConfusion hr
      | succ j => exact ⟨j, by omega, by rw [Nat.add_assoc, Nat.add_comm 1 j]; exact hr⟩
    · exact ⟨_, rfl⟩

open Zobrist in
theorem fill_cell_spec {rng : Nat → U64} {fuel : Nat}
    {st st2 : (PieceType → Player → Nat → U64) × Nat} {c : PieceType × Player × Nat}
    (h : fill_cell rng fuel st c = some st2) :
    (∀ pt p s, (pt, p, s) ≠ c → st2.1 pt p s = st.1 pt p s) ∧
      ((c.1 = NO_PIECE_TYPE ∨ c.2.1 = NO_PLAYER) → st2.1 c.1 c.2.1 c.2.2 = 0) ∧
      (¬ (c.1 = NO_PIECE_TYPE ∨ c.2.1 = NO_PLAYER) → st2.1 c.1 c.2.1 c.2.2 ≠ 0) := by
  have hother : ∀ (t : PieceType → Player → Nat → U64) (v : U64) (pt : PieceType) (p : Player)
      (s : Nat), (pt, p, s) ≠ c → set_piece_key t c.1 c.2.1 c.2.2 v pt p s = t pt p s := by
    intro t v pt p s hne
    unfold set_piece_key
    rw [if_neg]
    rintro ⟨rfl, rfl, rfl⟩
    exact hne rfl
  have hsame : ∀ (t : PieceType → Player → Nat → U64) (v : U64),
      set_piece_key t c.1 c.2.1 c.2.2 v c.1 c.2.1 c.2.2 = v := by
    intro t v
    unfold set_piece_key
    rw [if_pos ⟨rfl, rfl, rfl⟩]
  unfold fill_cell at h
  split at h
  · rename_i hno
    have e := Option.some.inj h
    rw [← e]
    exact ⟨fun pt p s hne => hother _ _ pt p s hne, fun _ => hsame _ _, fun hc => absurd hno hc⟩
  · rename_i hreal
    split at h
    · rename_i v pos hdraw
      have e := Option.some.inj h
      rw [← e]
      refine ⟨fun pt p s hne => hother _ _ pt p s hne, fun hc => absurd hc hreal, fun _ => ?_⟩
      show set_piece_key st.1 c.1 c.2.1 c.2.2 v c.1 c.2.1 c.2.2 ≠ 0
      rw [hsame]
      have := draw_until_some fuel st.2 hdraw
      simpa using this
    · exact Option.noConfusion h

open Zobrist in
theorem fill_cells_spec {rng : Nat → U64} {fuel : Nat} (cells : List (PieceType × Player × Nat)) :
    ∀ {st st2 : (PieceType → Player → Nat → U64) × Nat},
      cells.foldlM (fill_cell rng fuel) st = some st2 →
      (∀ pt p s, (pt = NO_PIECE_TYPE ∨ p = NO_PLAYER) → st.1 pt p s = 0 → st2.1 pt p s = 0) ∧
      (∀ pt p s, ¬ (pt = NO_PIECE_TYPE ∨ p = NO_PLAYER) →
        (st.1 pt p s ≠ 0 ∨ (pt, p, s) ∈ cells) → st2.1 pt p s ≠ 0) := by
  induction cells with
  | nil =>
    intro st st2 h
    have e : st = st2 := Option.some.inj h
    subst e
    refine ⟨fun _ _ _ _ h0 => h0, fun pt p s _ h1 => ?_⟩
    rcases h1 with h1 | h1
    · exact h1
    · exact absurd h1 (List.not_mem_nil _)
  | cons c cells ih =>
    intro st st2 h
    rw [List.foldlM_cons] at h
    cases hc : fill_cell rng fuel st c with
    | none => rw [hc] at h; exact Option.noConfusion h
    | some st1 =>
      rw [hc] at h
      obtain ⟨g1, g2, g3⟩ := fill_cell_spec hc
      obtain ⟨i1, i2⟩ := ih h
      constructor
      · intro pt p s hno h0
        apply i1 pt p s hno
        by_cases he : (pt, p, s) = c
        · subst he
          exact g2 hno
        · rw [g1 pt p s he]
          exact h0
      · intro pt p s hreal h1
        apply i2 pt p s hreal
        by_cases he : (pt, p, s) = c
        · subst he
          exact Or.inl (g3 hreal)
        · rcases h1 with h1 | h1
          · left
            rw [g1 pt p s he]
            exact h1
          · rcases List.mem_cons.mp h1 with h1 | h1
            · exact absurd h1 he
            · exact Or.inr h1

open Zobrist in
theorem mem_KEY_CELLS (pt : PieceType) (p : Player) (s : Nat) (hs : s < 63) :
    (pt, p, s) ∈ KEY_CELLS := by
  unfold KEY_CELLS
  simp only [List.mem_flatMap, List.mem_map, List.mem_range, Prod.mk.injEq]
  refine ⟨pt, ?_, p, ?_, s, hs, rfl, rfl, rfl⟩
  · cases pt <;> simp
  · cases p <;> simp

open Zobrist in
theorem fill_cell_mono {rng : Nat → U64} {fuel : Nat}
    {st st2 : (PieceType → Player → Nat → U64) × Nat} {c : PieceType × Player × Nat}
    (h : fill_cell rng fuel st c = some st2) (extra : Nat) :
    fill_cell rng (fuel + extra) st c = some st2 := by
  unfold fill_cell at h ⊢
  split
  · rename_i hno
    rw [if_pos hno] at h
    exact h
  · rename_i hreal
    rw [if_neg hreal] at h
    cases hd : draw_until rng (fun random_val => decide (random_val = 0)) fuel st.2 with
    | none => rw [hd] at h; exact Option.noConfusion h
    | some x =>
      rw [hd] at h
      rw [draw_until_mono fuel st.2 hd extra]
      exact h

open Zobrist in
theorem fill_cells_mono {rng : Nat → U64} {fuel : Nat} (cells : List (PieceType × Player × Nat))
    (extra : Nat) :
    ∀ {st st2 : (PieceType → Player → Nat → U64) × Nat},
      cells.foldlM (fill_cell rng fuel) st = some st2 →
      cells.foldlM (fill_cell rng (fuel + extra)) st = some st2 := by
  induction cells with
  | nil => intro st st2 h; exact h
  | cons c cells ih =>
    intro st st2 h
    rw [List.foldlM_cons] at h ⊢
    cases hc : fill_cell rng fuel st c with
    | none => rw [hc] at h; exact Option.noConfusion h
    | some st1 =>
      rw [hc] at h
      rw [fill_cell_mono hc extra]
      exact ih h

open Zobrist in
theorem fill_cells_exists {rng : Nat → U64} {fuel : Nat} (hgood : StreamGood rng fuel)
    (cells : List (PieceType × Player × Nat)) :
    ∀ st : (PieceType → Player → Nat → U64) × Nat,
      ∃ st2, cells.foldlM (fill_cell rng fuel) st = some st2 := by
  induction cells with
  | nil => intro st; exact ⟨st, rfl⟩
  | cons c cells ih =>
    intro st
    rw [List.foldlM_cons]
    have hc : ∃ st1, fill_cell rng fuel st c = some st1 := by
      unfold fill_cell
      split
      · exact ⟨_, rfl⟩
      · obtain ⟨j, hj, h0, _⟩ := hgood st.2 0
        obtain ⟨x, hx⟩ := @draw_until_exists rng (fun random_val => decide (random_val = 0))
          fuel st.2 ⟨j, hj, by simpa using h0⟩
        rw [hx]
        exact ⟨_, rfl⟩
    obtain ⟨st1, h1⟩ := hc
    rw [h1]
    exact ih st1

open Zobrist in
theorem initialize_keys_some {rng : Nat → U64} {fuel : Nat} {keys : ZobristKeys}
    (h : initialize_keys rng fuel = some keys) :
    ∃ (t : PieceType → Player → Nat → U64) (pos pos2 pos3 : Nat) (k1 k2 : U64),
      KEY_CELLS.foldlM (fill_cell rng fuel) (fun _ _ _ => 0, 0) = some (t, pos) ∧
      draw_until rng (fun p1_key => decide (p1_key = 0)) fuel pos = some (k1, pos2) ∧
      draw_until rng (fun p2_key => decide (p2_key = 0 ∨ p2_key = k1)) fuel pos2 =
        some (k2, pos3) ∧
      keys.piece_keys = t ∧ keys.side_to_move_key NO_PLAYER = 0 ∧
      keys.side_to_move_key PLAYER_1 = k1 ∧ keys.side_to_move_key PLAYER_2 = k2 := by
  unfold initialize_keys at h
  dsimp only at h
  cases hf : KEY_CELLS.foldlM (fill_cell rng fuel) (fun _ _ _ => 0, 0) with
  | none => rw [hf] at h; exact Option.noConfusion h
  | some st =>
    obtain ⟨t, pos⟩ := st
    rw [hf] at h
    dsimp only at h
    cases h1 : draw_until rng (fun p1_key => decide (p1_key = 0)) fuel pos with
    | none => rw [h1] at h; exact Option.noConfusion h
    | some x1 =>
      obtain ⟨k1, pos2⟩ := x1
      rw [h1] at h
      dsimp only at h
      cases h2 : draw_until rng (fun p2_key => decide (p2_key = 0 ∨ p2_key = k1)) fuel pos2 with
      | none => rw [h2] at h; exact Option.noConfusion h
      | some x2 =>
        obtain ⟨k2, pos3⟩ := x2
        rw [h2] at h
        dsimp only at h
        have e := Option.some.inj h
        subst e
        exact ⟨t, pos, pos2, pos3, k1, k2, rfl, h1, h2, rfl, rfl, rfl, rfl⟩

open Zobrist in
theorem initialize_keys_mono {rng : Nat → U64} {fuel : Nat} {keys : ZobristKeys}
    (h : initialize_keys rng fuel = some keys) (extra : Nat) :
    initialize_keys rng (fuel + extra) = some keys := by
  obtain ⟨t, pos, pos2, pos3, k1, k2, hf, h1, h2, _⟩ := initialize_keys_some h
  unfold initialize_keys at h ⊢
  dsimp only at h ⊢
  rw [hf] at h
  rw [fill_cells_mono KEY_CELLS extra hf]
  dsimp only at h ⊢
  rw [h1] at h
  rw [draw_until_mono fuel pos h1 extra]
  dsimp only at h ⊢
  rw [h2] at h
  rw [draw_until_mono fuel pos2 h2 extra]
  exact h

open Zobrist in
theorem initialize_keys_exists {rng : Nat → U64} {fuel : Nat} (hgood : StreamGood rng fuel) :
    ∃ keys, initialize_keys rng fuel = some keys := by
  obtain ⟨⟨t, pos⟩, hf⟩ := fill_cells_exists hgood KEY_CELLS (fun _ _ _ => 0, 0)
  obtain ⟨j1, hj1, h10, _⟩ := hgood pos 0
  obtain ⟨⟨k1, pos2⟩, h1⟩ := @draw_until_exists rng (fun p1_key => decide (p1_key = 0))
    fuel pos ⟨j1, hj1, by simpa using h10⟩
  obtain ⟨j2, hj2, h20, h21⟩ := hgood pos2 k1
  obtain ⟨⟨k2, pos3⟩, h2⟩ := @draw_until_exists rng
    (fun p2_key => decide (p2_key = 0 ∨ p2_key = k1)) fuel pos2
    ⟨j2, hj2, by simpa using ⟨h20, h21⟩⟩
  unfold initialize_keys
  dsimp only
  rw [hf]
  dsimp only
  rw [h1]
  dsimp only
  rw [h2]
  exact ⟨_, rfl⟩

/-- C28 (key table shape).  Whenever `initialize_keys()` returns, `piece_keys[t][p][s]` is
non-zero for every real piece type, real player and square 0..62, is 0 whenever
`t = NO_PIECE_TYPE` or `p = NO_PLAYER`, `side_to_move_key[NO_PLAYER]` is 0 and the keys of the
two players are non-zero and different.  It returns as soon as each of its loops meets an
acceptable value of the generator's stream within the draws allowed, and two runs on the same
stream (the seed is fixed) produce the same tables, however many draws are allowed. -/
theorem key_table_shape (rng : Nat → U64) (fuel : Nat) :
    (∀ keys, Zobrist.initialize_keys rng fuel = some keys →
      (∀ pt p s, pt ≠ NO_PIECE_TYPE → p ≠ NO_PLAYER → s < 63 → keys.piece_keys pt p s ≠ 0) ∧
      (∀ pt p s, pt = NO_PIECE_TYPE ∨ p = NO_PLAYER → keys.piece_keys pt p s = 0) ∧
      keys.side_to_move_key NO_PLAYER = 0 ∧
      keys.side_to_move_key PLAYER_1 ≠ 0 ∧ keys.side_to_move_key PLAYER_2 ≠ 0 ∧
      keys.side_to_move_key PLAYER_1 ≠ keys.side_to_move_key PLAYER_2) ∧
    (StreamGood rng fuel → ∃ keys, Zobrist.initialize_keys rng fuel = some keys) ∧
    (∀ (fuel2 : Nat) (keys keys2 : ZobristKeys), Zobrist.initialize_keys rng fuel = some keys →
      Zobrist.initialize_keys rng fuel2 = some keys2 → keys = keys2) := by
  refine ⟨fun keys h => ?_, initialize_keys_exists, fun fuel2 keys keys2 h1 h2 => ?_⟩
  · obtain ⟨t, pos, pos2, pos3, k1, k2, hf, h1, h2, e0, e1, e2, e3⟩ := initialize_keys_some h
    obtain ⟨i1, i2⟩ := fill_cells_spec Zobrist.KEY_CELLS hf
    have r1 := draw_until_some fuel pos h1
    have r2 := draw_until_some fuel pos2 h2
    simp only [decide_eq_false_iff_not, not_or] at r1 r2
    rw [e0, e1, e2, e3]
    refine ⟨fun pt p s hpt hp hs => ?_, fun pt p s hno => i1 pt p s hno rfl, rfl, r1, r2.1,
      fun he => r2.2 he.symm⟩
    exact i2 pt p s (by rintro (h | h); exact hpt h; exact hp h) (Or.inr (mem_KEY_CELLS pt p s hs))
  · have g1 := initialize_keys_mono h1 fuel2
    have g2 := initialize_keys_mono h2 fuel
    rw [Nat.add_comm] at g2
    rw [g1] at g2
    exact Option.some.inj g2

theorem demo_rng_good : StreamGood demo_rng 2 := by
  intro pos v
  by_cases h : pos + 1 = v
  · refine ⟨1, by omega, ?_, ?_⟩
    · show pos + 1 + 1 ≠ 0
      omega
    · show pos + 1 + 1 ≠ v
      omega
  · refine ⟨0, by omega, ?_, ?_⟩
    · show pos + 0 + 1 ≠ 0
      omega
    · show pos + 0 + 1 ≠ v
      omega

/-- Witness for C28: on a stream without 0 and without repetition `initialize_keys` returns
tables, and they have the stated shape. -/
theorem key_table_shape_witness :
    ∃ keys, Zobrist.initialize_keys demo_rng 2 = some keys ∧
      keys.side_to_move_key PLAYER_1 ≠ keys.side_to_move_key PLAYER_2 ∧
      keys.piece_keys RAT PLAYER_1 0 ≠ 0 :=
  ((key_table_shape demo_rng 2).2.1 demo_rng_good).elim fun keys h =>
    ⟨keys, h, ((key_table_shape demo_rng 2).1 keys h).2.2.2.2.2,
      ((key_table_shape demo_rng 2).1 keys h).1 RAT PLAYER_1 0 (by decide) (by decide)
        (by decide)⟩

/-! ## Table properties kept by the search -/

theorem max_loop_tt_pres (keys : ZobristKeys) (search : SearchFn) (P : TTState → Prop)
    (hs : ∀ tt nodes b alpha beta mx turn hist, P tt →
      P (search tt nodes b alpha beta mx turn hist).tt)
    (b : BoardState) (mx : Player) (hist : List BoardState) :
    ∀ (moves : List Move) (st : LoopState), P st.tt →
      P (max_loop keys search b mx hist moves st).tt := by
  intro moves
  induction moves with
  | nil => intro st h; exact h
  | cons move rest ih =>
    intro st h
    have hr := hs st.tt st.nodes (make_move_on_copy keys b move) st.alpha st.beta mx
      (make_move_on_copy keys b move).side_to_move (hist ++ [b]) h
    unfold max_loop
    dsimp only
    split
    · exact hr
    · exact ih _ hr

theorem min_loop_tt_pres (keys : ZobristKeys) (search : SearchFn) (P : TTState → Prop)
    (hs : ∀ tt nodes b alpha beta mx turn hist, P tt →
      P (search tt nodes b alpha beta mx turn hist).tt)
    (b : BoardState) (mx : Player) (hist : List BoardState) :
    ∀ (moves : List Move) (st : LoopState), P st.tt →
      P (min_loop keys search b mx hist moves st).tt := by
  intro moves
  induction moves with
  | nil => intro st h; exact h
  | cons move rest ih =>
    intro st h
    have hr := hs st.tt st.nodes (make_move_on_copy keys b move) st.alpha st.beta mx
      (make_move_on_copy keys b move).side_to_move (hist ++ [b]) h
    unfold min_loop
    dsimp only
    split
    · exact hr
    · exact ih _ hr

theorem search_after_probe_tt_pres (keys : ZobristKeys) (pst : PST) (search : SearchFn)
    (depth : Nat) (P : TTState → Prop)
    (hstore : ∀ tt k s f m, P tt → P (store_tt_entry tt k s depth f m))
    (hs : ∀ tt nodes b alpha beta mx turn hist, P tt →
      P (search tt nodes b alpha beta mx turn hist).tt)
    (tt : TTState) (nodes : Int) (b : BoardState) (alpha beta oa : Int) (e : Option TTEntry)
    (mx turn : Player) (hist : List BoardState) (h : P tt) :
    P (search_after_probe keys pst search tt nodes b depth alpha beta oa e mx turn hist).tt := by
  unfold search_after_probe
  dsimp only
  split
  · exact hstore _ _ _ _ _ h
  · split
    · exact hstore _ _ _ _ _ h
    · split
      · exact hstore _ _ _ _ _ (max_loop_tt_pres keys search P hs b mx hist _ _ h)
      · exact hstore _ _ _ _ _ (min_loop_tt_pres keys search P hs b mx hist _ _ h)

theorem search_node_tt_pres (keys : ZobristKeys) (pst : PST) (search : SearchFn)
    (depth : Nat) (P : TTState → Prop)
    (hstore : ∀ tt k s f m, P tt → P (store_tt_entry tt k s depth f m))
    (hs : ∀ tt nodes b alpha beta mx turn hist, P tt →
      P (search tt nodes b alpha beta mx turn hist).tt)
    (tt : TTState) (nodes : Int) (b : BoardState) (alpha beta : Int)
    (mx turn : Player) (hist : List BoardState) (h : P tt) :
    P (search_node keys pst search depth tt nodes b alpha beta mx turn hist).tt := by
  have hc := fun a2 b2 e => search_after_probe_tt_pres keys pst search depth P hstore hs tt
    (nodes + 1) b a2 b2 alpha e mx turn hist h
  cases hprobe : probe_tt tt b.zobrist_hash with
  | none =>
    unfold search_node
    simp only [hprobe]
    exact hc _ _ _
  | some e =>
    rw [search_node_hit_eq keys pst search depth tt nodes b alpha beta mx turn hist e hprobe]
    split_ifs
    all_goals first
      | exact h
      | exact hc _ _ _

/-- Every table property that `store_tt_entry` keeps for the depths up to `D` is kept by
`alpha_beta_search` of depth up to `D`. -/
theorem alpha_beta_search_tt_pres (keys : ZobristKeys) (pst : PST) (P : TTState → Prop)
    (D : Nat)
    (hstore : ∀ (d : Nat), d ≤ D → ∀ tt k s f m, P tt → P (store_tt_entry tt k s d f m)) :
    ∀ (d : Nat), d ≤ D → ∀ tt nodes b alpha beta mx turn hist, P tt →
      P (alpha_beta_search keys pst d tt nodes b alpha beta mx turn hist).tt := by
  intro d
  induction d with
  | zero =>
    intro hd tt nodes b alpha beta mx turn hist h
    unfold alpha_beta_search
    exact search_node_tt_pres keys pst _ 0 P (hstore 0 hd) (fun _ _ _ _ _ _ _ _ h2 => h2)
      tt nodes b alpha beta mx turn hist h
  | succ d ih =>
    intro hd tt nodes b alpha beta mx turn hist h
    unfold alpha_beta_search
    exact search_node_tt_pres keys pst _ (d + 1) P (hstore (d + 1) hd) (ih (by omega))
      tt nodes b alpha beta mx turn hist h

/-! ## C23: the root outcome in the table -/

theorem wrap_short_le (d : Nat) : wrap_short (d : Int) ≤ (d : Int) := by
  unfold wrap_short
  omega

theorem store_tt_entry_cases (tt : TTState) (k : U64) (s d : Int) (f : EntryFlag) (m : Move) :
    store_tt_entry tt k s d f m = tt ∨
      store_tt_entry tt k s d f m =
        { tt with
          tt_table := tt.tt_table.set (k % tt.tt_num_entries)
            { zobrist_key_check := k, best_move := m, score := s, depth := wrap_short d,
              flag := f } } := by
  unfold store_tt_entry
  split
  · exact Or.inl rfl
  · dsimp only
    split
    · exact Or.inr rfl
    · exact Or.inl rfl

/-- The table property a root search of depth `sd` keeps while the moves are searched: the
table stays enabled with its capacity and vector length, and the slot of the root position can
still be overwritten. -/
theorem root_slot_free_store (n : Nat) (k0 : U64) (sd : Nat) (d : Nat) (hd : d ≤ sd)
    (tt : TTState) (k : U64) (s : Int) (f : EntryFlag) (m : Move)
    (h : tt.tt_initialized = true ∧ tt.tt_num_entries = n ∧ TTSized tt ∧
      RootSlotFree tt k0 sd) :
    (store_tt_entry tt k s d f m).tt_initialized = true ∧
      (store_tt_entry tt k s d f m).tt_num_entries = n ∧ TTSized (store_tt_entry tt k s d f m) ∧
      RootSlotFree (store_tt_entry tt k s d f m) k0 sd := by
  obtain ⟨h1, h2, h3, h4⟩ := h
  rcases store_tt_entry_cases tt k s d f m with e | e
  · rw [e]
    exact ⟨h1, h2, h3, h4⟩
  · rw [e]
    refine ⟨h1, h2, ?_, ?_⟩
    · unfold TTSized
      rw [List.length_set]
      exact h3
    · unfold RootSlotFree
      dsimp only
      by_cases hidx : k0 % tt.tt_num_entries = k % tt.tt_num_entries
      · by_cases hlt : k % tt.tt_num_entries < tt.tt_table.length
        · rw [hidx, slot_set_same tt _ _ hlt]
          right; right
          dsimp only
          have := wrap_short_le d
          omega
        · have hset : tt.tt_table.set (k % tt.tt_num_entries)
              { zobrist_key_check := k, best_move := m, score := s, depth := wrap_short d,
                flag := f } = tt.tt_table := List.set_eq_of_length_le (Nat.le_of_not_lt hlt)
          rw [hset]
          exact h4
      · rw [slot_set_other tt _ _ _ hidx]
        exact h4
set_option maxRecDepth 1000000 in
/-- C23, counterexample to "always recorded".  With no legal move for `PLAYER_1`
(`elephant_board` against `elephant_history`) `find_best_ai_move` returns before it stores
anything, and the probe of the enabled, empty table stays absent; with a deeper entry for the
same position in the table (`deep_entry_tt`, depth 9) the store of the root outcome of a search
of depth 1 is refused, and the probe yields the old score 77 and depth 9, not the returned
`final_score` -6 and the search depth 1. -/
theorem root_outcome_not_recorded_counterexample :
    probe_tt (find_best_ai_move demo_keys demo_pst demo_sorter empty_tt elephant_board 1
        elephant_history).2 elephant_board.zobrist_hash = none ∧
      (find_best_ai_move demo_keys demo_pst demo_sorter deep_entry_tt elephant_board 1
        []).1.final_score = -6 ∧
      (probe_tt (find_best_ai_move demo_keys demo_pst demo_sorter deep_entry_tt elephant_board 1
        []).2 elephant_board.zobrist_hash).map (fun e => (e.score, e.depth)) = some (77, 9) := by
  decide

/-- C23 (root outcome recorded, amended).  On an enabled table whose vector has `capacity`
elements, for every board on which `PLAYER_1` has a legal move, every history and every search
depth of at least 1: if before the call the slot of the board's fingerprint is empty, or holds
another key, or holds a depth of at most the search depth, then after `find_best_ai_move` the
probe of `board.zobrist_hash` yields an entry whose score is the returned `final_score`, whose
move is the returned `best_move` and whose depth is the search depth cast to `short` (the
search depth itself up to 32767). -/
theorem root_outcome_recorded (keys : ZobristKeys) (pst : PST) (sorter : RootSort)
    (tt : TTState) (b : BoardState) (history : List BoardState) (search_depth : Nat)
    (hd : 1 ≤ search_depth) (hinit : tt.tt_initialized = true) (hn : tt.tt_num_entries ≠ 0)
    (hsized : TTSized tt) (hlegal : generate_all_legal_moves keys b PLAYER_1 history ≠ [])
    (hslot : RootSlotFree tt b.zobrist_hash search_depth) :
    ∃ e : TTEntry,
      probe_tt (find_best_ai_move keys pst sorter tt b search_depth history).2 b.zobrist_hash
        = some e ∧
      e.score = (find_best_ai_move keys pst sorter tt b search_depth history).1.final_score ∧
      e.best_move = (find_best_ai_move keys pst sorter tt b search_depth history).1.best_move ∧
      e.depth = wrap_short search_depth ∧
      (search_depth ≤ 32767 → e.depth = search_depth) := by
  obtain ⟨_, _, _, t2, flag, hP, hflag, e⟩ := find_best_ai_move_nonempty keys pst sorter tt b
    search_depth history
    (fun t => t.tt_initialized = true ∧ t.tt_num_entries = tt.tt_num_entries ∧ TTSized t ∧
      RootSlotFree t b.zobrist_hash search_depth)
    (fun _ => True) hlegal
    (fun t alpha m _ ht => ⟨alpha_beta_search_tt_pres keys pst _ search_depth
      (fun d hdle t2 k s f mv h2 =>
        root_slot_free_store tt.tt_num_entries b.zobrist_hash search_depth d hdle t2 k s f mv h2)
      (search_depth - 1) (by omega) t 0 _ alpha INT_MAX PLAYER_1 _ _ ht, trivial⟩)
    ⟨hinit, rfl, hsized, hslot⟩
  obtain ⟨h1, h2, h3, h4⟩ := hP
  rw [e]
  generalize (find_best_ai_move keys pst sorter tt b search_depth history).1.final_score = fs
  generalize (find_best_ai_move keys pst sorter tt b search_depth history).1.best_move = bm
  have hen : ¬ (t2.tt_initialized = false ∨ t2.tt_num_entries = 0) := by
    rintro (h | h)
    · rw [h1] at h; exact Bool.noConfusion h
    · rw [h2] at h; exact hn h
  have hidx : b.zobrist_hash % t2.tt_num_entries < t2.tt_table.length := by
    rw [h3]
    exact Nat.mod_lt _ (Nat.pos_of_ne_zero (by rw [h2]; exact hn))
  have hstore : store_tt_entry t2 b.zobrist_hash fs search_depth flag bm =
      { t2 with
        tt_table := t2.tt_table.set (b.zobrist_hash % t2.tt_num_entries)
          { zobrist_key_check := b.zobrist_hash, best_move := bm, score := fs,
            depth := wrap_short search_depth, flag := flag } } := by
    unfold store_tt_entry
    rw [if_neg hen]
    dsimp only
    rw [if_pos]
    unfold RootSlotFree at h4
    rcases h4 with h | h | h
    · exact Or.inl h
    · exact Or.inr (Or.inl h)
    · exact Or.inr (Or.inr h)
  refine ⟨{ zobrist_key_check := b.zobrist_hash, best_move := bm, score := fs,
            depth := wrap_short search_depth, flag := flag }, ?_, rfl, rfl, rfl, ?_⟩
  · rw [hstore]
    unfold probe_tt
    rw [if_neg hen]
    dsimp only
    rw [slot_set_same t2 _ _ hidx, if_pos ⟨hflag, rfl⟩]
  · intro hle
    show wrap_short (search_depth : Int) = search_depth
    unfold wrap_short
    omega

set_option maxRecDepth 1000000 in
/-- Witness for C23: a search of depth 1 of `elephant_board` on the empty table `empty_tt`. -/
theorem root_outcome_recorded_witness :
    empty_tt.tt_initialized = true ∧ TTSized empty_tt ∧
      generate_all_legal_moves demo_keys elephant_board PLAYER_1 [] ≠ [] ∧
      ∃ e : TTEntry,
        probe_tt (find_best_ai_move demo_keys demo_pst demo_sorter empty_tt elephant_board 1
          []).2 elephant_board.zobrist_hash = some e ∧
        e.score = (find_best_ai_move demo_keys demo_pst demo_sorter empty_tt elephant_board 1
          []).1.final_score :=
  ⟨rfl, rfl, by decide,
   (root_outcome_recorded demo_keys demo_pst demo_sorter empty_tt elephant_board [] 1 (le_refl 1)
      rfl (by decide) rfl (by decide) (Or.inl (by decide))).elim
     fun e h => ⟨e, h.1, h.2.1⟩⟩

/-! ## Positions under different key tables -/

theorem pseudo_legal_moves_congr {b b2 : BoardState} (h : SameContent b b2) (p : Player) :
    pseudo_legal_moves b p = pseudo_legal_moves b2 p := by
  obtain ⟨pb, occ, side, hash⟩ := b
  obtain ⟨pb2, occ2, side2, hash2⟩ := b2
  obtain ⟨h1, h2, h3⟩ := h
  dsimp only at h1 h2 h3
  subst h1 h2 h3
  rfl

theorem evaluate_board_congr (pst : PST) {b b2 : BoardState} (h : SameContent b b2)
    (p : Player) : evaluate_board pst b p = evaluate_board pst b2 p := by
  obtain ⟨pb, occ, side, hash⟩ := b
  obtain ⟨pb2, occ2, side2, hash2⟩ := b2
  obtain ⟨h1, h2, h3⟩ := h
  dsimp only at h1 h2 h3
  subst h1 h2 h3
  rfl

theorem apply_move_congr (keys keys2 : ZobristKeys) {b b2 : BoardState} (h : SameContent b b2)
    (m : Move) : SameContent (b.apply_move keys m) (b2.apply_move keys2 m) := by
  obtain ⟨pb, occ, side, hash⟩ := b
  obtain ⟨pb2, occ2, side2, hash2⟩ := b2
  obtain ⟨h1, h2, h3⟩ := h
  dsimp only at h1 h2 h3
  subst h1 h2 h3
  unfold BoardState.apply_move
  dsimp only
  split
  · exact ⟨rfl, rfl, rfl⟩
  · split
    · exact ⟨rfl, rfl, rfl⟩
    · exact ⟨rfl, rfl, rfl⟩

theorem make_move_on_copy_congr (keys keys2 : ZobristKeys) {b b2 : BoardState}
    (h : SameContent b b2) (m : Move) :
    SameContent (make_move_on_copy keys b m) (make_move_on_copy keys2 b2 m) := by
  unfold make_move_on_copy
  split
  · exact h
  · exact apply_move_congr keys keys2 h m

theorem update_occupancy_boards_content {b b2 : BoardState}
    (h1 : b.piece_bbs = b2.piece_bbs) (h3 : b.side_to_move = b2.side_to_move) :
    SameContent (BoardState.update_occupancy_boards b)
      (BoardState.update_occupancy_boards b2) := by
  obtain ⟨pb, occ, side, hash⟩ := b
  obtain ⟨pb2, occ2, side2, hash2⟩ := b2
  dsimp only at h1 h3
  subst h1 h3
  exact ⟨rfl, rfl, rfl⟩

theorem setup_initial_board_content (keys : ZobristKeys) :
    SameContent (BoardState.setup_initial_board keys)
      (BoardState.setup_initial_board demo_keys) := by
  unfold BoardState.setup_initial_board
  dsimp only
  rw [if_pos (by simp), if_pos (by simp)]
  apply update_occupancy_boards_content
  · exact foldl_add_piece_piece_bbs keys demo_keys _ _ _ rfl
  · rfl

/-! ## C26: the start position at depth 1 -/

theorem quiet_position_cells {c : BoardState} (h : QuietPosition c) (pt : PieceType)
    (p : Player) : c.piece_bbs pt p < 2 ^ 63 ∧ pop_count (c.piece_bbs pt p) ≤ 1 := by
  apply h.2.2.2.2 pt _ p
  · cases p <;> simp
  · cases pt <;> simp

theorem quiet_cell_sum (f : Nat → Int) {bb : U64} (hlt : bb < 2 ^ 63)
    (hpop : pop_count bb ≤ 1)
    (hf : ∀ sq, sq < 63 → -1000000 ≤ f sq ∧ f sq ≤ 1000000) :
    -1000000 ≤ ((bit_list bb).map f).sum ∧ ((bit_list bb).map f).sum ≤ 1000000 := by
  have h1 := list_sum_bounded f (bit_list bb) (fun x hx => hf x (by
    have hbit := (mem_bit_list.mp hx).2
    by_contra hge
    rw [testBit_eq_false_of_lt hlt (by omega)] at hbit
    exact Bool.noConfusion hbit))
  have h2 : ((bit_list bb).length : Int) ≤ 1 := hpop
  have h3 : (0 : Int) ≤ ((bit_list bb).length : Int) := Int.ofNat_nonneg _
  omega

theorem quiet_position_formula (pst : PST) {c : BoardState} (h : QuietPosition c)
    (hpst : ∀ p pt sq, sq < 63 → -1000000 ≤ pst p pt sq ∧ pst p pt sq ≤ 1000000) (P : Player) :
    -17000000 ≤ evaluation_formula pst c P ∧ evaluation_formula pst c P ≤ 17000000 := by
  have hm : ∀ p, 0 ≤ material_sum c p ∧ material_sum c p ≤ 45500 := by
    intro p
    unfold material_sum
    simp only [PIECE_TYPE_LOOP, List.map_cons, List.map_nil, List.sum_cons, List.sum_nil,
      PIECE_VALUES]
    have h1 := pop_count_range (c.piece_bbs RAT p)
    have h2 := pop_count_range (c.piece_bbs CAT p)
    have h3 := pop_count_range (c.piece_bbs DOG p)
    have h4 := pop_count_range (c.piece_bbs WOLF p)
    have h5 := pop_count_range (c.piece_bbs PANTHER p)
    have h6 := pop_count_range (c.piece_bbs TIGER p)
    have h7 := pop_count_range (c.piece_bbs LION p)
    have h8 := pop_count_range (c.piece_bbs ELEPHANT p)
    have g1 := (quiet_position_cells h RAT p).2
    have g2 := (quiet_position_cells h CAT p).2
    have g3 := (quiet_position_cells h DOG p).2
    have g4 := (quiet_position_cells h WOLF p).2
    have g5 := (quiet_position_cells h PANTHER p).2
    have g6 := (quiet_position_cells h TIGER p).2
    have g7 := (quiet_position_cells h LION p).2
    have g8 := (quiet_position_cells h ELEPHANT p).2
    omega
  have hp : ∀ p, -8000000 ≤ pst_sum pst c p ∧ pst_sum pst c p ≤ 8000000 := by
    intro p
    unfold pst_sum
    simp only [PIECE_TYPE_LOOP, List.map_cons, List.map_nil, List.sum_cons, List.sum_nil]
    have cell := fun pt => quiet_cell_sum (fun sq => pst p pt sq)
      (quiet_position_cells h pt p).1 (quiet_position_cells h pt p).2 (hpst p pt)
    have h1 := cell RAT
    have h2 := cell CAT
    have h3 := cell DOG
    have h4 := cell WOLF
    have h5 := cell PANTHER
    have h6 := cell TIGER
    have h7 := cell LION
    have h8 := cell ELEPHANT
    omega
  unfold evaluation_formula
  have a1 := hm P
  have a2 := hm (opponent_of P)
  have a3 := hp P
  have a4 := hp (opponent_of P)
  omega

theorem quiet_position_eval (pst : PST) {c : BoardState} (h : QuietPosition c)
    (hpst : ∀ p pt sq, sq < 63 → -1000000 ≤ pst p pt sq ∧ pst p pt sq ≤ 1000000) :
    OpenScore (evaluate_board pst c PLAYER_1) := by
  have hf := quiet_position_formula pst h hpst PLAYER_1
  have he := evaluate_board_eq_wrap pst c PLAYER_1 (Or.inl rfl)
    (fun pt p => lt_64_of_lt_63 (quiet_position_cells h pt p).1) h.1 h.2.1 h.2.2.1 h.2.2.2.1
  rw [wrap_int_of_range (by unfold INT_MIN; omega) (by unfold INT_MAX; omega)] at he
  rw [he]
  unfold OpenScore LOSS_SCORE WIN_SCORE
  omega

theorem quiet_position_congr {b b2 : BoardState} (h : SameContent b b2)
    (hq : QuietPosition b2) : QuietPosition b := by
  unfold QuietPosition at hq ⊢
  rw [h.1, h.2.1]
  exact hq

set_option maxRecDepth 1000000 in
theorem start_children_quiet :
    pseudo_legal_moves (BoardState.setup_initial_board demo_keys) PLAYER_1 ≠ [] ∧
      ∀ m ∈ pseudo_legal_moves (BoardState.setup_initial_board demo_keys) PLAYER_1,
        QuietPosition (make_move_on_copy demo_keys (BoardState.setup_initial_board demo_keys) m) := by
  decide

theorem open_table_store {tt : TTState} (hT : OpenTable tt) (k : U64) {s : Int}
    (hs : OpenScore s) (d : Int) (f : EntryFlag) (m : Move) :
    OpenTable (store_tt_entry tt k s d f m) := by
  rcases hT with hdis | hopen
  · rw [store_tt_entry_disabled hdis]
    exact Or.inl hdis
  · rcases store_tt_entry_cases tt k s d f m with e | e
    · rw [e]
      exact Or.inr hopen
    · rw [e]
      right
      intro i hflag
      by_cases hi : i = k % tt.tt_num_entries
      · by_cases hlt : k % tt.tt_num_entries < tt.tt_table.length
        · rw [hi, slot_set_same tt _ _ hlt]
          exact hs
        · have hset : tt.tt_table.set (k % tt.tt_num_entries)
              { zobrist_key_check := k, best_move := m, score := s, depth := wrap_short d,
                flag := f } = tt.tt_table := List.set_eq_of_length_le (Nat.le_of_not_lt hlt)
          rw [hset] at hflag ⊢
          exact hopen i hflag
      · rw [slot_set_other tt _ _ _ hi] at hflag ⊢
        exact hopen i hflag

theorem open_table_probe {tt : TTState} (hT : OpenTable tt) {k : U64} {e : TTEntry}
    (h : probe_tt tt k = some e) : OpenScore e.score := by
  obtain ⟨he, hflag, _, hinit, hn⟩ := probe_tt_some h
  rcases hT with hdis | hopen
  · rcases hdis with h1 | h1
    · rw [hinit] at h1; exact Bool.noConfusion h1
    · exact absurd h1 hn
  · rw [he] at hflag ⊢
    exact hopen _ hflag

theorem search_after_probe_zero (keys : ZobristKeys) (pst : PST) (search : SearchFn)
    (tt : TTState) (nodes : Int) (b : BoardState) (alpha beta oa : Int) (e : Option TTEntry)
    (mx turn : Player) (hist : List BoardState) :
    search_after_probe keys pst search tt nodes b 0 alpha beta oa e mx turn hist =
      { score := evaluate_board pst b mx
        tt := store_tt_entry tt b.zobrist_hash (evaluate_board pst b mx) (0 : Nat)
          EntryFlag.EXACT_SCORE Move.null
        nodes := nodes } := by
  unfold search_after_probe
  dsimp only
  rw [if_pos (Or.inl rfl)]

/-- A search of depth 0 of a position whose evaluation lies strictly between `LOSS_SCORE` and
`WIN_SCORE`, on a table that can only return such scores, returns such a score and leaves such
a table. -/
theorem search_zero_open (keys : ZobristKeys) (pst : PST) (tt : TTState) (nodes : Int)
    (c : BoardState) (alpha beta : Int) (turn : Player) (hist : List BoardState)
    (hq : OpenScore (evaluate_board pst c PLAYER_1)) (hT : OpenTable tt) :
    OpenTable (alpha_beta_search keys pst 0 tt nodes c alpha beta PLAYER_1 turn hist).tt ∧
      OpenScore (alpha_beta_search keys pst 0 tt nodes c alpha beta PLAYER_1 turn hist).score := by
  have hleaf : ∀ a2 b2 e,
      OpenTable (search_after_probe keys pst (recursive_call keys pst 0) tt (nodes + 1) c 0 a2 b2
        alpha e PLAYER_1 turn hist).tt ∧
      OpenScore (search_after_probe keys pst (recursive_call keys pst 0) tt (nodes + 1) c 0 a2 b2
        alpha e PLAYER_1 turn hist).score := by
    intro a2 b2 e
    rw [search_after_probe_zero]
    exact ⟨open_table_store hT _ hq _ _ _, hq⟩
  rw [alpha_beta_search_eq_node]
  cases hprobe : probe_tt tt c.zobrist_hash with
  | none =>
    unfold search_node
    simp only [hprobe]
    exact hleaf _ _ _
  | some e =>
    have he := open_table_probe hT hprobe
    rw [search_node_hit_eq keys pst _ 0 tt nodes c alpha beta PLAYER_1 turn hist e hprobe]
    split_ifs
    all_goals first
      | exact ⟨hT, he⟩
      | exact hleaf _ _ _

theorem apply_move_normal (keys : ZobristKeys) (b : BoardState) (m : Move)
    (h1 : ¬ (m.from_sq = -1 ∨ m.to_sq = -1 ∨ m.piece_moved = NO_PIECE_TYPE))
    (h2 : get_bit (b.piece_bbs m.piece_moved b.side_to_move) m.from_sq ≠ 0) :
    (b.apply_move keys m).piece_bbs = moved_bbs b m ∧
      (b.apply_move keys m).side_to_move =
        (if b.side_to_move = PLAYER_1 then PLAYER_2 else PLAYER_1) := by
  unfold BoardState.apply_move
  rw [if_neg h1]
  dsimp only
  rw [if_neg (by simpa using h2)]
  exact ⟨rfl, rfl⟩

theorem possible_landing_squares_out_of_range (b : BoardState) (p : Player) (pt : PieceType)
    {f : Int} (hf : ¬ (0 ≤ f ∧ f < 63)) : possible_landing_squares b p pt f = 0 := by
  have hr : f < 0 ∨ f ≥ NUM_SQUARES := by
    rw [NUM_SQUARES_eq]
    omega
  rw [possible_landing_squares_eq, generate_orthogonal_step_moves_eq, generate_rat_moves_eq,
    generate_lion_tiger_jump_moves_eq, if_pos hr, if_pos hr, if_pos hr]
  simp

theorem scan_squares_zero : scan_squares 0 = [] := by decide

/-- What `generate_all_legal_moves` guarantees about a move on a board of 64-bit piece sets
with consistent occupancy. -/
theorem legal_move_facts {b : BoardState} {p : Player} {m : Move}
    (hbb : ∀ pt q, b.piece_bbs pt q < 2 ^ 64) (hocc : OccupancyConsistent b)
    (hm : m ∈ pseudo_legal_moves b p) :
    (p = PLAYER_1 ∨ p = PLAYER_2) ∧ m.piece_moved ≠ NO_PIECE_TYPE ∧
      (0 ≤ m.from_sq ∧ m.from_sq < 63) ∧
      (b.piece_bbs m.piece_moved p).testBit m.from_sq.toNat = true ∧
      (0 ≤ m.to_sq ∧ m.to_sq < 63) ∧
      (∀ pt, pt ≠ NO_PIECE_TYPE → (b.piece_bbs pt p).testBit m.to_sq.toNat = false) ∧
      m.from_sq ≠ m.to_sq := by
  obtain ⟨hp, pt, hpt, f, hf, t, ht, hmt⟩ := mem_pseudo_legal_moves.mp hm
  obtain ⟨e1, e2, e3, _⟩ := move_to_target_some hmt
  rw [mem_scan_squares (hbb pt p)] at hf
  have hadm := possible_landing_squares_admissible b p pt f
  have hfr : 0 ≤ f ∧ f < 63 := by
    by_contra hno
    rw [possible_landing_squares_out_of_range b p pt hno, scan_squares_zero] at ht
    exact absurd ht (List.not_mem_nil t)
  rw [mem_scan_squares (lt_64_of_lt_63 (admissible_lt hadm))] at ht
  have ht2 := hadm t.toNat ht.2.2
  have hP : p = PLAYER_1 ∨ p = PLAYER_2 := by
    cases p with
    | NO_PLAYER => exact absurd rfl hp
    | PLAYER_1 => exact Or.inl rfl
    | PLAYER_2 => exact Or.inr rfl
  have hfree : ∀ pt2, pt2 ≠ NO_PIECE_TYPE → (b.piece_bbs pt2 p).testBit t.toNat = false := by
    intro pt2 hpt2
    by_contra hset
    have hset2 : (b.piece_bbs pt2 p).testBit t.toNat = true := by simpa using hset
    have hu : (union_of_piece_sets b p).testBit t.toNat = true := by
      unfold union_of_piece_sets
      simp only [Nat.testBit_or, Bool.or_eq_true]
      cases pt2
      · exact absurd rfl hpt2
      all_goals simp [hset2]
    have : (b.occupancy_bbs p).testBit t.toNat = true := by
      rcases hP with rfl | rfl
      · rw [hocc.1]; exact hu
      · rw [hocc.2.1]; exact hu
    rw [ht2.2] at this
    exact Bool.noConfusion this
  rw [e1, e2, e3]
  refine ⟨hP, mem_PIECE_TYPE_LOOP.mp hpt, hfr, hf.2.2, ⟨ht.1, by omega⟩, hfree, ?_⟩
  intro heq
  have := hfree pt (mem_PIECE_TYPE_LOOP.mp hpt)
  rw [← heq, hf.2.2] at this
  exact Bool.noConfusion this

theorem get_piece_at_player_ne {b : BoardState} {t : Int} (h0 : 0 ≤ t) (h1 : t < 63)
    {D : PieceType} {q : Player} (hD : D ≠ NO_PIECE_TYPE) (hq : q ≠ NO_PLAYER)
    (hbit : (b.piece_bbs D q).testBit t.toNat = true) :
    (b.get_piece_at t).player ≠ NO_PLAYER := by
  unfold BoardState.get_piece_at
  rw [NUM_SQUARES_eq, if_neg (by omega)]
  dsimp only
  cases hfind : (PLAYER_LOOP.flatMap (fun player =>
      PIECE_TYPE_LOOP.map (fun pt => (⟨pt, player⟩ : Piece)))).find?
      (fun c => get_bit (b.piece_bbs c.type c.player) t ≠ 0) with
  | none =>
    exfalso
    have := List.find?_eq_none.mp hfind ⟨D, q⟩ (mem_candidates.mpr ⟨hD, hq⟩)
    simp only [ne_eq, decide_not, Bool.not_eq_true', decide_eq_false_iff_not, not_not] at this
    exact (get_bit_ne_zero_iff h0 h1).mpr hbit this
  | some d =>
    simp only
    exact (mem_candidates.mp (List.mem_of_find?_eq_some hfind)).2

theorem get_piece_at_empty {b : BoardState} {t : Int}
    (h : ∀ D q, D ≠ NO_PIECE_TYPE → q ≠ NO_PLAYER → get_bit (b.piece_bbs D q) t = 0) :
    b.get_piece_at t = ⟨NO_PIECE_TYPE, NO_PLAYER⟩ := by
  unfold BoardState.get_piece_at
  split
  · rfl
  · dsimp only
    cases hfind : (PLAYER_LOOP.flatMap (fun player =>
        PIECE_TYPE_LOOP.map (fun pt => (⟨pt, player⟩ : Piece)))).find?
        (fun c => get_bit (b.piece_bbs c.type c.player) t ≠ 0) with
    | none => rfl
    | some d =>
      exfalso
      have hmem := mem_candidates.mp (List.mem_of_find?_eq_some hfind)
      have hprop := List.find?_some hfind
      simp only [ne_eq, decide_not, Bool.not_eq_true', decide_eq_false_iff_not] at hprop
      exact hprop (h d.type d.player hmem.1 hmem.2)

theorem find?_congr_mem {α : Type} (l : List α) (p q : α → Bool)
    (h : ∀ a ∈ l, p a = q a) : l.find? p = l.find? q := by
  induction l with
  | nil => rfl
  | cons a l ih =>
    rw [List.find?_cons, List.find?_cons, h a (List.mem_cons_self _ _),
      ih (fun x hx => h x (List.mem_cons_of_mem _ hx))]

theorem get_piece_at_congr {b b2 : BoardState} {t : Int}
    (h : ∀ D q, D ≠ NO_PIECE_TYPE → q ≠ NO_PLAYER →
      get_bit (b2.piece_bbs D q) t = get_bit (b.piece_bbs D q) t) :
    b2.get_piece_at t = b.get_piece_at t := by
  unfold BoardState.get_piece_at
  split
  · rfl
  · dsimp only
    have hfind : (PLAYER_LOOP.flatMap (fun player =>
        PIECE_TYPE_LOOP.map (fun pt => (⟨pt, player⟩ : Piece)))).find?
        (fun c => get_bit (b2.piece_bbs c.type c.player) t ≠ 0) =
      (PLAYER_LOOP.flatMap (fun player =>
        PIECE_TYPE_LOOP.map (fun pt => (⟨pt, player⟩ : Piece)))).find?
        (fun c => get_bit (b.piece_bbs c.type c.player) t ≠ 0) := by
      apply find?_congr_mem
      intro c hc
      have hmem := mem_candidates.mp hc
      rw [h c.type c.player hmem.1 hmem.2]
    rw [hfind]

/-- A move returned for player `p` either captures nothing and lands on an empty square, or
captures the piece type it names, which stands on the target square and belongs to another
real player. -/
theorem legal_move_capture {b : BoardState} {p : Player} {m : Move}
    (hbb : ∀ pt q, b.piece_bbs pt q < 2 ^ 64) (hocc : OccupancyConsistent b)
    (hm : m ∈ pseudo_legal_moves b p) :
    (m.piece_captured = NO_PIECE_TYPE ∧
        ∀ D q, D ≠ NO_PIECE_TYPE → q ≠ NO_PLAYER →
          (b.piece_bbs D q).testBit m.to_sq.toNat = false) ∨
      (m.piece_captured ≠ NO_PIECE_TYPE ∧
        ∃ q, q ≠ NO_PLAYER ∧ q ≠ p ∧
          (b.piece_bbs m.piece_captured q).testBit m.to_sq.toNat = true) := by
  obtain ⟨hP, _, _, _, htr, hfree, _⟩ := legal_move_facts hbb hocc hm
  obtain ⟨_, pt, _, f, _, t, _, hmt⟩ := mem_pseudo_legal_moves.mp hm
  obtain ⟨_, e2, _, hcap⟩ := move_to_target_some hmt
  rw [e2] at htr hfree ⊢
  have hpne : p ≠ NO_PLAYER := by rcases hP with rfl | rfl <;> decide
  rcases hcap with ⟨hc, hno⟩ | ⟨hyes, _, hc⟩
  · left
    refine ⟨hc, fun D q hD hq => ?_⟩
    by_contra hset
    have hset2 : (b.piece_bbs D q).testBit t.toNat = true := by simpa using hset
    have hne := get_piece_at_player_ne htr.1 htr.2 hD hq hset2
    have hpl : (b.get_piece_at t).player = p := by
      by_contra hx
      exact hno ⟨hne, hx⟩
    obtain ⟨_, g2, _, g4⟩ := get_piece_at_found hne rfl
    rw [hpl] at g4
    rw [hfree _ g2] at g4
    exact Bool.noConfusion g4
  · right
    obtain ⟨_, g2, g3, g4⟩ := get_piece_at_found hyes.1 rfl
    rw [hc]
    exact ⟨g2, (b.get_piece_at t).player, g3, hyes.2, g4⟩

theorem moved_bbs_quiet (b : BoardState) (m : Move) (hcap : m.piece_captured = NO_PIECE_TYPE)
    (pt : PieceType) (p : Player) :
    moved_bbs b m pt p =
      if pt = m.piece_moved ∧ p = b.side_to_move then
        set_bit (clear_bit (b.piece_bbs m.piece_moved b.side_to_move) m.from_sq) m.to_sq
      else b.piece_bbs pt p := by
  unfold moved_bbs
  rw [if_neg (fun h => h.1 hcap)]
  unfold set_piece_bb
  by_cases hc : pt = m.piece_moved ∧ p = b.side_to_move
  · rw [if_pos hc, if_pos hc, if_pos ⟨rfl, rfl⟩]
  · rw [if_neg hc, if_neg hc, if_neg hc]

theorem moved_bbs_capture (b : BoardState) (m : Move) (opp : Player)
    (hopp : (if b.side_to_move = PLAYER_1 then PLAYER_2 else PLAYER_1) = opp)
    (hne : opp ≠ b.side_to_move)
    (hcap : m.piece_captured ≠ NO_PIECE_TYPE)
    (hbit : get_bit (b.piece_bbs m.piece_captured opp) m.to_sq ≠ 0)
    (pt : PieceType) (p : Player) :
    moved_bbs b m pt p =
      if pt = m.piece_moved ∧ p = b.side_to_move then
        set_bit (clear_bit (b.piece_bbs m.piece_moved b.side_to_move) m.from_sq) m.to_sq
      else if pt = m.piece_captured ∧ p = opp then
        clear_bit (b.piece_bbs m.piece_captured opp) m.to_sq
      else b.piece_bbs pt p := by
  have hcell : ¬ (m.piece_captured = m.piece_moved ∧ opp = b.side_to_move) := fun h => hne h.2
  have hcell2 : ¬ (m.piece_moved = m.piece_captured ∧ b.side_to_move = opp) :=
    fun h => hne h.2.symm
  unfold moved_bbs
  rw [hopp]
  have h1 : set_piece_bb b.piece_bbs m.piece_moved b.side_to_move
      (clear_bit (b.piece_bbs m.piece_moved b.side_to_move) m.from_sq) m.piece_captured opp =
      b.piece_bbs m.piece_captured opp := by
    unfold set_piece_bb
    rw [if_neg hcell]
  rw [h1, if_pos ⟨hcap, hbit⟩]
  unfold set_piece_bb
  by_cases hc : pt = m.piece_moved ∧ p = b.side_to_move
  · rw [if_pos hc, if_pos hc, if_neg hcell2, if_pos ⟨rfl, rfl⟩]
  · rw [if_neg hc, if_neg hc]
    by_cases hd : pt = m.piece_captured ∧ p = opp
    · rw [if_pos hd, if_neg hc]
    · rw [if_neg hd, if_neg hc]

theorem filter_length_update (p q : Nat → Bool) (s : Nat) :
    ∀ n, (∀ i, i < n → i ≠ s → q i = p i) → p s = false → q s = true →
      ((List.range n).filter q).length =
        ((List.range n).filter p).length + (if s < n then 1 else 0) := by
  intro n
  induction n with
  | zero => intro _ _ _; rfl
  | succ n ih =>
    intro hpq hp hq
    have h := ih (fun i hi hne => hpq i (by omega) hne) hp hq
    rw [List.range_succ, List.filter_append, List.filter_append, List.length_append,
      List.length_append, h]
    by_cases hs : s = n
    · subst hs
      rw [if_neg (lt_irrefl _), if_pos (Nat.lt_succ_self _)]
      simp [hp, hq]
    · have hn : q n = p n := hpq n (Nat.lt_succ_self _) (fun h => hs h.symm)
      have hfilt : ([n].filter q).length = ([n].filter p).length := by
        simp [List.filter_cons, hn]
      rw [hfilt]
      by_cases hlt : s < n
      · rw [if_pos hlt, if_pos (by omega)]
        omega
      · rw [if_neg hlt, if_neg (by omega)]
        omega

theorem pop_count_set_bit {bb : U64} {sq : Int} (h0 : 0 ≤ sq) (h1 : sq < 63)
    (hbit : bb.testBit sq.toNat = false) : pop_count (set_bit bb sq) = pop_count bb + 1 := by
  unfold pop_count
  have h := filter_length_update (fun i => bb.testBit i) (fun i => (set_bit bb sq).testBit i)
    sq.toNat 64 (fun i _ hne => by
      dsimp only
      rw [testBit_set_bit h0 h1]
      have hne2 : ¬ (sq.toNat = i) := fun h => hne h.symm
      simp [hne2]) hbit (by
      dsimp only
      rw [testBit_set_bit h0 h1]
      simp)
  rw [if_pos (by omega)] at h
  rw [h]
  push_cast
  rfl

theorem pop_count_clear_bit {bb : U64} {sq : Int} (h0 : 0 ≤ sq) (h1 : sq < 63)
    (hbit : bb.testBit sq.toNat = true) : pop_count (clear_bit bb sq) = pop_count bb - 1 := by
  unfold pop_count
  have h := filter_length_update (fun i => (clear_bit bb sq).testBit i) (fun i => bb.testBit i)
    sq.toNat 64 (fun i hi hne => by
      dsimp only
      rw [testBit_clear_bit h0 h1]
      have hne2 : ¬ (sq.toNat = i) := fun h => hne h.symm
      simp [hi, hne2]) (by
      dsimp only
      rw [testBit_clear_bit h0 h1]
      simp) hbit
  rw [if_pos (by omega)] at h
  rw [h]
  push_cast
  omega

theorem opponent_of_eq (p : Player) (hp : p = PLAYER_1 ∨ p = PLAYER_2) :
    (if p = PLAYER_1 then PLAYER_2 else PLAYER_1) = opponent_of p ∧ opponent_of p ≠ p ∧
      opponent_of p ≠ NO_PLAYER ∧ p ≠ NO_PLAYER ∧
      ∀ q, q ≠ NO_PLAYER → q ≠ p → q = opponent_of p := by
  rcases hp with rfl | rfl
  · refine ⟨rfl, by decide, by decide, by decide, fun q h1 h2 => ?_⟩
    cases q
    · exact absurd rfl h1
    · exact absurd rfl h2
    · rfl
  · refine ⟨rfl, by decide, by decide, by decide, fun q h1 h2 => ?_⟩
    cases q
    · exact absurd rfl h1
    · rfl
    · exact absurd rfl h2

/-- The piece sets after a legal move, cell by cell. -/
theorem moved_bbs_form {b : BoardState} {m : Move}
    (hbb : ∀ pt q, b.piece_bbs pt q < 2 ^ 64) (hone : OnePiecePerSquare b)
    (hocc : OccupancyConsistent b) (hm : m ∈ pseudo_legal_moves b b.side_to_move) :
    (∀ D q, D ≠ NO_PIECE_TYPE → q ≠ NO_PLAYER →
      (b.piece_bbs D q).testBit m.to_sq.toNat = true →
      m.piece_captured ≠ NO_PIECE_TYPE ∧ D = m.piece_captured ∧
        q = opponent_of b.side_to_move) ∧
    (m.piece_captured ≠ NO_PIECE_TYPE →
      (b.piece_bbs m.piece_captured (opponent_of b.side_to_move)).testBit m.to_sq.toNat
        = true) ∧
    (∀ pt p, moved_bbs b m pt p =
      if pt = m.piece_moved ∧ p = b.side_to_move then
        set_bit (clear_bit (b.piece_bbs m.piece_moved b.side_to_move) m.from_sq) m.to_sq
      else if m.piece_captured ≠ NO_PIECE_TYPE ∧ pt = m.piece_captured ∧
          p = opponent_of b.side_to_move then
        clear_bit (b.piece_bbs m.piece_captured (opponent_of b.side_to_move)) m.to_sq
      else b.piece_bbs pt p) := by
  obtain ⟨hP, _, _, _, htr, _, _⟩ := legal_move_facts hbb hocc hm
  obtain ⟨ho1, ho2, ho3, ho4, ho5⟩ := opponent_of_eq b.side_to_move hP
  rcases legal_move_capture hbb hocc hm with ⟨hc, hempty⟩ | ⟨hc, q, hq1, hq2, hbit⟩
  · refine ⟨fun D q hD hq h => ?_, fun h => absurd hc h, fun pt p => ?_⟩
    · rw [hempty D q hD hq] at h
      exact Bool.noConfusion h
    · rw [moved_bbs_quiet b m hc]
      by_cases h1 : pt = m.piece_moved ∧ p = b.side_to_move
      · rw [if_pos h1, if_pos h1]
      · rw [if_neg h1, if_neg h1, if_neg (fun h => h.1 hc)]
  · have hq : q = opponent_of b.side_to_move := ho5 q hq1 hq2
    rw [hq] at hbit
    refine ⟨fun D q2 hD hq2 h => ?_, fun _ => hbit, fun pt p => ?_⟩
    · obtain ⟨e1, e2⟩ := hone m.to_sq.toNat D m.piece_captured q2
        (opponent_of b.side_to_move) hD hc hq2 ho3 h hbit
      exact ⟨hc, e1, e2⟩
    · rw [moved_bbs_capture b m (opponent_of b.side_to_move) ho1 ho2 hc
        ((get_bit_ne_zero_iff htr.1 htr.2).mpr hbit)]
      by_cases h1 : pt = m.piece_moved ∧ p = b.side_to_move
      · rw [if_pos h1, if_pos h1]
      · rw [if_neg h1, if_neg h1]
        by_cases h2 : pt = m.piece_captured ∧ p = opponent_of b.side_to_move
        · rw [if_pos h2, if_pos ⟨hc, h2⟩]
        · rw [if_neg h2, if_neg (fun h => h2 h.2)]

theorem testBit_lt_64 {bb : U64} (h : bb < 2 ^ 64) {i : Nat} (hb : bb.testBit i = true) :
    i < 64 := by
  by_contra hge
  rw [testBit_eq_false_of_lt h (by omega)] at hb
  exact Bool.noConfusion hb

/-- The bits of the piece sets after a legal move. -/
theorem moved_bbs_testBit {b : BoardState} {m : Move}
    (hbb : ∀ pt q, b.piece_bbs pt q < 2 ^ 64) (hone : OnePiecePerSquare b)
    (hocc : OccupancyConsistent b) (hm : m ∈ pseudo_legal_moves b b.side_to_move)
    (pt : PieceType) (p : Player) (i : Nat) :
    (moved_bbs b m pt p).testBit i = true ↔
      ((pt = m.piece_moved ∧ p = b.side_to_move ∧
          (i = m.to_sq.toNat ∨ ((b.piece_bbs pt p).testBit i = true ∧ i ≠ m.from_sq.toNat))) ∨
        (¬ (pt = m.piece_moved ∧ p = b.side_to_move) ∧ (b.piece_bbs pt p).testBit i = true ∧
          ¬ (m.piece_captured ≠ NO_PIECE_TYPE ∧ pt = m.piece_captured ∧
            p = opponent_of b.side_to_move ∧ i = m.to_sq.toNat))) := by
  obtain ⟨_, _, hfr, _, htr, _, _⟩ := legal_move_facts hbb hocc hm
  obtain ⟨_, _, hform⟩ := moved_bbs_form hbb hone hocc hm
  rw [hform]
  by_cases h1 : pt = m.piece_moved ∧ p = b.side_to_move
  · rw [if_pos h1, testBit_set_bit htr.1 htr.2, testBit_clear_bit hfr.1 hfr.2]
    obtain ⟨rfl, rfl⟩ := h1
    simp only [Bool.or_eq_true, Bool.and_eq_true, decide_eq_true_eq, Bool.not_eq_true',
      decide_eq_false_iff_not, true_and, not_true_eq_false, false_and, or_false]
    constructor
    · rintro (⟨h, _, hne⟩ | h)
      · exact Or.inr ⟨h, fun e => hne e.symm⟩
      · exact Or.inl h.symm
    · rintro (h | ⟨h, hne⟩)
      · exact Or.inr h.symm
      · exact Or.inl ⟨h, testBit_lt_64 (hbb _ _) h, fun e => hne e.symm⟩
  · rw [if_neg h1]
    by_cases h2 : m.piece_captured ≠ NO_PIECE_TYPE ∧ pt = m.piece_captured ∧
        p = opponent_of b.side_to_move
    · rw [if_pos h2, testBit_clear_bit htr.1 htr.2]
      simp only [Bool.and_eq_true, decide_eq_true_eq, Bool.not_eq_true',
        decide_eq_false_iff_not]
      constructor
      · rintro ⟨h, _, hne⟩
        rw [← h2.2.1, ← h2.2.2] at h
        exact Or.inr ⟨h1, h, fun hx => hne hx.2.2.2.symm⟩
      · rintro (h | ⟨_, h, hne⟩)
        · exact absurd ⟨h.1, h.2.1⟩ h1
        · have hne2 : ¬ (i = m.to_sq.toNat) := fun e => hne ⟨h2.1, h2.2.1, h2.2.2, e⟩
          rw [h2.2.1, h2.2.2] at h
          exact ⟨h, testBit_lt_64 (hbb _ _) h, fun e => hne2 e.symm⟩
    · rw [if_neg h2]
      constructor
      · intro h
        exact Or.inr ⟨h1, h, fun hx => h2 ⟨hx.1, hx.2.1, hx.2.2.1⟩⟩
      · rintro (h | ⟨_, h, _⟩)
        · exact absurd ⟨h.1, h.2.1⟩ h1
        · exact h

theorem moved_bbs_bit_cases {b : BoardState} {m : Move}
    (hbb : ∀ pt q, b.piece_bbs pt q < 2 ^ 64) (hone : OnePiecePerSquare b)
    (hocc : OccupancyConsistent b) (hm : m ∈ pseudo_legal_moves b b.side_to_move)
    {D : PieceType} {q : Player} {i : Nat} (hD : D ≠ NO_PIECE_TYPE) (hq : q ≠ NO_PLAYER)
    (h : (moved_bbs b m D q).testBit i = true) :
    (i = m.to_sq.toNat ∧ D = m.piece_moved ∧ q = b.side_to_move) ∨
      (i ≠ m.to_sq.toNat ∧ (b.piece_bbs D q).testBit i = true ∧
        ¬ (D = m.piece_moved ∧ q = b.side_to_move ∧ i = m.from_sq.toNat)) := by
  obtain ⟨hold_t, _, _⟩ := moved_bbs_form hbb hone hocc hm
  rcases (moved_bbs_testBit hbb hone hocc hm D q i).mp h with ⟨e1, e2, h3⟩ | ⟨hne, hbit, hnc⟩
  · rcases h3 with h3 | ⟨h3, h4⟩
    · exact Or.inl ⟨h3, e1, e2⟩
    · by_cases hi : i = m.to_sq.toNat
      · exact Or.inl ⟨hi, e1, e2⟩
      · exact Or.inr ⟨hi, h3, fun hx => h4 hx.2.2⟩
  · by_cases hi : i = m.to_sq.toNat
    · exfalso
      rw [hi] at hbit
      obtain ⟨c1, c2, c3⟩ := hold_t D q hD hq hbit
      exact hnc ⟨c1, c2, c3, hi⟩
    · exact Or.inr ⟨hi, hbit, fun hx => hne ⟨hx.1, hx.2.1⟩⟩

theorem moved_bbs_one_per_square {b : BoardState} {m : Move}
    (hbb : ∀ pt q, b.piece_bbs pt q < 2 ^ 64) (hone : OnePiecePerSquare b)
    (hocc : OccupancyConsistent b) (hm : m ∈ pseudo_legal_moves b b.side_to_move)
    (b2 : BoardState) (hb2 : b2.piece_bbs = moved_bbs b m) : OnePiecePerSquare b2 := by
  intro i pt1 pt2 p1 p2 h1 h2 h3 h4 hb1 hb2'
  rw [hb2] at hb1 hb2'
  rcases moved_bbs_bit_cases hbb hone hocc hm h1 h3 hb1 with ⟨a1, a2, a3⟩ | ⟨a1, a2, _⟩
  · rcases moved_bbs_bit_cases hbb hone hocc hm h2 h4 hb2' with ⟨c1, c2, c3⟩ | ⟨c1, _, _⟩
    · exact ⟨a2.trans c2.symm, a3.trans c3.symm⟩
    · exact absurd a1 c1
  · rcases moved_bbs_bit_cases hbb hone hocc hm h2 h4 hb2' with ⟨c1, _, _⟩ | ⟨_, c2, _⟩
    · exact absurd c1 a1
    · exact hone i pt1 pt2 p1 p2 h1 h2 h3 h4 a2 c2

theorem get_bit_eq_of_testBit {x y : U64} {s : Int} (h0 : 0 ≤ s) (h1 : s < 63)
    (h : x.testBit s.toNat = y.testBit s.toNat) : get_bit x s = get_bit y s := by
  unfold get_bit
  rw [NUM_SQUARES_eq, if_pos ⟨h0, h1⟩, if_pos ⟨h0, h1⟩, shl64_one (by omega)]
  apply Nat.eq_of_testBit_eq
  intro i
  rw [Nat.testBit_and, Nat.testBit_and, Nat.testBit_two_pow]
  by_cases hi : s.toNat = i
  · subst hi
    rw [h]
  · simp [hi]

theorem sum_map_sub_one {α : Type} [DecidableEq α] (l : List α) (hn : l.Nodup) (a : α)
    (ha : a ∈ l) (f g : α → Int) (hg : ∀ x ∈ l, g x = if x = a then f x - 1 else f x) :
    (l.map g).sum = (l.map f).sum - 1 := by
  induction l with
  | nil => exact absurd ha (List.not_mem_nil a)
  | cons x l ih =>
    rw [List.map_cons, List.map_cons, List.sum_cons, List.sum_cons]
    have hx := hg x (List.mem_cons_self _ _)
    obtain ⟨hxl, hnl⟩ := List.nodup_cons.mp hn
    by_cases hxa : x = a
    · rw [if_pos hxa] at hx
      have hrest : (l.map g) = (l.map f) := by
        apply List.map_congr_left
        intro y hy
        have hya : y ≠ a := fun h => hxl (hxa ▸ h ▸ hy)
        rw [hg y (List.mem_cons_of_mem _ hy), if_neg hya]
      rw [hx, hrest]
      omega
    · rw [if_neg hxa] at hx
      have hal : a ∈ l := by
        rcases List.mem_cons.mp ha with h | h
        · exact absurd h.symm hxa
        · exact h
      rw [hx, ih hnl hal (fun y hy => hg y (List.mem_cons_of_mem _ hy))]
      omega

theorem moved_bbs_piece_count {b : BoardState} {m : Move}
    (hbb : ∀ pt q, b.piece_bbs pt q < 2 ^ 64) (hone : OnePiecePerSquare b)
    (hocc : OccupancyConsistent b) (hm : m ∈ pseudo_legal_moves b b.side_to_move)
    (b2 : BoardState) (hb2 : b2.piece_bbs = moved_bbs b m) :
    piece_count b2 b.side_to_move = piece_count b b.side_to_move ∧
      piece_count b2 (opponent_of b.side_to_move) =
        piece_count b (opponent_of b.side_to_move) -
          (if m.piece_captured ≠ NO_PIECE_TYPE then 1 else 0) := by
  obtain ⟨hP, hmv, ⟨hf0, hf1⟩, hfbit, ⟨ht0, ht1⟩, hfree, hft⟩ := legal_move_facts hbb hocc hm
  obtain ⟨_, ho2, _, _, _⟩ := opponent_of_eq b.side_to_move hP
  obtain ⟨_, hcapbit, hform⟩ := moved_bbs_form hbb hone hocc hm
  unfold piece_count
  rw [hb2]
  constructor
  · congr 1
    apply List.map_congr_left
    intro pt _
    rw [hform pt b.side_to_move]
    by_cases h1 : pt = m.piece_moved
    · rw [if_pos ⟨h1, rfl⟩, h1, pop_count_set_bit ht0 ht1, pop_count_clear_bit hf0 hf1 hfbit]
      · omega
      · rw [testBit_clear_bit hf0 hf1, hfree _ hmv]
        rfl
    · rw [if_neg (fun h => h1 h.1), if_neg (fun h => ho2 h.2.2.symm)]
  · by_cases hc : m.piece_captured ≠ NO_PIECE_TYPE
    · rw [if_pos hc]
      apply sum_map_sub_one PIECE_TYPE_LOOP (by decide) m.piece_captured
        (mem_PIECE_TYPE_LOOP.mpr hc)
      intro pt _
      rw [hform pt (opponent_of b.side_to_move), if_neg (fun h => ho2 h.2)]
      by_cases h2 : pt = m.piece_captured
      · rw [if_pos ⟨hc, h2, rfl⟩, if_pos h2, h2, pop_count_clear_bit ht0 ht1 (hcapbit hc)]
      · rw [if_neg (fun h => h2 h.2.1), if_neg h2]
    · rw [if_neg hc, sub_zero]
      congr 1
      apply List.map_congr_left
      intro pt _
      rw [hform pt (opponent_of b.side_to_move), if_neg (fun h => ho2 h.2),
        if_neg (fun h => hc h.1)]

theorem moved_bbs_get_piece_at {b : BoardState} {m : Move}
    (hbb : ∀ pt q, b.piece_bbs pt q < 2 ^ 64) (hone : OnePiecePerSquare b)
    (hocc : OccupancyConsistent b) (hm : m ∈ pseudo_legal_moves b b.side_to_move)
    (b2 : BoardState) (hb2 : b2.piece_bbs = moved_bbs b m) :
    b2.get_piece_at m.to_sq = ⟨m.piece_moved, b.side_to_move⟩ ∧
      b2.get_piece_at m.from_sq = ⟨NO_PIECE_TYPE, NO_PLAYER⟩ ∧
      ∀ s, s ≠ m.to_sq → s ≠ m.from_sq → b2.get_piece_at s = b.get_piece_at s := by
  obtain ⟨hP, hmv, ⟨hf0, hf1⟩, hfbit, ⟨ht0, ht1⟩, hfree, hft⟩ := legal_move_facts hbb hocc hm
  obtain ⟨_, _, _, hPne, _⟩ := opponent_of_eq b.side_to_move hP
  have hone2 := moved_bbs_one_per_square hbb hone hocc hm b2 hb2
  have hft2 : m.from_sq.toNat ≠ m.to_sq.toNat := by omega
  refine ⟨?_, ?_, ?_⟩
  · apply get_piece_at_unique hone2 ht0 ht1 hmv hPne
    rw [hb2]
    exact (moved_bbs_testBit hbb hone hocc hm _ _ _).mpr (Or.inl ⟨rfl, rfl, Or.inl rfl⟩)
  · apply get_piece_at_empty
    intro D q hD hq
    rw [get_bit_eq_zero_iff hf0 hf1, hb2]
    cases hbit : (moved_bbs b m D q).testBit m.from_sq.toNat with
    | false => rfl
    | true =>
      exfalso
      rcases moved_bbs_bit_cases hbb hone hocc hm hD hq hbit with ⟨a1, _, _⟩ | ⟨_, a2, a3⟩
      · exact hft2 a1
      · obtain ⟨e1, e2⟩ := hone _ D m.piece_moved q b.side_to_move hD hmv hq hPne a2 hfbit
        exact a3 ⟨e1, e2, rfl⟩
  · intro s hst hsf
    apply get_piece_at_congr
    intro D q hD hq
    by_cases hs : 0 ≤ s ∧ s < 63
    · apply get_bit_eq_of_testBit hs.1 hs.2
      have hs1 : s.toNat ≠ m.to_sq.toNat := by omega
      have hs2 : s.toNat ≠ m.from_sq.toNat := by omega
      rw [hb2]
      cases hbit : (b.piece_bbs D q).testBit s.toNat with
      | true =>
        apply (moved_bbs_testBit hbb hone hocc hm _ _ _).mpr
        by_cases hc : D = m.piece_moved ∧ q = b.side_to_move
        · exact Or.inl ⟨hc.1, hc.2, Or.inr ⟨hbit, hs2⟩⟩
        · exact Or.inr ⟨hc, hbit, fun h => hs1 h.2.2.2⟩
      | false =>
        cases hnew : (moved_bbs b m D q).testBit s.toNat with
        | false => rfl
        | true =>
          exfalso
          rcases moved_bbs_bit_cases hbb hone hocc hm hD hq hnew with ⟨a1, _, _⟩ | ⟨_, a2, _⟩
          · exact hs1 a1
          · rw [hbit] at a2
            exact Bool.noConfusion a2
    · rw [get_bit_out_of_range hs, get_bit_out_of_range hs]

/-- C27 (effect of applying a legal move).  On a board whose piece sets are 64-bit words, with
at most one piece per square and occupancy words consistent with the piece sets, let `m` be a
move that `generate_all_legal_moves` returns for the side to move, against any history.  After
`apply_move m`: `get_piece_at m.to_sq` is the moved piece of the mover and no other piece set
has the bit of `m.to_sq`; `get_piece_at m.from_sq` is empty; `get_piece_at s` is unchanged for
every other `s`; the number of pieces of the mover is unchanged; the number of pieces of the
opponent drops by one when `m.piece_captured` is a piece and is unchanged otherwise; the side
to move is the other player; and the new board again has at most one piece per square. -/
theorem legal_move_effect (keys : ZobristKeys) (b : BoardState) (history : List BoardState)
    (m : Move) (hbb : ∀ pt q, b.piece_bbs pt q < 2 ^ 64) (hone : OnePiecePerSquare b)
    (hocc : OccupancyConsistent b)
    (hm : m ∈ generate_all_legal_moves keys b b.side_to_move history) :
    (b.apply_move keys m).get_piece_at m.to_sq = ⟨m.piece_moved, b.side_to_move⟩ ∧
      (∀ D q, D ≠ NO_PIECE_TYPE → q ≠ NO_PLAYER →
        ((b.apply_move keys m).piece_bbs D q).testBit m.to_sq.toNat = true →
        D = m.piece_moved ∧ q = b.side_to_move) ∧
      (b.apply_move keys m).get_piece_at m.from_sq = ⟨NO_PIECE_TYPE, NO_PLAYER⟩ ∧
      (∀ s, s ≠ m.to_sq → s ≠ m.from_sq →
        (b.apply_move keys m).get_piece_at s = b.get_piece_at s) ∧
      piece_count (b.apply_move keys m) b.side_to_move = piece_count b b.side_to_move ∧
      piece_count (b.apply_move keys m) (opponent_of b.side_to_move) =
        piece_count b (opponent_of b.side_to_move) -
          (if m.piece_captured ≠ NO_PIECE_TYPE then 1 else 0) ∧
      (b.apply_move keys m).side_to_move = opponent_of b.side_to_move ∧
      b.side_to_move ≠ opponent_of b.side_to_move ∧
      OnePiecePerSquare (b.apply_move keys m) := by
  have hp := (mem_generate_all_legal_moves.mp hm).1
  obtain ⟨hP, hmv, ⟨hf0, hf1⟩, hfbit, ⟨ht0, ht1⟩, _, _⟩ := legal_move_facts hbb hocc hp
  obtain ⟨ho1, ho2, _, _, _⟩ := opponent_of_eq b.side_to_move hP
  have h1 : ¬ (m.from_sq = -1 ∨ m.to_sq = -1 ∨ m.piece_moved = NO_PIECE_TYPE) := by
    rintro (h | h | h)
    · omega
    · omega
    · exact hmv h
  obtain ⟨hb2, hside⟩ := apply_move_normal keys b m h1 ((get_bit_ne_zero_iff hf0 hf1).mpr hfbit)
  obtain ⟨g1, g2, g3⟩ := moved_bbs_get_piece_at hbb hone hocc hp _ hb2
  obtain ⟨c1, c2⟩ := moved_bbs_piece_count hbb hone hocc hp _ hb2
  have hone2 := moved_bbs_one_per_square hbb hone hocc hp _ hb2
  refine ⟨g1, fun D q hD hq hbit => ?_, g2, g3, c1, c2, hside.trans ho1,
    fun h => ho2 h.symm, hone2⟩
  rw [hb2] at hbit
  rcases moved_bbs_bit_cases hbb hone hocc hp hD hq hbit with ⟨_, a2, a3⟩ | ⟨a1, _, _⟩
  · exact ⟨a2, a3⟩
  · exact absurd rfl a1

/-- Witness for C27: on `rat_duel_board` the `PLAYER_1` RAT on D5 takes the `PLAYER_2` RAT on
D4; afterwards D4 holds the `PLAYER_1` RAT, D5 is empty, `PLAYER_1` still has one piece,
`PLAYER_2` has none, and `PLAYER_2` is to move. -/
theorem legal_move_effect_witness :
    (∀ pt q, rat_duel_board.piece_bbs pt q < 2 ^ 64) ∧ OnePiecePerSquare rat_duel_board ∧
      OccupancyConsistent rat_duel_board ∧
      (⟨31, 24, RAT, RAT⟩ : Move) ∈
        generate_all_legal_moves demo_keys rat_duel_board rat_duel_board.side_to_move [] ∧
      (rat_duel_board.apply_move demo_keys ⟨31, 24, RAT, RAT⟩).get_piece_at 24
        = ⟨RAT, PLAYER_1⟩ ∧
      (rat_duel_board.apply_move demo_keys ⟨31, 24, RAT, RAT⟩).get_piece_at 31
        = ⟨NO_PIECE_TYPE, NO_PLAYER⟩ ∧
      piece_count (rat_duel_board.apply_move demo_keys ⟨31, 24, RAT, RAT⟩) PLAYER_1 = 1 ∧
      piece_count (rat_duel_board.apply_move demo_keys ⟨31, 24, RAT, RAT⟩) PLAYER_2 = 0 ∧
      (rat_duel_board.apply_move demo_keys ⟨31, 24, RAT, RAT⟩).side_to_move = PLAYER_2 :=
  have hbb : ∀ pt q, rat_duel_board.piece_bbs pt q < 2 ^ 64 := fun pt q =>
    lt_trans (two_piece_wf demo_keys (Or.inl rfl) (by decide) (by decide) (by decide)
      (by decide) pt q) (by decide)
  have hone : OnePiecePerSquare rat_duel_board :=
    two_piece_one_per_square demo_keys (Or.inl rfl) (by decide) (by decide) (by decide)
      (by decide) (by decide)
  have hocc : OccupancyConsistent rat_duel_board := board_of_occupancy_consistent _ _
  have hm : (⟨31, 24, RAT, RAT⟩ : Move) ∈
      generate_all_legal_moves demo_keys rat_duel_board rat_duel_board.side_to_move [] := by
    decide
  have h := legal_move_effect demo_keys rat_duel_board [] ⟨31, 24, RAT, RAT⟩ hbb hone hocc hm
  ⟨hbb, hone, hocc, hm, h.1, h.2.2.1, by decide, by decide, h.2.2.2.2.2.2.1⟩


/-! ## C40: the repetition filter and the history -/

theorem repetition_count_append (h1 h2 : List BoardState) (x : BoardState) :
    repetition_count (h1 ++ h2) x = repetition_count h1 x + repetition_count h2 x := by
  unfold repetition_count
  rw [List.filter_append, List.length_append]

theorem filter_sublist_of_imp {α : Type} (p q : α → Bool) (h : ∀ a, p a = true → q a = true)
    (l : List α) : (l.filter p).Sublist (l.filter q) := by
  induction l with
  | nil => exact List.Sublist.refl _
  | cons a l ih =>
    by_cases hp : p a = true
    · rw [List.filter_cons_of_pos hp, List.filter_cons_of_pos (h a hp)]
      exact ih.cons₂ a
    · by_cases hq : q a = true
      · rw [List.filter_cons_of_neg hp, List.filter_cons_of_pos hq]
        exact ih.cons a
      · rw [List.filter_cons_of_neg hp, List.filter_cons_of_neg hq]
        exact ih

/-- C40 (the repetition filter is monotone in the history).  For every board, side and
histories `h1`, `h2`, the list `generate_all_legal_moves(board, side, h1 ++ h2)` is a sublist,
in the same relative order, of `generate_all_legal_moves(board, side, h1)`, which is itself a
sublist of the pseudo-legal moves; with the empty history no pseudo-legal move is removed. -/
theorem repetition_filter_monotone (keys : ZobristKeys) (b : BoardState) (side : Player)
    (h1 h2 : List BoardState) :
    (generate_all_legal_moves keys b side (h1 ++ h2)).Sublist
        (generate_all_legal_moves keys b side h1) ∧
      (generate_all_legal_moves keys b side h1).Sublist (pseudo_legal_moves b side) ∧
      generate_all_legal_moves keys b side [] = pseudo_legal_moves b side := by
  refine ⟨?_, ?_, ?_⟩
  · unfold generate_all_legal_moves
    apply filter_sublist_of_imp
    intro m hm
    rw [decide_eq_true_eq] at hm ⊢
    rw [repetition_count_append] at hm
    omega
  · unfold generate_all_legal_moves
    exact List.filter_sublist _
  · unfold generate_all_legal_moves
    apply List.filter_eq_self.mpr
    intro m _
    rw [decide_eq_true_eq]
    exact Nat.zero_lt_two

/-! ## C38: store then probe -/

/-- C38 (store then probe).  On an enabled table whose vector has `capacity` elements, for
every key `k`, score, move, flag other than `NO_ENTRY` and depth in the range of a `short`:
after `store_tt_entry(k, score, depth, flag, move)` the call `probe_tt(k)` returns an entry
with key `k`, a flag other than `NO_ENTRY` and a depth of at least `depth`; when the slot was
empty or held a different key, or held a depth of at most `depth`, the entry has exactly the
stored score, depth, flag and move, and otherwise it is the entry the slot held before. -/
theorem store_then_probe (tt : TTState) (k : U64) (score depth : Int) (flag : EntryFlag)
    (move : Move) (hinit : tt.tt_initialized = true) (hn : tt.tt_num_entries ≠ 0)
    (hsized : TTSized tt) (hflag : flag ≠ EntryFlag.NO_ENTRY)
    (hdepth : -32768 ≤ depth ∧ depth ≤ 32767) :
    ∃ e : TTEntry, probe_tt (store_tt_entry tt k score depth flag move) k = some e ∧
      e.zobrist_key_check = k ∧ e.flag ≠ EntryFlag.NO_ENTRY ∧ e.depth ≥ depth ∧
      ((slot tt (k % tt.tt_num_entries)).flag = EntryFlag.NO_ENTRY ∨
          (slot tt (k % tt.tt_num_entries)).zobrist_key_check ≠ k ∨
          depth ≥ (slot tt (k % tt.tt_num_entries)).depth →
        e = { zobrist_key_check := k, best_move := move, score := score, depth := depth,
              flag := flag }) ∧
      (¬ ((slot tt (k % tt.tt_num_entries)).flag = EntryFlag.NO_ENTRY ∨
          (slot tt (k % tt.tt_num_entries)).zobrist_key_check ≠ k ∨
          depth ≥ (slot tt (k % tt.tt_num_entries)).depth) →
        e = slot tt (k % tt.tt_num_entries)) := by
  have hen : ¬ (tt.tt_initialized = false ∨ tt.tt_num_entries = 0) := by
    rintro (h | h)
    · rw [hinit] at h; exact Bool.noConfusion h
    · exact hn h
  have hidx : k % tt.tt_num_entries < tt.tt_table.length := by
    rw [hsized]
    exact Nat.mod_lt _ (Nat.pos_of_ne_zero hn)
  have hw : wrap_short depth = depth := by
    unfold wrap_short
    omega
  by_cases hc : (slot tt (k % tt.tt_num_entries)).flag = EntryFlag.NO_ENTRY ∨
      (slot tt (k % tt.tt_num_entries)).zobrist_key_check ≠ k ∨
      depth ≥ (slot tt (k % tt.tt_num_entries)).depth
  · have hs : store_tt_entry tt k score depth flag move =
        { tt with
          tt_table := tt.tt_table.set (k % tt.tt_num_entries)
            { zobrist_key_check := k, best_move := move, score := score, depth := depth,
              flag := flag } } := by
      unfold store_tt_entry
      rw [if_neg hen]
      dsimp only
      rw [if_pos hc, hw]
    refine ⟨⟨k, move, score, depth, flag⟩, ?_, rfl, hflag, le_refl _, fun _ => rfl,
      fun h => absurd hc h⟩
    rw [hs]
    unfold probe_tt
    rw [if_neg hen]
    dsimp only
    rw [slot_set_same tt _ _ hidx, if_pos ⟨hflag, rfl⟩]
  · have hs : store_tt_entry tt k score depth flag move = tt := by
      unfold store_tt_entry
      rw [if_neg hen]
      dsimp only
      rw [if_neg hc]
    have h1 : (slot tt (k % tt.tt_num_entries)).flag ≠ EntryFlag.NO_ENTRY := fun h =>
      hc (Or.inl h)
    have h2 : (slot tt (k % tt.tt_num_entries)).zobrist_key_check = k := by
      by_contra h
      exact hc (Or.inr (Or.inl h))
    have h3 : (slot tt (k % tt.tt_num_entries)).depth ≥ depth := by
      by_contra h
      exact hc (Or.inr (Or.inr (by omega)))
    refine ⟨slot tt (k % tt.tt_num_entries), ?_, h2, h1, h3, fun h => absurd h hc, fun _ => rfl⟩
    rw [hs]
    unfold probe_tt
    rw [if_neg hen]
    dsimp only
    rw [if_pos ⟨h1, h2⟩]

/-- Witness for C38: an upper bound of depth 2 for key 4 stored in `demo_tt` (slot 0, empty)
is what the probe returns. -/
theorem store_then_probe_witness :
    probe_tt (store_tt_entry demo_tt 4 17 2 EntryFlag.UPPER_BOUND ⟨31, 38, RAT, NO_PIECE_TYPE⟩) 4
      = some { zobrist_key_check := 4, best_move := ⟨31, 38, RAT, NO_PIECE_TYPE⟩, score := 17,
               depth := 2, flag := EntryFlag.UPPER_BOUND } := by
  obtain ⟨e, h1, _, _, _, h2, _⟩ := store_then_probe demo_tt 4 17 2 EntryFlag.UPPER_BOUND
    ⟨31, 38, RAT, NO_PIECE_TYPE⟩ (by decide) (by decide) rfl (by decide) (by decide)
  rw [h1, h2 (Or.inl (by decide))]

/-! ## C39: the flag of the root entry -/

theorem root_loop_alpha (keys : ZobristKeys) (pst : PST) (b : BoardState) (sd : Nat)
    (hist : List BoardState) (beta : Int) :
    ∀ (rest : List (Int × Move)) (st : RootState),
      (st.first_move_evaluated = true → st.final_score ≤ st.alpha) →
      ((root_loop keys pst b sd hist beta rest st).first_move_evaluated = true →
        (root_loop keys pst b sd hist beta rest st).final_score ≤
          (root_loop keys pst b sd hist beta rest st).alpha) := by
  intro rest
  induction rest with
  | nil =>
    intro st h
    exact h
  | cons p rest ih =>
    intro st _
    rw [root_loop_cons]
    apply ih
    intro _
    exact le_max_right _ _

/-- The table `find_best_ai_move` leaves when `PLAYER_1` has a legal move: the table the root
loop left, with the root outcome stored under the flag `UPPER_BOUND`.  `P` is any table property
kept by the searches of the root moves. -/
theorem find_best_ai_move_upper (keys : ZobristKeys) (pst : PST) (sorter : RootSort)
    (tt : TTState) (b : BoardState) (sd : Nat) (hist : List BoardState)
    (P : TTState → Prop)
    (hlegal : generate_all_legal_moves keys b PLAYER_1 hist ≠ [])
    (hsearch : ∀ (tt : TTState) (alpha : Int) (m : Move),
      m ∈ generate_all_legal_moves keys b PLAYER_1 hist → P tt →
      P (alpha_beta_search keys pst (sd - 1) tt 0 (make_move_on_copy keys b m) alpha INT_MAX
          PLAYER_1 (make_move_on_copy keys b m).side_to_move (hist ++ [b])).tt)
    (hP : P tt) :
    (find_best_ai_move keys pst sorter tt b sd hist).1.best_move.from_sq ≠ -1 ∧
      ∃ t2 : TTState, P t2 ∧
        (find_best_ai_move keys pst sorter tt b sd hist).2 =
          store_tt_entry t2 b.zobrist_hash
            (find_best_ai_move keys pst sorter tt b sd hist).1.final_score sd
            EntryFlag.UPPER_BOUND
            (find_best_ai_move keys pst sorter tt b sd hist).1.best_move := by
  have hne : (generate_all_legal_moves keys b PLAYER_1 hist).isEmpty = false := by
    cases hg : generate_all_legal_moves keys b PLAYER_1 hist with
    | nil => exact absurd hg hlegal
    | cons _ _ => rfl
  unfold find_best_ai_move
  dsimp only
  simp only [hne, Bool.false_eq_true, if_false, not_false_eq_true, and_true]
  generalize hsc : @List.map Move (Int × Move) _
    (generate_all_legal_moves keys b PLAYER_1 hist) = scored
  have hperm := sorter.perm scored
  generalize sorter.sort scored = sorted at *
  have hsnd : ∀ p ∈ sorted, p.2 ∈ generate_all_legal_moves keys b PLAYER_1 hist := by
    intro p hp
    have hp2 := hperm.subset hp
    rw [← hsc] at hp2
    obtain ⟨m, hm, rfl⟩ := List.mem_map.mp hp2
    exact hm
  have hsorted_ne : sorted ≠ [] := by
    intro h
    rw [h] at hperm
    have := hperm.length_eq
    rw [← hsc] at this
    simp only [List.length_nil, List.length_map] at this
    exact hlegal (List.length_eq_zero.mp this.symm)
  obtain ⟨g1, _, g3, g4⟩ := root_loop_general keys pst b sd hist INT_MAX P (fun _ => True)
    (fun m => m ∈ generate_all_legal_moves keys b PLAYER_1 hist)
    (fun t alpha m hm ht => ⟨hsearch t alpha m hm ht, trivial⟩) sorted
    { best_move := AiMoveResult.ctor.best_move, final_score := AiMoveResult.ctor.final_score,
      first_move_evaluated := false, alpha := INT_MIN, total_nodes_for_search_at_root := 0,
      tt := tt }
    hsnd hP (fun h => by simp at h)
  have g5 := root_loop_alpha keys pst b sd hist INT_MAX sorted
    { best_move := AiMoveResult.ctor.best_move, final_score := AiMoveResult.ctor.final_score,
      first_move_evaluated := false, alpha := INT_MIN, total_nodes_for_search_at_root := 0,
      tt := tt } (fun h => by simp at h)
  generalize root_loop keys pst b sd hist INT_MAX sorted
    { best_move := AiMoveResult.ctor.best_move, final_score := AiMoveResult.ctor.final_score,
      first_move_evaluated := false, alpha := INT_MIN, total_nodes_for_search_at_root := 0,
      tt := tt } = st at *
  have hmem : st.best_move ∈ generate_all_legal_moves keys b PLAYER_1 hist := by
    rcases g4 with ⟨_, _, h | h⟩ | ⟨p, hp, e⟩
    · simp at h
    · exact absurd h hsorted_ne
    · rw [e]; exact hsnd p hp
  have hfrom : ¬ (st.best_move.from_sq = -1) := by
    have := generated_from_sq_nonneg hmem
    omega
  have hle : st.final_score ≤ st.alpha := g5 (g3 (Or.inr hsorted_ne))
  simp only [ne_eq, hfrom, if_false, not_false_eq_true, if_true, hle]
  exact ⟨trivial, st.tt, g1, rfl⟩

/-- C39 (root entries are flagged as upper bounds).  For every board on which `PLAYER_1` has a
legal move, every history, table and search depth of at least 1, `find_best_ai_move` finds a
non-null best move and the table it leaves is the table after the root loop with
`store_tt_entry(board.zobrist_hash, final_score, search_depth, UPPER_BOUND, best_move)` applied:
the flag is `UPPER_BOUND`, never `EXACT_SCORE` or `LOWER_BOUND`, because after the loop
`final_score <= alpha`.  On an enabled table whose slot for the board can be overwritten the
probe of `board.zobrist_hash` then yields an entry with the flag `UPPER_BOUND` and the score
`final_score`. -/
theorem root_flag_upper_bound (keys : ZobristKeys) (pst : PST) (sorter : RootSort)
    (tt : TTState) (b : BoardState) (history : List BoardState) (search_depth : Nat)
    (hd : 1 ≤ search_depth)
    (hlegal : generate_all_legal_moves keys b PLAYER_1 history ≠ []) :
    (find_best_ai_move keys pst sorter tt b search_depth history).1.best_move.from_sq ≠ -1 ∧
      (∃ t2 : TTState,
        (find_best_ai_move keys pst sorter tt b search_depth history).2 =
          store_tt_entry t2 b.zobrist_hash
            (find_best_ai_move keys pst sorter tt b search_depth history).1.final_score
            search_depth EntryFlag.UPPER_BOUND
            (find_best_ai_move keys pst sorter tt b search_depth history).1.best_move) ∧
      (tt.tt_initialized = true → tt.tt_num_entries ≠ 0 → TTSized tt →
        RootSlotFree tt b.zobrist_hash search_depth →
        ∃ e : TTEntry,
          probe_tt (find_best_ai_move keys pst sorter tt b search_depth history).2
            b.zobrist_hash = some e ∧
          e.flag = EntryFlag.UPPER_BOUND ∧
          e.score = (find_best_ai_move keys pst sorter tt b search_depth history).1.final_score ∧
          e.best_move =
            (find_best_ai_move keys pst sorter tt b search_depth history).1.best_move) := by
  -- the embedding passes `search_depth - 1` to the search, which is the C++ value for
  -- `search_depth ≥ 1`
  have _ := hd
  obtain ⟨hfrom, t0, _, e0⟩ := find_best_ai_move_upper keys pst sorter tt b search_depth history
    (fun _ => True) hlegal (fun _ _ _ _ _ => trivial) trivial
  refine ⟨hfrom, ⟨t0, e0⟩, fun hinit hn hsized hslot => ?_⟩
  obtain ⟨_, t2, hP, e⟩ := find_best_ai_move_upper keys pst sorter tt b search_depth history
    (fun t => t.tt_initialized = true ∧ t.tt_num_entries = tt.tt_num_entries ∧ TTSized t ∧
      RootSlotFree t b.zobrist_hash search_depth)
    hlegal
    (fun t alpha m _ ht => alpha_beta_search_tt_pres keys pst _ search_depth
      (fun d hdle t2 k s f mv h2 =>
        root_slot_free_store tt.tt_num_entries b.zobrist_hash search_depth d hdle t2 k s f mv h2)
      (search_depth - 1) (by omega) t 0 _ alpha INT_MAX PLAYER_1 _ _ ht)
    ⟨hinit, rfl, hsized, hslot⟩
  obtain ⟨h1, h2, h3, h4⟩ := hP
  rw [e]
  generalize (find_best_ai_move keys pst sorter tt b search_depth history).1.final_score = fs
  generalize (find_best_ai_move keys pst sorter tt b search_depth history).1.best_move = bm
  have hen : ¬ (t2.tt_initialized = false ∨ t2.tt_num_entries = 0) := by
    rintro (h | h)
    · rw [h1] at h; exact Bool.noConfusion h
    · rw [h2] at h; exact hn h
  have hidx : b.zobrist_hash % t2.tt_num_entries < t2.tt_table.length := by
    rw [h3]
    exact Nat.mod_lt _ (Nat.pos_of_ne_zero (by rw [h2]; exact hn))
  have hstore : store_tt_entry t2 b.zobrist_hash fs search_depth EntryFlag.UPPER_BOUND bm =
      { t2 with
        tt_table := t2.tt_table.set (b.zobrist_hash % t2.tt_num_entries)
          { zobrist_key_check := b.zobrist_hash, best_move := bm, score := fs,
            depth := wrap_short search_depth, flag := EntryFlag.UPPER_BOUND } } := by
    unfold store_tt_entry
    rw [if_neg hen]
    dsimp only
    rw [if_pos]
    unfold RootSlotFree at h4
    rcases h4 with h | h | h
    · exact Or.inl h
    · exact Or.inr (Or.inl h)
    · exact Or.inr (Or.inr h)
  refine ⟨⟨b.zobrist_hash, bm, fs, wrap_short search_depth, EntryFlag.UPPER_BOUND⟩, ?_, rfl,
    rfl, rfl⟩
  rw [hstore]
  unfold probe_tt
  rw [if_neg hen]
  dsimp only
  rw [slot_set_same t2 _ _ hidx, if_pos ⟨fun h => EntryFlag.noConfusion h, rfl⟩]

set_option maxRecDepth 1000000 in
/-- Witness for C39: after a search of depth 1 of `elephant_board` on the empty table
`empty_tt` the entry of the board is an upper bound. -/
theorem root_flag_upper_bound_witness :
    generate_all_legal_moves demo_keys elephant_board PLAYER_1 [] ≠ [] ∧
      ∃ e : TTEntry,
        probe_tt (find_best_ai_move demo_keys demo_pst demo_sorter empty_tt elephant_board 1
          []).2 elephant_board.zobrist_hash = some e ∧
        e.flag = EntryFlag.UPPER_BOUND :=
  ⟨by decide,
   ((root_flag_upper_bound demo_keys demo_pst demo_sorter empty_tt elephant_board [] 1
      (le_refl 1) (by decide)).2.2 rfl (by decide) rfl (Or.inl (by decide))).elim
     fun e h => ⟨e, h.1, h.2.1⟩⟩


/-! ## C36: generated moves describe the board -/

theorem scan_squares_nodup {bb : U64} (hlt : bb < 2 ^ 64) : (scan_squares bb).Nodup := by
  rw [scan_squares_eq hlt]
  apply List.Nodup.map
  · intro a c h
    exact Int.ofNat.inj h
  · unfold bit_list
    exact (List.nodup_range 64).filter _

theorem pseudo_legal_moves_nodup (b : BoardState) (p : Player)
    (hbb : ∀ pt q, b.piece_bbs pt q < 2 ^ 64) : (pseudo_legal_moves b p).Nodup := by
  unfold pseudo_legal_moves
  split
  · exact List.nodup_nil
  · rw [List.nodup_flatMap]
    constructor
    · intro pt _
      rw [List.nodup_flatMap]
      constructor
      · intro f _
        apply List.Nodup.filterMap
        · intro t t2 m hm hm2
          obtain ⟨_, e1, _⟩ := move_to_target_some (Option.mem_def.mp hm)
          obtain ⟨_, e2, _⟩ := move_to_target_some (Option.mem_def.mp hm2)
          exact e1.symm.trans e2
        · exact scan_squares_nodup
            (lt_64_of_lt_63 (admissible_lt (possible_landing_squares_admissible b p pt f)))
      · apply (scan_squares_nodup (hbb pt p)).pairwise_of_forall_ne
        intro f _ f2 _ hne
        show List.Disjoint _ _
        intro m hm hm2
        obtain ⟨t, _, ht⟩ := List.mem_filterMap.mp hm
        obtain ⟨t2, _, ht2⟩ := List.mem_filterMap.mp hm2
        obtain ⟨e1, _⟩ := move_to_target_some ht
        obtain ⟨e2, _⟩ := move_to_target_some ht2
        exact hne (e1.symm.trans e2)
    · apply (show PIECE_TYPE_LOOP.Nodup by decide).pairwise_of_forall_ne
      intro pt _ pt2 _ hne
      show List.Disjoint _ _
      intro m hm hm2
      obtain ⟨f, _, hf⟩ := List.mem_flatMap.mp hm
      obtain ⟨f2, _, hf2⟩ := List.mem_flatMap.mp hm2
      obtain ⟨t, _, ht⟩ := List.mem_filterMap.mp hf
      obtain ⟨t2, _, ht2⟩ := List.mem_filterMap.mp hf2
      obtain ⟨_, _, e1, _⟩ := move_to_target_some ht
      obtain ⟨_, _, e2, _⟩ := move_to_target_some ht2
      exact hne (e1.symm.trans e2)

theorem generate_all_legal_moves_nodup (keys : ZobristKeys) (b : BoardState) (p : Player)
    (history : List BoardState) (hbb : ∀ pt q, b.piece_bbs pt q < 2 ^ 64) :
    (generate_all_legal_moves keys b p history).Nodup := by
  unfold generate_all_legal_moves
  exact (pseudo_legal_moves_nodup b p hbb).filter _

theorem pseudo_legal_move_squares {b : BoardState} {p : Player} {m : Move}
    (hbb : ∀ pt q, b.piece_bbs pt q < 2 ^ 64) (hone : OnePiecePerSquare b)
    (hocc : OccupancyConsistent b) (hm : m ∈ pseudo_legal_moves b p) :
    b.get_piece_at m.from_sq = ⟨m.piece_moved, p⟩ ∧
      (b.get_piece_at m.to_sq).player ≠ p ∧
      m.piece_captured = (b.get_piece_at m.to_sq).type ∧
      ((m.piece_captured = NO_PIECE_TYPE ∧
          b.get_piece_at m.to_sq = ⟨NO_PIECE_TYPE, NO_PLAYER⟩) ∨
        (m.piece_captured ≠ NO_PIECE_TYPE ∧
          b.get_piece_at m.to_sq = ⟨m.piece_captured, opponent_of p⟩)) := by
  obtain ⟨hP, hmv, ⟨hf0, hf1⟩, hfbit, ⟨ht0, ht1⟩, _, _⟩ := legal_move_facts hbb hocc hm
  obtain ⟨_, _, _, hpne, hopp⟩ := opponent_of_eq p hP
  have hfrom := get_piece_at_unique hone hf0 hf1 hmv hpne hfbit
  rcases legal_move_capture hbb hocc hm with ⟨hc, hempty⟩ | ⟨hc, q, hq1, hq2, hbit⟩
  · have hto : b.get_piece_at m.to_sq = ⟨NO_PIECE_TYPE, NO_PLAYER⟩ :=
      get_piece_at_empty (fun D q hD hq => (get_bit_eq_zero_iff ht0 ht1).mpr (hempty D q hD hq))
    refine ⟨hfrom, ?_, ?_, Or.inl ⟨hc, hto⟩⟩
    · rw [hto]
      exact fun h => hpne h.symm
    · rw [hto, hc]
  · have hto : b.get_piece_at m.to_sq = ⟨m.piece_captured, q⟩ :=
      get_piece_at_unique hone ht0 ht1 hc hq1 hbit
    refine ⟨hfrom, ?_, ?_, Or.inr ⟨hc, ?_⟩⟩
    · rw [hto]
      exact hq2
    · rw [hto]
    · rw [hto, hopp q hq1 hq2]

/-- C36 (generated moves describe the board).  On a board whose piece sets are 64-bit words,
with at most one piece per square and consistent occupancy, for every side and history, each
move `m` returned by `generate_all_legal_moves` has: `get_piece_at(m.from_sq)` is the side's
piece of type `m.piece_moved`; `m.to_sq` holds no piece of that side; `m.piece_captured` is the
type of the piece `get_piece_at(m.to_sq)` finds, which is `NO_PIECE_TYPE` on an empty square and
the type of the enemy piece otherwise.  No move appears twice in the list. -/
theorem generated_moves_describe_board (keys : ZobristKeys) (b : BoardState) (p : Player)
    (history : List BoardState) (hbb : ∀ pt q, b.piece_bbs pt q < 2 ^ 64)
    (hone : OnePiecePerSquare b) (hocc : OccupancyConsistent b) :
    (∀ m ∈ generate_all_legal_moves keys b p history,
      b.get_piece_at m.from_sq = ⟨m.piece_moved, p⟩ ∧
      (b.get_piece_at m.to_sq).player ≠ p ∧
      (∀ pt, pt ≠ NO_PIECE_TYPE → (b.piece_bbs pt p).testBit m.to_sq.toNat = false) ∧
      m.piece_captured = (b.get_piece_at m.to_sq).type ∧
      ((m.piece_captured = NO_PIECE_TYPE ∧
          b.get_piece_at m.to_sq = ⟨NO_PIECE_TYPE, NO_PLAYER⟩) ∨
        (m.piece_captured ≠ NO_PIECE_TYPE ∧
          b.get_piece_at m.to_sq = ⟨m.piece_captured, opponent_of p⟩))) ∧
      (generate_all_legal_moves keys b p history).Nodup := by
  refine ⟨fun m hm => ?_, generate_all_legal_moves_nodup keys b p history hbb⟩
  have hp := (mem_generate_all_legal_moves.mp hm).1
  obtain ⟨g1, g2, g3, g4⟩ := pseudo_legal_move_squares hbb hone hocc hp
  exact ⟨g1, g2, (legal_move_facts hbb hocc hp).2.2.2.2.2.1, g3, g4⟩

/-- Witness for C36: on `rat_duel_board` the capture of the `PLAYER_2` RAT on D4 by the
`PLAYER_1` RAT on D5 is generated, D5 holds the `PLAYER_1` RAT and D4 the `PLAYER_2` RAT. -/
theorem generated_moves_describe_board_witness :
    (⟨31, 24, RAT, RAT⟩ : Move) ∈ generate_all_legal_moves demo_keys rat_duel_board PLAYER_1 [] ∧
      rat_duel_board.get_piece_at 31 = ⟨RAT, PLAYER_1⟩ ∧
      rat_duel_board.get_piece_at 24 = ⟨RAT, PLAYER_2⟩ ∧
      (generate_all_legal_moves demo_keys rat_duel_board PLAYER_1 []).Nodup :=
  have hbb : ∀ pt q, rat_duel_board.piece_bbs pt q < 2 ^ 64 := fun pt q =>
    lt_trans (two_piece_wf demo_keys (Or.inl rfl) (by decide) (by decide) (by decide)
      (by decide) pt q) (by decide)
  have hone : OnePiecePerSquare rat_duel_board :=
    two_piece_one_per_square demo_keys (Or.inl rfl) (by decide) (by decide) (by decide)
      (by decide) (by decide)
  have hm : (⟨31, 24, RAT, RAT⟩ : Move) ∈
      generate_all_legal_moves demo_keys rat_duel_board PLAYER_1 [] := by decide
  have h := generated_moves_describe_board demo_keys rat_duel_board PLAYER_1 [] hbb hone
    (board_of_occupancy_consistent _ _)
  ⟨hm, (h.1 _ hm).1,
    ((h.1 _ hm).2.2.2.2.resolve_left (fun hc => absurd hc.1 (by decide))).2, h.2⟩

/-! ## C35: one piece per square in reachable positions -/

theorem one_piece_per_square_of_disjoint {b : BoardState}
    (h : ∀ c1 ∈ ALL_CELLS, ∀ c2 ∈ ALL_CELLS, c1 ≠ c2 →
      b.piece_bbs c1.1 c1.2 &&& b.piece_bbs c2.1 c2.2 = 0) : OnePiecePerSquare b := by
  intro i pt1 pt2 p1 p2 h1 h2 h3 h4 hb1 hb2
  by_contra hne
  have hc : ((pt1, p1) : PieceType × Player) ≠ (pt2, p2) := by
    intro heq
    exact hne ⟨congrArg Prod.fst heq, congrArg Prod.snd heq⟩
  have h0 := h (pt1, p1) (mem_ALL_CELLS h1 h3) (pt2, p2) (mem_ALL_CELLS h2 h4) hc
  have := and_eq_zero_testBit h0 hb2
  rw [hb1] at this
  exact Bool.noConfusion this

theorem disjoint_of_one_piece_per_square {b : BoardState} (hone : OnePiecePerSquare b)
    {pt1 pt2 : PieceType} {p1 p2 : Player} (h1 : pt1 ≠ NO_PIECE_TYPE) (h2 : pt2 ≠ NO_PIECE_TYPE)
    (h3 : p1 ≠ NO_PLAYER) (h4 : p2 ≠ NO_PLAYER) (hne : pt1 ≠ pt2 ∨ p1 ≠ p2) :
    b.piece_bbs pt1 p1 &&& b.piece_bbs pt2 p2 = 0 := by
  apply Nat.eq_of_testBit_eq
  intro i
  rw [Nat.testBit_and, Nat.zero_testBit]
  cases hb1 : (b.piece_bbs pt1 p1).testBit i with
  | false => rfl
  | true =>
    cases hb2 : (b.piece_bbs pt2 p2).testBit i with
    | false => rfl
    | true =>
      exfalso
      obtain ⟨e1, e2⟩ := hone i pt1 pt2 p1 p2 h1 h2 h3 h4 hb1 hb2
      rcases hne with h | h
      · exact h e1
      · exact h e2

theorem start_one_piece_per_square (keys : ZobristKeys) :
    OnePiecePerSquare (BoardState.setup_initial_board keys) ∧
      (∀ pt p, pop_count ((BoardState.setup_initial_board keys).piece_bbs pt p) ≤ 1) ∧
      (∀ pt, (BoardState.setup_initial_board keys).piece_bbs pt NO_PLAYER = 0) := by
  refine ⟨?_, ?_, ?_⟩
  · apply one_piece_per_square_of_disjoint
    intro c1 h1 c2 h2 hne
    rw [start_piece_bbs, start_piece_bbs keys c2.1]
    revert c1 c2
    decide
  · intro pt p
    rw [start_piece_bbs]
    cases pt <;> cases p <;> decide
  · intro pt
    rw [start_piece_bbs]
    cases pt <;> decide

theorem apply_move_one_piece_per_square (keys : ZobristKeys) {b : BoardState} {m : Move}
    (hbb : ∀ pt q, b.piece_bbs pt q < 2 ^ 64) (hocc : OccupancyConsistent b)
    (hone : OnePiecePerSquare b) (hpop : ∀ pt p, pop_count (b.piece_bbs pt p) ≤ 1)
    (hno : ∀ pt, b.piece_bbs pt NO_PLAYER = 0)
    (hm : m ∈ pseudo_legal_moves b b.side_to_move) :
    OnePiecePerSquare (b.apply_move keys m) ∧
      (∀ pt p, pop_count ((b.apply_move keys m).piece_bbs pt p) ≤ 1) ∧
      (∀ pt, (b.apply_move keys m).piece_bbs pt NO_PLAYER = 0) := by
  obtain ⟨hP, hmv, ⟨hf0, hf1⟩, hfbit, ⟨ht0, ht1⟩, hfree, _⟩ := legal_move_facts hbb hocc hm
  obtain ⟨_, _, ho3, ho4, _⟩ := opponent_of_eq b.side_to_move hP
  have h1 : ¬ (m.from_sq = -1 ∨ m.to_sq = -1 ∨ m.piece_moved = NO_PIECE_TYPE) := by
    rintro (h | h | h)
    · omega
    · omega
    · exact hmv h
  obtain ⟨hb2, _⟩ := apply_move_normal keys b m h1 ((get_bit_ne_zero_iff hf0 hf1).mpr hfbit)
  obtain ⟨_, hcapbit, hform⟩ := moved_bbs_form hbb hone hocc hm
  refine ⟨moved_bbs_one_per_square hbb hone hocc hm _ hb2, fun pt p => ?_, fun pt => ?_⟩
  · rw [hb2, hform pt p]
    by_cases c1 : pt = m.piece_moved ∧ p = b.side_to_move
    · rw [if_pos c1, pop_count_set_bit ht0 ht1, pop_count_clear_bit hf0 hf1 hfbit]
      · have := hpop m.piece_moved b.side_to_move
        omega
      · rw [testBit_clear_bit hf0 hf1, hfree _ hmv]
        rfl
    · rw [if_neg c1]
      by_cases c2 : m.piece_captured ≠ NO_PIECE_TYPE ∧ pt = m.piece_captured ∧
          p = opponent_of b.side_to_move
      · rw [if_pos c2, pop_count_clear_bit ht0 ht1 (hcapbit c2.1)]
        have := hpop m.piece_captured (opponent_of b.side_to_move)
        omega
      · rw [if_neg c2]
        exact hpop pt p
  · rw [hb2, hform pt NO_PLAYER, if_neg (fun h => ho4 h.2.symm),
      if_neg (fun h => ho3 h.2.2.symm)]
    exact hno pt

theorem reachable_one_piece_per_square (keys : ZobristKeys) (b : BoardState)
    (h : Reachable keys b) :
    OnePiecePerSquare b ∧ (∀ pt p, pop_count (b.piece_bbs pt p) ≤ 1) ∧
      (∀ pt, b.piece_bbs pt NO_PLAYER = 0) := by
  induction h with
  | start => exact start_one_piece_per_square keys
  | @step b0 history m hb0 hm ih =>
    obtain ⟨hbb, hocc, _, _⟩ := reachable_inv keys b0 hb0
    exact apply_move_one_piece_per_square keys (fun pt q => lt_64_of_lt_63 (hbb pt q)) hocc
      ih.1 ih.2.1 ih.2.2 (mem_generate_all_legal_moves.mp hm).1

/-- C35 (one piece per square).  In every position reachable from `setup_initial_board()` by
applying moves that `generate_all_legal_moves` returns for the side to move, for any key tables
and histories: two different sets among the sixteen per-(piece type, owner) sets have no square
in common, no square belongs to two of them, every set holds at most one square, every set in
the `NO_PLAYER` slot is empty, and every set lies on the squares 0..62, so that bit 63 is
clear. -/
theorem reachable_piece_sets (keys : ZobristKeys) (b : BoardState) (h : Reachable keys b) :
    (∀ pt1 pt2 p1 p2, pt1 ≠ NO_PIECE_TYPE → pt2 ≠ NO_PIECE_TYPE → p1 ≠ NO_PLAYER →
      p2 ≠ NO_PLAYER → (pt1 ≠ pt2 ∨ p1 ≠ p2) →
      b.piece_bbs pt1 p1 &&& b.piece_bbs pt2 p2 = 0) ∧
      OnePiecePerSquare b ∧
      (∀ pt p, pop_count (b.piece_bbs pt p) ≤ 1) ∧
      (∀ pt, b.piece_bbs pt NO_PLAYER = 0) ∧
      (∀ pt p, b.piece_bbs pt p < 2 ^ 63 ∧ (b.piece_bbs pt p).testBit 63 = false) := by
  obtain ⟨hone, hpop, hno⟩ := reachable_one_piece_per_square keys b h
  obtain ⟨hbb, _, _, _⟩ := reachable_inv keys b h
  refine ⟨fun pt1 pt2 p1 p2 h1 h2 h3 h4 hne =>
    disjoint_of_one_piece_per_square hone h1 h2 h3 h4 hne, hone, hpop, hno, fun pt p =>
    ⟨hbb pt p, ?_⟩⟩
  exact Nat.testBit_eq_false_of_lt (hbb pt p)

/-- Witness for C35: the start position itself. -/
theorem reachable_piece_sets_witness :
    Reachable demo_keys (BoardState.setup_initial_board demo_keys) ∧
      (BoardState.setup_initial_board demo_keys).piece_bbs LION PLAYER_1 &&&
        (BoardState.setup_initial_board demo_keys).piece_bbs LION PLAYER_2 = 0 ∧
      pop_count ((BoardState.setup_initial_board demo_keys).piece_bbs RAT PLAYER_2) ≤ 1 :=
  ⟨Reachable.start,
   (reachable_piece_sets demo_keys _ Reachable.start).1 LION LION PLAYER_1 PLAYER_2 (by decide)
     (by decide) (by decide) (by decide) (Or.inr (by decide)),
   (reachable_piece_sets demo_keys _ Reachable.start).2.2.1 RAT PLAYER_2⟩

/-! ## C37: the evaluation from the two sides -/

theorem wrap_int_neg_pair (m1 m2 p1 p2 : Int) :
    wrap_int (wrap_int (m1 - m2) + wrap_int (p1 - p2)) =
      wrap_int (- wrap_int (wrap_int (m2 - m1) + wrap_int (p2 - p1))) := by
  unfold wrap_int
  omega

theorem evaluate_board_sides (pst : PST) (b : BoardState)
    (hden : ¬ (b.occupancy_bbs PLAYER_1 &&& P2_DEN_SQUARE_MASK ≠ 0 ∧
      b.occupancy_bbs PLAYER_2 &&& P1_DEN_SQUARE_MASK ≠ 0)) :
    evaluate_board pst b PLAYER_1 = wrap_int (- evaluate_board pst b PLAYER_2) := by
  unfold evaluate_board
  simp only [if_neg (show ¬ (PLAYER_1 = NO_PLAYER) by decide),
    if_neg (show ¬ (PLAYER_2 = NO_PLAYER) by decide),
    if_neg (show ¬ (PLAYER_2 = PLAYER_1) by decide), if_true]
  by_cases hA : b.occupancy_bbs PLAYER_1 &&& P2_DEN_SQUARE_MASK ≠ 0
  · have hB : ¬ (b.occupancy_bbs PLAYER_2 &&& P1_DEN_SQUARE_MASK ≠ 0) := fun h => hden ⟨hA, h⟩
    rw [if_pos hA, if_neg hB, if_pos hA]
    decide
  · rw [if_neg hA]
    by_cases hB : b.occupancy_bbs PLAYER_2 &&& P1_DEN_SQUARE_MASK ≠ 0
    · rw [if_pos hB, if_pos hB]
      decide
    · rw [if_neg hB, if_neg hB, if_neg hA]
      by_cases h1 : b.occupancy_bbs PLAYER_1 = 0 <;> by_cases h2 : b.occupancy_bbs PLAYER_2 = 0
      · simp only [h1, h2, ne_eq, not_true_eq_false, decide_False, Bool.false_eq_true,
          not_false_eq_true, and_false, and_self, if_false, if_true]
        decide
      · simp only [h1, h2, ne_eq, not_true_eq_false, decide_False, Bool.false_eq_true,
          not_false_eq_true, and_false, and_self, if_false, if_true, decide_True, and_true,
          false_and, true_and, decide_not, Bool.not_eq_true', decide_eq_false_iff_not, not_not]
        decide
      · simp only [h1, h2, ne_eq, not_true_eq_false, decide_False, Bool.false_eq_true,
          not_false_eq_true, and_false, and_self, if_false, if_true, decide_True, and_true,
          false_and, true_and, decide_not, Bool.not_eq_true', decide_eq_false_iff_not, not_not]
        decide
      · simp only [h1, h2, ne_eq, not_true_eq_false, decide_False, Bool.false_eq_true,
          not_false_eq_true, and_false, and_self, if_false, if_true, decide_True, and_true,
          false_and, true_and, decide_not, Bool.not_eq_true', decide_eq_false_iff_not, not_not]
        exact wrap_int_neg_pair _ _ _ _

theorem evaluate_board_terminal_or_formula (pst : PST) (b : BoardState) (P : Player)
    (hP : P = PLAYER_1 ∨ P = PLAYER_2) (hbb : ∀ pt p, b.piece_bbs pt p < 2 ^ 64) :
    evaluate_board pst b P = WIN_SCORE ∨ evaluate_board pst b P = LOSS_SCORE ∨
      evaluate_board pst b P = DRAW_SCORE ∨
      evaluate_board pst b P = wrap_int (evaluation_formula pst b P) := by
  by_cases h1 : b.occupancy_bbs P &&& den_mask_of (opponent_of P) = 0
  · by_cases h2 : b.occupancy_bbs (opponent_of P) &&& den_mask_of P = 0
    · by_cases h3 : b.occupancy_bbs P ≠ 0
      · by_cases h4 : b.occupancy_bbs (opponent_of P) ≠ 0
        · exact Or.inr (Or.inr (Or.inr (evaluate_board_eq_wrap pst b P hP hbb h1 h2 h3 h4)))
        · left
          rcases hP with rfl | rfl <;>
            · simp only [opponent_of, den_mask_of, ne_eq, not_not] at h1 h2 h3 h4
              unfold evaluate_board
              simp [h1, h2, h3, h4]
      · by_cases h4 : b.occupancy_bbs (opponent_of P) ≠ 0
        · right; left
          rcases hP with rfl | rfl <;>
            · simp only [opponent_of, den_mask_of, ne_eq, not_not] at h1 h2 h3 h4
              unfold evaluate_board
              simp [h1, h2, h3, h4]
        · right; right; left
          rcases hP with rfl | rfl <;>
            · simp only [opponent_of, den_mask_of, ne_eq, not_not] at h1 h2 h3 h4
              unfold evaluate_board
              simp [h1, h2, h3, h4]
    · right; left
      rcases hP with rfl | rfl <;>
        · simp only [opponent_of, den_mask_of, ne_eq, not_not] at h1 h2
          unfold evaluate_board
          simp [h1, h2]
  · left
    rcases hP with rfl | rfl <;>
      · simp only [opponent_of, den_mask_of, ne_eq, not_not] at h1
        unfold evaluate_board
        simp [h1]

theorem evaluate_board_above_int_min (pst : PST) (b : BoardState) (P : Player)
    (hP : P = PLAYER_1 ∨ P = PLAYER_2) (hbb : ∀ pt p, b.piece_bbs pt p < 2 ^ 64)
    (hf : ∀ p pt sq, sq < 64 → -1000000 ≤ pst p pt sq ∧ pst p pt sq ≤ 1000000) :
    evaluate_board pst b P ≠ INT_MIN := by
  rcases evaluate_board_terminal_or_formula pst b P hP hbb with h | h | h | h
  · rw [h]; decide
  · rw [h]; decide
  · rw [h]; decide
  · have hr := evaluation_formula_range pst b P hf
    rw [h, wrap_int_of_range hr.1 hr.2]
    unfold evaluation_formula
    have h1 := material_sum_range b P
    have h2 := material_sum_range b (opponent_of P)
    have h3 := pst_sum_range pst b P (hf P)
    have h4 := pst_sum_range pst b (opponent_of P) (hf (opponent_of P))
    unfold INT_MIN
    omega

/-- C37, counterexample to "for any positional tables".  On `rat_duel_board` (one RAT per
side, no den occupied) with the tables `int_min_pst` the evaluation for `PLAYER_1` is
`INT_MIN`, computed without any overflow (material difference 0, positional difference
`INT_MIN - 0`); no `int` is its negative, and the evaluation for `PLAYER_2` is `INT_MIN` as
well, so the two are not negatives of each other. -/
theorem evaluation_antisymmetry_counterexample :
    ¬ (rat_duel_board.occupancy_bbs PLAYER_1 &&& P2_DEN_SQUARE_MASK ≠ 0 ∧
        rat_duel_board.occupancy_bbs PLAYER_2 &&& P1_DEN_SQUARE_MASK ≠ 0) ∧
      evaluate_board int_min_pst rat_duel_board PLAYER_1 = INT_MIN ∧
      evaluate_board int_min_pst rat_duel_board PLAYER_2 = INT_MIN ∧
      evaluate_board int_min_pst rat_duel_board PLAYER_1 ≠
        - evaluate_board int_min_pst rat_duel_board PLAYER_2 := by
  decide

/-- C37 (evaluation from the two sides, amended).  For every board on which it is not the case
that both players occupy the other's den, and any positional tables, the evaluations for
`PLAYER_1` and `PLAYER_2` are negatives of each other as 32-bit `int`s (modulo `2 ^ 32`);
`evaluate_board(board, PLAYER_1) = - evaluate_board(board, PLAYER_2)` holds exactly unless that
evaluation is `INT_MIN`, and so it does on every board of 64-bit piece sets when all table
entries lie between -1000000 and 1000000; `evaluate_board(board, NO_PLAYER)` is 0. -/
theorem evaluation_antisymmetric (pst : PST) (b : BoardState)
    (hden : ¬ (b.occupancy_bbs PLAYER_1 &&& P2_DEN_SQUARE_MASK ≠ 0 ∧
      b.occupancy_bbs PLAYER_2 &&& P1_DEN_SQUARE_MASK ≠ 0)) :
    evaluate_board pst b PLAYER_1 = wrap_int (- evaluate_board pst b PLAYER_2) ∧
      evaluate_board pst b PLAYER_2 = wrap_int (- evaluate_board pst b PLAYER_1) ∧
      (evaluate_board pst b PLAYER_2 ≠ INT_MIN →
        evaluate_board pst b PLAYER_1 = - evaluate_board pst b PLAYER_2) ∧
      (evaluate_board pst b PLAYER_1 ≠ INT_MIN →
        evaluate_board pst b PLAYER_2 = - evaluate_board pst b PLAYER_1) ∧
      ((∀ pt p, b.piece_bbs pt p < 2 ^ 64) →
        (∀ p pt sq, sq < 64 → -1000000 ≤ pst p pt sq ∧ pst p pt sq ≤ 1000000) →
        evaluate_board pst b PLAYER_1 = - evaluate_board pst b PLAYER_2) ∧
      evaluate_board pst b NO_PLAYER = 0 := by
  have h := evaluate_board_sides pst b hden
  have r1 := evaluate_board_range pst b PLAYER_1
  have r2 := evaluate_board_range pst b PLAYER_2
  have k3 := fun hbb hf => evaluate_board_above_int_min pst b PLAYER_2 (Or.inr rfl) hbb hf
  generalize evaluate_board pst b PLAYER_1 = e1 at h r1
  generalize evaluate_board pst b PLAYER_2 = e2 at h r2 k3
  unfold INT_MIN INT_MAX at r1 r2
  have k2 : e2 ≠ INT_MIN → e1 = -e2 := by
    intro hne
    unfold INT_MIN at hne
    rw [h]
    unfold wrap_int
    omega
  refine ⟨h, ?_, k2, ?_, fun hbb hf => ?_, ?_⟩
  · rw [h]
    unfold wrap_int
    omega
  · intro hne
    unfold INT_MIN at hne
    rw [h] at hne ⊢
    unfold wrap_int at hne ⊢
    omega
  · exact k2 (k3 hbb hf)
  · unfold evaluate_board
    rw [if_pos rfl]

/-- Witness for C37: on `three_piece_board` with the tables `demo_pst` the evaluation for
`PLAYER_1` is 2001 and the one for `PLAYER_2` is -2001. -/
theorem evaluation_antisymmetric_witness :
    evaluate_board demo_pst three_piece_board PLAYER_2 = -2001 ∧
      evaluate_board demo_pst three_piece_board PLAYER_1 =
        - evaluate_board demo_pst three_piece_board PLAYER_2 :=
  ⟨by decide,
   (evaluation_antisymmetric demo_pst three_piece_board (by decide)).2.2.1 (by decide)⟩


/-! ## The move loops of a node -/

theorem search_after_probe_moves (keys : ZobristKeys) (pst : PST) (search : SearchFn)
    (tt : TTState) (nodes : Int) (b : BoardState) (depth : Nat) (alpha beta oa : Int)
    (e : Option TTEntry) (mx turn : Player) (hist : List BoardState) (hdepth : depth ≠ 0)
    (heval : evaluate_board pst b mx ≠ WIN_SCORE ∧ evaluate_board pst b mx ≠ LOSS_SCORE)
    (hlegal : generate_all_legal_moves keys b turn hist ≠ []) :
    search_after_probe keys pst search tt nodes b depth alpha beta oa e mx turn hist =
      search_moves keys search tt nodes b depth alpha beta oa mx turn hist
        (order_moves e (generate_all_legal_moves keys b turn hist)) := by
  have hne : (generate_all_legal_moves keys b turn hist).isEmpty = false := by
    cases hg : generate_all_legal_moves keys b turn hist with
    | nil => exact absurd hg hlegal
    | cons _ _ => rfl
  unfold search_after_probe search_moves max_node_finish min_node_finish
  dsimp only
  rw [if_neg (by
    rintro (h0 | h1 | h2)
    · exact hdepth h0
    · exact heval.1 h1
    · exact heval.2 h2), hne]
  rfl

theorem min_loop_beta_le (keys : ZobristKeys) (search : SearchFn) (b : BoardState)
    (mx : Player) (hist : List BoardState) :
    ∀ (moves : List Move) (st : LoopState), st.beta ≤ st.best_eval →
      (min_loop keys search b mx hist moves st).beta ≤
        (min_loop keys search b mx hist moves st).best_eval := by
  intro moves
  induction moves with
  | nil => intro st h; exact h
  | cons move rest ih =>
    intro st h
    unfold min_loop
    dsimp only
    generalize (search st.tt st.nodes (make_move_on_copy keys b move) st.alpha st.beta mx
      (make_move_on_copy keys b move).side_to_move (hist ++ [b])) = r
    split
    · dsimp only
      split <;> omega
    · apply ih
      dsimp only
      split <;> omega

/-- At a node of the minimizing player the test `min_eval < beta && min_eval > alpha` is made
with the `beta` the loop has lowered to at most `min_eval`, so it never holds: for a window
with `beta <= INT_MAX` the flag stored is the one the loop left, `LOWER_BOUND` or `UPPER_BOUND`,
never `EXACT_SCORE`. -/
theorem min_node_never_exact (keys : ZobristKeys) (search : SearchFn) (tt : TTState)
    (nodes : Int) (b : BoardState) (depth : Nat) (alpha beta oa : Int) (mx turn : Player)
    (hist : List BoardState) (moves : List Move) (hturn : turn ≠ mx) (hbeta : beta ≤ INT_MAX) :
    ∃ st : LoopState,
      st = min_loop keys search b mx hist moves
        { best_eval := INT_MAX, best_move_found_at_this_node := Move.null, alpha := alpha,
          beta := beta, flag_for_tt_store := EntryFlag.LOWER_BOUND, tt := tt, nodes := nodes } ∧
      search_moves keys search tt nodes b depth alpha beta oa mx turn hist moves =
        { score := st.best_eval
          tt := store_tt_entry st.tt b.zobrist_hash st.best_eval depth st.flag_for_tt_store
            st.best_move_found_at_this_node
          nodes := st.nodes } := by
  refine ⟨_, rfl, ?_⟩
  have h := min_loop_beta_le keys search b mx hist moves
    { best_eval := INT_MAX, best_move_found_at_this_node := Move.null, alpha := alpha,
      beta := beta, flag_for_tt_store := EntryFlag.LOWER_BOUND, tt := tt, nodes := nodes } hbeta
  unfold search_moves min_node_finish
  rw [if_neg hturn, if_neg (fun hc => absurd hc.1 (not_lt.mpr h))]

/-! ## C32: the table move is searched first -/

theorem order_moves_front {e : TTEntry} {l : List Move} (h1 : e.best_move.from_sq ≠ -1)
    (h2 : e.best_move ∈ l) : order_moves (some e) l = e.best_move :: l.erase e.best_move := by
  unfold order_moves
  dsimp only
  rw [if_pos h1, if_pos h2]

theorem order_moves_same {o : Option TTEntry} {l : List Move}
    (h : o = none ∨ ∃ e, o = some e ∧ (e.best_move.from_sq = -1 ∨ e.best_move ∉ l)) :
    order_moves o l = l := by
  unfold order_moves
  rcases h with rfl | ⟨e, rfl, h1 | h2⟩
  · rfl
  · dsimp only
    rw [if_neg (fun hc => hc h1)]
  · dsimp only
    rw [if_neg h2]
    split <;> rfl

/-- C32 (principal-variation-first ordering).  At a node of depth at least 1 whose evaluation
is not terminal, whose legal move list `L` is not empty and which the probe does not answer,
`alpha_beta_search` searches the moves of `order_moves(probe, L)` in that order.  If the
probed entry holds a best move with `from_sq != -1` that occurs in `L`, this list is that move
followed by `L` without its first occurrence of the move (the elements before it and the
elements after it, in generation order), a permutation of `L`; on a board of 64-bit piece sets
`L` has no duplicates and the rest is exactly the other moves of `L`.  If the entry is absent,
its move has `from_sq = -1` or is not in `L`, the list is `L` unchanged. -/
theorem pv_first_ordering (keys : ZobristKeys) (pst : PST) (depth : Nat) (tt : TTState)
    (nodes : Int) (b : BoardState) (alpha beta : Int) (mx turn : Player)
    (hist : List BoardState) (hdepth : depth ≥ 1)
    (heval : evaluate_board pst b mx ≠ WIN_SCORE ∧ evaluate_board pst b mx ≠ LOSS_SCORE)
    (hlegal : generate_all_legal_moves keys b turn hist ≠ [])
    (hhit : ∀ e, probe_tt tt b.zobrist_hash = some e → ¬ usable_hit e depth alpha beta) :
    (∃ a2 b2 : Int,
      alpha_beta_search keys pst depth tt nodes b alpha beta mx turn hist =
        search_moves keys (recursive_call keys pst depth) tt (nodes + 1) b depth a2 b2 alpha
          mx turn hist
          (order_moves (probe_tt tt b.zobrist_hash)
            (generate_all_legal_moves keys b turn hist))) ∧
      (∀ e, probe_tt tt b.zobrist_hash = some e → e.best_move.from_sq ≠ -1 →
        e.best_move ∈ generate_all_legal_moves keys b turn hist →
        order_moves (probe_tt tt b.zobrist_hash) (generate_all_legal_moves keys b turn hist) =
          e.best_move :: (generate_all_legal_moves keys b turn hist).erase e.best_move ∧
        (generate_all_legal_moves keys b turn hist).erase e.best_move =
          (generate_all_legal_moves keys b turn hist).take
              ((generate_all_legal_moves keys b turn hist).indexOf e.best_move) ++
            (generate_all_legal_moves keys b turn hist).drop
              ((generate_all_legal_moves keys b turn hist).indexOf e.best_move + 1) ∧
        ((∀ pt q, b.piece_bbs pt q < 2 ^ 64) →
          (generate_all_legal_moves keys b turn hist).erase e.best_move =
            (generate_all_legal_moves keys b turn hist).filter (fun m => m ≠ e.best_move)) ∧
        (order_moves (probe_tt tt b.zobrist_hash)
          (generate_all_legal_moves keys b turn hist)).Perm
          (generate_all_legal_moves keys b turn hist)) ∧
      ((probe_tt tt b.zobrist_hash = none ∨
          ∃ e, probe_tt tt b.zobrist_hash = some e ∧
            (e.best_move.from_sq = -1 ∨
              e.best_move ∉ generate_all_legal_moves keys b turn hist)) →
        order_moves (probe_tt tt b.zobrist_hash) (generate_all_legal_moves keys b turn hist) =
          generate_all_legal_moves keys b turn hist) := by
  refine ⟨?_, fun e he h1 h2 => ?_, fun h => order_moves_same h⟩
  · obtain ⟨a2, b2, h⟩ := search_node_no_usable_hit keys pst (recursive_call keys pst depth)
      depth tt nodes b alpha beta mx turn hist hhit
    refine ⟨a2, b2, ?_⟩
    rw [alpha_beta_search_eq_node, h]
    exact search_after_probe_moves keys pst _ tt (nodes + 1) b depth a2 b2 alpha _ mx turn hist
      (by omega) heval hlegal
  · rw [he, order_moves_front h1 h2]
    refine ⟨rfl, ?_, fun hbb => ?_, (List.perm_cons_erase h2).symm⟩
    · rw [← List.eraseIdx_indexOf_eq_erase, List.eraseIdx_eq_take_drop_succ]
    · rw [(generate_all_legal_moves_nodup keys b turn hist hbb).erase_eq_filter]
      apply List.filter_congr
      intro m _
      by_cases hm : m = e.best_move <;> simp [hm]

set_option maxRecDepth 1000000 in
/-- Witness for C32: `elephant_board` generates A1-B1 before A1-A2; with the table move A1-A2
of a depth-0 entry the search of depth 1 takes A1-A2 first. -/
theorem pv_first_ordering_witness :
    generate_all_legal_moves demo_keys elephant_board PLAYER_1 [] =
        [⟨0, 1, ELEPHANT, NO_PIECE_TYPE⟩, ⟨0, 7, ELEPHANT, NO_PIECE_TYPE⟩] ∧
      order_moves (probe_tt shallow_entry_tt elephant_board.zobrist_hash)
          (generate_all_legal_moves demo_keys elephant_board PLAYER_1 []) =
        (⟨0, 7, ELEPHANT, NO_PIECE_TYPE⟩ : Move) ::
          (generate_all_legal_moves demo_keys elephant_board PLAYER_1 []).erase
            ⟨0, 7, ELEPHANT, NO_PIECE_TYPE⟩ :=
  have hp : probe_tt shallow_entry_tt elephant_board.zobrist_hash =
      some ⟨elephant_board.zobrist_hash, ⟨0, 7, ELEPHANT, NO_PIECE_TYPE⟩, 0, 0,
        EntryFlag.UPPER_BOUND⟩ := by decide
  ⟨by decide,
   ((pv_first_ordering demo_keys demo_pst 1 shallow_entry_tt 0 elephant_board (-1000) 1000
      PLAYER_1 PLAYER_1 [] (le_refl 1) (by decide) (by decide)
      (fun e he hu => by
        rw [hp] at he
        cases he
        exact absurd hu.1 (by decide))).2.1 _ hp (by decide) (by decide)).1⟩

/-! ## C31: the flag of the stored entry -/

theorem max_loop_flag (keys : ZobristKeys) (search : SearchFn) (b : BoardState)
    (mx : Player) (hist : List BoardState) (a0 : Int) :
    ∀ (moves : List Move) (st : LoopState), st.alpha = max a0 st.best_eval →
      st.flag_for_tt_store = EntryFlag.UPPER_BOUND → st.alpha < st.beta →
      (max_loop keys search b mx hist moves st).beta = st.beta ∧
        (max_loop keys search b mx hist moves st).alpha =
          max a0 (max_loop keys search b mx hist moves st).best_eval ∧
        (((max_loop keys search b mx hist moves st).flag_for_tt_store = EntryFlag.LOWER_BOUND ∧
            st.beta ≤ (max_loop keys search b mx hist moves st).alpha) ∨
          ((max_loop keys search b mx hist moves st).flag_for_tt_store = EntryFlag.UPPER_BOUND ∧
            (max_loop keys search b mx hist moves st).alpha < st.beta)) := by
  intro moves
  induction moves with
  | nil =>
    intro st h1 h2 h3
    exact ⟨rfl, h1, Or.inr ⟨h2, h3⟩⟩
  | cons move rest ih =>
    intro st h1 h2 h3
    unfold max_loop
    dsimp only
    generalize (search st.tt st.nodes (make_move_on_copy keys b move) st.alpha st.beta mx
      (make_move_on_copy keys b move).side_to_move (hist ++ [b])) = r
    split
    · rename_i hcut
      dsimp only
      refine ⟨rfl, ?_, Or.inl ⟨rfl, hcut⟩⟩
      split <;> omega
    · rename_i hcut
      apply ih
      · dsimp only
        split <;> omega
      · exact h2
      · dsimp only
        omega

/-- At a node of the maximizing player entered with `alpha < beta`, whose loop runs with the
window of the entry, the stored flag follows the returned value: `EXACT_SCORE` strictly inside
the window, `LOWER_BOUND` from `beta` on, `UPPER_BOUND` up to `alpha`. -/
theorem max_node_classification (keys : ZobristKeys) (search : SearchFn) (tt : TTState)
    (nodes : Int) (b : BoardState) (depth : Nat) (alpha beta : Int) (mx turn : Player)
    (hist : List BoardState) (moves : List Move) (hturn : turn = mx)
    (ha : INT_MIN ≤ alpha) (hab : alpha < beta) :
    ∃ (st : LoopState) (flag : EntryFlag),
      search_moves keys search tt nodes b depth alpha beta alpha mx turn hist moves =
        { score := st.best_eval
          tt := store_tt_entry st.tt b.zobrist_hash st.best_eval depth flag
            st.best_move_found_at_this_node
          nodes := st.nodes } ∧
      (alpha < st.best_eval ∧ st.best_eval < beta → flag = EntryFlag.EXACT_SCORE) ∧
      (st.best_eval ≥ beta → flag = EntryFlag.LOWER_BOUND) ∧
      (st.best_eval ≤ alpha → flag = EntryFlag.UPPER_BOUND) := by
  obtain ⟨g1, g2, g3⟩ := max_loop_flag keys search b mx hist alpha moves
    { best_eval := INT_MIN, best_move_found_at_this_node := Move.null, alpha := alpha,
      beta := beta, flag_for_tt_store := EntryFlag.UPPER_BOUND, tt := tt, nodes := nodes }
    (by dsimp only; omega) rfl hab
  unfold search_moves max_node_finish
  rw [if_pos hturn]
  generalize max_loop keys search b mx hist moves
    { best_eval := INT_MIN, best_move_found_at_this_node := Move.null, alpha := alpha,
      beta := beta, flag_for_tt_store := EntryFlag.UPPER_BOUND, tt := tt, nodes := nodes } = st
    at g1 g2 g3 ⊢
  dsimp only at g1 g3
  refine ⟨st, _, rfl, fun h => ?_, fun h => ?_, fun h => ?_⟩
  · rw [if_pos ⟨h.1, by omega⟩]
  · rw [if_neg (fun hc => by omega)]
    rcases g3 with ⟨e, _⟩ | ⟨_, hlt⟩
    · exact e
    · omega
  · rw [if_neg (fun hc => by omega)]
    rcases g3 with ⟨_, hle⟩ | ⟨e, _⟩
    · omega
    · exact e

set_option maxRecDepth 1000000 in
/-- C31, the code at a node of the minimizing player.  `elephant_reply_board` (`PLAYER_2` to
move, maximizing player `PLAYER_1`) is searched at depth 1 with the window
`(INT_MIN, INT_MAX)` on the empty table `empty_tt`, as `find_best_ai_move` at depth 2 does for
its first root move: the value 2 lies strictly inside the window, and the entry stored for the
node is flagged `LOWER_BOUND`, not `EXACT_SCORE`.  The node of the maximizing player
`elephant_board`, searched the same way, returns -6 and stores `EXACT_SCORE`. -/
theorem min_node_flag_divergence :
    elephant_reply_board.side_to_move = PLAYER_2 ∧
      generate_all_legal_moves demo_keys elephant_reply_board PLAYER_2 [elephant_board] ≠ [] ∧
      (alpha_beta_search demo_keys demo_pst 1 empty_tt 0 elephant_reply_board INT_MIN INT_MAX
        PLAYER_1 PLAYER_2 [elephant_board]).score = 2 ∧
      (INT_MIN < 2 ∧ (2 : Int) < INT_MAX) ∧
      (probe_tt (alpha_beta_search demo_keys demo_pst 1 empty_tt 0 elephant_reply_board INT_MIN
        INT_MAX PLAYER_1 PLAYER_2 [elephant_board]).tt elephant_reply_board.zobrist_hash).map
        (fun e => (e.score, e.depth, e.flag)) = some (2, 1, EntryFlag.LOWER_BOUND) ∧
      (alpha_beta_search demo_keys demo_pst 1 empty_tt 0 elephant_board INT_MIN INT_MAX
        PLAYER_1 PLAYER_1 []).score = -6 ∧
      (probe_tt (alpha_beta_search demo_keys demo_pst 1 empty_tt 0 elephant_board INT_MIN
        INT_MAX PLAYER_1 PLAYER_1 []).tt elephant_board.zobrist_hash).map
        (fun e => (e.score, e.depth, e.flag)) = some (-6, 1, EntryFlag.EXACT_SCORE) := by
  decide


/-! ## C33: the table move at the root -/

theorem sorted_head_of_max {l l2 : List (Int × Move)} (hperm : l2.Perm l)
    (hsorted : l2.Pairwise (fun a b => a.1 ≥ b.1)) {x : Int × Move} (hx : x ∈ l)
    (hmax : ∀ y ∈ l, y ≠ x → y.1 < x.1) : l2.head? = some x := by
  cases l2 with
  | nil => exact absurd (hperm.symm.subset hx) (List.not_mem_nil x)
  | cons h t =>
    by_cases hh : h = x
    · rw [hh]
      rfl
    · exfalso
      have hxt : x ∈ t := by
        rcases List.mem_cons.mp (hperm.symm.subset hx) with e | e
        · exact absurd e.symm hh
        · exact e
      have h1 := (List.pairwise_cons.mp hsorted).1 x hxt
      have h2 := hmax h (hperm.subset (List.mem_cons_self _ _)) hh
      omega

/-- The root loop of `find_best_ai_move` runs over the sorted vector of
`root_scored_moves`: when `PLAYER_1` has a legal move, the returned move, score and node count
are those the loop leaves. -/
theorem find_best_ai_move_root_order (keys : ZobristKeys) (pst : PST) (sorter : RootSort)
    (tt : TTState) (b : BoardState) (sd : Nat) (hist : List BoardState)
    (hlegal : generate_all_legal_moves keys b PLAYER_1 hist ≠ []) :
    (find_best_ai_move keys pst sorter tt b sd hist).1.best_move =
        (root_loop keys pst b sd hist INT_MAX
          (sorter.sort (root_scored_moves keys pst tt b hist))
          { best_move := Move.null, final_score := INT_MIN, first_move_evaluated := false,
            alpha := INT_MIN, total_nodes_for_search_at_root := 0, tt := tt }).best_move ∧
      (find_best_ai_move keys pst sorter tt b sd hist).1.final_score =
        (root_loop keys pst b sd hist INT_MAX
          (sorter.sort (root_scored_moves keys pst tt b hist))
          { best_move := Move.null, final_score := INT_MIN, first_move_evaluated := false,
            alpha := INT_MIN, total_nodes_for_search_at_root := 0, tt := tt }).final_score ∧
      (find_best_ai_move keys pst sorter tt b sd hist).1.nodes_searched =
        (root_loop keys pst b sd hist INT_MAX
          (sorter.sort (root_scored_moves keys pst tt b hist))
          { best_move := Move.null, final_score := INT_MIN, first_move_evaluated := false,
            alpha := INT_MIN, total_nodes_for_search_at_root := 0, tt := tt
            }).total_nodes_for_search_at_root := by
  have hne : (generate_all_legal_moves keys b PLAYER_1 hist).isEmpty = false := by
    cases hg : generate_all_legal_moves keys b PLAYER_1 hist with
    | nil => exact absurd hg hlegal
    | cons _ _ => rfl
  unfold find_best_ai_move
  dsimp only
  simp only [hne, Bool.false_eq_true, if_false, not_false_eq_true, and_true]
  generalize hsc : @List.map Move (Int × Move) _
    (generate_all_legal_moves keys b PLAYER_1 hist) = scored
  have hrs : root_scored_moves keys pst tt b hist = scored := hsc
  rw [hrs]
  have hperm := sorter.perm scored
  generalize sorter.sort scored = sorted at *
  have hsnd : ∀ p ∈ sorted, p.2 ∈ generate_all_legal_moves keys b PLAYER_1 hist := by
    intro p hp
    have hp2 := hperm.subset hp
    rw [← hsc] at hp2
    obtain ⟨m, hm, rfl⟩ := List.mem_map.mp hp2
    exact hm
  have hsorted_ne : sorted ≠ [] := by
    intro h
    rw [h] at hperm
    have := hperm.length_eq
    rw [← hsc] at this
    simp only [List.length_nil, List.length_map] at this
    exact hlegal (List.length_eq_zero.mp this.symm)
  obtain ⟨_, _, _, g4⟩ := root_loop_general keys pst b sd hist INT_MAX (fun _ => True)
    (fun _ => True) (fun m => m ∈ generate_all_legal_moves keys b PLAYER_1 hist)
    (fun _ _ _ _ _ => ⟨trivial, trivial⟩) sorted
    { best_move := AiMoveResult.ctor.best_move, final_score := AiMoveResult.ctor.final_score,
      first_move_evaluated := false, alpha := INT_MIN, total_nodes_for_search_at_root := 0,
      tt := tt }
    hsnd trivial (fun h => by simp at h)
  rw [show (⟨Move.null, INT_MIN, false, INT_MIN, 0, tt⟩ : RootState) =
    ⟨AiMoveResult.ctor.best_move, AiMoveResult.ctor.final_score, false, INT_MIN, 0, tt⟩
    from rfl]
  generalize root_loop keys pst b sd hist INT_MAX sorted
    { best_move := AiMoveResult.ctor.best_move, final_score := AiMoveResult.ctor.final_score,
      first_move_evaluated := false, alpha := INT_MIN, total_nodes_for_search_at_root := 0,
      tt := tt } = st at *
  have hmem : st.best_move ∈ generate_all_legal_moves keys b PLAYER_1 hist := by
    rcases g4 with ⟨_, _, h | h⟩ | ⟨p, hp, e⟩
    · simp at h
    · exact absurd h hsorted_ne
    · rw [e]; exact hsnd p hp
  have hfrom : ¬ (st.best_move.from_sq = -1) := by
    have := generated_from_sq_nonneg hmem
    omega
  simp only [ne_eq, hfrom, if_false, not_false_eq_true, if_true, and_self]

set_option maxRecDepth 1000000 in
/-- C33, the code at a root where another move wins at once.  On `den_approach_board` the
table `den_approach_tt` holds the legal move D2-D3 for the root.  The vector of scored root
moves gives the move D2-D1 into the den the key `WIN_SCORE` = 1000000000 and the table move
the key 997446 (its static evaluation -2554 plus the bonus 1000000), so for every sort in
non-increasing order the first root move is D2-D1, not the table move; the root loop of
`find_best_ai_move` runs over that sorted vector. -/
theorem root_table_move_not_first (sorter : RootSort) :
    (probe_tt den_approach_tt den_approach_board.zobrist_hash).map (fun e => e.best_move) =
        some ⟨10, 17, RAT, NO_PIECE_TYPE⟩ ∧
      (⟨10, 17, RAT, NO_PIECE_TYPE⟩ : Move) ∈
        generate_all_legal_moves demo_keys den_approach_board PLAYER_1 [] ∧
      root_scored_moves demo_keys demo_pst den_approach_tt den_approach_board [] =
        [(1000000000, ⟨10, 3, RAT, NO_PIECE_TYPE⟩), (-2562, ⟨10, 9, RAT, NO_PIECE_TYPE⟩),
          (-2560, ⟨10, 11, RAT, NO_PIECE_TYPE⟩), (997446, ⟨10, 17, RAT, NO_PIECE_TYPE⟩)] ∧
      (sorter.sort
          (root_scored_moves demo_keys demo_pst den_approach_tt den_approach_board [])).head? =
        some (1000000000, ⟨10, 3, RAT, NO_PIECE_TYPE⟩) ∧
      (find_best_ai_move demo_keys demo_pst sorter den_approach_tt den_approach_board 1
          []).1.best_move =
        (root_loop demo_keys demo_pst den_approach_board 1 [] INT_MAX
          (sorter.sort
            (root_scored_moves demo_keys demo_pst den_approach_tt den_approach_board []))
          { best_move := Move.null, final_score := INT_MIN, first_move_evaluated := false,
            alpha := INT_MIN, total_nodes_for_search_at_root := 0,
            tt := den_approach_tt }).best_move := by
  have hl : root_scored_moves demo_keys demo_pst den_approach_tt den_approach_board [] =
      [(1000000000, ⟨10, 3, RAT, NO_PIECE_TYPE⟩), (-2562, ⟨10, 9, RAT, NO_PIECE_TYPE⟩),
        (-2560, ⟨10, 11, RAT, NO_PIECE_TYPE⟩), (997446, ⟨10, 17, RAT, NO_PIECE_TYPE⟩)] := by
    decide
  refine ⟨by decide, by decide, hl, ?_, ?_⟩
  · apply sorted_head_of_max (sorter.perm _) (sorter.sorted _)
    · rw [hl]
      decide
    · rw [hl]
      decide
  · exact (find_best_ai_move_root_order demo_keys demo_pst sorter den_approach_tt
      den_approach_board 1 [] (by decide)).1


/-! ## C34: loaded board states -/

theorem load_save_unfold (bs target : BoardState) (rest : List SaveLine) :
    load_single_board_state (save_single_board_state [] bs ++ rest) target =
      some (({ target with
          piece_bbs := ALL_PIECE_TYPES.foldl (fun bbs pt =>
            set_piece_bb (set_piece_bb (set_piece_bb bbs pt PLAYER_1 (bs.piece_bbs pt PLAYER_1))
              pt PLAYER_2 (bs.piece_bbs pt PLAYER_2)) pt NO_PLAYER 0) target.piece_bbs
          side_to_move := bs.side_to_move }).update_occupancy_boards, rest) := by
  cases hs : bs.side_to_move <;>
    simp only [save_single_board_state, ALL_PIECE_TYPES, List.foldl_cons, List.foldl_nil,
      write_u64_hex_to_stream, List.nil_append, List.append_assoc, List.cons_append,
      load_single_board_state, read_u64_hex_from_stream, hs, player_to_int, int_to_player] <;>
    rfl

/-- What `load_single_board_state` makes of the text `save_single_board_state` wrote for `bs`,
for any object `target` it loads into and any text that follows: the load succeeds, the piece
sets of the two players and the side to move are those of `bs`, the `NO_PLAYER` sets are 0, the
occupancy is consistent with the piece sets, and `zobrist_hash` is still the one `target` had
before. -/
theorem load_save_fields (bs target : BoardState) (rest : List SaveLine) :
    ∃ b2 : BoardState,
      load_single_board_state (save_single_board_state [] bs ++ rest) target = some (b2, rest) ∧
      (∀ pt, b2.piece_bbs pt PLAYER_1 = bs.piece_bbs pt PLAYER_1 ∧
        b2.piece_bbs pt PLAYER_2 = bs.piece_bbs pt PLAYER_2 ∧ b2.piece_bbs pt NO_PLAYER = 0) ∧
      b2.side_to_move = bs.side_to_move ∧ OccupancyConsistent b2 ∧
      b2.zobrist_hash = target.zobrist_hash := by
  refine ⟨_, load_save_unfold bs target rest, fun pt => ?_, rfl,
    update_occupancy_boards_consistent _, rfl⟩
  cases pt <;> exact ⟨rfl, rfl, rfl⟩

set_option maxRecDepth 1000000 in
/-- C34, the code on the saved start position.  The text `save_single_board_state` writes for
`setup_initial_board()` is loaded into a default-constructed board state, as `load_game_state`
does for every history state.  The load succeeds and restores the piece sets, the side to move
and the combined occupancy, but the `zobrist_hash` of the loaded state is 0, the value of the
constructor, while `calculate_initial_hash` of the loaded state is the fingerprint 121481433 of
the start position (under `demo_keys`), which the saved state carried. -/
theorem loaded_state_hash_divergence :
    (BoardState.setup_initial_board demo_keys).zobrist_hash = 121481433 ∧
      (load_single_board_state
          (save_single_board_state [] (BoardState.setup_initial_board demo_keys))
          BoardState.ctor).map
        (fun r => (r.1.zobrist_hash, Zobrist.calculate_initial_hash demo_keys r.1,
          r.1.side_to_move, r.1.occupancy_bbs NO_PLAYER, r.2)) =
        some (0, 121481433, PLAYER_1,
          (BoardState.setup_initial_board demo_keys).occupancy_bbs NO_PLAYER, []) ∧
      (load_single_board_state
          (save_single_board_state [] (BoardState.setup_initial_board demo_keys))
          BoardState.ctor).map
        (fun r => ALL_PIECE_TYPES.map (fun pt =>
          (r.1.piece_bbs pt PLAYER_1, r.1.piece_bbs pt PLAYER_2))) =
        some (ALL_PIECE_TYPES.map (fun pt =>
          ((BoardState.setup_initial_board demo_keys).piece_bbs pt PLAYER_1,
            (BoardState.setup_initial_board demo_keys).piece_bbs pt PLAYER_2))) := by
  have h := load_save_unfold (BoardState.setup_initial_board demo_keys) BoardState.ctor []
  rw [List.append_nil] at h
  rw [h]
  refine ⟨by decide, ?_, ?_⟩
  · simp only [Option.map_some', Option.some.injEq, Prod.mk.injEq]
    refine ⟨rfl, ?_, ?_, ?_, trivial⟩
    · decide
    · decide
    · decide
  · simp only [Option.map_some', Option.some.injEq]
    decide

end BBDSQ
